import Mathlib

/-!
# CppSpreadsheet: a shallow embedding and its verified properties

The C++ sources (`CPos.h`, `CExpr.h`, `CExprNodes.h`, `CReference.cpp`,
`CSpreadsheet.h`) are translated definition by definition.

Conventions of the embedding:

* `int` is a 32-bit two's complement integer: every `int` operation of the source is
  followed by `wrap32`.
* A function that may throw `std::invalid_argument` returns `Option` (or `Except`), the
  exceptional outcome being `none` (or `Except.error`).
* `std::string` / `std::string_view` are `List Char`, one `Char` per byte.
* `double` is a type parameter `D` with the operations of `DoubleOps`.
-/

namespace CppSpreadsheet

/-! ## Machine integers -/

/-- Two's complement reduction of an integer to the range of a 32-bit `int`. -/
def wrap32 (x : Int) : Int := (x + 2147483648) % 4294967296 - 2147483648

/-- Largest value of `int`. -/
def INT_MAX : Int := 2147483647

/-- Smallest value of `int`. -/
def INT_MIN : Int := -2147483648

/-! ## CPos (CPos.h) -/

/-- Class `CPos`: the four data members. -/
structure CPos where
  m_Col : Int
  m_Row : Int
  m_AbsCol : Bool
  m_AbsRow : Bool
deriving DecidableEq, Repr

namespace CPos

/-- Loop `for (char c: columnStr)` of the constructor: `none` is the `throw` on a
non-letter, otherwise `m_Col *= 26; m_Col += tolower(c) - 'a' + 1`. -/
def parseColumn : List Char → Int → Option Int
  | [], col => some col
  | c :: cs, col =>
    if !c.isAlpha then none
    else parseColumn cs
      (wrap32 (wrap32 (col * 26) + (((c.toLower.toNat : Int) - ('a'.toNat : Int)) + 1)))

/-- Loop `for (char c: rowStr)` of the constructor: `none` is the `throw` on a non-digit,
otherwise `m_Row = m_Row * 10 + (c - '0')`. -/
def parseRow : List Char → Int → Option Int
  | [], row => some row
  | c :: cs, row =>
    if !c.isDigit then none
    else parseRow cs (wrap32 (wrap32 (row * 10) + ((c.toNat : Int) - ('0'.toNat : Int))))

/-- Constructor `CPos::CPos(string_view str)`; `none` stands for `throw invalid_argument`. -/
def parse (str : List Char) : Option CPos :=
  -- size_t pos = str.find_first_of("0123456789");  (the length when there is none)
  let pos := str.findIdx Char.isDigit
  if pos ≥ str.length ∨ pos = 0 then none
  else
    let columnStr := str.take pos
    let rowStr := str.drop pos
    let absCol := !columnStr.isEmpty && columnStr.head? == some '$'
    let columnStr1 := if absCol then columnStr.drop 1 else columnStr
    let absRow := !columnStr1.isEmpty && columnStr1.getLast? == some '$'
    let columnStr2 := if absRow then columnStr1.dropLast else columnStr1
    if columnStr2.isEmpty then none
    else
      match parseColumn columnStr2 0 with
      | none => none
      | some col =>
        match parseRow rowStr 0 with
        | none => none
        | some row => some ⟨wrap32 (col - 1), row, absCol, absRow⟩

/-- Comparison `operator <`: by column, then by row; the flags take no part. -/
def lt (a b : CPos) : Bool :=
  if a.m_Col ≠ b.m_Col then decide (a.m_Col < b.m_Col) else decide (a.m_Row < b.m_Row)

/-- Equivalence induced by `operator <` (neither is less): the key identity of
`std::map<CPos, _>` and `std::set<CPos>`. -/
def same (a b : CPos) : Bool := !lt a b && !lt b a

/-- Method `changePosition(int colOffset, int rowOffset)`. -/
def changePosition (p : CPos) (colOffset rowOffset : Int) : CPos :=
  let p1 := if !p.m_AbsCol then { p with m_Col := wrap32 (p.m_Col + colOffset) } else p
  if !p1.m_AbsRow then { p1 with m_Row := wrap32 (p1.m_Row + rowOffset) } else p1

/-- Loop `while (col > 0)` of `operator <<`, building the column letters; the first
argument bounds the number of iterations. -/
def colLetters : Nat → Int → List Char → List Char
  | 0, _, result => result
  | fuel + 1, col, result =>
    if col > 0 then
      let rem := (col - 1) % 26
      colLetters fuel ((col - rem - 1) / 26) (Char.ofNat ('A'.toNat + rem.toNat) :: result)
    else result

/-- Insertion `os << n` of an `int` in decimal. -/
def printInt (n : Int) : List Char :=
  if n < 0 then '-' :: Nat.toDigits 10 n.natAbs else Nat.toDigits 10 n.toNat

/-- The address text written by `operator <<` after the marker: `$`, letters, `$`, row. -/
def text (pos : CPos) : List Char :=
  let col := wrap32 (pos.m_Col + 1)
  (if pos.m_AbsCol then ['$'] else []) ++ colLetters col.toNat col []
    ++ (if pos.m_AbsRow then ['$'] else []) ++ printInt pos.m_Row

/-- Stream output `operator <<(ostream&, const CPos&)`. -/
def print (pos : CPos) : List Char := " CPos ".toList ++ text pos

/-- Getter `getCol`. -/
def getCol (p : CPos) : Int := p.m_Col

/-- Getter `getRow`. -/
def getRow (p : CPos) : Int := p.m_Row

/-- Setter `setCol(int col)`; `none` stands for `throw invalid_argument`. -/
def setCol (p : CPos) (col : Int) : Option CPos :=
  if col ≥ 0 then some { p with m_Col := col } else none

/-- Setter `setRow(int row)`; `none` stands for `throw invalid_argument`. -/
def setRow (p : CPos) (row : Int) : Option CPos :=
  if row ≥ 0 then some { p with m_Row := row } else none

end CPos

/-! ## Address grammar and canonical form, as the specification words them -/

/-- Address grammar of the specification: an optional `$`, one or more ASCII letters, an
optional `$`, one or more decimal digits, and nothing else. -/
def ValidAddress (T : List Char) : Prop :=
  ∃ (absCol : Bool) (letters : List Char) (absRow : Bool) (digits : List Char),
    letters ≠ [] ∧ (∀ c ∈ letters, c.isAlpha = true) ∧
    digits ≠ [] ∧ (∀ c ∈ digits, c.isDigit = true) ∧
    T = (if absCol then ['$'] else []) ++ letters ++ (if absRow then ['$'] else []) ++ digits

/-- One step of the bijective base-26 column numeral, `A = 1`, ..., `Z = 26`, the letter
read case-insensitively. -/
def colStep (acc : Nat) (c : Char) : Nat := acc * 26 + (c.toUpper.toNat - 'A'.toNat + 1)

/-- One step of the decimal numeral. -/
def rowStep (acc : Nat) (c : Char) : Nat := acc * 10 + (c.toNat - '0'.toNat)

/-- Column number of an address text in the specification's numbering: its letters read
as a bijective base-26 numeral, most significant first. -/
def columnNumber (T : List Char) : Nat :=
  ((T.takeWhile (fun c => !c.isDigit)).filter Char.isAlpha).foldl colStep 0

/-- Row number of an address text: its digits read as a decimal numeral. -/
def rowNumber (T : List Char) : Nat :=
  (T.dropWhile (fun c => !c.isDigit)).foldl rowStep 0

/-- Canonical form of an address text as the specification states it: the `$` markers
where they are, the column letters in upper case, the row as a plain decimal integer
(no leading zeros). -/
def canonicalForm (T : List Char) : List Char :=
  let head := T.takeWhile (fun c => !c.isDigit)
  let digits := (T.dropWhile (fun c => !c.isDigit)).dropWhile (fun c => c == '0')
  head.map Char.toUpper ++ (if digits.isEmpty then ['0'] else digits)

/-! ## Values and expression nodes (CExpr.h, CExprNodes.h) -/

/-- The operations on `double` that the sources use; `D` stands for `double`. -/
class DoubleOps (D : Type) where
  /-- Literal `0`, also `double(false)`. -/
  zero : D
  /-- Value `double(true)`. -/
  one : D
  /-- Operator `+`. -/
  add : D → D → D
  /-- Operator `-`. -/
  sub : D → D → D
  /-- Operator `*`. -/
  mul : D → D → D
  /-- Operator `/`. -/
  div : D → D → D
  /-- Function `pow`. -/
  pow : D → D → D
  /-- Unary `-`. -/
  neg : D → D
  /-- Operator `==`. -/
  eq : D → D → Bool
  /-- Operator `!=`. -/
  ne : D → D → Bool
  /-- Operator `<`. -/
  lt : D → D → Bool
  /-- Operator `<=`. -/
  le : D → D → Bool
  /-- Operator `>`. -/
  gt : D → D → Bool
  /-- Operator `>=`. -/
  ge : D → D → Bool
  /-- Function `std::to_string(double)`. -/
  to_string : D → List Char
  /-- Insertion `os << double` with the default stream flags. -/
  print : D → List Char
  /-- Number parsing of `is >> double`, applied to the input that follows the skipped
  whitespace: the value and the number of characters taken from the input, or `none` when
  no number is read. -/
  read : List Char → Option (D × Nat)

/-- Type `CValue = variant<monostate, double, string>`. -/
inductive CValue (D : Type) where
  | monostate : CValue D
  | double (d : D) : CValue D
  | string (s : List Char) : CValue D
deriving DecidableEq, Repr

/-- The fifteen classes derived from `CExpr`, with their data members. -/
inductive CExpr (D : Type) where
  | CAdd : CExpr D
  | CSub : CExpr D
  | CMul : CExpr D
  | CDiv : CExpr D
  | CPow : CExpr D
  | CNeg : CExpr D
  | CEq : CExpr D
  | CNe : CExpr D
  | CLt : CExpr D
  | CLe : CExpr D
  | CGt : CExpr D
  | CGe : CExpr D
  | CNumber (m_Number : D) : CExpr D
  | CString (m_String : List Char) : CExpr D
  | CReference (m_Pos : CPos) : CExpr D
deriving DecidableEq, Repr

/-- Evaluation stack `stack<CValue>`; the head of the list is the top. -/
abbrev ValueStack (D : Type) := List (CValue D)

/-- Content of a cell, `vector<AExpr>`. -/
abbrev Expressions (D : Type) := List (CExpr D)

/-- Container `map<CPos, vector<AExpr>>`: the entries in key order. -/
abbrev CellMap (D : Type) := List (CPos × Expressions D)

/-! ### std::map and std::set over `CPos` -/

/-- Lookup of a key of `map<CPos, vector<AExpr>>`; `none` when the key is absent. -/
def mapFind {D : Type} : CellMap D → CPos → Option (Expressions D)
  | [], _ => none
  | (k, v) :: rest, key =>
    if CPos.lt k key then mapFind rest key
    else if CPos.lt key k then none
    else some v

/-- The map after `m[key]` was evaluated: an absent key is inserted with an empty vector,
a present key keeps its stored key object. -/
def mapTouch {D : Type} : CellMap D → CPos → CellMap D
  | [], key => [(key, [])]
  | (k, v) :: rest, key =>
    if CPos.lt k key then (k, v) :: mapTouch rest key
    else if CPos.lt key k then (key, []) :: (k, v) :: rest
    else (k, v) :: rest

/-- The value that `m[key]` refers to: the stored vector, empty for an absent key. -/
def mapGet {D : Type} (m : CellMap D) (key : CPos) : Expressions D :=
  (mapFind m key).getD []

/-- The map after the assignment `m[key] = value`. -/
def mapAssign {D : Type} : CellMap D → CPos → Expressions D → CellMap D
  | [], key, value => [(key, value)]
  | (k, v) :: rest, key, value =>
    if CPos.lt k key then (k, v) :: mapAssign rest key value
    else if CPos.lt key k then (key, value) :: (k, v) :: rest
    else (k, value) :: rest

/-- Membership test `s.find(pos) != s.end()` of `set<CPos>`. -/
def setContains (s : List CPos) (pos : CPos) : Bool := s.any (fun q => CPos.same q pos)

/-- Insertion `s.insert(pos)` of `set<CPos>`. -/
def setInsert (s : List CPos) (pos : CPos) : List CPos :=
  if setContains s pos then s else pos :: s

/-- Removal `s.erase(pos)` of `set<CPos>`. -/
def setErase (s : List CPos) (pos : CPos) : List CPos := s.filter (fun q => !CPos.same q pos)

/-! ### Expression nodes -/

namespace CExpr

variable {D : Type}

/-- Method `clone`. -/
def clone : CExpr D → CExpr D
  | CAdd => CAdd
  | CSub => CSub
  | CMul => CMul
  | CDiv => CDiv
  | CPow => CPow
  | CNeg => CNeg
  | CEq => CEq
  | CNe => CNe
  | CLt => CLt
  | CLe => CLe
  | CGt => CGt
  | CGe => CGe
  | CNumber n => CNumber n
  | CString s => CString s
  | CReference p => CReference p

/-- Method `changePosition`: empty in `CExpr`, overridden by `CReference` only. -/
def changePosition (e : CExpr D) (colOffset rowOffset : Int) : CExpr D :=
  match e with
  | CReference p => CReference (p.changePosition colOffset rowOffset)
  | e => e

end CExpr

/-- Function `copyExpressions`. -/
def copyExpressions {D : Type} (expressions : Expressions D) : Expressions D :=
  expressions.map CExpr.clone

/-- Function `getTwoTopValues`: the pair `{lhs, rhs}` and the stack after the two pops.
It is called on stacks of at least two values only. -/
def getTwoTopValues {D : Type} : ValueStack D → Option ((CValue D × CValue D) × ValueStack D)
  | rhs :: lhs :: rest => some ((lhs, rhs), rest)
  | _ => none

/-- Lambda `doubleToStr` of `CAdd::getValue`. -/
def doubleToStr {D : Type} [DoubleOps D] (val : D) : List Char :=
  let s := DoubleOps.to_string val
  -- s.erase(s.find_last_not_of('0') + 1, string::npos);
  let s1 := (s.reverse.dropWhile (fun c => c == '0')).reverse
  -- if (!s.empty() && s.back() == '.') s.pop_back();
  if !s1.isEmpty && s1.getLast? == some '.' then s1.dropLast else s1

/-- Method `CAdd::getValue`: the result and the stack it leaves. -/
def addGetValue {D : Type} [DoubleOps D] (values : ValueStack D) : Bool × ValueStack D :=
  match values with
  | rhs :: lhs :: rest =>
    match lhs, rhs with
    | .double left, .double right => (true, .double (DoubleOps.add left right) :: rest)
    | .monostate, _ => (false, rest)
    | _, .monostate => (false, rest)
    | lhs, rhs =>
      let left := match lhs with
        | .double d => doubleToStr d
        | .string s => s
        | .monostate => []
      let right := match rhs with
        | .double d => doubleToStr d
        | .string s => s
        | .monostate => []
      (true, .string (left ++ right) :: rest)
  | _ => (false, values)

/-- Method `getValue` of `CSub`, `CMul` and `CPow`, which differ in the operator `op`. -/
def arithGetValue {D : Type} (op : D → D → D) (values : ValueStack D) :
    Bool × ValueStack D :=
  match values with
  | rhs :: lhs :: rest =>
    match lhs, rhs with
    | .double left, .double right => (true, .double (op left right) :: rest)
    | _, _ => (false, rest)
  | _ => (false, values)

/-- Method `CDiv::getValue`. -/
def divGetValue {D : Type} [DoubleOps D] (values : ValueStack D) : Bool × ValueStack D :=
  match values with
  | rhs :: lhs :: rest =>
    match lhs, rhs with
    | .double left, .double right =>
      if DoubleOps.ne right DoubleOps.zero then
        (true, .double (DoubleOps.div left right) :: rest)
      else (false, rest)
    | _, _ => (false, rest)
  | _ => (false, values)

/-- Method `CNeg::getValue`. -/
def negGetValue {D : Type} [DoubleOps D] (values : ValueStack D) : Bool × ValueStack D :=
  match values with
  | operand :: rest =>
    match operand with
    | .double val => (true, .double (DoubleOps.neg val) :: rest)
    | _ => (false, rest)
  | [] => (false, values)

/-- Conversion of a `bool` to `double`, as in `double res = lhs == rhs`. -/
def boolToDouble {D : Type} [DoubleOps D] (b : Bool) : D :=
  if b then DoubleOps.one else DoubleOps.zero

/-- Method `getValue` of the six comparison classes, which differ in the operator on
doubles `opD` and the operator on strings `opS`. -/
def compareGetValue {D : Type} [DoubleOps D] (opD : D → D → Bool)
    (opS : List Char → List Char → Bool) (values : ValueStack D) : Bool × ValueStack D :=
  match values with
  | rhs :: lhs :: rest =>
    match lhs, rhs with
    | .double l, .double r => (true, .double (boolToDouble (opD l r)) :: rest)
    | .string l, .string r => (true, .double (boolToDouble (opS l r)) :: rest)
    | _, _ => (false, rest)
  | _ => (false, values)

/-! ## CSpreadsheet (CSpreadsheet.h, CReference.cpp) -/

/-- Class `CSpreadsheet`: the three data members (`m_ExprBuilder` is its vector
`m_Expressions`). -/
structure CSpreadsheet (D : Type) where
  m_Excel : CellMap D
  m_ExprBuilder : Expressions D
  calledPositions : List CPos

/-- Result of `getValue` on a sheet: the value and the sheet after the call; `none` when
the recursion bound of the model is exhausted. -/
abbrev Evaluator (D : Type) := CSpreadsheet D → CPos → Option (CValue D × CSpreadsheet D)

/-- Method `CReference::getValue`, with `sheetGetValue` for `sheet.getValue`. -/
def referenceGetValue {D : Type} (sheetGetValue : Evaluator D) (m_Pos : CPos)
    (sheet : CSpreadsheet D) (values : ValueStack D) :
    Option (Bool × CSpreadsheet D × ValueStack D) :=
  match sheetGetValue sheet m_Pos with
  | none => none
  | some (value, sheet1) =>
    match value with
    | .monostate => some (false, sheet1, values)
    | value => some (true, sheet1, value :: values)

/-- Virtual method `CExpr::getValue(CSpreadsheet&, stack<CValue>&)`: the result, the
sheet and the stack after the call. -/
def CExpr.getValue {D : Type} [DoubleOps D] (sheetGetValue : Evaluator D) (e : CExpr D)
    (sheet : CSpreadsheet D) (values : ValueStack D) :
    Option (Bool × CSpreadsheet D × ValueStack D) :=
  let pure (r : Bool × ValueStack D) : Option (Bool × CSpreadsheet D × ValueStack D) :=
    some (r.1, sheet, r.2)
  match e with
  | .CAdd => pure (addGetValue values)
  | .CSub => pure (arithGetValue DoubleOps.sub values)
  | .CMul => pure (arithGetValue DoubleOps.mul values)
  | .CDiv => pure (divGetValue values)
  | .CPow => pure (arithGetValue DoubleOps.pow values)
  | .CNeg => pure (negGetValue values)
  | .CEq => pure (compareGetValue DoubleOps.eq (fun l r => decide (l = r)) values)
  | .CNe => pure (compareGetValue DoubleOps.ne (fun l r => decide (l ≠ r)) values)
  | .CLt => pure (compareGetValue DoubleOps.lt (fun l r => decide (l < r)) values)
  | .CLe => pure (compareGetValue DoubleOps.le (fun l r => decide (l ≤ r)) values)
  | .CGt => pure (compareGetValue DoubleOps.gt (fun l r => decide (l > r)) values)
  | .CGe => pure (compareGetValue DoubleOps.ge (fun l r => decide (l ≥ r)) values)
  | .CNumber n => some (true, sheet, .double n :: values)
  | .CString s => some (true, sheet, .string s :: values)
  | .CReference p => referenceGetValue sheetGetValue p sheet values

namespace CSpreadsheet

variable {D : Type} [DoubleOps D]

/-- Loop `for (const auto &expr: m_Excel[pos])` of `getValue`: `(false, _)` when an
expression returned `false` (the loop is left at once), `(true, _)` when all returned
`true`. -/
def evalLoop (sheetGetValue : Evaluator D) :
    Expressions D → CSpreadsheet D → ValueStack D →
      Option (Bool × CSpreadsheet D × ValueStack D)
  | [], sheet, values => some (true, sheet, values)
  | expr :: rest, sheet, values =>
    match CExpr.getValue sheetGetValue expr sheet values with
    | none => none
    | some (false, sheet1, values1) => some (false, sheet1, values1)
    | some (true, sheet1, values1) => evalLoop sheetGetValue rest sheet1 values1

/-- Entry of `getValue`: `calledPositions.insert(pos)`, then `m_Excel[pos]` is evaluated
for the loop. -/
def enter (sheet : CSpreadsheet D) (pos : CPos) : CSpreadsheet D :=
  { sheet with
    calledPositions := setInsert sheet.calledPositions pos
    m_Excel := mapTouch sheet.m_Excel pos }

/-- Exit of `getValue` after the loop: on a failed expression `calledPositions.clear()`
and the empty value; otherwise `calledPositions.erase(pos)` and the top of the stack, or
the empty value when the stack is empty. -/
def leave (pos : CPos) : Bool × CSpreadsheet D × ValueStack D → CValue D × CSpreadsheet D
  | (false, sheet, _) => (.monostate, { sheet with calledPositions := [] })
  | (true, sheet, values) =>
    (match values with
      | top :: _ => top
      | [] => .monostate,
     { sheet with calledPositions := setErase sheet.calledPositions pos })

/-- Method `getValue(CPos pos)` with a bound `fuel` on the depth of the recursion through
`CReference::getValue`; `none` when the bound is exhausted. -/
def getValueFuel : Nat → CSpreadsheet D → CPos → Option (CValue D × CSpreadsheet D)
  | 0, _, _ => none
  | fuel + 1, sheet, pos =>
    if setContains sheet.calledPositions pos then some (.monostate, sheet)
    else
      (evalLoop (fun s p => getValueFuel fuel s p) (mapGet (enter sheet pos).m_Excel pos)
        (enter sheet pos) []).map (leave pos)

/-- Method `getValue(CPos pos)`. The depth of the recursion is at most the number of
entries of `m_Excel` plus one (theorem `getValueFuel_terminates`). -/
def getValue (sheet : CSpreadsheet D) (pos : CPos) : Option (CValue D × CSpreadsheet D) :=
  getValueFuel (sheet.m_Excel.length + 1) sheet pos

end CSpreadsheet

/-! ## A concrete `double` for the examples

Rational numbers with exact arithmetic stand for the doubles of the examples: the model
is faithful where the C++ operations are exact (no rounding, no overflow, no NaN or
infinity), and `pow` is given for integer exponents only. The model has no negative zero
(the negation of 0 is 0, which `to_string` writes `0.000000`, where the negation of the
double 0 is written `-0.000000`), and its reading of a number never overflows. The
theorems about numbers are stated for every type with the operations of `DoubleOps`; the
rational numbers are used for the examples only. -/

/-- Rounding of a non-negative rational to the nearest integer, ties to even. -/
def roundHalfEven (q : ℚ) : Nat :=
  let f := (Rat.floor q).toNat
  let r := q - (f : ℚ)
  if r < 1 / 2 then f else if r > 1 / 2 then f + 1 else if f % 2 = 0 then f else f + 1

/-- Removal of the trailing zeros of a digit string. -/
def stripTrailingZeros (l : List Char) : List Char :=
  (l.reverse.dropWhile (fun c => c == '0')).reverse

/-- Model of `std::to_string(double)` (format `%f`): six decimals. -/
def ratToString (q : ℚ) : List Char :=
  let n := roundHalfEven (|q| * 1000000)
  let frac := Nat.toDigits 10 (n % 1000000)
  (if q < 0 then ['-'] else []) ++ Nat.toDigits 10 (n / 1000000) ++ ['.']
    ++ List.replicate (6 - frac.length) '0' ++ frac

/-- Decimal exponent of a positive rational: the `X` with `10^X ≤ q < 10^(X+1)`. -/
def ratExp10 (q : ℚ) : Int :=
  let a : Int := ((Nat.toDigits 10 q.num.natAbs).length : Int)
  let b : Int := ((Nat.toDigits 10 q.den).length : Int)
  if q ≥ (10 : ℚ) ^ (a - b) then a - b else a - b - 1

/-- Model of `os << double` with the default flags (format `%g`, six significant
digits). -/
def ratPrint (q : ℚ) : List Char :=
  if q = 0 then ['0']
  else
    let a := |q|
    let X0 := ratExp10 a
    let M0 := roundHalfEven (a / (10 : ℚ) ^ (X0 - 5))
    let M := if M0 ≥ 1000000 then 100000 else M0
    let X := if M0 ≥ 1000000 then X0 + 1 else X0
    let ds := Nat.toDigits 10 M
    let sign := if q < 0 then ['-'] else []
    if -4 ≤ X ∧ X < 6 then
      if X ≥ 0 then
        let fp := stripTrailingZeros (ds.drop (X.toNat + 1))
        sign ++ ds.take (X.toNat + 1) ++ (if fp.isEmpty then [] else '.' :: fp)
      else
        sign ++ ['0', '.']
          ++ stripTrailingZeros (List.replicate ((-X - 1).toNat) '0' ++ ds)
    else
      let fp := stripTrailingZeros (ds.drop 1)
      let es := Nat.toDigits 10 X.natAbs
      sign ++ ds.take 1 ++ (if fp.isEmpty then [] else '.' :: fp)
        ++ ['e', if X < 0 then '-' else '+'] ++ (if es.length < 2 then '0' :: es else es)

/-- Value of a digit string read as a decimal numeral. -/
def digitsValue (ds : List Char) : Nat := ds.foldl rowStep 0

/-- Model of the number parsing of `is >> double`: an optional sign, digits with an
optional fraction, an optional exponent; the value and the rest of the input. -/
def ratReadRest (input : List Char) : Option (ℚ × List Char) :=
  let neg := input.head? == some '-'
  let s1 := if input.head? == some '-' || input.head? == some '+' then input.drop 1 else input
  let ip := s1.takeWhile Char.isDigit
  let s2 := s1.dropWhile Char.isDigit
  let fp := if s2.head? == some '.' then (s2.drop 1).takeWhile Char.isDigit else []
  let s3 := if s2.head? == some '.' then (s2.drop 1).dropWhile Char.isDigit else s2
  if ip.isEmpty && fp.isEmpty then none
  else
    let mant : ℚ := (digitsValue (ip ++ fp) : ℚ) / (10 : ℚ) ^ fp.length
    let signed : ℚ := if neg then -mant else mant
    if s3.head? == some 'e' || s3.head? == some 'E' then
      let s4 := s3.drop 1
      let eneg := s4.head? == some '-'
      let s5 := if s4.head? == some '-' || s4.head? == some '+' then s4.drop 1 else s4
      let ep := s5.takeWhile Char.isDigit
      if ep.isEmpty then none
      else
        let e : Int := if eneg then -(digitsValue ep : Int) else (digitsValue ep : Int)
        some (signed * (10 : ℚ) ^ e, s5.dropWhile Char.isDigit)
    else some (signed, s3)

/-- Model of the number parsing of `is >> double`: the value and the number of characters
taken. -/
def ratRead (input : List Char) : Option (ℚ × Nat) :=
  (ratReadRest input).map (fun r => (r.1, input.length - r.2.length))

/-- Rational numbers as a model of `double`. -/
instance ratDouble : DoubleOps ℚ where
  zero := 0
  one := 1
  add := fun a b => a + b
  sub := fun a b => a - b
  mul := fun a b => a * b
  div := fun a b => a / b
  pow := fun a b => if b.den = 1 then a ^ b.num else 0
  neg := fun a => -a
  eq := fun a b => decide (a = b)
  ne := fun a b => decide (a ≠ b)
  lt := fun a b => decide (a < b)
  le := fun a b => decide (a ≤ b)
  gt := fun a b => decide (a > b)
  ge := fun a b => decide (a ≥ b)
  to_string := ratToString
  print := ratPrint
  read := ratRead

/-! ## Notions used to state the properties of evaluation -/

section

variable {D : Type}

/-- Entries of the map whose vector is not empty. -/
def nonEmptyEntries (m : CellMap D) : CellMap D := m.filter (fun e => !e.2.isEmpty)

/-- Number of entries with a non-empty vector whose key is not under evaluation: the
quantity that bounds the depth of the recursion of `getValue`. -/
def freeCells (sheet : CSpreadsheet D) : Nat :=
  ((nonEmptyEntries sheet.m_Excel).filter
    (fun e => !setContains sheet.calledPositions e.1)).length

/-- Sheet `b` holds what sheet `a` holds: the same vector at every position, the same
entries with a non-empty vector, the same builder. -/
def Preserved (a b : CSpreadsheet D) : Prop :=
  (∀ k, mapGet b.m_Excel k = mapGet a.m_Excel k) ∧
  nonEmptyEntries b.m_Excel = nonEmptyEntries a.m_Excel ∧
  b.m_ExprBuilder = a.m_ExprBuilder

/-- The cell at `p` holds a reference to the cell at `q`. -/
def References (sheet : CSpreadsheet D) (p q : CPos) : Prop :=
  ∃ r, CExpr.CReference r ∈ mapGet sheet.m_Excel p ∧ CPos.same r q = true

/-- The cells `cycle` form a reference cycle of the sheet: each refers to the next, the
last to the first (a single cell refers to itself). -/
def IsReferenceCycle (sheet : CSpreadsheet D) (cycle : List CPos) : Prop :=
  cycle ≠ [] ∧ List.Chain' (References sheet) (cycle ++ cycle.take 1)

/-- What every call of `getValue` keeps: the content of the sheet, and, when the value is
not empty, the set of positions under evaluation, which did not hold the position. -/
def GoodEvaluator (gv : Evaluator D) : Prop :=
  ∀ s p v s', gv s p = some (v, s') →
    Preserved s s' ∧
    (v ≠ CValue.monostate →
      s'.calledPositions = s.calledPositions ∧ setContains s.calledPositions p = false)

end

/-! ## Sheets of the examples -/

/-- Position `A1`. -/
def posA1 : CPos := ⟨0, 1, false, false⟩

/-- Position `A2`. -/
def posA2 : CPos := ⟨0, 2, false, false⟩

/-- Position `C1`. -/
def posC1 : CPos := ⟨2, 1, false, false⟩

/-- Position `D1`. -/
def posD1 : CPos := ⟨3, 1, false, false⟩

/-- Position `X1`. -/
def posX1 : CPos := ⟨23, 1, false, false⟩

/-- Position `Y1`. -/
def posY1 : CPos := ⟨24, 1, false, false⟩

/-- Sheet of the test `testReferencesAndCycles`: `C1 = D1 + 1`, `D1 = C1 + 1`. -/
def cycleSheet : CSpreadsheet ℚ :=
  { m_Excel := [(posC1, [.CReference posD1, .CNumber 1, .CAdd]),
                (posD1, [.CReference posC1, .CNumber 1, .CAdd])]
    m_ExprBuilder := []
    calledPositions := [] }

/-- Sheet with `Y1 = X1 + 1` and no cell at `X1`. -/
def emptyReferenceSheet : CSpreadsheet ℚ :=
  { m_Excel := [(posY1, [.CReference posX1, .CNumber 1, .CAdd])]
    m_ExprBuilder := []
    calledPositions := [] }

/-- Sheet whose cell `A1` holds the expressions `"a" "b" - "c"`: the subtraction fails on
two texts. -/
def failingSheet : CSpreadsheet ℚ :=
  { m_Excel := [(posA1, [.CString ['a'], .CString ['b'], .CSub, .CString ['c']])]
    m_ExprBuilder := []
    calledPositions := [] }

/-! ## CSpreadsheet::copyRect -/

section CopyRect

variable {D : Type}

/-- Static method `changePositions`. -/
def changePositions (expressions : Expressions D) (colOffset rowOffset : Int) :
    Expressions D :=
  expressions.map (fun expr => (CExpr.clone expr).changePosition colOffset rowOffset)

/-- A call of `setCol` or `setRow` inside `copyRect`: when it throws, the exception leaves
`copyRect` with the map `m_Excel` as it is at that point. -/
def orThrow {α : Type} (m_Excel : CellMap D) : Option α → Except (CellMap D) α
  | some a => .ok a
  | none => .error m_Excel

/-- Local variables of the first pair of loops of `copyRect`, with the member `m_Excel`. -/
structure CopyState (D : Type) where
  srcCopy : CPos
  dstCopy : CPos
  m_Excel : CellMap D
  newExcel : CellMap D

/-- Inner loop `for (int j = 0; j < h; j++)` of the first phase, `n` iterations left. -/
def copyColumn : Nat → CopyState D → Except (CellMap D) (CopyState D)
  | 0, st => .ok st
  | n + 1, st => do
    -- newExcel[dstCopy] = copyExpressions(m_Excel[srcCopy]);
    let m1 := mapTouch st.m_Excel st.srcCopy
    let new1 := mapAssign st.newExcel st.dstCopy (copyExpressions (mapGet m1 st.srcCopy))
    let src1 ← orThrow m1 (st.srcCopy.setRow (wrap32 (st.srcCopy.getRow + 1)))
    let dst1 ← orThrow m1 (st.dstCopy.setRow (wrap32 (st.dstCopy.getRow + 1)))
    copyColumn n { srcCopy := src1, dstCopy := dst1, m_Excel := m1, newExcel := new1 }

/-- Outer loop `for (int i = 0; i < w; i++)` of the first phase, `n` iterations left. -/
def copyColumns (dst src : CPos) (h : Int) : Nat → CopyState D → Except (CellMap D) (CopyState D)
  | 0, st => .ok st
  | n + 1, st => do
    let src0 ← orThrow st.m_Excel (st.srcCopy.setRow src.getRow)
    let dst0 ← orThrow st.m_Excel (st.dstCopy.setRow dst.getRow)
    let st1 ← copyColumn h.toNat { st with srcCopy := src0, dstCopy := dst0 }
    let src1 ← orThrow st1.m_Excel (st1.srcCopy.setCol (wrap32 (st1.srcCopy.getCol + 1)))
    let dst1 ← orThrow st1.m_Excel (st1.dstCopy.setCol (wrap32 (st1.dstCopy.getCol + 1)))
    copyColumns dst src h n { st1 with srcCopy := src1, dstCopy := dst1 }

/-- Local variables of the second pair of loops of `copyRect`, with the member `m_Excel`. -/
structure WriteState (D : Type) where
  dstCopy : CPos
  m_Excel : CellMap D
  newExcel : CellMap D

/-- Inner loop `for (int j = 0; j < h; j++)` of the second phase, `n` iterations left. -/
def writeColumn (colOffset rowOffset : Int) :
    Nat → WriteState D → Except (CellMap D) (WriteState D)
  | 0, st => .ok st
  | n + 1, st => do
    -- m_Excel[dstCopy] = changePositions(newExcel[dstCopy], colOffset, rowOffset);
    let new1 := mapTouch st.newExcel st.dstCopy
    let m1 := mapAssign st.m_Excel st.dstCopy
      (changePositions (mapGet new1 st.dstCopy) colOffset rowOffset)
    let dst1 ← orThrow m1 (st.dstCopy.setRow (wrap32 (st.dstCopy.getRow + 1)))
    writeColumn colOffset rowOffset n { dstCopy := dst1, m_Excel := m1, newExcel := new1 }

/-- Outer loop `for (int i = 0; i < w; i++)` of the second phase, `n` iterations left. -/
def writeColumns (dst : CPos) (h colOffset rowOffset : Int) :
    Nat → WriteState D → Except (CellMap D) (WriteState D)
  | 0, st => .ok st
  | n + 1, st => do
    let dst0 ← orThrow st.m_Excel (st.dstCopy.setRow dst.getRow)
    let st1 ← writeColumn colOffset rowOffset h.toNat { st with dstCopy := dst0 }
    let dst1 ← orThrow st1.m_Excel (st1.dstCopy.setCol (wrap32 (st1.dstCopy.getCol + 1)))
    writeColumns dst h colOffset rowOffset n { st1 with dstCopy := dst1 }

/-- The map `m_Excel` after `copyRect(dst, src, w, h)` returned (`Except.ok`) or threw
`invalid_argument` (`Except.error`). -/
def copyRectMap (m_Excel : CellMap D) (dst src : CPos) (w h : Int) :
    Except (CellMap D) (CellMap D) := do
  let st1 ← copyColumns dst src h w.toNat
    { srcCopy := src, dstCopy := dst, m_Excel := m_Excel, newExcel := [] }
  -- Reset dst column
  let dstCopy ← orThrow st1.m_Excel (st1.dstCopy.setCol dst.getCol)
  -- Evaluate offset
  let colOffset := wrap32 (dst.getCol - src.getCol)
  let rowOffset := wrap32 (dst.getRow - src.getRow)
  let st2 ← writeColumns dst h colOffset rowOffset w.toNat
    { dstCopy := dstCopy, m_Excel := st1.m_Excel, newExcel := st1.newExcel }
  pure st2.m_Excel

/-- Method `copyRect(CPos dst, CPos src, int w, int h)`: the sheet after the call returned
(`Except.ok`) or threw `invalid_argument` (`Except.error`). -/
def CSpreadsheet.copyRect (sheet : CSpreadsheet D) (dst src : CPos) (w h : Int) :
    Except (CSpreadsheet D) (CSpreadsheet D) :=
  match copyRectMap sheet.m_Excel dst src w h with
  | .ok m => .ok { sheet with m_Excel := m }
  | .error m => .error { sheet with m_Excel := m }

/-- The members of the position are values of type `int`. -/
def CPos.IsInt (p : CPos) : Prop :=
  INT_MIN ≤ p.m_Col ∧ p.m_Col ≤ INT_MAX ∧ INT_MIN ≤ p.m_Row ∧ p.m_Row ≤ INT_MAX

end CopyRect

/-! ## Streams -/

/-- Function `isspace` of the classic locale, which delimits the tokens of `is >> `. -/
def isspace (c : Char) : Bool :=
  c == ' ' || c == '\t' || c == '\n' || c == '\x0b' || c == '\x0c' || c == '\r'

/-- An `istream` over a string: the characters not read yet and the state flags. -/
structure IStream where
  input : List Char
  failbit : Bool
  eofbit : Bool
deriving DecidableEq, Repr

namespace IStream

/-- Member `fail()`. -/
def fail (is : IStream) : Bool := is.failbit

/-- Construction of `istream::sentry` with `skipws`: a stream that is not good gets
`failbit`; otherwise the whitespace is skipped, and reaching the end of the input sets
`failbit | eofbit`. The result tells whether the extraction goes on. -/
def sentry (is : IStream) : Bool × IStream :=
  if is.failbit || is.eofbit then (false, { is with failbit := true })
  else
    let rest := is.input.dropWhile isspace
    if rest.isEmpty then (false, { input := [], failbit := true, eofbit := true })
    else (true, { is with input := rest })

/-- Extraction `is >> str` of a `std::string`: the characters up to the next whitespace
replace `str`; a failed sentry leaves `str` as it is. -/
def readString (is : IStream) (str : List Char) : IStream × List Char :=
  match sentry is with
  | (false, is1) => (is1, str)
  | (true, is1) =>
    let rest := is1.input.dropWhile (fun c => !isspace c)
    ({ is1 with input := rest, eofbit := rest.isEmpty },
      is1.input.takeWhile (fun c => !isspace c))

/-- Extraction `is >> n` of an `int`: an optional sign and decimal digits. A failed sentry
leaves `n` as it is; without a digit the value is 0 and `failbit` is set; a value outside
the range of `int` is clamped and `failbit` is set. -/
def readInt (is : IStream) (n : Int) : IStream × Int :=
  match sentry is with
  | (false, is1) => (is1, n)
  | (true, is1) =>
    let signed := is1.input.head? == some '-' || is1.input.head? == some '+'
    let s1 := if signed then is1.input.drop 1 else is1.input
    let ds := s1.takeWhile Char.isDigit
    let rest := s1.dropWhile Char.isDigit
    let is2 : IStream := { is1 with input := rest, eofbit := rest.isEmpty }
    if ds.isEmpty then ({ is2 with failbit := true }, 0)
    else
      let v : Int :=
        if is1.input.head? == some '-' then -(digitsValue ds : Int) else (digitsValue ds : Int)
      if v < INT_MIN then ({ is2 with failbit := true }, INT_MIN)
      else if v > INT_MAX then ({ is2 with failbit := true }, INT_MAX)
      else (is2, v)

/-- Extraction `is >> x` of a `double`. A failed sentry leaves `x` as it is; when no
number is read the value is 0 and `failbit` is set. -/
def readDouble {D : Type} [DoubleOps D] (is : IStream) (x : D) : IStream × D :=
  match sentry is with
  | (false, is1) => (is1, x)
  | (true, is1) =>
    match DoubleOps.read is1.input with
    | none => ({ is1 with failbit := true }, DoubleOps.zero)
    | some (v, taken) =>
      ({ is1 with input := is1.input.drop taken, eofbit := (is1.input.drop taken).isEmpty }, v)

end IStream

/-! ## CSpreadsheet::save -/

section Save

variable {D : Type} [DoubleOps D]

/-- Virtual method `CExpr::print`. -/
def CExpr.print : CExpr D → List Char
  | .CAdd => " 0 ".toList
  | .CSub => " 1 ".toList
  | .CMul => " 2 ".toList
  | .CDiv => " 3 ".toList
  | .CPow => " 4 ".toList
  | .CNeg => " 5 ".toList
  | .CEq => " 6 ".toList
  | .CNe => " 7 ".toList
  | .CLt => " 8 ".toList
  | .CLe => " 9 ".toList
  | .CGt => " 10 ".toList
  | .CGe => " 11 ".toList
  | .CNumber n => " 12 ".toList ++ DoubleOps.print n ++ " ".toList
  | .CString s => " 13 ".toList ++ s ++ " endOfString ".toList
  | .CReference p => " 14 ".toList ++ p.print

/-- Loop `for (const auto &expr: pair.second) os << expr`. -/
def printExpressions : Expressions D → List Char
  | [] => []
  | expr :: rest => expr.print ++ printExpressions rest

/-- Loop `for (const auto &pair: m_Excel)` of `save`: what is written to `os`. The size
of a vector is converted to `int`. -/
def saveCells : CellMap D → List Char
  | [] => []
  | (pos, exprs) :: rest =>
    let size := wrap32 (exprs.length : Int)
    (if size ≠ 0 then
      pos.print ++ " VectorLen ".toList ++ CPos.printInt size ++ " ".toList
        ++ printExpressions exprs
     else []) ++ saveCells rest

/-- Method `save(ostream &os)`: the result and the characters written. -/
def CSpreadsheet.save (sheet : CSpreadsheet D) : Bool × List Char :=
  (true, saveCells sheet.m_Excel)

end Save

/-! ## CSpreadsheet::load -/

section Load

variable {D : Type} [DoubleOps D]

/-- Values of the local variables of `load` that are read before they are written: the
source does not initialise `vectorLen`, `token` and `number`. -/
structure Uninitialised (D : Type) where
  vectorLen : Int
  token : Int
  number : D

/-- How a call of `load` ends; `m_Excel` is the map at that point. `outOfFuel` is the
exhaustion of the recursion bound of the model. -/
inductive LoadResult (D : Type) where
  | returned (result : Bool) (m_Excel : CellMap D)
  | invalid_argument (m_Excel : CellMap D)
  | outOfFuel
deriving DecidableEq, Repr

/-- Local variables of `load`, with the stream and the member `m_Excel`. -/
structure LoadState (D : Type) where
  is : IStream
  position : List Char
  tmp : List Char
  vectorLen : Int
  token : Int
  m_Excel : CellMap D

/-- Statement `m_Excel[pos].push_back(expr)`. -/
def pushBack (m : CellMap D) (pos : CPos) (expr : CExpr D) : CellMap D :=
  mapAssign (mapTouch m pos) pos (mapGet (mapTouch m pos) pos ++ [expr])

/-- Loop `while (is >> tmp && tmp != "endOfString") result += tmp` of case 13: the
stream, `tmp` and `result` after the loop; `none` when `fuel` is exhausted. -/
def readUntilEndOfString :
    Nat → IStream → List Char → List Char → Option (IStream × List Char × List Char)
  | 0, _, _, _ => none
  | fuel + 1, is, tmp, result =>
    let r := is.readString tmp
    if !r.1.fail && r.2 != "endOfString".toList then
      readUntilEndOfString fuel r.1 r.2 (result ++ r.2)
    else some (r.1, r.2, result)

/-- Body of the loop `for (int i = 0; i < vectorLen; i++)`: `is >> token` and the
`switch`. An early exit of `load` is the `Except.error`. -/
def loadExpression (fuel : Nat) (u : Uninitialised D) (pos : CPos) (st : LoadState D) :
    Except (LoadResult D) (LoadState D) :=
  let r := st.is.readInt st.token
  let st1 : LoadState D := { st with is := r.1, token := r.2 }
  let push (expr : CExpr D) : Except (LoadResult D) (LoadState D) :=
    .ok { st1 with m_Excel := pushBack st1.m_Excel pos expr }
  if r.2 = 0 then push .CAdd
  else if r.2 = 1 then push .CSub
  else if r.2 = 2 then push .CMul
  else if r.2 = 3 then push .CDiv
  else if r.2 = 4 then push .CPow
  else if r.2 = 5 then push .CNeg
  else if r.2 = 6 then push .CEq
  else if r.2 = 7 then push .CNe
  else if r.2 = 8 then push .CLt
  else if r.2 = 9 then push .CLe
  else if r.2 = 10 then push .CGt
  else if r.2 = 11 then push .CGe
  else if r.2 = 12 then
    let n := st1.is.readDouble u.number
    .ok { st1 with is := n.1, m_Excel := pushBack st1.m_Excel pos (.CNumber n.2) }
  else if r.2 = 13 then
    -- tmp = ""; string result;
    match readUntilEndOfString fuel st1.is [] [] with
    | none => .error .outOfFuel
    | some (is2, tmp2, result) =>
      .ok { st1 with is := is2, tmp := tmp2, m_Excel := pushBack st1.m_Excel pos (.CString result) }
  else if r.2 = 14 then
    let t1 := st1.is.readString st1.tmp
    let t2 := t1.1.readString t1.2
    -- m_Excel[pos].push_back(make_unique<CReference>(tmp));
    match CPos.parse t2.2 with
    | none => .error (.invalid_argument (mapTouch st1.m_Excel pos))
    | some p =>
      .ok { st1 with is := t2.1, tmp := t2.2, m_Excel := pushBack st1.m_Excel pos (.CReference p) }
  else .error (.returned false st1.m_Excel)

/-- Loop `for (int i = 0; i < vectorLen; i++)`, `n` iterations left. -/
def loadExpressions (fuel : Nat) (u : Uninitialised D) (pos : CPos) :
    Nat → LoadState D → Except (LoadResult D) (LoadState D)
  | 0, st => .ok st
  | n + 1, st =>
    match loadExpression fuel u pos st with
    | .error e => .error e
    | .ok st1 => loadExpressions fuel u pos n st1

/-- Body of the loop `while (is >> tmp)` of `load`, entered with the token just read in
`tmp`: one record. An early exit of `load` is the `Except.error`. -/
def loadRecord (bound : Nat) (u : Uninitialised D) (st : LoadState D) :
    Except (LoadResult D) (LoadState D) :=
  if st.tmp != "CPos".toList then .error (.returned false st.m_Excel)
  else
    let p := st.is.readString st.position
    -- CPos pos((string_view(position)));
    match CPos.parse p.2 with
    | none => .error (.invalid_argument st.m_Excel)
    | some pos =>
      let t := p.1.readString st.tmp
      if t.2 != "VectorLen".toList then .error (.returned false st.m_Excel)
      else
        let v := t.1.readInt st.vectorLen
        loadExpressions bound u pos v.2.toNat
          { st with is := v.1, position := p.2, tmp := t.2, vectorLen := v.2 }

/-- Loop `while (is >> tmp)` of `load` with the final `return success`; `fuel` bounds the
number of records. -/
def loadRecords (bound : Nat) (u : Uninitialised D) :
    Nat → LoadState D → Bool → LoadResult D
  | 0, _, _ => .outOfFuel
  | fuel + 1, st, success =>
    let r := st.is.readString st.tmp
    if r.1.fail then .returned success st.m_Excel
    else
      match loadRecord bound u { st with is := r.1, tmp := r.2 } with
      | .error e => e
      | .ok st1 => loadRecords bound u fuel st1 (!st1.is.fail)

/-- Method `load(istream &is)` on a stream that holds `input`: how the call ends, with
the map `m_Excel` it leaves. Each record takes at least one character, so the bound
`input.length + 1` is never exhausted (theorem `load_ne_outOfFuel`). -/
def CSpreadsheet.load (_sheet : CSpreadsheet D) (u : Uninitialised D) (input : List Char) :
    LoadResult D :=
  -- m_Excel.clear();
  loadRecords (input.length + 1) u (input.length + 1)
    { is := { input := input, failbit := false, eofbit := false }
      position := [], tmp := [], vectorLen := u.vectorLen, token := u.token, m_Excel := [] }
    true

/-- Corruption of the test `testFullWorkflow`: `data[i] ^= 0x5a` for the first
`min(data.length(), 10)` bytes. -/
def corruptHeader (data : List Char) : List Char :=
  (data.take 10).map (fun c => Char.ofNat (c.toNat ^^^ 0x5a)) ++ data.drop 10

end Load

/-! ## Sheets of the examples of copy, save and load -/

/-- Sheet with `A1 = "top"` and `A2 = A1`, for a copy onto an overlapping block. -/
def overlapSheet : CSpreadsheet ℚ :=
  { m_Excel := [(posA1, [.CString ['t', 'o', 'p']]), (posA2, [.CReference posA1])]
    m_ExprBuilder := []
    calledPositions := [] }

/-- Sheet whose only cell `A1` holds the text `a b`. -/
def whitespaceSheet : CSpreadsheet ℚ :=
  { m_Excel := [(posA1, [.CString ['a', ' ', 'b']])]
    m_ExprBuilder := []
    calledPositions := [] }

/-- Sheet with the two text cells `A1 = "x"` and `A2 = "y"`. -/
def twoTextSheet : CSpreadsheet ℚ :=
  { m_Excel := [(posA1, [.CString ['x']]), (posA2, [.CString ['y']])]
    m_ExprBuilder := []
    calledPositions := [] }

/-- A sheet without cells. -/
def emptySheet : CSpreadsheet ℚ :=
  { m_Excel := [], m_ExprBuilder := [], calledPositions := [] }

/-- Some values for the local variables that `load` does not initialise. -/
def zeroUninitialised : Uninitialised ℚ := { vectorLen := 0, token := 0, number := 0 }

/-! ## Notions for the properties of the expression nodes -/

section

variable {D : Type}

/-- Text of an operand in the concatenation of `CAdd::getValue`, the strings `left` and
`right` of the source: a string is itself, a number goes through `doubleToStr`. -/
def valueText [DoubleOps D] : CValue D → List Char
  | .double d => doubleToStr d
  | .string s => s
  | .monostate => []

/-- Lexicographic order on texts: the first place where the texts differ decides, by the
character codes; a text is smaller than each of its proper extensions. -/
def lexLt : List Char → List Char → Bool
  | [], [] => false
  | [], _ :: _ => true
  | _ :: _, [] => false
  | a :: as, b :: bs =>
    if a.toNat < b.toNat then true
    else if b.toNat < a.toNat then false
    else lexLt as bs

/-- The six comparisons `==`, `!=`, `<`, `<=`, `>`, `>=`. -/
inductive Comparison where
  | Eq
  | Ne
  | Lt
  | Le
  | Gt
  | Ge
deriving DecidableEq, Repr

/-- The expression class of a comparison. -/
def Comparison.expr : Comparison → CExpr D
  | .Eq => .CEq
  | .Ne => .CNe
  | .Lt => .CLt
  | .Le => .CLe
  | .Gt => .CGt
  | .Ge => .CGe

/-- The comparison of two numbers, by the operator of `double`. -/
def Comparison.onNumbers [DoubleOps D] : Comparison → D → D → Bool
  | .Eq => DoubleOps.eq
  | .Ne => DoubleOps.ne
  | .Lt => DoubleOps.lt
  | .Le => DoubleOps.le
  | .Gt => DoubleOps.gt
  | .Ge => DoubleOps.ge

/-- The comparison of two texts in the lexicographic order. -/
def Comparison.onTexts : Comparison → List Char → List Char → Bool
  | .Eq => fun l r => l == r
  | .Ne => fun l r => !(l == r)
  | .Lt => fun l r => lexLt l r
  | .Le => fun l r => !lexLt r l
  | .Gt => fun l r => lexLt r l
  | .Ge => fun l r => !lexLt l r

/-- The value on top of the stack, the empty value for an empty stack: the end of
`getValue`. -/
def topOrEmpty : ValueStack D → CValue D
  | top :: _ => top
  | [] => .monostate

/-! ## Notions for the properties of copies and of independent cells -/

/-- Method `setCell(pos, contents)` for contents that `parseExpression` accepts, with
`exprs` the expressions that the parser hands to the builder:
`m_Excel[pos] = m_ExprBuilder.getExpressions()`. -/
def CSpreadsheet.setCell (sheet : CSpreadsheet D) (pos : CPos) (exprs : Expressions D) :
    CSpreadsheet D :=
  { sheet with
    m_ExprBuilder := exprs
    m_Excel := mapAssign sheet.m_Excel pos (copyExpressions exprs) }

/-- Position `k` lies in the block `[dst.col, dst.col+w) x [dst.row, dst.row+h)`. -/
def InBlock (dst : CPos) (w h : Int) (k : CPos) : Prop :=
  dst.m_Col ≤ k.m_Col ∧ k.m_Col < dst.m_Col + w ∧ dst.m_Row ≤ k.m_Row ∧ k.m_Row < dst.m_Row + h

instance (dst : CPos) (w h : Int) (k : CPos) : Decidable (InBlock dst w h k) := by
  unfold InBlock
  exact inferInstance

/-- The sheet that `copyRect` leaves, whether it returned or threw. -/
def sheetAfter : Except (CSpreadsheet D) (CSpreadsheet D) → CSpreadsheet D
  | .ok s => s
  | .error s => s

/-- The cell at `q` is reached from the cell at `p` by following references, one at
least. -/
def Reaches (sheet : CSpreadsheet D) (p q : CPos) : Prop :=
  Relation.TransGen (References sheet) p q

/-- The positions of `dom` hold the same vectors in both sheets, and each of them is under
evaluation in both sheets or in neither. -/
def AgreeOn (dom : CPos → Prop) (a b : CSpreadsheet D) : Prop :=
  ∀ k, dom k →
    mapGet a.m_Excel k = mapGet b.m_Excel k ∧
    setContains a.calledPositions k = setContains b.calledPositions k

/-- The set `dom` holds, with a position, the equivalent keys and the positions that its
cell refers to. -/
def ClosedUnder (dom : CPos → Prop) (a : CSpreadsheet D) : Prop :=
  (∀ k k', dom k → CPos.same k k' = true → dom k') ∧
  (∀ k r, dom k → CExpr.CReference r ∈ mapGet a.m_Excel k → dom r)

end

/-! ## Sheets of the examples of copies and of expressions -/

/-- Position `B1`. -/
def posB1 : CPos := ⟨1, 1, false, false⟩

/-- Sheet that holds only `A1 = 5` and `B1 = A1 + 1`. -/
def copyOffsetSheet : CSpreadsheet ℚ :=
  { m_Excel := [(posA1, [.CNumber 5]), (posB1, [.CReference posA1, .CNumber 1, .CAdd])]
    m_ExprBuilder := []
    calledPositions := [] }

/-- Sheet of the test `testCopyRect` before its second copy: `A1 = 5`, `B1 = A1 + 1` and
the copy `C1 = 5` of `A1`. -/
def copyTestSheet : CSpreadsheet ℚ :=
  { m_Excel := [(posA1, [.CNumber 5]), (posB1, [.CReference posA1, .CNumber 1, .CAdd]),
                (posC1, [.CNumber 5])]
    m_ExprBuilder := []
    calledPositions := [] }

/-- Sheet whose cell `A1` holds `1 / 0`. -/
def divZeroSheet : CSpreadsheet ℚ :=
  { m_Excel := [(posA1, [.CNumber 1, .CNumber 0, .CDiv])]
    m_ExprBuilder := []
    calledPositions := [] }

/-- Sheet whose cell `A1` holds `1 < "a"`. -/
def mixedCompareSheet : CSpreadsheet ℚ :=
  { m_Excel := [(posA1, [.CNumber 1, .CString ['a'], .CLt])]
    m_ExprBuilder := []
    calledPositions := [] }

/-- Sheet with `A1 = 100`, `B1 = A1 + 50`, `C1 = D1 + 1` and `D1 = 2`: the cells of the
test `testReferencesAndCycles` before `D1 = C1 + 1` closes the cycle. -/
def independentSheet : CSpreadsheet ℚ :=
  { m_Excel := [(posA1, [.CNumber 100]), (posB1, [.CReference posA1, .CNumber 50, .CAdd]),
                (posC1, [.CReference posD1, .CNumber 1, .CAdd]),
                (posD1, [.CNumber 2])]
    m_ExprBuilder := []
    calledPositions := [] }

/-! ## setCell and the external parser (CSpreadsheet.h, ExpressionBuilder.h, expression.h) -/

section Builder

variable {D : Type}

/-- A call that `parseExpression` makes on the builder, one constructor for each method of
the interface `CExprBuilder`. -/
inductive BuilderCall (D : Type) where
  | opAdd : BuilderCall D
  | opSub : BuilderCall D
  | opMul : BuilderCall D
  | opDiv : BuilderCall D
  | opPow : BuilderCall D
  | opNeg : BuilderCall D
  | opEq : BuilderCall D
  | opNe : BuilderCall D
  | opLt : BuilderCall D
  | opLe : BuilderCall D
  | opGt : BuilderCall D
  | opGe : BuilderCall D
  | valNumber (val : D) : BuilderCall D
  | valString (val : List Char) : BuilderCall D
  | valReference (val : List Char) : BuilderCall D
deriving DecidableEq, Repr

/-- The methods of `ExpressionBuilder` on its vector `m_Expressions`: each is
`m_Expressions.push_back(make_unique<...>(...))`; `none` is the exception that the
constructor of `CReference` throws on a malformed address, before anything is pushed. -/
def ExpressionBuilder.call (m_Expressions : Expressions D) :
    BuilderCall D → Option (Expressions D)
  | .opAdd => some (m_Expressions ++ [.CAdd])
  | .opSub => some (m_Expressions ++ [.CSub])
  | .opMul => some (m_Expressions ++ [.CMul])
  | .opDiv => some (m_Expressions ++ [.CDiv])
  | .opPow => some (m_Expressions ++ [.CPow])
  | .opNeg => some (m_Expressions ++ [.CNeg])
  | .opEq => some (m_Expressions ++ [.CEq])
  | .opNe => some (m_Expressions ++ [.CNe])
  | .opLt => some (m_Expressions ++ [.CLt])
  | .opLe => some (m_Expressions ++ [.CLe])
  | .opGt => some (m_Expressions ++ [.CGt])
  | .opGe => some (m_Expressions ++ [.CGe])
  | .valNumber val => some (m_Expressions ++ [.CNumber val])
  | .valString val => some (m_Expressions ++ [.CString val])
  | .valReference val =>
    match CPos.parse val with
    | none => none
    | some p => some (m_Expressions ++ [.CReference p])

/-- What the external function `parseExpression` does on some contents: the calls it makes
on the builder, in order, and whether it then throws, rejecting the contents, instead of
returning. -/
structure ParserRun (D : Type) where
  calls : List (BuilderCall D)
  throws : Bool

/-- The calls of the parser on the builder, up to the first one that throws: the vector of
the builder, and whether a call threw. -/
def runCalls : List (BuilderCall D) → Expressions D → Expressions D × Bool
  | [], m_Expressions => (m_Expressions, false)
  | c :: cs, m_Expressions =>
    match ExpressionBuilder.call m_Expressions c with
    | none => (m_Expressions, true)
    | some m1 => runCalls cs m1

/-- Call `parseExpression(contents, m_ExprBuilder)`: the vector of the builder after it,
and whether an exception left it, the parser's own or one of a callback. -/
def parseExpression (run : ParserRun D) (m_Expressions : Expressions D) :
    Expressions D × Bool :=
  let r := runCalls run.calls m_Expressions
  if r.2 then r else (r.1, run.throws)

/-- Method `setCell(CPos pos, const string &contents)`, with `run` for what the external
parser does on `contents`: the result and the sheet after the call. -/
def CSpreadsheet.setCellRun (sheet : CSpreadsheet D) (pos : CPos) (run : ParserRun D) :
    Bool × CSpreadsheet D :=
  -- m_ExprBuilder.clearExpressions();
  let r := parseExpression run []
  -- catch (const exception &e) { ...; return false; }
  if r.2 then (false, { sheet with m_ExprBuilder := r.1 })
  else
    -- m_Excel[pos] = m_ExprBuilder.getExpressions();
    (true, { sheet with
      m_ExprBuilder := r.1
      m_Excel := mapAssign sheet.m_Excel pos (copyExpressions r.1) })

/-- The expression that a call of the parser stands for: the variant of the same name, a
reference holding the position that its text denotes. -/
def BuilderCall.instruction : BuilderCall D → Option (CExpr D)
  | .opAdd => some .CAdd
  | .opSub => some .CSub
  | .opMul => some .CMul
  | .opDiv => some .CDiv
  | .opPow => some .CPow
  | .opNeg => some .CNeg
  | .opEq => some .CEq
  | .opNe => some .CNe
  | .opLt => some .CLt
  | .opLe => some .CLe
  | .opGt => some .CGt
  | .opGe => some .CGe
  | .valNumber val => some (.CNumber val)
  | .valString val => some (.CString val)
  | .valReference val => (CPos.parse val).map .CReference

end Builder

/-! ## The serialized format -/

section Format

variable {D : Type}

/-- Invariant of `std::map<CPos, _>`: the keys of the entries are strictly increasing. -/
def IsMap (m : CellMap D) : Prop := List.Pairwise (fun a b => CPos.lt a.1 b.1 = true) m

/-- The tag of an expression class in the serialized format, as the specification lists
them. -/
def opcode : CExpr D → Nat
  | .CAdd => 0
  | .CSub => 1
  | .CMul => 2
  | .CDiv => 3
  | .CPow => 4
  | .CNeg => 5
  | .CEq => 6
  | .CNe => 7
  | .CLt => 8
  | .CLe => 9
  | .CGt => 10
  | .CGe => 11
  | .CNumber _ => 12
  | .CString _ => 13
  | .CReference _ => 14

variable [DoubleOps D]

/-- One record of the serialized format, as the specification words it: the marker `CPos`,
the position text, the marker `VectorLen`, the number of expressions, then the encodings
of the expressions in their order. -/
def saveRecord (e : CPos × Expressions D) : List Char :=
  " CPos ".toList ++ e.1.text ++ " VectorLen ".toList ++ Nat.toDigits 10 e.2.length
    ++ " ".toList ++ (e.2.map CExpr.print).flatten

/-- The records that the loop `while (is >> tmp)` of `load` reads completely: for each, the
position and the count `vectorLen` it read. -/
def loadedRecords (bound : Nat) (u : Uninitialised D) :
    Nat → LoadState D → List (CPos × Int)
  | 0, _ => []
  | fuel + 1, st =>
    let r := st.is.readString st.tmp
    if r.1.fail then []
    else
      match loadRecord bound u { st with is := r.1, tmp := r.2 } with
      | .error _ => []
      | .ok st1 =>
        match CPos.parse st1.position with
        | none => []
        | some pos => (pos, st1.vectorLen) :: loadedRecords bound u fuel st1

/-- The records of a stream, as `load` reads them from the input. -/
def streamRecords (u : Uninitialised D) (input : List Char) : List (CPos × Int) :=
  loadedRecords (input.length + 1) u (input.length + 1)
    { is := { input := input, failbit := false, eofbit := false }
      position := [], tmp := [], vectorLen := u.vectorLen, token := u.token,
      m_Excel := ([] : CellMap D) }

end Format

/-! ## Copies of a sheet (value level) -/

section Copy

variable {D : Type}

/-- Loop `for (const auto &pair: src.m_Excel) m_Excel[pair.first] =
copyExpressions(pair.second)` of the copy constructor and of the copy assignment. -/
def copyCells (src : CellMap D) (m_Excel : CellMap D) : CellMap D :=
  src.foldl (fun m pair => mapAssign m pair.1 (copyExpressions pair.2)) m_Excel

/-- Copy constructor `CSpreadsheet(const CSpreadsheet &src)`: the other members are
default-constructed. -/
def CSpreadsheet.copy (src : CSpreadsheet D) : CSpreadsheet D :=
  { m_Excel := copyCells src.m_Excel [], m_ExprBuilder := [], calledPositions := [] }

/-- Copy assignment `operator =(const CSpreadsheet &src)` for `this != &src`:
`m_Excel.clear()` and the loop; the other members of `*this` stay. -/
def CSpreadsheet.assign (sheet src : CSpreadsheet D) : CSpreadsheet D :=
  { sheet with m_Excel := copyCells src.m_Excel [] }

end Copy

/-! ## Streams and sheets of the examples of the format -/

/-- Sheet with the cells `A1 = 1`, `A2 = "x"` and `B1 = A1 + 1`. -/
def formatSheet : CSpreadsheet ℚ :=
  { m_Excel := [(posA1, [.CNumber 1]), (posA2, [.CString ['x']]),
                (posB1, [.CReference posA1, .CNumber 1, .CAdd])]
    m_ExprBuilder := []
    calledPositions := [] }

/-- Sheet whose cell `A1` holds 4294967296 additions. -/
def hugeCellSheet : CSpreadsheet ℚ :=
  { m_Excel := [(posA1, List.replicate 4294967296 .CAdd)]
    m_ExprBuilder := []
    calledPositions := [] }

/-! ## Ownership of the expression objects (CExpr.h, CSpreadsheet.h, ExpressionBuilder.h)

The vectors of `m_Excel` and of the builder hold `AExpr = unique_ptr<CExpr>`: pointers to
objects on the free store, each object deleted together with the pointer that owns it.
This section embeds the methods that create, copy and destroy expression objects at the
level of the objects: a vector is the list of the addresses it holds. -/

section Objects

variable {D : Type}

/-- The free store: the objects of the classes derived from `CExpr` by address, in the
order of their creation, and the addresses of the objects that were deleted. An address is
not used a second time. -/
structure Heap.Store (D : Type) where
  objs : List (CExpr D)
  deleted : List Nat

/-- Creation of an object, by `make_unique` or inside `clone`: the address of the object
and the store. -/
def Heap.Store.alloc (h : Heap.Store D) (e : CExpr D) : Nat × Heap.Store D :=
  (h.objs.length, { h with objs := h.objs ++ [e] })

/-- The object at an address (an address at which no object was created reads as `CAdd`;
the methods read through pointers that they hold only). -/
def Heap.Store.read (h : Heap.Store D) (a : Nat) : CExpr D := h.objs.getD a CExpr.CAdd

/-- Update of the object at an address in place. -/
def Heap.Store.write (h : Heap.Store D) (a : Nat) (e : CExpr D) : Heap.Store D :=
  { h with objs := h.objs.set a e }

/-- Destruction of a `vector<AExpr>`: every pointer deletes its object. -/
def Heap.Store.deleteAll (h : Heap.Store D) (ptrs : List Nat) : Heap.Store D :=
  { h with deleted := ptrs ++ h.deleted }

/-- The address holds an object that was created and not deleted. -/
def Heap.Store.Live (h : Heap.Store D) (a : Nat) : Prop :=
  a < h.objs.length ∧ a ∉ h.deleted

/-- Container `map<CPos, vector<AExpr>>` with the vectors as lists of addresses. -/
abbrev Heap.CellMap := List (CPos × List Nat)

/-- Lookup of a key; `none` when the key is absent. -/
def Heap.mapFind : Heap.CellMap → CPos → Option (List Nat)
  | [], _ => none
  | (k, v) :: rest, key =>
    if CPos.lt k key then Heap.mapFind rest key
    else if CPos.lt key k then none
    else some v

/-- The map after `m[key]` was evaluated: an absent key is inserted with an empty
vector. -/
def Heap.mapTouch : Heap.CellMap → CPos → Heap.CellMap
  | [], key => [(key, [])]
  | (k, v) :: rest, key =>
    if CPos.lt k key then (k, v) :: Heap.mapTouch rest key
    else if CPos.lt key k then (key, []) :: (k, v) :: rest
    else (k, v) :: rest

/-- The vector that `m[key]` refers to, empty for an absent key. -/
def Heap.mapGet (m : Heap.CellMap) (key : CPos) : List Nat :=
  (Heap.mapFind m key).getD []

/-- The entries of the map after the assignment `m[key] = value`. -/
def Heap.mapAssign : Heap.CellMap → CPos → List Nat → Heap.CellMap
  | [], key, value => [(key, value)]
  | (k, v) :: rest, key, value =>
    if CPos.lt k key then (k, v) :: Heap.mapAssign rest key value
    else if CPos.lt key k then (key, value) :: (k, v) :: rest
    else (k, value) :: rest

/-- All pointers that the vectors of a map hold. -/
def Heap.mapPointers (m : Heap.CellMap) : List Nat := (m.map Prod.snd).flatten

/-- Move assignment `m[key] = value` of a vector: the map takes the pointers of `value`,
and the vector that the key held is destroyed with its objects. -/
def Heap.assign (h : Heap.Store D) (m : Heap.CellMap) (key : CPos) (value : List Nat) :
    Heap.CellMap × Heap.Store D :=
  (Heap.mapAssign m key value, h.deleteAll (Heap.mapGet m key))

/-- Call `expr->clone()`: a new object that is a copy of the object of `expr`. -/
def Heap.clone (h : Heap.Store D) (expr : Nat) : Nat × Heap.Store D :=
  h.alloc (h.read expr).clone

/-- Function `copyExpressions`: the vector of the clones, and the store. -/
def Heap.copyExpressions (h : Heap.Store D) : List Nat → List Nat × Heap.Store D
  | [] => ([], h)
  | expr :: rest =>
    -- copiedExpressions.push_back(expr->clone());
    let c := Heap.clone h expr
    let r := Heap.copyExpressions c.2 rest
    (c.1 :: r.1, r.2)

/-- Static method `changePositions`: every clone is changed in place after it was
pushed. -/
def Heap.changePositions (h : Heap.Store D) (colOffset rowOffset : Int) :
    List Nat → List Nat × Heap.Store D
  | [] => ([], h)
  | expr :: rest =>
    -- changedExpressions.push_back(expr->clone());
    let c := Heap.clone h expr
    -- changedExpressions.back()->changePosition(colOffset, rowOffset);
    let h1 := c.2.write c.1 ((c.2.read c.1).changePosition colOffset rowOffset)
    let r := Heap.changePositions h1 colOffset rowOffset rest
    (c.1 :: r.1, r.2)

/-- Class `CSpreadsheet` with its vectors as lists of addresses. -/
structure Heap.CSpreadsheet where
  m_Excel : Heap.CellMap
  m_ExprBuilder : List Nat
  calledPositions : List CPos

/-- All pointers that a sheet holds: those of its cells and those of its builder. -/
def Heap.CSpreadsheet.pointers (sheet : Heap.CSpreadsheet) : List Nat :=
  Heap.mapPointers sheet.m_Excel ++ sheet.m_ExprBuilder

/-- The sheet read through its pointers: every address replaced by the object it points
to. Method `getValue` creates and deletes no expression object, so the value of a cell is
`getValue` of this sheet. -/
def Heap.CSpreadsheet.view (sheet : Heap.CSpreadsheet) (h : Heap.Store D) :
    CppSpreadsheet.CSpreadsheet D :=
  { m_Excel := sheet.m_Excel.map (fun e => (e.1, e.2.map h.read))
    m_ExprBuilder := sheet.m_ExprBuilder.map h.read
    calledPositions := sheet.calledPositions }

/-- Loop `for (const auto &pair: src.m_Excel) m_Excel[pair.first] =
copyExpressions(pair.second);` of the copy constructor and of `operator=`. -/
def Heap.copyCells (src : Heap.CellMap) (m_Excel : Heap.CellMap) (h : Heap.Store D) :
    Heap.CellMap × Heap.Store D :=
  src.foldl (fun acc pair =>
    let c := Heap.copyExpressions acc.2 pair.2
    Heap.assign c.2 acc.1 pair.1 c.1) (m_Excel, h)

/-- Copy constructor `CSpreadsheet(const CSpreadsheet &src)`: the new sheet, whose builder
and set are default-initialised, and the store. -/
def Heap.CSpreadsheet.copy (src : Heap.CSpreadsheet) (h : Heap.Store D) :
    Heap.CSpreadsheet × Heap.Store D :=
  let r := Heap.copyCells src.m_Excel [] h
  ({ m_Excel := r.1, m_ExprBuilder := [], calledPositions := [] }, r.2)

/-- Method `operator=(const CSpreadsheet &src)` for `this != &src`: `m_Excel.clear()`
destroys the vectors of the sheet, then the cells of `src` are copied. -/
def Heap.CSpreadsheet.assign (sheet src : Heap.CSpreadsheet) (h : Heap.Store D) :
    Heap.CSpreadsheet × Heap.Store D :=
  let r := Heap.copyCells src.m_Excel [] (h.deleteAll (Heap.mapPointers sheet.m_Excel))
  ({ sheet with m_Excel := r.1 }, r.2)

/-- A method of `ExpressionBuilder`: `m_Expressions.push_back(make_unique<...>(...))`
creates the object of the call; `none` is the exception of the constructor of `CReference`,
thrown before an object exists. -/
def Heap.ExpressionBuilder.call (h : Heap.Store D) (m_Expressions : List Nat)
    (c : BuilderCall D) : Option (List Nat × Heap.Store D) :=
  match c.instruction with
  | none => none
  | some e => some (m_Expressions ++ [(h.alloc e).1], (h.alloc e).2)

/-- The calls of the parser on the builder, up to the first one that throws: the vector of
the builder with the store, and whether a call threw. -/
def Heap.runCalls : List (BuilderCall D) → List Nat → Heap.Store D →
    (List Nat × Heap.Store D) × Bool
  | [], m_Expressions, h => ((m_Expressions, h), false)
  | c :: cs, m_Expressions, h =>
    match Heap.ExpressionBuilder.call h m_Expressions c with
    | none => ((m_Expressions, h), true)
    | some r => Heap.runCalls cs r.1 r.2

/-- Call `parseExpression(contents, m_ExprBuilder)`. -/
def Heap.parseExpression (run : ParserRun D) (m_Expressions : List Nat) (h : Heap.Store D) :
    (List Nat × Heap.Store D) × Bool :=
  let r := Heap.runCalls run.calls m_Expressions h
  if r.2 then r else (r.1, run.throws)

/-- Method `setCell(CPos pos, const string &contents)`: the result, the sheet and the
store after the call. -/
def Heap.CSpreadsheet.setCell (sheet : Heap.CSpreadsheet) (h : Heap.Store D) (pos : CPos)
    (run : ParserRun D) : Bool × Heap.CSpreadsheet × Heap.Store D :=
  -- m_ExprBuilder.clearExpressions();
  let r := Heap.parseExpression run [] (h.deleteAll sheet.m_ExprBuilder)
  -- catch (const exception &e) { ...; return false; }
  if r.2 then (false, { sheet with m_ExprBuilder := r.1.1 }, r.1.2)
  else
    -- m_Excel[pos] = m_ExprBuilder.getExpressions();
    let c := Heap.copyExpressions r.1.2 r.1.1
    let a := Heap.assign c.2 sheet.m_Excel pos c.1
    (true, { sheet with m_ExprBuilder := r.1.1, m_Excel := a.1 }, a.2)

/-- Local variables of `copyRect`, with the member `m_Excel` and the store. -/
structure Heap.CopyState (D : Type) where
  srcCopy : CPos
  dstCopy : CPos
  m_Excel : Heap.CellMap
  newExcel : Heap.CellMap
  store : Heap.Store D

/-- Inner loop of the first phase of `copyRect`, `n` iterations left; `Except.error` is
the state in which `setRow` threw. -/
def Heap.copyColumn : Nat → Heap.CopyState D → Except (Heap.CopyState D) (Heap.CopyState D)
  | 0, st => .ok st
  | n + 1, st =>
    -- newExcel[dstCopy] = copyExpressions(m_Excel[srcCopy]);
    let m1 := Heap.mapTouch st.m_Excel st.srcCopy
    let c := Heap.copyExpressions st.store (Heap.mapGet m1 st.srcCopy)
    let a := Heap.assign c.2 st.newExcel st.dstCopy c.1
    let st1 : Heap.CopyState D := { st with m_Excel := m1, newExcel := a.1, store := a.2 }
    match st.srcCopy.setRow (wrap32 (st.srcCopy.getRow + 1)) with
    | none => .error st1
    | some src1 =>
      match st.dstCopy.setRow (wrap32 (st.dstCopy.getRow + 1)) with
      | none => .error st1
      | some dst1 => Heap.copyColumn n { st1 with srcCopy := src1, dstCopy := dst1 }

/-- Outer loop of the first phase of `copyRect`, `n` iterations left. -/
def Heap.copyColumns (dst src : CPos) (h : Int) :
    Nat → Heap.CopyState D → Except (Heap.CopyState D) (Heap.CopyState D)
  | 0, st => .ok st
  | n + 1, st =>
    match st.srcCopy.setRow src.getRow with
    | none => .error st
    | some src0 =>
      match st.dstCopy.setRow dst.getRow with
      | none => .error st
      | some dst0 =>
        match Heap.copyColumn h.toNat { st with srcCopy := src0, dstCopy := dst0 } with
        | .error st1 => .error st1
        | .ok st1 =>
          match st1.srcCopy.setCol (wrap32 (st1.srcCopy.getCol + 1)) with
          | none => .error st1
          | some src1 =>
            match st1.dstCopy.setCol (wrap32 (st1.dstCopy.getCol + 1)) with
            | none => .error st1
            | some dst1 =>
              Heap.copyColumns dst src h n { st1 with srcCopy := src1, dstCopy := dst1 }

/-- Inner loop of the second phase of `copyRect`, `n` iterations left. -/
def Heap.writeColumn (colOffset rowOffset : Int) :
    Nat → Heap.CopyState D → Except (Heap.CopyState D) (Heap.CopyState D)
  | 0, st => .ok st
  | n + 1, st =>
    -- m_Excel[dstCopy] = changePositions(newExcel[dstCopy], colOffset, rowOffset);
    let new1 := Heap.mapTouch st.newExcel st.dstCopy
    let c := Heap.changePositions st.store colOffset rowOffset (Heap.mapGet new1 st.dstCopy)
    let a := Heap.assign c.2 st.m_Excel st.dstCopy c.1
    let st1 : Heap.CopyState D := { st with m_Excel := a.1, newExcel := new1, store := a.2 }
    match st.dstCopy.setRow (wrap32 (st.dstCopy.getRow + 1)) with
    | none => .error st1
    | some dst1 => Heap.writeColumn colOffset rowOffset n { st1 with dstCopy := dst1 }

/-- Outer loop of the second phase of `copyRect`, `n` iterations left. -/
def Heap.writeColumns (dst : CPos) (h colOffset rowOffset : Int) :
    Nat → Heap.CopyState D → Except (Heap.CopyState D) (Heap.CopyState D)
  | 0, st => .ok st
  | n + 1, st =>
    match st.dstCopy.setRow dst.getRow with
    | none => .error st
    | some dst0 =>
      match Heap.writeColumn colOffset rowOffset h.toNat { st with dstCopy := dst0 } with
      | .error st1 => .error st1
      | .ok st1 =>
        match st1.dstCopy.setCol (wrap32 (st1.dstCopy.getCol + 1)) with
        | none => .error st1
        | some dst1 => Heap.writeColumns dst h colOffset rowOffset n { st1 with dstCopy := dst1 }

/-- The end of `copyRect`, by `return` or by an exception: the local map `newExcel` is
destroyed with its objects. -/
def Heap.CopyState.leave (st : Heap.CopyState D) (sheet : Heap.CSpreadsheet) :
    Heap.CSpreadsheet × Heap.Store D :=
  ({ sheet with m_Excel := st.m_Excel }, st.store.deleteAll (Heap.mapPointers st.newExcel))

/-- Method `copyRect(CPos dst, CPos src, int w, int h)`: the sheet and the store after the
call returned (`Except.ok`) or threw `invalid_argument` (`Except.error`). -/
def Heap.CSpreadsheet.copyRect (sheet : Heap.CSpreadsheet) (store : Heap.Store D)
    (dst src : CPos) (w h : Int) :
    Except (Heap.CSpreadsheet × Heap.Store D) (Heap.CSpreadsheet × Heap.Store D) :=
  match Heap.copyColumns dst src h w.toNat
      { srcCopy := src, dstCopy := dst, m_Excel := sheet.m_Excel, newExcel := [],
        store := store } with
  | .error st => .error (st.leave sheet)
  | .ok st1 =>
    -- Reset dst column
    match st1.dstCopy.setCol dst.getCol with
    | none => .error (st1.leave sheet)
    | some dstCopy =>
      match Heap.writeColumns dst h (wrap32 (dst.getCol - src.getCol))
          (wrap32 (dst.getRow - src.getRow)) w.toNat { st1 with dstCopy := dstCopy } with
      | .error st => .error (st.leave sheet)
      | .ok st2 => .ok (st2.leave sheet)

/-- A call that changes a sheet: `setCell(pos, contents)`, with the run of the parser on
the contents, or `copyRect(dst, src, w, h)`. -/
inductive Heap.Mutation (D : Type) where
  | setCell (pos : CPos) (run : ParserRun D) : Heap.Mutation D
  | copyRect (dst src : CPos) (w h : Int) : Heap.Mutation D

/-- The sheet and the store after a call of `setCell` or `copyRect`, however the call
ended. -/
def Heap.CSpreadsheet.apply (sheet : Heap.CSpreadsheet) (h : Heap.Store D) :
    Heap.Mutation D → Heap.CSpreadsheet × Heap.Store D
  | .setCell pos run => (sheet.setCell h pos run).2
  | .copyRect dst src w h1 =>
    match sheet.copyRect h dst src w h1 with
    | .ok r => r
    | .error r => r

/-- Every deleted address is the address of an object that was created. -/
def Heap.Store.Sound (h : Heap.Store D) : Prop := ∀ a ∈ h.deleted, a < h.objs.length

/-- The sheet owns its objects: no two of its pointers hold the same address, and every
pointer points to a live object. -/
def Heap.CSpreadsheet.Valid (sheet : Heap.CSpreadsheet) (h : Heap.Store D) : Prop :=
  sheet.pointers.Nodup ∧ ∀ a ∈ sheet.pointers, h.Live a

/-- Two sheets in one store, each owning its objects, with no object in common. -/
def Heap.Separate (h : Heap.Store D) (sheet1 sheet2 : Heap.CSpreadsheet) : Prop :=
  h.Sound ∧ sheet1.Valid h ∧ sheet2.Valid h ∧ ∀ a ∈ sheet1.pointers, a ∉ sheet2.pointers

/-- The pointers `owned` of the sheet at work, against the addresses `others` that it does
not own: `owned` are distinct addresses of live objects outside `others`, and `others` and
the deleted addresses are addresses of the store. -/
def Heap.Owns (others : List Nat) (h : Heap.Store D) (owned : List Nat) : Prop :=
  owned.Nodup ∧ (∀ a ∈ owned, h.Live a ∧ a ∉ others) ∧
  (∀ b ∈ others, b < h.objs.length) ∧ h.Sound

/-- The store `h1` keeps the objects of `h`: every object of `h` reads the same in `h1`,
and no address of `others` is deleted in `h1` that was not deleted in `h`. -/
def Heap.Keeps (others : List Nat) (h h1 : Heap.Store D) : Prop :=
  h.objs.length ≤ h1.objs.length ∧
  (∀ a, a < h.objs.length → h1.read a = h.read a) ∧
  ∀ b ∈ others, b ∉ h.deleted → b ∉ h1.deleted

/-- Two sheets and the store that holds their objects. -/
structure Heap.TwoSheets (D : Type) where
  sheet1 : Heap.CSpreadsheet
  sheet2 : Heap.CSpreadsheet
  store : Heap.Store D

/-- A call of `setCell` or `copyRect` on the first sheet (`true`) or on the second
(`false`). -/
def Heap.TwoSheets.call (t : Heap.TwoSheets D) (c : Bool × Heap.Mutation D) :
    Heap.TwoSheets D :=
  if c.1 then
    { t with sheet1 := (t.sheet1.apply t.store c.2).1, store := (t.sheet1.apply t.store c.2).2 }
  else
    { t with sheet2 := (t.sheet2.apply t.store c.2).1, store := (t.sheet2.apply t.store c.2).2 }

/-- A sequence of calls, each on one of the two sheets. -/
def Heap.TwoSheets.calls (t : Heap.TwoSheets D) (cs : List (Bool × Heap.Mutation D)) :
    Heap.TwoSheets D :=
  cs.foldl Heap.TwoSheets.call t

/-- A map read through its pointers. -/
def Heap.mapView (h : Heap.Store D) (m : Heap.CellMap) : CppSpreadsheet.CellMap D :=
  m.map (fun e => (e.1, e.2.map h.read))

/-- The local variables of the first phase of `copyRect` read through the pointers. -/
def Heap.CopyState.view (st : Heap.CopyState D) : CppSpreadsheet.CopyState D :=
  { srcCopy := st.srcCopy
    dstCopy := st.dstCopy
    m_Excel := Heap.mapView st.store st.m_Excel
    newExcel := Heap.mapView st.store st.newExcel }

/-- The local variables of the second phase of `copyRect` read through the pointers. -/
def Heap.CopyState.writeView (st : Heap.CopyState D) : WriteState D :=
  { dstCopy := st.dstCopy
    m_Excel := Heap.mapView st.store st.m_Excel
    newExcel := Heap.mapView st.store st.newExcel }

/-- The sheet of values after a call of `setCell` or `copyRect`, however the call ended:
the methods on sheets of values. -/
def Heap.Mutation.onValues (mu : Heap.Mutation D) (sheet : CppSpreadsheet.CSpreadsheet D) :
    CppSpreadsheet.CSpreadsheet D :=
  match mu with
  | .setCell pos run => (sheet.setCellRun pos run).2
  | .copyRect dst src w h =>
    match sheet.copyRect dst src w h with
    | .ok r => r
    | .error r => r

/-- Store of the objects of the sheet `A1 = 1`, `A2 = "x"`, `B1 = A1 + 1`. -/
def Heap.formatStore : Heap.Store ℚ :=
  { objs := [.CNumber 1, .CString ['x'], .CReference posA1, .CNumber 1, .CAdd]
    deleted := [] }

/-- Sheet `A1 = 1`, `A2 = "x"`, `B1 = A1 + 1` by the addresses of its objects in
`Heap.formatStore`. -/
def Heap.formatSheet : Heap.CSpreadsheet :=
  { m_Excel := [(posA1, [0]), (posA2, [1]), (posB1, [2, 3, 4])]
    m_ExprBuilder := []
    calledPositions := [] }

/-- Sheet without cells, as the default constructor makes it. -/
def Heap.emptySheet : Heap.CSpreadsheet :=
  { m_Excel := [], m_ExprBuilder := [], calledPositions := [] }

end Objects

/-! ## The accesses to the evaluation stack (CExprNodes.h, CSpreadsheet.h)

The methods `getValue` of the expression classes with every `top()` and `pop()` of
`stack<CValue>` written out: on an empty stack they are undefined in C++, here `none`. -/

section Checked

variable {D : Type} [DoubleOps D]

/-- Member `top()` of `stack<CValue>`; `none` on an empty stack, where it is undefined. -/
def Checked.top (values : ValueStack D) : Option (CValue D) := values.head?

/-- Member `pop()` of `stack<CValue>`; `none` on an empty stack, where it is undefined. -/
def Checked.pop : ValueStack D → Option (ValueStack D)
  | [] => none
  | _ :: rest => some rest

/-- Function `getTwoTopValues`: `rhs = top(); pop(); lhs = top(); pop();`. -/
def Checked.getTwoTopValues (values : ValueStack D) :
    Option ((CValue D × CValue D) × ValueStack D) :=
  match Checked.top values with
  | none => none
  | some rhs =>
    match Checked.pop values with
    | none => none
    | some values1 =>
      match Checked.top values1 with
      | none => none
      | some lhs =>
        match Checked.pop values1 with
        | none => none
        | some values2 => some ((lhs, rhs), values2)

/-- The frame of `getValue` of the binary operators: the test of `values.size()`, the
call of `getTwoTopValues`, and `combine` for what the class does with the operands: a
value to `emplace`, with `return true`, or `none` for `return false`. -/
def Checked.binary (combine : CValue D → CValue D → Option (CValue D))
    (values : ValueStack D) : Option (Bool × ValueStack D) :=
  if values.length ≥ 2 then
    match Checked.getTwoTopValues values with
    | none => none
    | some ((lhs, rhs), rest) =>
      match combine lhs rhs with
      | some v => some (true, v :: rest)
      | none => some (false, rest)
  else some (false, values)

/-- The operands of `CAdd`: the sum of two numbers, the concatenation of two values that
are not empty. -/
def Checked.addCombine (lhs rhs : CValue D) : Option (CValue D) :=
  match lhs, rhs with
  | .double left, .double right => some (.double (DoubleOps.add left right))
  | .monostate, _ => none
  | _, .monostate => none
  | lhs, rhs =>
    let left := match lhs with
      | .double d => doubleToStr d
      | .string s => s
      | .monostate => []
    let right := match rhs with
      | .double d => doubleToStr d
      | .string s => s
      | .monostate => []
    some (.string (left ++ right))

/-- The operands of `CSub`, `CMul` and `CPow`: two numbers. -/
def Checked.arithCombine (op : D → D → D) (lhs rhs : CValue D) : Option (CValue D) :=
  match lhs, rhs with
  | .double left, .double right => some (.double (op left right))
  | _, _ => none

/-- The operands of `CDiv`: two numbers, the right one not zero. -/
def Checked.divCombine (lhs rhs : CValue D) : Option (CValue D) :=
  match lhs, rhs with
  | .double left, .double right =>
    if DoubleOps.ne right DoubleOps.zero then some (.double (DoubleOps.div left right))
    else none
  | _, _ => none

/-- The operands of the comparisons: two numbers or two texts. -/
def Checked.compareCombine (opD : D → D → Bool) (opS : List Char → List Char → Bool)
    (lhs rhs : CValue D) : Option (CValue D) :=
  match lhs, rhs with
  | .double l, .double r => some (.double (boolToDouble (opD l r)))
  | .string l, .string r => some (.double (boolToDouble (opS l r)))
  | _, _ => none

/-- Method `CNeg::getValue`: `if (!values.empty()) { operand = values.top();
values.pop(); ... }`. -/
def Checked.negGetValue (values : ValueStack D) : Option (Bool × ValueStack D) :=
  if !values.isEmpty then
    match Checked.top values with
    | none => none
    | some operand =>
      match Checked.pop values with
      | none => none
      | some rest =>
        match operand with
        | .double val => some (true, .double (DoubleOps.neg val) :: rest)
        | _ => some (false, rest)
  else some (false, values)

/-- Virtual method `CExpr::getValue` with the stack accesses written out: the outer `none`
is an access to an empty stack, the inner one the exhausted bound of `sheetGetValue`. -/
def Checked.getValue (sheetGetValue : Evaluator D) (e : CExpr D) (sheet : CSpreadsheet D)
    (values : ValueStack D) : Option (Option (Bool × CSpreadsheet D × ValueStack D)) :=
  let pure (r : Option (Bool × ValueStack D)) :
      Option (Option (Bool × CSpreadsheet D × ValueStack D)) :=
    r.map (fun x => some (x.1, sheet, x.2))
  match e with
  | .CAdd => pure (Checked.binary Checked.addCombine values)
  | .CSub => pure (Checked.binary (Checked.arithCombine DoubleOps.sub) values)
  | .CMul => pure (Checked.binary (Checked.arithCombine DoubleOps.mul) values)
  | .CDiv => pure (Checked.binary Checked.divCombine values)
  | .CPow => pure (Checked.binary (Checked.arithCombine DoubleOps.pow) values)
  | .CNeg => pure (Checked.negGetValue values)
  | .CEq => pure (Checked.binary
      (Checked.compareCombine DoubleOps.eq (fun l r => decide (l = r))) values)
  | .CNe => pure (Checked.binary
      (Checked.compareCombine DoubleOps.ne (fun l r => decide (l ≠ r))) values)
  | .CLt => pure (Checked.binary
      (Checked.compareCombine DoubleOps.lt (fun l r => decide (l < r))) values)
  | .CLe => pure (Checked.binary
      (Checked.compareCombine DoubleOps.le (fun l r => decide (l ≤ r))) values)
  | .CGt => pure (Checked.binary
      (Checked.compareCombine DoubleOps.gt (fun l r => decide (l > r))) values)
  | .CGe => pure (Checked.binary
      (Checked.compareCombine DoubleOps.ge (fun l r => decide (l ≥ r))) values)
  | .CNumber n => some (some (true, sheet, .double n :: values))
  | .CString s => some (some (true, sheet, .string s :: values))
  | .CReference p => some (referenceGetValue sheetGetValue p sheet values)

/-- The end of `CSpreadsheet::getValue`: `if (!values.empty()) return values.top();
return {};`. -/
def Checked.result (values : ValueStack D) : Option (CValue D) :=
  if !values.isEmpty then Checked.top values else some .monostate

/-- The classes whose `getValue` takes two operands from the stack. -/
def CExpr.isBinaryOperator : CExpr D → Bool
  | .CAdd | .CSub | .CMul | .CDiv | .CPow => true
  | .CEq | .CNe | .CLt | .CLe | .CGt | .CGe => true
  | _ => false

end Checked

/-! ## The plain recursive evaluator, as the specification words it -/

section Plain

variable {D : Type} [DoubleOps D]

/-- The value of a cell from the outcome of its loop: the empty value after a failed
expression, otherwise the top of the stack, or the empty value for an empty stack. -/
def plainLeave : Bool × CSpreadsheet D × ValueStack D → CValue D × CSpreadsheet D
  | (false, sheet, _) => (.monostate, sheet)
  | (true, sheet, values) => (topOrEmpty values, sheet)

/-- The recursive evaluator without a set of positions under evaluation: the expressions
of the cell are run in order from the empty stack, a reference evaluating its cell by the
same evaluator. The sheet is not changed. `fuel` bounds the depth of the recursion; `none`
when it is exhausted, as on every cell of a reference cycle. -/
def plainValueFuel : Nat → CSpreadsheet D → CPos → Option (CValue D × CSpreadsheet D)
  | 0, _, _ => none
  | fuel + 1, sheet, pos =>
    (CSpreadsheet.evalLoop (fun s p => plainValueFuel fuel s p) (mapGet sheet.m_Excel pos)
      sheet []).map plainLeave

end Plain

/-! ## The serialized format read back, as the specification words it -/

section Format

variable {D : Type} [DoubleOps D]

/-- The whitespace-delimited tokens of a text, at most `fuel` of them. -/
def tokensFuel : Nat → List Char → List (List Char)
  | 0, _ => []
  | fuel + 1, s =>
    let s1 := s.dropWhile isspace
    if s1.isEmpty then []
    else s1.takeWhile (fun c => !isspace c)
      :: tokensFuel fuel (s1.dropWhile (fun c => !isspace c))

/-- The whitespace-delimited tokens of a text, in order. -/
def tokens (s : List Char) : List (List Char) := tokensFuel (s.length + 1) s

/-- The text without its whitespace. -/
def withoutWhitespace (s : List Char) : List Char := s.filter (fun c => !isspace c)

/-- The number is read back from what `os << double` writes for it: in the place where
`save` writes a number, between two spaces, `is >> double` gives the number and stops at
the space after it. -/
def NumberReadsBack (x : D) : Prop :=
  ∀ (rest : List Char) (y : D),
    IStream.readDouble
        { input := ' ' :: (DoubleOps.print x ++ ' ' :: rest), failbit := false,
          eofbit := false } y
      = ({ input := ' ' :: rest, failbit := false, eofbit := false }, x)

/-- The position is rendered with letters: a column from 0 to 2147483646 and a row from 0
to 2147483647. -/
def CPos.Renders (p : CPos) : Prop :=
  0 ≤ p.m_Col ∧ p.m_Col < 2147483647 ∧ 0 ≤ p.m_Row ∧ p.m_Row ≤ 2147483647

/-- The limits of the format on an expression: a number that is read back, a text none
of whose tokens is the marker `endOfString`, a reference to a position that is rendered
with letters. -/
def CExpr.Saveable : CExpr D → Prop
  | .CNumber x => NumberReadsBack x
  | .CString s => "endOfString".toList ∉ tokens s
  | .CReference p => p.Renders
  | _ => True

/-- What `load` makes of an expression that `save` wrote: a text loses its whitespace. -/
def CExpr.loaded : CExpr D → CExpr D
  | .CString s => .CString (withoutWhitespace s)
  | e => e

/-- The limits of the format that the specification states for an expression: an
operator, a reference with a column and a row that are not negative, a text without
whitespace other than `endOfString`, a number that is read back. -/
def CExpr.WithinStatedLimits : CExpr D → Prop
  | .CNumber x => NumberReadsBack x
  | .CString s => (∀ c ∈ s, isspace c = false) ∧ s ≠ "endOfString".toList
  | .CReference p => 0 ≤ p.m_Col ∧ 0 ≤ p.m_Row
  | _ => True

end Format

/-! ## Streams between two extractions -/

/-- A stream on which the next extraction is attempted: `failbit` is not set, and `eofbit`
is set only at the end of the input. -/
def IStream.Ready (is : IStream) : Prop :=
  is.failbit = false ∧ (is.eofbit = true → is.input = [])

/-- The stream after an extraction that took its characters and left `rest`: `eofbit` is
set when the extraction reached the end of the input. -/
def IStream.after (rest : List Char) : IStream :=
  { input := rest, failbit := false, eofbit := rest.isEmpty }

/-- Position `B2`. -/
def posB2 : CPos := ⟨1, 2, false, false⟩

/-- Sheet with a diamond of references: `A1 = 1`, `B1 = A1`, `B2 = A1 + A1`,
`C1 = B1 + B2 + B1`. -/
def diamondSheet : CSpreadsheet ℚ :=
  { m_Excel := [(posA1, [.CNumber 1]),
                (posB1, [.CReference posA1]),
                (posB2, [.CReference posA1, .CReference posA1, .CAdd]),
                (posC1, [.CReference posB1, .CReference posB2, .CAdd, .CReference posB1,
                         .CAdd])]
    m_ExprBuilder := []
    calledPositions := [] }

/-- Sheet whose cell `A1` holds the number 1 followed by an addition: the addition finds
one value on the stack. -/
def underflowSheet : CSpreadsheet ℚ :=
  { m_Excel := [(posA1, [.CNumber 1, .CAdd])], m_ExprBuilder := [], calledPositions := [] }

/-- Sheet whose only cell `A1` holds the text `x endOfString y`. -/
def markerTextSheet : CSpreadsheet ℚ :=
  { m_Excel := [(posA1, [.CString "x endOfString y".toList])]
    m_ExprBuilder := []
    calledPositions := [] }

/-- Sheet whose only cell `A1` holds a reference to the position with column 2147483647
and row 1, which the constructor gives for the text `FXSHRXX1`. -/
def lastColumnReferenceSheet : CSpreadsheet ℚ :=
  { m_Excel := [(posA1, [.CReference ⟨2147483647, 1, false, false⟩])]
    m_ExprBuilder := []
    calledPositions := [] }

/-! # Theorems -/

/-! ## Character classes -/

theorem isDigit_iff (c : Char) : c.isDigit = true ↔ 48 ≤ c.toNat ∧ c.toNat ≤ 57 := by
  simp only [Char.isDigit, Bool.and_eq_true, decide_eq_true_eq, Char.toNat, ge_iff_le]
  rw [UInt32.le_def, UInt32.le_def, BitVec.le_def, BitVec.le_def]
  rfl

theorem isUpper_iff (c : Char) : c.isUpper = true ↔ 65 ≤ c.toNat ∧ c.toNat ≤ 90 := by
  simp only [Char.isUpper, Bool.and_eq_true, decide_eq_true_eq, Char.toNat, ge_iff_le]
  rw [UInt32.le_def, UInt32.le_def, BitVec.le_def, BitVec.le_def]
  rfl

theorem isLower_iff (c : Char) : c.isLower = true ↔ 97 ≤ c.toNat ∧ c.toNat ≤ 122 := by
  simp only [Char.isLower, Bool.and_eq_true, decide_eq_true_eq, Char.toNat, ge_iff_le]
  rw [UInt32.le_def, UInt32.le_def, BitVec.le_def, BitVec.le_def]
  rfl

theorem isAlpha_iff (c : Char) :
    c.isAlpha = true ↔ (65 ≤ c.toNat ∧ c.toNat ≤ 90) ∨ (97 ≤ c.toNat ∧ c.toNat ≤ 122) := by
  simp only [Char.isAlpha, Bool.or_eq_true, isUpper_iff, isLower_iff]

theorem isAlpha_not_isDigit {c : Char} (h : c.isAlpha = true) : c.isDigit = false := by
  rw [isAlpha_iff] at h
  rw [← Bool.not_eq_true, isDigit_iff]
  omega

theorem isAlpha_ne_dollar {c : Char} (h : c.isAlpha = true) : c ≠ '$' := by
  rintro rfl
  exact absurd h (by decide)

/-! ## Address parsing -/

theorem findIdx_head {p : Char → Bool} (H : List Char) (d : Char) (ds : List Char)
    (hH : ∀ c ∈ H, p c = false) (hd : p d = true) :
    (H ++ d :: ds).findIdx p = H.length := by
  induction H with
  | nil => simp [List.findIdx_cons, hd]
  | cons a H ih =>
    have ha : p a = false := hH a (List.mem_cons_self _ _)
    have := ih (fun c hc => hH c (List.mem_cons_of_mem _ hc))
    simp [List.findIdx_cons, ha, this]

theorem parseColumn_isSome (cs : List Char) (col : Int) :
    (CPos.parseColumn cs col).isSome = true ↔ ∀ c ∈ cs, c.isAlpha = true := by
  induction cs generalizing col with
  | nil => simp [CPos.parseColumn]
  | cons c cs ih =>
    by_cases hc : c.isAlpha = true
    · simp [CPos.parseColumn, hc, ih]
    · simp [CPos.parseColumn, hc]

theorem parseRow_isSome (cs : List Char) (row : Int) :
    (CPos.parseRow cs row).isSome = true ↔ ∀ c ∈ cs, c.isDigit = true := by
  induction cs generalizing row with
  | nil => simp [CPos.parseRow]
  | cons c cs ih =>
    by_cases hc : c.isDigit = true
    · simp [CPos.parseRow, hc, ih]
    · simp [CPos.parseRow, hc]

/-- The constructor on a text of the grammar: the column letters and the row digits are
handed to the two loops, the flags are the two markers. -/
theorem parse_of_parts (absCol absRow : Bool) (letters digits : List Char)
    (hl : letters ≠ []) (hla : ∀ c ∈ letters, c.isAlpha = true)
    (hd : digits ≠ []) (hda : ∀ c ∈ digits, c.isDigit = true) :
    CPos.parse ((if absCol then ['$'] else []) ++ letters ++ (if absRow then ['$'] else [])
        ++ digits)
      = (CPos.parseColumn letters 0).bind (fun col =>
          (CPos.parseRow digits 0).bind (fun row =>
            some ⟨wrap32 (col - 1), row, absCol, absRow⟩)) := by
  obtain ⟨d, ds, rfl⟩ := List.exists_cons_of_ne_nil hd
  obtain ⟨l, ls, rfl⟩ := List.exists_cons_of_ne_nil hl
  have hdd : d.isDigit = true := hda d (List.mem_cons_self _ _)
  have hll : l ≠ '$' := isAlpha_ne_dollar (hla l (List.mem_cons_self _ _))
  set H := (if absCol then ['$'] else []) ++ (l :: ls) ++ (if absRow then ['$'] else [])
    with hH
  have hHnd : ∀ c ∈ H, c.isDigit = false := by
    intro c hc
    simp only [hH, List.mem_append] at hc
    rcases hc with (hc | hc) | hc
    · cases absCol <;> simp at hc; subst hc; decide
    · exact isAlpha_not_isDigit (hla c hc)
    · cases absRow <;> simp at hc; subst hc; decide
  have hidx := findIdx_head H d ds hHnd hdd
  have hHpos : 0 < H.length := by
    simp only [hH, List.length_append, List.length_cons]; omega
  unfold CPos.parse
  simp only [hidx, List.length_append, List.length_cons, List.take_left', List.drop_left']
  have h1 : ¬ (H.length ≥ H.length + (ds.length + 1) ∨ H.length = 0) := by omega
  simp only [h1, if_false]
  have hlast : (l :: ls).getLast? ≠ some '$' := by
    intro h
    have := List.mem_of_getLast?_eq_some h
    exact isAlpha_ne_dollar (hla _ this) rfl
  have e1 : (l :: (ls ++ ['$'])).getLast? = some '$' := by
    rw [← List.cons_append, List.getLast?_concat]
  have e2 : (l :: (ls ++ ['$'])).dropLast = l :: ls := by
    rw [← List.cons_append, List.dropLast_concat]
  cases absCol <;> cases absRow <;>
    simp [hH, hll, hlast, e1, e2] <;>
    cases h1 : CPos.parseColumn (l :: ls) 0 <;> simp <;>
    cases h2 : CPos.parseRow (d :: ds) 0 <;> simp <;>
    first | exact ⟨hll, hlast⟩ | exact hll | exact hlast

theorem split_front (cs : List Char) :
    cs = (if (!cs.isEmpty && cs.head? == some '$') = true then ['$'] else [])
      ++ (if (!cs.isEmpty && cs.head? == some '$') = true then cs.drop 1 else cs) := by
  cases cs with
  | nil => simp
  | cons a as =>
    by_cases h : a = '$'
    · subst h; simp
    · simp [h]

theorem split_back (cs : List Char) :
    cs = (if (!cs.isEmpty && cs.getLast? == some '$') = true then cs.dropLast else cs)
      ++ (if (!cs.isEmpty && cs.getLast? == some '$') = true then ['$'] else []) := by
  by_cases h : cs.getLast? = some '$'
  · have hne : cs ≠ [] := by rintro rfl; simp at h
    have := List.dropLast_append_getLast? '$' (by simp [h] : '$' ∈ cs.getLast?)
    simp [h, hne, this]
  · simp [h]

/-- Every text the constructor accepts is a text of the address grammar. -/
theorem validAddress_of_parse (T : List Char) (p : CPos) (h : CPos.parse T = some p) :
    ValidAddress T := by
  generalize hp : T.findIdx Char.isDigit = pos at h
  generalize hcs : T.take pos = cs at h
  generalize hac : (!cs.isEmpty && cs.head? == some '$') = absCol at h
  generalize hcs1 : (if absCol = true then cs.drop 1 else cs) = cs1 at h
  generalize har : (!cs1.isEmpty && cs1.getLast? == some '$') = absRow at h
  generalize hcs2 : (if absRow = true then cs1.dropLast else cs1) = cs2 at h
  have key : CPos.parse T =
      if pos ≥ T.length ∨ pos = 0 then none
      else if cs2.isEmpty = true then none
      else match CPos.parseColumn cs2 0 with
        | none => none
        | some col =>
          match CPos.parseRow (T.drop pos) 0 with
          | none => none
          | some row => some ⟨wrap32 (col - 1), row, absCol, absRow⟩ := by
    subst hp hcs hac hcs1 har hcs2
    rfl
  rw [key] at h
  by_cases hpos : pos ≥ T.length ∨ pos = 0
  · simp [hpos] at h
  by_cases hne : cs2.isEmpty = true
  · simp [hpos, hne] at h
  cases hc : CPos.parseColumn cs2 0 with
  | none => simp [hpos, hne, hc] at h
  | some col =>
    cases hr : CPos.parseRow (T.drop pos) 0 with
    | none => simp [hpos, hne, hc, hr] at h
    | some row =>
      refine ⟨absCol, cs2, absRow, T.drop pos, ?_, ?_, ?_, ?_, ?_⟩
      · simpa using hne
      · exact (parseColumn_isSome cs2 0).1 (by simp [hc])
      · intro hd
        have := List.drop_eq_nil_iff.1 hd
        omega
      · exact (parseRow_isSome _ 0).1 (by simp [hr])
      · have h1 : cs = (if absCol = true then ['$'] else []) ++ cs1 := by
          rw [← hcs1, ← hac]; exact split_front cs
        have h2 : cs1 = cs2 ++ (if absRow = true then ['$'] else []) := by
          rw [← hcs2, ← har]; exact split_back cs1
        calc T = cs ++ T.drop pos := by rw [← hcs]; exact (List.take_append_drop pos T).symm
          _ = _ := by rw [h1, h2]; simp

theorem toNat_ofNat_small (n : Nat) (h : n < 55296) : (Char.ofNat n).toNat = n := by
  have hv : n.isValidChar := Or.inl h
  simp only [Char.ofNat, hv, dite_true, Char.ofNatAux, Char.toNat]
  simp [UInt32.toNat]

theorem toLower_toNat (c : Char) :
    c.toLower.toNat = if 65 ≤ c.toNat ∧ c.toNat ≤ 90 then c.toNat + 32 else c.toNat := by
  unfold Char.toLower
  simp only [ge_iff_le]
  split
  · rw [toNat_ofNat_small]; omega
  · rfl

theorem toUpper_toNat (c : Char) :
    c.toUpper.toNat = if 97 ≤ c.toNat ∧ c.toNat ≤ 122 then c.toNat - 32 else c.toNat := by
  unfold Char.toUpper
  simp only [ge_iff_le]
  split
  · rw [toNat_ofNat_small]; omega
  · rfl

theorem wrap32_of_range {x : Int} (h1 : -2147483648 ≤ x) (h2 : x ≤ 2147483647) :
    wrap32 x = x := by
  unfold wrap32; omega

theorem wrap32_range (x : Int) : -2147483648 ≤ wrap32 x ∧ wrap32 x ≤ 2147483647 := by
  unfold wrap32; omega

/-- Value of one column letter, `A = 1`, ..., `Z = 26`, whatever its case. -/
theorem letter_value {c : Char} (h : c.isAlpha = true) :
    1 ≤ c.toUpper.toNat - 'A'.toNat + 1 ∧ c.toUpper.toNat - 'A'.toNat + 1 ≤ 26 ∧
    (((c.toLower.toNat : Int) - ('a'.toNat : Int)) + 1)
      = ((c.toUpper.toNat - 'A'.toNat + 1 : Nat) : Int) ∧
    Char.ofNat ('A'.toNat + (c.toUpper.toNat - 'A'.toNat)) = c.toUpper := by
  rw [isAlpha_iff] at h
  have hA : 'A'.toNat = 65 := rfl
  have ha : 'a'.toNat = 97 := rfl
  rw [toLower_toNat, hA, ha]
  have hu := toUpper_toNat c
  refine ⟨by omega, ?_, ?_, ?_⟩
  · rw [hu]; split <;> omega
  · rw [hu]; split <;> split <;> omega
  · have : 65 + (c.toUpper.toNat - 65) = c.toUpper.toNat := by
      rw [hu]; split <;> omega
    rw [this, Char.ofNat_toNat]

theorem foldl_colStep_ge (cs : List Char) (acc : Nat) : acc ≤ cs.foldl colStep acc := by
  induction cs generalizing acc with
  | nil => simp
  | cons c cs ih =>
    simp only [List.foldl_cons]
    exact le_trans (by unfold colStep; omega) (ih _)

theorem parseColumn_eq (cs : List Char) (acc : Nat) (hcs : ∀ c ∈ cs, c.isAlpha = true)
    (hb : cs.foldl colStep acc ≤ 2147483647) :
    CPos.parseColumn cs (acc : Int) = some ((cs.foldl colStep acc : Nat) : Int) := by
  induction cs generalizing acc with
  | nil => simp [CPos.parseColumn]
  | cons c cs ih =>
    have hc := hcs c (List.mem_cons_self _ _)
    obtain ⟨h1, h2, h3, -⟩ := letter_value hc
    simp only [List.foldl_cons] at hb ⊢
    have hge := foldl_colStep_ge cs (colStep acc c)
    have hstep : colStep acc c ≤ 2147483647 := le_trans hge hb
    have hacc : acc * 26 ≤ 2147483647 := by unfold colStep at hstep; omega
    simp only [CPos.parseColumn, hc, Bool.not_true, Bool.false_eq_true, if_false]
    have hA : 'A'.toNat = 65 := rfl
    unfold colStep at hstep
    rw [hA] at hstep h1 h2
    rw [h3, @wrap32_of_range ((acc : Int) * 26) (by omega) (by omega), hA,
      wrap32_of_range (by omega) (by omega)]
    have := ih (colStep acc c) (fun c hc => hcs c (List.mem_cons_of_mem _ hc)) hb
    rw [← this]
    congr 1

theorem foldl_rowStep_ge (cs : List Char) (acc : Nat) : acc ≤ cs.foldl rowStep acc := by
  induction cs generalizing acc with
  | nil => simp
  | cons c cs ih =>
    simp only [List.foldl_cons]
    exact le_trans (by unfold rowStep; omega) (ih _)

theorem parseRow_eq (cs : List Char) (acc : Nat) (hcs : ∀ c ∈ cs, c.isDigit = true)
    (hb : cs.foldl rowStep acc ≤ 2147483647) :
    CPos.parseRow cs (acc : Int) = some ((cs.foldl rowStep acc : Nat) : Int) := by
  induction cs generalizing acc with
  | nil => simp [CPos.parseRow]
  | cons c cs ih =>
    have hc := hcs c (List.mem_cons_self _ _)
    have hd := (isDigit_iff c).1 hc
    simp only [List.foldl_cons] at hb ⊢
    have hge := foldl_rowStep_ge cs (rowStep acc c)
    have hstep : rowStep acc c ≤ 2147483647 := le_trans hge hb
    have h0 : '0'.toNat = 48 := rfl
    unfold rowStep at hstep
    rw [h0] at hstep
    simp only [CPos.parseRow, hc, Bool.not_true, Bool.false_eq_true, if_false]
    rw [h0, @wrap32_of_range ((acc : Int) * 10) (by omega) (by omega),
      wrap32_of_range (by omega) (by omega)]
    have := ih (rowStep acc c) (fun c hc => hcs c (List.mem_cons_of_mem _ hc)) hb
    rw [← this]
    congr 1
    unfold rowStep
    rw [h0]
    omega

/-! ## Rendering -/

theorem colLetters_zero (fuel : Nat) (result : List Char) :
    CPos.colLetters fuel 0 result = result := by
  cases fuel <;> simp [CPos.colLetters]

/-- The letters loop of `operator <<` undoes the letters loop of the constructor. -/
theorem colLetters_foldl (cs : List Char) (hcs : ∀ c ∈ cs, c.isAlpha = true) :
    ∀ (fuel : Nat) (result : List Char), cs.foldl colStep 0 ≤ fuel →
      CPos.colLetters fuel ((cs.foldl colStep 0 : Nat) : Int) result
        = cs.map Char.toUpper ++ result := by
  induction cs using List.reverseRecOn with
  | nil => intro fuel result _; simpa using colLetters_zero fuel result
  | append_singleton cs c ih =>
    intro fuel result hf
    have hc := hcs c (by simp)
    obtain ⟨h1, h2, -, h4⟩ := letter_value hc
    simp only [List.foldl_append, List.foldl_cons, List.foldl_nil] at hf ⊢
    set V := cs.foldl colStep 0 with hV
    have hA : 'A'.toNat = 65 := rfl
    rw [hA] at h1 h2 h4
    have hstep : colStep V c = V * 26 + (c.toUpper.toNat - 65 + 1) := rfl
    rw [hstep] at hf ⊢
    obtain ⟨fuel, rfl⟩ : ∃ f, fuel = f + 1 := ⟨fuel - 1, by omega⟩
    set k := c.toUpper.toNat - 65 with hk
    have hpos : ((V * 26 + (k + 1) : Nat) : Int) > 0 := by omega
    have hrem : (((V * 26 + (k + 1) : Nat) : Int) - 1) % 26 = (k : Int) := by omega
    have hdiv : (((V * 26 + (k + 1) : Nat) : Int) - (k : Int) - 1) / 26 = (V : Int) := by
      omega
    simp only [CPos.colLetters, hpos, if_true, hrem, hdiv, Int.toNat_ofNat, hA, h4]
    rw [ih (fun c hc' => hcs c (by simp [hc'])) fuel _ (by omega)]
    simp

theorem digitChar_of_digit {c : Char} (h : c.isDigit = true) :
    Nat.digitChar (c.toNat - 48) = c := by
  have hd := (isDigit_iff c).1 h
  have : c = Char.ofNat c.toNat := (Char.ofNat_toNat c).symm
  obtain ⟨k, hk⟩ : ∃ k, c.toNat = 48 + k ∧ k ≤ 9 := ⟨c.toNat - 48, by omega⟩
  rw [this, hk.1]
  have hk9 := hk.2
  interval_cases k <;> rfl

/-- Decimal output of the value of a digit string without a leading zero. -/
theorem toDigitsCore_foldl (cs : List Char) (hcs : ∀ c ∈ cs, c.isDigit = true)
    (hne : cs ≠ []) (hz : cs.head? ≠ some '0') :
    ∀ (fuel : Nat) (acc : List Char), cs.foldl rowStep 0 < fuel →
      Nat.toDigitsCore 10 fuel (cs.foldl rowStep 0) acc = cs ++ acc := by
  induction cs using List.reverseRecOn with
  | nil => exact absurd rfl hne
  | append_singleton cs c ih =>
    intro fuel acc hf
    have hc := hcs c (by simp)
    have hd := (isDigit_iff c).1 hc
    simp only [List.foldl_append, List.foldl_cons, List.foldl_nil] at hf ⊢
    set V := cs.foldl rowStep 0 with hV
    have hstep : rowStep V c = V * 10 + (c.toNat - 48) := rfl
    rw [hstep] at hf ⊢
    obtain ⟨fuel, rfl⟩ : ∃ f, fuel = f + 1 := ⟨fuel - 1, by omega⟩
    have hmod : (V * 10 + (c.toNat - 48)) % 10 = c.toNat - 48 := by omega
    have hdiv : (V * 10 + (c.toNat - 48)) / 10 = V := by omega
    simp only [Nat.toDigitsCore, hmod, hdiv, digitChar_of_digit hc]
    by_cases hcs0 : cs = []
    · subst hcs0
      simp [hV]
    · have hz' : cs.head? ≠ some '0' := by
        cases cs with
        | nil => exact absurd rfl hcs0
        | cons a as => simpa using hz
      have hVpos : 0 < V := by
        cases cs with
        | nil => exact absurd rfl hcs0
        | cons a as =>
          have ha := (isDigit_iff a).1 (hcs a (by simp))
          have ha0 : a ≠ '0' := by simpa using hz'
          have : a.toNat ≠ 48 := fun h => ha0 (by rw [← Char.ofNat_toNat a, h])
          have hge := foldl_rowStep_ge as (rowStep 0 a)
          have : rowStep 0 a = a.toNat - 48 := by simp [rowStep]
          simp only [hV, List.foldl_cons]
          omega
      have hV0 : V ≠ 0 := by omega
      simp only [hV0, if_false]
      rw [ih (fun c hc' => hcs c (by simp [hc'])) hcs0 hz' fuel _ (by omega)]
      simp

theorem foldl_rowStep_zeros (zs cs : List Char) (hz : ∀ c ∈ zs, c = '0') :
    (zs ++ cs).foldl rowStep 0 = cs.foldl rowStep 0 := by
  induction zs with
  | nil => rfl
  | cons z zs ih =>
    have : z = '0' := hz z (List.mem_cons_self _ _)
    subst this
    simp only [List.cons_append, List.foldl_cons]
    have : rowStep 0 '0' = 0 := by decide
    rw [this]
    exact ih (fun c hc => hz c (List.mem_cons_of_mem _ hc))

/-- Output `os << row` for the value of a digit string: the digits without leading zeros. -/
theorem printInt_foldl (ds : List Char) (hds : ∀ c ∈ ds, c.isDigit = true) :
    CPos.printInt ((ds.foldl rowStep 0 : Nat) : Int)
      = (if (ds.dropWhile (fun c => c == '0')).isEmpty then ['0']
          else ds.dropWhile (fun c => c == '0')) := by
  have hsplit := List.takeWhile_append_dropWhile (fun c => c == '0') ds
  set zs := ds.takeWhile (fun c => c == '0') with hzs
  set rs := ds.dropWhile (fun c => c == '0') with hrs
  have hzs0 : ∀ c ∈ zs, c = '0' := by
    intro c hc
    have := List.mem_takeWhile_imp hc
    simpa using this
  have hval : ds.foldl rowStep 0 = rs.foldl rowStep 0 := by
    rw [← hsplit]; exact foldl_rowStep_zeros zs rs hzs0
  have hnn : ¬ ((ds.foldl rowStep 0 : Nat) : Int) < 0 := by omega
  simp only [CPos.printInt, hnn, if_false, Int.toNat_ofNat]
  rw [hval]
  by_cases hr : rs = []
  · simp [hr]; rfl
  · have hrd : ∀ c ∈ rs, c.isDigit = true := fun c hc =>
      hds c (by rw [← hsplit]; exact List.mem_append_right _ hc)
    have hhead : rs.head? ≠ some '0' := by
      intro h
      cases hrs' : rs with
      | nil => exact hr hrs'
      | cons a as =>
        rw [hrs'] at h
        simp only [List.head?_cons, Option.some.injEq] at h
        have := List.head_dropWhile_not (fun c => c == '0') ds (by rw [← hrs, hrs']; simp)
        simp only [← hrs] at this
        simp [hrs', h] at this
    have := toDigitsCore_foldl rs hrd hr hhead (rs.foldl rowStep 0 + 1) [] (by omega)
    simp only [Nat.toDigits, this, List.append_nil]
    simp [hr]

theorem takeWhile_head {p : Char → Bool} (H : List Char) (d : Char) (ds : List Char)
    (hH : ∀ c ∈ H, p c = true) (hd : p d = false) :
    (H ++ d :: ds).takeWhile p = H ∧ (H ++ d :: ds).dropWhile p = d :: ds := by
  induction H with
  | nil => simp [List.takeWhile_cons, List.dropWhile_cons, hd]
  | cons a H ih =>
    have ha : p a = true := hH a (List.mem_cons_self _ _)
    have := ih (fun c hc => hH c (List.mem_cons_of_mem _ hc))
    simp [List.takeWhile_cons, List.dropWhile_cons, ha, this]

/-- The three specification-side readings of a text of the address grammar. -/
theorem spec_readings (absCol absRow : Bool) (letters digits : List Char)
    (hla : ∀ c ∈ letters, c.isAlpha = true)
    (hd : digits ≠ []) (hda : ∀ c ∈ digits, c.isDigit = true) :
    let T := (if absCol then ['$'] else []) ++ letters ++ (if absRow then ['$'] else [])
      ++ digits
    columnNumber T = letters.foldl colStep 0 ∧ rowNumber T = digits.foldl rowStep 0 ∧
    canonicalForm T = (if absCol then ['$'] else []) ++ letters.map Char.toUpper
      ++ (if absRow then ['$'] else [])
      ++ (if (digits.dropWhile (fun c => c == '0')).isEmpty then ['0']
          else digits.dropWhile (fun c => c == '0')) := by
  intro T
  obtain ⟨d, ds, rfl⟩ := List.exists_cons_of_ne_nil hd
  have hdd : d.isDigit = true := hda d (List.mem_cons_self _ _)
  set H := (if absCol then ['$'] else []) ++ letters ++ (if absRow then ['$'] else [])
    with hH
  have hHnd : ∀ c ∈ H, (fun c : Char => !c.isDigit) c = true := by
    intro c hc
    simp only [hH, List.mem_append] at hc
    rcases hc with (hc | hc) | hc
    · cases absCol <;> simp at hc; subst hc; decide
    · simp [isAlpha_not_isDigit (hla c hc)]
    · cases absRow <;> simp at hc; subst hc; decide
  obtain ⟨ht, hdr⟩ := takeWhile_head (p := fun c : Char => !c.isDigit) H d ds hHnd
    (by simp [hdd])
  have hfil : H.filter Char.isAlpha = letters := by
    have h1 : letters.filter Char.isAlpha = letters := List.filter_eq_self.2 hla
    cases absCol <;> cases absRow <;> simp [hH, List.filter_append, h1]
  have hmap : H.map Char.toUpper = (if absCol then ['$'] else []) ++ letters.map Char.toUpper
      ++ (if absRow then ['$'] else []) := by
    cases absCol <;> cases absRow <;> simp [hH]
  refine ⟨?_, ?_, ?_⟩
  · show ((T.takeWhile _).filter _).foldl colStep 0 = _
    rw [ht, hfil]
  · show (T.dropWhile _).foldl rowStep 0 = _
    rw [hdr]
  · show (T.takeWhile _).map _ ++ _ = _
    rw [ht, hdr, hmap]

/-- C8. Position parsing succeeds exactly on the texts of the address grammar (an optional
`$`, one or more ASCII letters, an optional `$`, one or more decimal digits, nothing
else); on every other text it throws `invalid_argument`, as on the ten texts of the test
`testErrorCases`. -/
theorem parse_succeeds_iff_validAddress :
    (∀ T : List Char, (∃ p, CPos.parse T = some p) ↔ ValidAddress T) ∧
    (∀ T : List Char, ¬ ValidAddress T → CPos.parse T = none) ∧
    (∀ T ∈ ["", "1A", "$$A1", "A", "A1$", "A1B", "$1", "AB$", "A!1", "A-1"],
      CPos.parse (String.toList T) = none) := by
  have main : ∀ T : List Char, (∃ p, CPos.parse T = some p) ↔ ValidAddress T := by
    intro T
    constructor
    · rintro ⟨p, hp⟩
      exact validAddress_of_parse T p hp
    · rintro ⟨absCol, letters, absRow, digits, hl, hla, hd, hda, rfl⟩
      rw [parse_of_parts absCol absRow letters digits hl hla hd hda]
      have h1 := (parseColumn_isSome letters 0).2 hla
      have h2 := (parseRow_isSome digits 0).2 hda
      obtain ⟨col, hcol⟩ := Option.isSome_iff_exists.1 h1
      obtain ⟨row, hrow⟩ := Option.isSome_iff_exists.1 h2
      exact ⟨⟨wrap32 (col - 1), row, absCol, absRow⟩, by simp [hcol, hrow]⟩
  refine ⟨main, ?_, by decide⟩
  intro T hT
  cases h : CPos.parse T with
  | none => rfl
  | some p => exact absurd ((main T).1 ⟨p, h⟩) hT

/-- C9 (amended). For every valid address text whose column number and row number fit a
32-bit `int`, parsing succeeds and the position text that rendering writes after the
marker ` CPos ` is the canonical form of the text: the `$` markers where they were, the
letters in upper case, the row as a plain decimal integer. -/
theorem render_parse_eq_canonicalForm (T : List Char) (hT : ValidAddress T)
    (hcol : columnNumber T ≤ 2147483647) (hrow : rowNumber T ≤ 2147483647) :
    ∃ p, CPos.parse T = some p ∧ CPos.text p = canonicalForm T ∧
      CPos.print p = " CPos ".toList ++ canonicalForm T := by
  obtain ⟨absCol, letters, absRow, digits, hl, hla, hd, hda, rfl⟩ := hT
  obtain ⟨hc, hr, hcan⟩ := spec_readings absCol absRow letters digits hla hd hda
  rw [hc] at hcol
  rw [hr] at hrow
  have hpc := parseColumn_eq letters 0 hla hcol
  have hpr := parseRow_eq digits 0 hda hrow
  simp only [Nat.cast_zero] at hpc hpr
  have hpos : 1 ≤ letters.foldl colStep 0 := by
    obtain ⟨l, ls, rfl⟩ := List.exists_cons_of_ne_nil hl
    have := foldl_colStep_ge ls (colStep 0 l)
    have h1 := (letter_value (hla l (List.mem_cons_self _ _))).1
    simp only [List.foldl_cons]
    unfold colStep at this ⊢
    omega
  refine ⟨_, by rw [parse_of_parts absCol absRow letters digits hl hla hd hda, hpc, hpr]; rfl,
    ?_⟩
  have htext : CPos.text ⟨wrap32 (((letters.foldl colStep 0 : Nat) : Int) - 1),
      ((digits.foldl rowStep 0 : Nat) : Int), absCol, absRow⟩ = canonicalForm
        ((if absCol then ['$'] else []) ++ letters ++ (if absRow then ['$'] else [])
          ++ digits) := by
    rw [hcan]
    unfold CPos.text
    simp only
    rw [wrap32_of_range (by omega) (by omega)]
    have e : ((letters.foldl colStep 0 : Nat) : Int) - 1 + 1 = ((letters.foldl colStep 0 : Nat) : Int) := by
      omega
    rw [e, wrap32_of_range (by omega) (by omega), Int.toNat_ofNat,
      colLetters_foldl letters hla _ [] (le_refl _), printInt_foldl digits hda]
    simp
  exact ⟨htext, by unfold CPos.print; rw [htext]⟩

set_option maxRecDepth 100000 in
/-- Witness of C9 (amended) at the text `$ab$007`. -/
theorem render_parse_eq_canonicalForm_witness :
    ∃ p, CPos.parse "$ab$007".toList = some p ∧
      CPos.text p = canonicalForm "$ab$007".toList ∧
      CPos.print p = " CPos ".toList ++ canonicalForm "$ab$007".toList :=
  render_parse_eq_canonicalForm "$ab$007".toList
    ⟨true, ['a', 'b'], true, ['0', '0', '7'], by decide, by decide, by decide, by decide,
      by decide⟩
    (by decide) (by decide)

set_option maxRecDepth 100000 in
/-- C9, as stated, fails on a valid address text whose row does not fit an `int`: the
row of `A4294967297` is reduced to 1, and the text rendered is `A1`. -/
theorem render_parse_ne_canonicalForm_overflow :
    ValidAddress "A4294967297".toList ∧
    ∃ p, CPos.parse "A4294967297".toList = some p ∧ CPos.text p = "A1".toList ∧
      canonicalForm "A4294967297".toList = "A4294967297".toList ∧
      CPos.text p ≠ canonicalForm "A4294967297".toList := by
  refine ⟨⟨false, ['A'], false, "4294967297".toList, by decide, by decide, by decide,
    by decide, by decide⟩, ⟨0, 1, false, false⟩, by decide, by decide, by decide, by decide⟩

/-- C10 at the failing input: `changePosition(-1, 0)` on the parsed position `A1` leaves
column `-1`, while `setCol(-1)` on the same position throws. -/
theorem changePosition_leaves_negative_column :
    ∃ p, CPos.parse "A1".toList = some p ∧ (p.changePosition (-1) 0).getCol = -1 ∧
      (p.changePosition (-1) 0).getCol < 0 ∧ p.setCol (-1) = none := by
  refine ⟨⟨0, 1, false, false⟩, by decide, by decide, by decide, by decide⟩

/-! ## The position order, `std::map` and `std::set` -/

theorem lt_iff (a b : CPos) :
    CPos.lt a b = true ↔ a.m_Col < b.m_Col ∨ (a.m_Col = b.m_Col ∧ a.m_Row < b.m_Row) := by
  unfold CPos.lt
  by_cases h : a.m_Col = b.m_Col
  · simp [h]
  · simp only [ne_eq, h, not_false_eq_true, if_true, decide_eq_true_eq, false_and, or_false]

theorem same_iff (a b : CPos) :
    CPos.same a b = true ↔ a.m_Col = b.m_Col ∧ a.m_Row = b.m_Row := by
  unfold CPos.same
  simp only [Bool.and_eq_true, Bool.not_eq_true', ← Bool.not_eq_true, lt_iff]
  omega

theorem same_refl (a : CPos) : CPos.same a a = true := (same_iff a a).2 ⟨rfl, rfl⟩

theorem same_symm {a b : CPos} (h : CPos.same a b = true) : CPos.same b a = true := by
  rw [same_iff] at *; omega

theorem same_trans {a b c : CPos} (h1 : CPos.same a b = true) (h2 : CPos.same b c = true) :
    CPos.same a c = true := by
  rw [same_iff] at *; omega

theorem same_comm (a b : CPos) : CPos.same a b = CPos.same b a := by
  rw [Bool.eq_iff_iff]; exact ⟨same_symm, same_symm⟩

theorem lt_congr_right {a b : CPos} (h : CPos.same a b = true) (k : CPos) :
    CPos.lt k a = CPos.lt k b := by
  rw [Bool.eq_iff_iff, lt_iff, lt_iff]; rw [same_iff] at h; omega

theorem lt_congr_left {a b : CPos} (h : CPos.same a b = true) (k : CPos) :
    CPos.lt a k = CPos.lt b k := by
  rw [Bool.eq_iff_iff, lt_iff, lt_iff]; rw [same_iff] at h; omega

theorem same_congr_right {a b : CPos} (h : CPos.same a b = true) (k : CPos) :
    CPos.same k a = CPos.same k b := by
  rw [Bool.eq_iff_iff]
  exact ⟨fun h1 => same_trans h1 h, fun h1 => same_trans h1 (same_symm h)⟩

theorem not_lt_of_same {a b : CPos} (h : CPos.same a b = true) : CPos.lt a b = false := by
  rw [← Bool.not_eq_true, lt_iff]; rw [same_iff] at h; omega

theorem same_of_not_lt {a b : CPos} (h1 : CPos.lt a b = false) (h2 : CPos.lt b a = false) :
    CPos.same a b = true := by
  unfold CPos.same; simp [h1, h2]

section Map

variable {D : Type}

theorem mapFind_congr {a b : CPos} (h : CPos.same a b = true) (m : CellMap D) :
    mapFind m a = mapFind m b := by
  induction m with
  | nil => rfl
  | cons e m ih =>
    obtain ⟨k, v⟩ := e
    simp only [mapFind, lt_congr_right h k, lt_congr_left h k, ih]

theorem mapGet_congr {a b : CPos} (h : CPos.same a b = true) (m : CellMap D) :
    mapGet m a = mapGet m b := by
  unfold mapGet; rw [mapFind_congr h]

theorem mapFind_mapAssign (m : CellMap D) (key : CPos) (value : Expressions D) (k' : CPos) :
    mapFind (mapAssign m key value) k'
      = if CPos.same key k' = true then some value else mapFind m k' := by
  induction m with
  | nil =>
    simp only [mapAssign, mapFind]
    by_cases h1 : CPos.lt key k' = true
    · have : CPos.same key k' = false := by
        rw [← Bool.not_eq_true, same_iff]; rw [lt_iff] at h1; omega
      simp [h1, this]
    · by_cases h2 : CPos.lt k' key = true
      · have : CPos.same key k' = false := by
          rw [← Bool.not_eq_true, same_iff]; rw [lt_iff] at h2; omega
        simp [h1, h2, this]
      · have : CPos.same key k' = true :=
          same_of_not_lt (by simpa using h1) (by simpa using h2)
        simp [h1, h2, this]
  | cons e m ih =>
    obtain ⟨k, v⟩ := e
    simp only [mapAssign]
    by_cases hk : CPos.lt k key = true
    · simp only [hk, if_true, mapFind, ih]
      by_cases hs : CPos.same key k' = true
      · have : CPos.lt k k' = true := by rw [← lt_congr_right hs]; exact hk
        simp [hs, this]
      · simp [hs]
    · simp only [hk, if_false]
      by_cases hk2 : CPos.lt key k = true
      · simp only [hk2, if_true, mapFind]
        by_cases hs : CPos.same key k' = true
        · simp [hs, not_lt_of_same hs, not_lt_of_same (same_symm hs)]
        · simp only [hs, if_false]
          by_cases h1 : CPos.lt key k' = true
          · simp [h1]
          · have h2 : CPos.lt k' key = true := by
              rw [lt_iff]
              rw [same_iff] at hs
              rw [lt_iff] at h1
              omega
            have h3 : CPos.lt k' k = true := by
              rw [lt_iff] at h2 hk2 ⊢; omega
            have h4 : CPos.lt k k' = false := by
              rw [← Bool.not_eq_true, lt_iff]; rw [lt_iff] at h3; omega
            simp [h1, h2, h3, h4]
      · have hsk : CPos.same k key = true :=
          same_of_not_lt (by simpa using hk) (by simpa using hk2)
        simp only [hk2, if_false, mapFind]
        rw [lt_congr_left hsk k', lt_congr_right hsk k']
        by_cases hs : CPos.same key k' = true
        · simp [hs, not_lt_of_same hs, not_lt_of_same (same_symm hs)]
        · simp only [hs, if_false]
          by_cases h1 : CPos.lt key k' = true
          · simp only [h1, if_true]
            have : mapFind m k' = mapFind ((k, v) :: m) k' := by
              simp [mapFind, lt_congr_left hsk k', h1]
            rw [this]
            simp [mapFind, lt_congr_left hsk k', h1]
          · have h2 : CPos.lt k' key = true := by
              rw [lt_iff]
              rw [same_iff] at hs
              rw [lt_iff] at h1
              omega
            simp [h1, h2]

theorem mapGet_mapAssign (m : CellMap D) (key : CPos) (value : Expressions D) (k' : CPos) :
    mapGet (mapAssign m key value) k'
      = if CPos.same key k' = true then value else mapGet m k' := by
  unfold mapGet
  rw [mapFind_mapAssign]
  split <;> rfl

/-- Evaluating `m[key]` is the assignment of what is stored already, for a present key. -/
theorem mapTouch_of_find (m : CellMap D) (key : CPos) (v : Expressions D)
    (h : mapFind m key = some v) : mapTouch m key = m := by
  induction m with
  | nil => simp [mapFind] at h
  | cons e m ih =>
    obtain ⟨k, w⟩ := e
    simp only [mapFind] at h
    simp only [mapTouch]
    by_cases hk : CPos.lt k key = true
    · simp only [hk, if_true] at h ⊢
      rw [ih h]
    · simp only [hk, if_false] at h ⊢
      by_cases hk2 : CPos.lt key k = true
      · simp [hk2] at h
      · simp [hk2]

theorem mapFind_mapTouch (m : CellMap D) (key k' : CPos) :
    mapGet (mapTouch m key) k' = mapGet m k' := by
  have key_eq : mapTouch m key = mapAssign m key (mapGet m key) := by
    induction m with
    | nil => rfl
    | cons e m ih =>
      obtain ⟨k, w⟩ := e
      simp only [mapTouch, mapAssign]
      by_cases hk : CPos.lt k key = true
      · simp only [hk, if_true, ih]
        congr 2
        simp [mapGet, mapFind, hk]
      · by_cases hk2 : CPos.lt key k = true
        · simp [hk, hk2, mapGet, mapFind]
        · simp [hk, hk2, mapGet, mapFind]
  rw [key_eq, mapGet_mapAssign]
  split
  · rename_i h; exact mapGet_congr h m
  · rfl

theorem filter_mapTouch (m : CellMap D) (key : CPos) :
    (mapTouch m key).filter (fun e => !e.2.isEmpty) = m.filter (fun e => !e.2.isEmpty) := by
  induction m with
  | nil => simp [mapTouch]
  | cons e m ih =>
    obtain ⟨k, w⟩ := e
    simp only [mapTouch]
    by_cases hk : CPos.lt k key = true
    · simp only [hk, if_true, List.filter_cons, ih]
    · by_cases hk2 : CPos.lt key k = true
      · simp [hk, hk2]
      · simp [hk, hk2]

theorem mem_of_mapFind (m : CellMap D) (key : CPos) (v : Expressions D)
    (h : mapFind m key = some v) : ∃ k, (k, v) ∈ m ∧ CPos.same k key = true := by
  induction m with
  | nil => simp [mapFind] at h
  | cons e m ih =>
    obtain ⟨k, w⟩ := e
    simp only [mapFind] at h
    by_cases hk : CPos.lt k key = true
    · simp only [hk, if_true] at h
      obtain ⟨k0, h1, h2⟩ := ih h
      exact ⟨k0, List.mem_cons_of_mem _ h1, h2⟩
    · simp only [hk, if_false] at h
      by_cases hk2 : CPos.lt key k = true
      · simp [hk2] at h
      · simp [hk, hk2] at h
        subst h
        exact ⟨k, List.mem_cons_self _ _,
          same_of_not_lt (by simpa using hk) (by simpa using hk2)⟩

end Map

/-! ### The set of positions under evaluation -/

theorem setContains_congr {a b : CPos} (h : CPos.same a b = true) (s : List CPos) :
    setContains s a = setContains s b := by
  unfold setContains
  congr 1
  funext q
  exact same_congr_right h q

theorem setContains_setInsert (s : List CPos) (p q : CPos) :
    setContains (setInsert s p) q = (CPos.same p q || setContains s q) := by
  unfold setInsert
  by_cases h : setContains s p = true
  · simp only [h, if_true]
    by_cases hs : CPos.same p q = true
    · rw [← setContains_congr hs, h]; simp
    · simp [hs]
  · simp only [h]
    simp [setContains]

theorem setErase_setInsert (s : List CPos) (p : CPos) (h : setContains s p = false) :
    setErase (setInsert s p) p = s := by
  unfold setInsert setErase
  simp only [h, Bool.false_eq_true, if_false, List.filter_cons, same_refl, Bool.not_true]
  rw [List.filter_eq_self]
  intro q hq
  unfold setContains at h
  rw [List.any_eq_false] at h
  simpa using h q hq

/-! ## Evaluation: what a call keeps -/

section Eval

variable {D : Type}

theorem Preserved.refl (s : CSpreadsheet D) : Preserved s s := ⟨fun _ => rfl, rfl, rfl⟩

theorem Preserved.trans {a b c : CSpreadsheet D} (h1 : Preserved a b) (h2 : Preserved b c) :
    Preserved a c :=
  ⟨fun k => (h2.1 k).trans (h1.1 k), h2.2.1.trans h1.2.1, h2.2.2.trans h1.2.2⟩

/-- Method `CReference::getValue`, case by case. -/
theorem referenceGetValue_cases (gv : Evaluator D) (p : CPos) (s : CSpreadsheet D)
    (values : ValueStack D) (b : Bool) (s' : CSpreadsheet D) (values' : ValueStack D)
    (h : referenceGetValue gv p s values = some (b, s', values')) :
    (b = false ∧ values' = values ∧ gv s p = some (CValue.monostate, s')) ∨
    (b = true ∧ ∃ v, v ≠ CValue.monostate ∧ values' = v :: values ∧ gv s p = some (v, s')) := by
  unfold referenceGetValue at h
  cases hg : gv s p with
  | none => simp [hg] at h
  | some r =>
    obtain ⟨v, s1⟩ := r
    rw [hg] at h
    cases v with
    | monostate =>
      simp only [Option.some.injEq, Prod.mk.injEq] at h
      obtain ⟨rfl, rfl, rfl⟩ := h
      exact Or.inl ⟨rfl, rfl, rfl⟩
    | double d =>
      simp only [Option.some.injEq, Prod.mk.injEq] at h
      obtain ⟨rfl, rfl, rfl⟩ := h
      exact Or.inr ⟨rfl, _, by simp, rfl, rfl⟩
    | string t =>
      simp only [Option.some.injEq, Prod.mk.injEq] at h
      obtain ⟨rfl, rfl, rfl⟩ := h
      exact Or.inr ⟨rfl, _, by simp, rfl, rfl⟩

theorem preserved_enter (s : CSpreadsheet D) (pos : CPos) :
    Preserved s (s.enter pos) :=
  ⟨fun k => mapFind_mapTouch s.m_Excel pos k, filter_mapTouch s.m_Excel pos, rfl⟩

variable [DoubleOps D]

/-- An expression other than a reference leaves the sheet as it is. -/
theorem getValue_not_reference (gv : Evaluator D) (e : CExpr D)
    (values : ValueStack D) (he : ∀ p, e ≠ CExpr.CReference p) :
    ∃ b values', ∀ s : CSpreadsheet D, CExpr.getValue gv e s values = some (b, s, values') := by
  cases e <;> first
    | exact ⟨_, _, fun _ => rfl⟩
    | exact absurd rfl (he _)

theorem getValue_preserved (gv : Evaluator D) (hg : GoodEvaluator gv) (e : CExpr D)
    (s : CSpreadsheet D) (values : ValueStack D) (b : Bool) (s' : CSpreadsheet D)
    (values' : ValueStack D) (h : CExpr.getValue gv e s values = some (b, s', values')) :
    Preserved s s' ∧ (b = true → s'.calledPositions = s.calledPositions) := by
  by_cases he : ∀ p, e ≠ CExpr.CReference p
  · obtain ⟨b0, v0, h0⟩ := getValue_not_reference gv e values he
    rw [h0 s] at h
    simp only [Option.some.injEq, Prod.mk.injEq] at h
    obtain ⟨-, rfl, -⟩ := h
    exact ⟨Preserved.refl s, fun _ => rfl⟩
  · push_neg at he
    obtain ⟨p, rfl⟩ := he
    rcases referenceGetValue_cases gv p s values b s' values' h with
      ⟨rfl, -, h1⟩ | ⟨rfl, v, hv, -, h1⟩
    · exact ⟨(hg s p _ s' h1).1, by simp⟩
    · exact ⟨(hg s p _ s' h1).1, fun _ => ((hg s p _ s' h1).2 hv).1⟩

theorem evalLoop_preserved (gv : Evaluator D) (hg : GoodEvaluator gv) (es : Expressions D) :
    ∀ (s : CSpreadsheet D) (values : ValueStack D) (b : Bool) (s' : CSpreadsheet D)
      (values' : ValueStack D),
      CSpreadsheet.evalLoop gv es s values = some (b, s', values') →
      Preserved s s' ∧ (b = true → s'.calledPositions = s.calledPositions) := by
  induction es with
  | nil =>
    intro s values b s' values' h
    simp only [CSpreadsheet.evalLoop, Option.some.injEq, Prod.mk.injEq] at h
    obtain ⟨-, rfl, -⟩ := h
    exact ⟨Preserved.refl s, fun _ => rfl⟩
  | cons e es ih =>
    intro s values b s' values' h
    simp only [CSpreadsheet.evalLoop] at h
    cases h1 : CExpr.getValue gv e s values with
    | none => simp [h1] at h
    | some r =>
      obtain ⟨b1, s1, v1⟩ := r
      have hp := getValue_preserved gv hg e s values b1 s1 v1 h1
      rw [h1] at h
      cases b1 with
      | false =>
        simp only [Option.some.injEq, Prod.mk.injEq] at h
        obtain ⟨rfl, rfl, rfl⟩ := h
        exact ⟨hp.1, by simp⟩
      | true =>
        simp only at h
        have := ih s1 v1 b s' values' h
        exact ⟨hp.1.trans this.1, fun hb => (this.2 hb).trans (hp.2 rfl)⟩

theorem getValueFuel_succ (fuel : Nat) (s : CSpreadsheet D) (pos : CPos) :
    CSpreadsheet.getValueFuel (fuel + 1) s pos =
      if setContains s.calledPositions pos = true then some (CValue.monostate, s)
      else (CSpreadsheet.evalLoop (fun s p => CSpreadsheet.getValueFuel fuel s p)
        (mapGet (s.enter pos).m_Excel pos) (s.enter pos) []).map (CSpreadsheet.leave pos) :=
  rfl

/-- Every call of `getValue` keeps the content of the sheet and, when its value is not
empty, the set of positions under evaluation. -/
theorem getValueFuel_good (fuel : Nat) :
    GoodEvaluator (fun (s : CSpreadsheet D) p => CSpreadsheet.getValueFuel fuel s p) := by
  induction fuel with
  | zero => intro s p v s' h; simp [CSpreadsheet.getValueFuel] at h
  | succ fuel ih =>
    intro s pos v s' h
    simp only [getValueFuel_succ] at h
    by_cases hc : setContains s.calledPositions pos = true
    · simp only [hc, if_true, Option.some.injEq, Prod.mk.injEq] at h
      obtain ⟨rfl, rfl⟩ := h
      exact ⟨Preserved.refl s, fun hv => absurd rfl hv⟩
    · rw [if_neg hc] at h
      have hc' : setContains s.calledPositions pos = false := by simpa using hc
      have hp1 : Preserved s (s.enter pos) := preserved_enter s pos
      cases hl : CSpreadsheet.evalLoop (fun s p => CSpreadsheet.getValueFuel fuel s p)
          (mapGet (s.enter pos).m_Excel pos) (s.enter pos) [] with
      | none => simp [hl] at h
      | some r =>
        obtain ⟨b, s2, values⟩ := r
        have hp2 := evalLoop_preserved _ ih _ (s.enter pos) [] b s2 values hl
        have hp := hp1.trans hp2.1
        rw [hl] at h
        simp only [Option.map_some', Option.some.injEq] at h
        cases b with
        | false =>
          simp only [CSpreadsheet.leave, Prod.mk.injEq] at h
          obtain ⟨rfl, rfl⟩ := h
          exact ⟨⟨hp.1, hp.2.1, hp.2.2⟩, fun hv => absurd rfl hv⟩
        | true =>
          have hcs : setErase s2.calledPositions pos = s.calledPositions := by
            rw [hp2.2 rfl]
            exact setErase_setInsert _ _ hc'
          simp only [CSpreadsheet.leave, Prod.mk.injEq] at h
          obtain ⟨rfl, rfl⟩ := h
          exact ⟨⟨hp.1, hp.2.1, hp.2.2⟩, fun _ => ⟨hcs, hc'⟩⟩

end Eval

/-! ## Evaluation terminates -/

theorem filter_length_lt {α : Type} (p q : α → Bool) (l : List α)
    (himp : ∀ x, q x = true → p x = true) (hex : ∃ x ∈ l, p x = true ∧ q x = false) :
    (l.filter q).length < (l.filter p).length := by
  induction l with
  | nil => obtain ⟨x, hx, _⟩ := hex; simp at hx
  | cons a l ih =>
    have hle : (l.filter q).length ≤ (l.filter p).length := by
      clear ih hex
      induction l with
      | nil => simp
      | cons b l ihl =>
        simp only [List.filter_cons]
        by_cases hq : q b = true
        · simp [hq, himp b hq, ihl]
        · by_cases hp : p b = true
          · simp [hq, hp]; omega
          · simp [hq, hp, ihl]
    simp only [List.filter_cons]
    by_cases hq : q a = true
    · have hp := himp a hq
      simp only [hq, hp, if_true, List.length_cons]
      obtain ⟨x, hx, hpx, hqx⟩ := hex
      rcases List.mem_cons.1 hx with rfl | hx'
      · rw [hq] at hqx; exact absurd hqx (by simp)
      · have := ih ⟨x, hx', hpx, hqx⟩
        omega
    · by_cases hp : p a = true
      · simp only [hq, hp, if_true, List.length_cons]
        simp only [Bool.false_eq_true, if_false]
        omega
      · simp only [hq, hp, Bool.false_eq_true, if_false]
        obtain ⟨x, hx, hpx, hqx⟩ := hex
        rcases List.mem_cons.1 hx with rfl | hx'
        · exact absurd hpx hp
        · exact ih ⟨x, hx', hpx, hqx⟩

section Termination

variable {D : Type}

theorem freeCells_le_length (s : CSpreadsheet D) : freeCells s ≤ s.m_Excel.length := by
  unfold freeCells nonEmptyEntries
  exact le_trans (List.length_filter_le _ _) (List.length_filter_le _ _)

theorem freeCells_preserved {s s' : CSpreadsheet D} (h : Preserved s s')
    (hc : s'.calledPositions = s.calledPositions) : freeCells s' = freeCells s := by
  unfold freeCells
  rw [h.2.1, hc]

theorem freeCells_enter_lt (s : CSpreadsheet D) (pos : CPos)
    (hc : setContains s.calledPositions pos = false)
    (hne : mapGet (s.enter pos).m_Excel pos ≠ []) :
    freeCells (s.enter pos) < freeCells s := by
  have hne' : mapGet s.m_Excel pos ≠ [] := by
    rw [← mapFind_mapTouch s.m_Excel pos pos]; exact hne
  cases hf : mapFind s.m_Excel pos with
  | none => simp [mapGet, hf] at hne'
  | some v =>
    have hv : v ≠ [] := by simpa [mapGet, hf] using hne'
    have ht : mapTouch s.m_Excel pos = s.m_Excel := mapTouch_of_find _ _ v hf
    obtain ⟨k0, hmem, hsame⟩ := mem_of_mapFind _ _ v hf
    unfold freeCells CSpreadsheet.enter
    simp only [ht]
    apply filter_length_lt
    · intro x hx
      rw [setContains_setInsert] at hx
      simp only [Bool.not_eq_true', Bool.or_eq_false_iff] at hx
      simp [hx.2]
    · refine ⟨(k0, v), ?_, ?_, ?_⟩
      · unfold nonEmptyEntries
        rw [List.mem_filter]
        exact ⟨hmem, by simpa using hv⟩
      · simp only [Bool.not_eq_true']
        rw [setContains_congr hsame]; exact hc
      · rw [setContains_setInsert]
        simp [same_symm hsame]

variable [DoubleOps D]

theorem getValue_isSome (gv : Evaluator D) (e : CExpr D) (s : CSpreadsheet D)
    (values : ValueStack D) (h : ∀ p, (gv s p).isSome = true) :
    (CExpr.getValue gv e s values).isSome = true := by
  by_cases he : ∀ p, e ≠ CExpr.CReference p
  · obtain ⟨b0, v0, h0⟩ := getValue_not_reference gv e values he
    simp [h0 s]
  · push_neg at he
    obtain ⟨p, rfl⟩ := he
    obtain ⟨r, hr⟩ := Option.isSome_iff_exists.1 (h p)
    obtain ⟨v, s1⟩ := r
    simp only [CExpr.getValue, referenceGetValue, hr]
    cases v <;> simp

theorem evalLoop_isSome (gv : Evaluator D) (hg : GoodEvaluator gv) (n : Nat)
    (hgv : ∀ s p, freeCells s ≤ n → (gv s p).isSome = true) (es : Expressions D) :
    ∀ (s : CSpreadsheet D) (values : ValueStack D), freeCells s ≤ n →
      (CSpreadsheet.evalLoop gv es s values).isSome = true := by
  induction es with
  | nil => intro s values _; simp [CSpreadsheet.evalLoop]
  | cons e es ih =>
    intro s values hs
    have h1 := getValue_isSome gv e s values (fun p => hgv s p hs)
    obtain ⟨r, hr⟩ := Option.isSome_iff_exists.1 h1
    obtain ⟨b, s1, v1⟩ := r
    have hp := getValue_preserved gv hg e s values b s1 v1 hr
    simp only [CSpreadsheet.evalLoop, hr]
    cases b with
    | false => simp
    | true =>
      simp only
      apply ih
      rw [freeCells_preserved hp.1 (hp.2 rfl)]
      exact hs

/-- Claimed bound of the recursion: with more fuel than there are entries with a non-empty
vector outside the set under evaluation, `getValue` returns. -/
theorem getValueFuel_terminates (fuel : Nat) :
    ∀ (s : CSpreadsheet D) (pos : CPos), freeCells s < fuel →
      (CSpreadsheet.getValueFuel fuel s pos).isSome = true := by
  induction fuel with
  | zero => intro s pos h; omega
  | succ fuel ih =>
    intro s pos h
    rw [getValueFuel_succ]
    by_cases hc : setContains s.calledPositions pos = true
    · simp [hc]
    · rw [if_neg hc, Option.isSome_map']
      by_cases hne : mapGet (s.enter pos).m_Excel pos = []
      · rw [hne]; simp [CSpreadsheet.evalLoop]
      · have hlt := freeCells_enter_lt s pos (by simpa using hc) hne
        obtain ⟨f, rfl⟩ : ∃ f, fuel = f + 1 := ⟨fuel - 1, by omega⟩
        have hgv : ∀ (t : CSpreadsheet D) (p : CPos), freeCells t ≤ f →
            (CSpreadsheet.getValueFuel (f + 1) t p).isSome = true :=
          fun t p ht => ih t p (Nat.lt_succ_of_le ht)
        have hfree : freeCells (s.enter pos) ≤ f := by omega
        exact evalLoop_isSome _ (getValueFuel_good (f + 1)) f hgv _ (s.enter pos) [] hfree

/-- Method `getValue` returns on every sheet. -/
theorem getValue_terminates (s : CSpreadsheet D) (pos : CPos) :
    ∃ v s', s.getValue pos = some (v, s') := by
  have := getValueFuel_terminates (s.m_Excel.length + 1) s pos
    (Nat.lt_succ_of_le (freeCells_le_length s))
  obtain ⟨r, hr⟩ := Option.isSome_iff_exists.1 this
  exact ⟨r.1, r.2, hr⟩

/-! ## More fuel gives the same result -/

theorem getValue_mono (gv gv' : Evaluator D)
    (hle : ∀ s p r, gv s p = some r → gv' s p = some r) (e : CExpr D)
    (s : CSpreadsheet D) (values : ValueStack D) (r : Bool × CSpreadsheet D × ValueStack D)
    (h : CExpr.getValue gv e s values = some r) : CExpr.getValue gv' e s values = some r := by
  by_cases he : ∀ p, e ≠ CExpr.CReference p
  · cases e <;> first
      | exact h
      | exact absurd rfl (he _)
  · push_neg at he
    obtain ⟨p, rfl⟩ := he
    simp only [CExpr.getValue, referenceGetValue] at h ⊢
    cases hg : gv s p with
    | none => simp [hg] at h
    | some r0 =>
      rw [hle s p r0 hg]
      rw [hg] at h
      exact h

theorem evalLoop_mono (gv gv' : Evaluator D)
    (hle : ∀ s p r, gv s p = some r → gv' s p = some r) (es : Expressions D) :
    ∀ (s : CSpreadsheet D) (values : ValueStack D) (r : Bool × CSpreadsheet D × ValueStack D),
      CSpreadsheet.evalLoop gv es s values = some r →
      CSpreadsheet.evalLoop gv' es s values = some r := by
  induction es with
  | nil => intro s values r h; exact h
  | cons e es ih =>
    intro s values r h
    simp only [CSpreadsheet.evalLoop] at h ⊢
    cases h1 : CExpr.getValue gv e s values with
    | none => simp [h1] at h
    | some r1 =>
      rw [getValue_mono gv gv' hle e s values r1 h1]
      rw [h1] at h
      obtain ⟨b1, s1, v1⟩ := r1
      cases b1 with
      | false => exact h
      | true => exact ih s1 v1 r h

theorem getValueFuel_mono_succ (fuel : Nat) :
    ∀ (s : CSpreadsheet D) (pos : CPos) (r : CValue D × CSpreadsheet D),
      CSpreadsheet.getValueFuel fuel s pos = some r →
      CSpreadsheet.getValueFuel (fuel + 1) s pos = some r := by
  induction fuel with
  | zero => intro s pos r h; simp [CSpreadsheet.getValueFuel] at h
  | succ fuel ih =>
    intro s pos r h
    rw [getValueFuel_succ] at h ⊢
    by_cases hc : setContains s.calledPositions pos = true
    · simpa [hc] using h
    · rw [if_neg hc] at h ⊢
      cases hl : CSpreadsheet.evalLoop (fun s p => CSpreadsheet.getValueFuel fuel s p)
          (mapGet (s.enter pos).m_Excel pos) (s.enter pos) [] with
      | none => simp [hl] at h
      | some r1 =>
        rw [evalLoop_mono _ _ ih _ _ _ r1 hl]
        rw [hl] at h
        exact h

theorem getValueFuel_mono {fuel fuel' : Nat} (hle : fuel ≤ fuel') (s : CSpreadsheet D)
    (pos : CPos) (r : CValue D × CSpreadsheet D)
    (h : CSpreadsheet.getValueFuel fuel s pos = some r) :
    CSpreadsheet.getValueFuel fuel' s pos = some r := by
  induction hle with
  | refl => exact h
  | step _ ih => exact getValueFuel_mono_succ _ s pos r ih

/-- The bound chosen in `getValue` is enough: any larger bound gives the same result. -/
theorem getValueFuel_eq_getValue (s : CSpreadsheet D) (pos : CPos) (fuel : Nat)
    (h : s.m_Excel.length + 1 ≤ fuel) :
    CSpreadsheet.getValueFuel fuel s pos = s.getValue pos := by
  obtain ⟨v, s', hv⟩ := getValue_terminates s pos
  rw [hv]
  exact getValueFuel_mono h s pos _ hv

end Termination

section Equation

variable {D : Type} [DoubleOps D]

/-! ## The recursion equation of `getValue` -/

theorem getValueFuel_eq_of_free (fuel : Nat) (t : CSpreadsheet D) (p : CPos)
    (h : freeCells t < fuel) : CSpreadsheet.getValueFuel fuel t p = t.getValue p := by
  obtain ⟨r, hr⟩ := Option.isSome_iff_exists.1 (getValueFuel_terminates fuel t p h)
  obtain ⟨v, t', hv⟩ := getValue_terminates t p
  have h1 := getValueFuel_mono (Nat.le_max_left fuel (t.m_Excel.length + 1)) t p r hr
  have h2 := getValueFuel_mono (Nat.le_max_right fuel (t.m_Excel.length + 1)) t p _ hv
  rw [hr, hv]
  rw [h1] at h2
  exact h2

theorem getValue_good : GoodEvaluator (fun (s : CSpreadsheet D) p => s.getValue p) := by
  intro s p v s' h
  exact getValueFuel_good (s.m_Excel.length + 1) s p v s' h

theorem getValue_congr_evaluator (gv gv' : Evaluator D) (e : CExpr D) (s : CSpreadsheet D)
    (values : ValueStack D) (h : ∀ p, gv s p = gv' s p) :
    CExpr.getValue gv e s values = CExpr.getValue gv' e s values := by
  cases e <;> first
    | rfl
    | simp only [CExpr.getValue, referenceGetValue, h]

theorem evalLoop_fuel_eq (fuel : Nat) (es : Expressions D) :
    ∀ (t : CSpreadsheet D) (values : ValueStack D), freeCells t < fuel →
      CSpreadsheet.evalLoop (fun s p => CSpreadsheet.getValueFuel fuel s p) es t values
        = CSpreadsheet.evalLoop (fun s p => s.getValue p) es t values := by
  induction es with
  | nil => intro t values _; rfl
  | cons e es ih =>
    intro t values ht
    simp only [CSpreadsheet.evalLoop]
    rw [getValue_congr_evaluator _ (fun s p => s.getValue p) e t values
      (fun p => getValueFuel_eq_of_free fuel t p ht)]
    cases h1 : CExpr.getValue (fun s p => s.getValue p) e t values with
    | none => rfl
    | some r =>
      obtain ⟨b, t1, v1⟩ := r
      cases b with
      | false => rfl
      | true =>
        have hp := getValue_preserved _ getValue_good e t values true t1 v1 h1
        exact ih t1 v1 (by rw [freeCells_preserved hp.1 (hp.2 rfl)]; exact ht)

/-- Method `getValue` satisfies the recursion of the source: a position under evaluation
gives the empty value; otherwise the position is entered, the loop runs the expressions
with `getValue` itself for the references, and the call is left. -/
theorem getValue_eq (s : CSpreadsheet D) (pos : CPos) :
    s.getValue pos =
      if setContains s.calledPositions pos = true then some (CValue.monostate, s)
      else (CSpreadsheet.evalLoop (fun t p => t.getValue p)
        (mapGet (s.enter pos).m_Excel pos) (s.enter pos) []).map (CSpreadsheet.leave pos) := by
  show CSpreadsheet.getValueFuel (s.m_Excel.length + 1) s pos = _
  rw [getValueFuel_succ]
  by_cases hc : setContains s.calledPositions pos = true
  · simp [hc]
  · rw [if_neg hc, if_neg hc]
    by_cases hne : mapGet (s.enter pos).m_Excel pos = []
    · rw [hne]; rfl
    · have hlt := freeCells_enter_lt s pos (by simpa using hc) hne
      have hle := freeCells_le_length s
      rw [evalLoop_fuel_eq _ _ _ _ (by omega)]

/-! ## A failing expression ends the loop -/

theorem evalLoop_append_fail (gv : Evaluator D) (pre : Expressions D) (e : CExpr D)
    (post : Expressions D) :
    ∀ (s : CSpreadsheet D) (values : ValueStack D) (s1 : CSpreadsheet D)
      (values1 : ValueStack D) (r : Bool × CSpreadsheet D × ValueStack D),
      CSpreadsheet.evalLoop gv pre s values = some (true, s1, values1) →
      CExpr.getValue gv e s1 values1 = some r → r.1 = false →
      CSpreadsheet.evalLoop gv (pre ++ e :: post) s values = some r := by
  induction pre with
  | nil =>
    intro s values s1 values1 r h1 h2 h3
    simp only [CSpreadsheet.evalLoop, Option.some.injEq, Prod.mk.injEq, true_and] at h1
    obtain ⟨rfl, rfl⟩ := h1
    obtain ⟨b, s2, v2⟩ := r
    simp only at h3
    subst h3
    simp [CSpreadsheet.evalLoop, h2]
  | cons a pre ih =>
    intro s values s1 values1 r h1 h2 h3
    simp only [List.cons_append, CSpreadsheet.evalLoop] at h1 ⊢
    cases ha : CExpr.getValue gv a s values with
    | none => simp [ha] at h1
    | some ra =>
      obtain ⟨b, sa, va⟩ := ra
      rw [ha] at h1
      cases b with
      | false => simp at h1
      | true => exact ih sa va s1 values1 r h1 h2 h3

/-- If an expression of the vector fails in every state the loop can reach it in, the
loop returns `false`. -/
theorem evalLoop_false_of_mem (gv : Evaluator D) (hg : GoodEvaluator gv) (e : CExpr D)
    (es : Expressions D) (he : e ∈ es) :
    ∀ (s : CSpreadsheet D) (values : ValueStack D) (b : Bool) (s' : CSpreadsheet D)
      (values' : ValueStack D),
      (∀ (t : CSpreadsheet D) (vals : ValueStack D) (r : Bool × CSpreadsheet D × ValueStack D),
        Preserved s t → t.calledPositions = s.calledPositions →
        CExpr.getValue gv e t vals = some r → r.1 = false) →
      CSpreadsheet.evalLoop gv es s values = some (b, s', values') → b = false := by
  induction es with
  | nil => simp at he
  | cons a es ih =>
    intro s values b s' values' hfail h
    simp only [CSpreadsheet.evalLoop] at h
    cases ha : CExpr.getValue gv a s values with
    | none => simp [ha] at h
    | some ra =>
      obtain ⟨b1, s1, v1⟩ := ra
      rw [ha] at h
      cases b1 with
      | false =>
        simp only [Option.some.injEq, Prod.mk.injEq] at h
        exact h.1.symm
      | true =>
        simp only at h
        have hp := getValue_preserved gv hg a s values true s1 v1 ha
        rcases List.mem_cons.1 he with rfl | he'
        · have := hfail s values _ (Preserved.refl s) rfl ha
          simp at this
        · exact ih he' s1 v1 b s' values'
            (fun t vals r hpt hct => hfail t vals r (hp.1.trans hpt) (hct.trans (hp.2 rfl)))
            h

end Equation

section Cycle

variable {D : Type}

/-! ## Reference cycles -/

theorem references_congr_left {s : CSpreadsheet D} {a b x : CPos}
    (h : CPos.same a b = true) (hr : References s b x) : References s a x := by
  obtain ⟨r, h1, h2⟩ := hr
  exact ⟨r, by rw [mapGet_congr h]; exact h1, h2⟩

theorem references_preserved {s t : CSpreadsheet D} (h : Preserved s t) {a x : CPos}
    (hr : References s a x) : References t a x := by
  obtain ⟨r, h1, h2⟩ := hr
  exact ⟨r, by rw [h.1 a]; exact h1, h2⟩

theorem transGen_preserved {s t : CSpreadsheet D} (h : Preserved s t) {a x : CPos}
    (hr : Relation.TransGen (References s) a x) : Relation.TransGen (References t) a x :=
  Relation.TransGen.mono (fun _ _ h' => references_preserved h h') hr

theorem transGen_congr_left {s : CSpreadsheet D} {a b x : CPos}
    (h : CPos.same a b = true) (hr : Relation.TransGen (References s) b x) :
    Relation.TransGen (References s) a x := by
  rcases Relation.TransGen.head'_iff.1 hr with ⟨c, hbc, hcx⟩
  exact Relation.TransGen.head' (references_congr_left h hbc) hcx

theorem chain_transGen {α : Type} (R : α → α → Prop) (l : List α) :
    ∀ (x y : α), List.Chain' R (x :: l ++ [y]) → Relation.TransGen R x y := by
  induction l with
  | nil =>
    intro x y h
    simp only [List.cons_append, List.nil_append, List.chain'_cons, List.chain'_singleton,
      and_true] at h
    exact Relation.TransGen.single h
  | cons a l ih =>
    intro x y h
    simp only [List.cons_append, List.chain'_cons] at h
    exact Relation.TransGen.head h.1 (ih a y (by simpa using h.2))

/-- Every cell of a reference cycle reaches itself through one or more references. -/
theorem cycle_transGen (s : CSpreadsheet D) (cycle : List CPos)
    (hcyc : IsReferenceCycle s cycle) (p : CPos) (hp : p ∈ cycle) :
    Relation.TransGen (References s) p p := by
  obtain ⟨hne, hch⟩ := hcyc
  obtain ⟨pre, post, rfl⟩ := List.append_of_mem hp
  cases pre with
  | nil =>
    simp only [List.nil_append, List.take_succ_cons, List.take_zero] at hch
    exact chain_transGen _ post p p (by simpa using hch)
  | cons a pre =>
    simp only [List.cons_append, List.take_succ_cons, List.take_zero] at hch
    have h1 : List.Chain' (References s) (a :: pre ++ [p]) := by
      have : a :: (pre ++ p :: post ++ [a]) = (a :: pre ++ [p]) ++ (post ++ [a]) := by simp
      rw [this] at hch
      exact hch.left_of_append
    have h2 : List.Chain' (References s) (p :: post ++ [a]) := by
      have : a :: (pre ++ p :: post ++ [a]) = (a :: pre) ++ (p :: post ++ [a]) := by simp
      rw [this] at hch
      exact hch.right_of_append
    exact Relation.TransGen.trans (chain_transGen _ post p a h2) (chain_transGen _ pre a p h1)

variable [DoubleOps D]

/-- A cell that is under evaluation, or reaches through references a cell under evaluation
or itself, evaluates to the empty value. -/
theorem getValueFuel_cycle (fuel : Nat) :
    ∀ (s : CSpreadsheet D) (q : CPos) (v : CValue D) (s' : CSpreadsheet D),
      (setContains s.calledPositions q = true ∨
        ∃ r, Relation.TransGen (References s) q r ∧
          (setContains s.calledPositions r = true ∨ CPos.same r q = true)) →
      CSpreadsheet.getValueFuel fuel s q = some (v, s') → v = CValue.monostate := by
  induction fuel with
  | zero => intro s q v s' _ h; simp [CSpreadsheet.getValueFuel] at h
  | succ fuel ih =>
    intro s q v s' hq h
    rw [getValueFuel_succ] at h
    by_cases hc : setContains s.calledPositions q = true
    · simp only [hc, if_true, Option.some.injEq, Prod.mk.injEq] at h
      exact h.1.symm
    · rw [if_neg hc] at h
      rcases hq with hq | ⟨r, hqr, hr⟩
      · exact absurd hq hc
      have hr' : setContains (s.enter q).calledPositions r = true := by
        show setContains (setInsert s.calledPositions q) r = true
        rw [setContains_setInsert]
        rcases hr with hr | hr
        · simp [hr]
        · simp [same_symm hr]
      obtain ⟨q1, hq1, hrest⟩ := Relation.TransGen.head'_iff.1 hqr
      obtain ⟨r1, hmem, hsame⟩ := hq1
      cases hl : CSpreadsheet.evalLoop (fun s p => CSpreadsheet.getValueFuel fuel s p)
          (mapGet (s.enter q).m_Excel q) (s.enter q) [] with
      | none => simp [hl] at h
      | some res =>
        obtain ⟨b, s2, values⟩ := res
        rw [hl] at h
        have hmem' : CExpr.CReference r1 ∈ mapGet (s.enter q).m_Excel q := by
          rw [(preserved_enter s q).1 q]; exact hmem
        have hb : b = false := by
          refine evalLoop_false_of_mem _ (getValueFuel_good fuel) _ _ hmem' (s.enter q) []
            b s2 values ?_ hl
          intro t vals res hpt hct hres
          obtain ⟨b', t', vals'⟩ := res
          rcases referenceGetValue_cases _ r1 t vals b' t' vals' hres with
            ⟨rfl, -, -⟩ | ⟨rfl, w, hw, -, hgv⟩
          · rfl
          · exfalso
            apply hw
            refine ih t r1 w t' ?_ hgv
            have hst : Preserved s t := (preserved_enter s q).trans hpt
            rcases Relation.ReflTransGen.cases_head hrest with heq | ⟨c, hc1, hc2⟩
            · left
              rw [hct, setContains_congr hsame, heq]
              exact hr'
            · right
              refine ⟨r, ?_, Or.inl (by rw [hct]; exact hr')⟩
              exact transGen_preserved hst
                (transGen_congr_left hsame (Relation.TransGen.head' hc1 hc2))
        subst hb
        simp only [Option.map_some', CSpreadsheet.leave, Option.some.injEq, Prod.mk.injEq]
          at h
        exact h.1.symm

/-! ## A successful evaluation does not depend on the set under evaluation -/

theorem getValue_sim (gv : Evaluator D)
    (hsim : ∀ (t1 t2 : CSpreadsheet D) (p : CPos) (v : CValue D) (t1' : CSpreadsheet D),
      (∀ k, mapGet t1.m_Excel k = mapGet t2.m_Excel k) →
      (∀ k, setContains t2.calledPositions k = true → setContains t1.calledPositions k = true) →
      gv t1 p = some (v, t1') → v ≠ CValue.monostate → ∃ t2', gv t2 p = some (v, t2'))
    (e : CExpr D) (t1 t2 : CSpreadsheet D) (vals : ValueStack D) (t1' : CSpreadsheet D)
    (vals' : ValueStack D)
    (hm : ∀ k, mapGet t1.m_Excel k = mapGet t2.m_Excel k)
    (hc : ∀ k, setContains t2.calledPositions k = true → setContains t1.calledPositions k = true)
    (h : CExpr.getValue gv e t1 vals = some (true, t1', vals')) :
    ∃ t2', CExpr.getValue gv e t2 vals = some (true, t2', vals') := by
  by_cases he : ∀ p, e ≠ CExpr.CReference p
  · obtain ⟨b1, v1, h1⟩ := getValue_not_reference gv e vals he
    refine ⟨t2, ?_⟩
    rw [h1 t1] at h
    simp only [Option.some.injEq, Prod.mk.injEq] at h
    obtain ⟨rfl, -, rfl⟩ := h
    exact h1 t2
  · push_neg at he
    obtain ⟨p, rfl⟩ := he
    rcases referenceGetValue_cases gv p t1 vals true t1' vals' h with
      ⟨hf, -, -⟩ | ⟨-, w, hw, rfl, hgv⟩
    · simp at hf
    · obtain ⟨t2', h2⟩ := hsim t1 t2 p w t1' hm hc hgv hw
      refine ⟨t2', ?_⟩
      cases w with
      | monostate => exact absurd rfl hw
      | double d => simp only [CExpr.getValue, referenceGetValue, h2]
      | string x => simp only [CExpr.getValue, referenceGetValue, h2]

theorem evalLoop_sim (gv : Evaluator D) (hg : GoodEvaluator gv)
    (hsim : ∀ (t1 t2 : CSpreadsheet D) (p : CPos) (v : CValue D) (t1' : CSpreadsheet D),
      (∀ k, mapGet t1.m_Excel k = mapGet t2.m_Excel k) →
      (∀ k, setContains t2.calledPositions k = true → setContains t1.calledPositions k = true) →
      gv t1 p = some (v, t1') → v ≠ CValue.monostate → ∃ t2', gv t2 p = some (v, t2'))
    (es : Expressions D) :
    ∀ (t1 t2 : CSpreadsheet D) (vals : ValueStack D) (t1' : CSpreadsheet D)
      (vals' : ValueStack D),
      (∀ k, mapGet t1.m_Excel k = mapGet t2.m_Excel k) →
      (∀ k, setContains t2.calledPositions k = true →
        setContains t1.calledPositions k = true) →
      CSpreadsheet.evalLoop gv es t1 vals = some (true, t1', vals') →
      ∃ t2', CSpreadsheet.evalLoop gv es t2 vals = some (true, t2', vals') := by
  induction es with
  | nil =>
    intro t1 t2 vals t1' vals' _ _ h
    simp only [CSpreadsheet.evalLoop, Option.some.injEq, Prod.mk.injEq, true_and] at h ⊢
    exact ⟨t2, rfl, h.2⟩
  | cons e es ih =>
    intro t1 t2 vals t1' vals' hm hc h
    simp only [CSpreadsheet.evalLoop] at h ⊢
    cases h1 : CExpr.getValue gv e t1 vals with
    | none => simp [h1] at h
    | some r1 =>
      obtain ⟨b, u1, w1⟩ := r1
      rw [h1] at h
      cases b with
      | false => simp at h
      | true =>
        simp only at h
        obtain ⟨u2, h2⟩ := getValue_sim gv hsim e t1 t2 vals u1 w1 hm hc h1
        rw [h2]
        simp only
        have hp1 := getValue_preserved gv hg e t1 vals true u1 w1 h1
        have hp2 := getValue_preserved gv hg e t2 vals true u2 w1 h2
        refine ih u1 u2 w1 t1' vals' ?_ ?_ h
        · intro k; rw [hp1.1.1 k, hp2.1.1 k]; exact hm k
        · intro k; rw [hp1.2 rfl, hp2.2 rfl]; exact hc k

/-- A non-empty value obtained with positions under evaluation is obtained as well on a
sheet with the same cells and fewer positions under evaluation, for an equivalent
position. -/
theorem getValueFuel_sim (fuel : Nat) :
    ∀ (t1 t2 : CSpreadsheet D) (p1 p2 : CPos) (v : CValue D) (t1' : CSpreadsheet D),
      (∀ k, mapGet t1.m_Excel k = mapGet t2.m_Excel k) →
      (∀ k, setContains t2.calledPositions k = true →
        setContains t1.calledPositions k = true) →
      CPos.same p1 p2 = true →
      CSpreadsheet.getValueFuel fuel t1 p1 = some (v, t1') → v ≠ CValue.monostate →
      ∃ t2', CSpreadsheet.getValueFuel fuel t2 p2 = some (v, t2') := by
  induction fuel with
  | zero => intro t1 t2 p1 p2 v t1' _ _ _ h; simp [CSpreadsheet.getValueFuel] at h
  | succ fuel ih =>
    intro t1 t2 p1 p2 v t1' hm hc hs h hv
    rw [getValueFuel_succ] at h ⊢
    by_cases hc1 : setContains t1.calledPositions p1 = true
    · simp only [hc1, if_true, Option.some.injEq, Prod.mk.injEq] at h
      exact absurd h.1.symm hv
    · rw [if_neg hc1] at h
      have hc2 : ¬ setContains t2.calledPositions p2 = true := by
        intro h2
        apply hc1
        rw [setContains_congr hs]
        exact hc p2 h2
      rw [if_neg hc2]
      cases hl : CSpreadsheet.evalLoop (fun s p => CSpreadsheet.getValueFuel fuel s p)
          (mapGet (t1.enter p1).m_Excel p1) (t1.enter p1) [] with
      | none => simp [hl] at h
      | some res =>
        obtain ⟨b, u1, vals⟩ := res
        rw [hl] at h
        cases b with
        | false =>
          simp only [Option.map_some', CSpreadsheet.leave, Option.some.injEq,
            Prod.mk.injEq] at h
          exact absurd h.1.symm hv
        | true =>
          have hprog : mapGet (t2.enter p2).m_Excel p2 = mapGet (t1.enter p1).m_Excel p1 := by
            rw [(preserved_enter t2 p2).1 p2, (preserved_enter t1 p1).1 p1, hm p1,
              mapGet_congr hs]
          rw [hprog]
          obtain ⟨u2, h2⟩ := evalLoop_sim _ (getValueFuel_good fuel)
            (fun a b p w a' hm' hc' hg hw => ih a b p p w a' hm' hc' (same_refl p) hg hw)
            _ (t1.enter p1) (t2.enter p2) [] u1 vals
            (fun k => by
              rw [(preserved_enter t1 p1).1 k, (preserved_enter t2 p2).1 k]; exact hm k)
            (fun k hk => by
              have hk' : setContains (setInsert t2.calledPositions p2) k = true := hk
              show setContains (setInsert t1.calledPositions p1) k = true
              rw [setContains_setInsert] at hk' ⊢
              rw [Bool.or_eq_true] at hk' ⊢
              rcases hk' with hk' | hk'
              · exact Or.inl (same_trans hs hk')
              · exact Or.inr (hc k hk'))
            hl
          rw [h2]
          simp only [Option.map_some', CSpreadsheet.leave, Option.some.injEq,
            Prod.mk.injEq] at h ⊢
          exact ⟨_, h.1, rfl⟩

end Cycle

section Claims

variable {D : Type} [DoubleOps D]

/-- C2. On every sheet, `getValue` returns the empty value for every cell of a reference
cycle (each cell holds a reference to the next, the last to the first, a single cell to
itself). -/
theorem cycle_cells_evaluate_to_empty (s : CSpreadsheet D) (cycle : List CPos)
    (hcyc : IsReferenceCycle s cycle) (p : CPos) (hp : p ∈ cycle) :
    ∃ s', s.getValue p = some (CValue.monostate, s') := by
  obtain ⟨v, s', h⟩ := getValue_terminates s p
  have hv : v = CValue.monostate :=
    getValueFuel_cycle _ s p v s'
      (Or.inr ⟨p, cycle_transGen s cycle hcyc p hp, Or.inr (same_refl p)⟩) h
  exact ⟨s', by rw [h, hv]⟩

/-- C3. If the cell at `p` holds a reference to `q` and `getValue(q)` is empty, then
`getValue(p)` is empty; and a reference either fails, leaving the stack as it is, or
pushes a value that is not empty. -/
theorem reference_to_empty_fails (s : CSpreadsheet D) (p q : CPos)
    (href : References s p q) (hq : ∃ s1, s.getValue q = some (CValue.monostate, s1)) :
    (∃ s2, s.getValue p = some (CValue.monostate, s2)) ∧
    (∀ (gv : Evaluator D) (r : CPos) (t : CSpreadsheet D) (vals : ValueStack D) (b : Bool)
      (t' : CSpreadsheet D) (vals' : ValueStack D),
      CExpr.getValue gv (CExpr.CReference r) t vals = some (b, t', vals') →
      (b = false ∧ vals' = vals) ∨
      (b = true ∧ ∃ v, v ≠ CValue.monostate ∧ vals' = v :: vals)) := by
  constructor
  · obtain ⟨v, s2, h⟩ := getValue_terminates s p
    refine ⟨s2, ?_⟩
    rw [h]
    by_contra hne
    have hv : v ≠ CValue.monostate := fun hv => hne (by rw [hv])
    have hgood := getValueFuel_good (s.m_Excel.length + 1) s p v s2 h
    have hc : setContains s.calledPositions p = false := (hgood.2 hv).2
    have h' := h
    unfold CSpreadsheet.getValue at h'
    rw [getValueFuel_succ, if_neg (by simp [hc])] at h'
    cases hl : CSpreadsheet.evalLoop
        (fun t k => CSpreadsheet.getValueFuel s.m_Excel.length t k)
        (mapGet (s.enter p).m_Excel p) (s.enter p) [] with
    | none => simp [hl] at h'
    | some res =>
      obtain ⟨b, u, vals⟩ := res
      rw [hl] at h'
      obtain ⟨r, hmem, hsame⟩ := href
      have hmem' : CExpr.CReference r ∈ mapGet (s.enter p).m_Excel p := by
        rw [(preserved_enter s p).1 p]; exact hmem
      have hb : b = false := by
        refine evalLoop_false_of_mem _ (getValueFuel_good _) _ _ hmem' (s.enter p) []
          b u vals ?_ hl
        intro t tv res hpt hct hres
        obtain ⟨b', t', tv'⟩ := res
        rcases referenceGetValue_cases _ r t tv b' t' tv' hres with
          ⟨rfl, -, -⟩ | ⟨rfl, w, hw, -, hgv⟩
        · rfl
        · exfalso
          have hst : Preserved s t := (preserved_enter s p).trans hpt
          obtain ⟨s3, h3⟩ := getValueFuel_sim _ t s r q w t' (fun k => hst.1 k)
            (fun k hk => by
              rw [hct]
              show setContains (setInsert s.calledPositions p) k = true
              rw [setContains_setInsert, hk]; simp)
            hsame hgv hw
          have h4 := getValueFuel_mono (Nat.le_succ _) s q _ h3
          obtain ⟨s1, h1⟩ := hq
          unfold CSpreadsheet.getValue at h1
          rw [h1] at h4
          simp only [Option.some.injEq, Prod.mk.injEq] at h4
          exact hw h4.1.symm
      subst hb
      simp only [Option.map_some', CSpreadsheet.leave, Option.some.injEq, Prod.mk.injEq] at h'
      exact hv h'.1.symm
  · intro gv r t vals b t' vals' h
    rcases referenceGetValue_cases gv r t vals b t' vals' h with
      ⟨hb, hv, -⟩ | ⟨hb, w, hw, hv, -⟩
    · exact Or.inl ⟨hb, hv⟩
    · exact Or.inr ⟨hb, w, hw, hv⟩

/-- C4. If the expressions before index `i` of a cell's vector succeed and the expression
at index `i` fails, then `getValue` of the cell returns the empty value (with the set of
positions under evaluation cleared), and the loop ends in the state the failing expression
left, whatever expressions follow index `i`: none of them is executed. -/
theorem failing_expression_halts_program (s : CSpreadsheet D) (pos : CPos)
    (pre post : Expressions D) (e : CExpr D) (s1 s2 : CSpreadsheet D)
    (vals1 vals2 : ValueStack D)
    (hc : setContains s.calledPositions pos = false)
    (hprog : mapGet s.m_Excel pos = pre ++ e :: post)
    (hpre : CSpreadsheet.evalLoop (fun t p => t.getValue p) pre (s.enter pos) []
      = some (true, s1, vals1))
    (hfail : CExpr.getValue (fun t p => t.getValue p) e s1 vals1 = some (false, s2, vals2)) :
    s.getValue pos = some (CValue.monostate, { s2 with calledPositions := [] }) ∧
    ∀ post' : Expressions D,
      CSpreadsheet.evalLoop (fun t p => t.getValue p) (pre ++ e :: post') (s.enter pos) []
        = some (false, s2, vals2) := by
  have hloop : ∀ post' : Expressions D,
      CSpreadsheet.evalLoop (fun t p => t.getValue p) (pre ++ e :: post') (s.enter pos) []
        = some (false, s2, vals2) :=
    fun post' => evalLoop_append_fail _ pre e post' _ _ s1 vals1 _ hpre hfail rfl
  refine ⟨?_, hloop⟩
  rw [getValue_eq, if_neg (by simp [hc]), (preserved_enter s pos).1 pos, hprog, hloop post]
  rfl

end Claims

/-- Witness of C2: the sheet `C1 = D1 + 1`, `D1 = C1 + 1` of the test
`testReferencesAndCycles`, at `C1`. -/
theorem cycle_cells_evaluate_to_empty_witness :
    IsReferenceCycle cycleSheet [posC1, posD1] ∧ posC1 ∈ [posC1, posD1] ∧
    ∃ s', cycleSheet.getValue posC1 = some (CValue.monostate, s') :=
  have hcyc : IsReferenceCycle cycleSheet [posC1, posD1] :=
    ⟨by simp, by
      simp only [List.cons_append, List.nil_append, List.take_succ_cons, List.take_zero,
        List.chain'_cons, List.chain'_singleton, and_true]
      exact ⟨⟨posD1, by simp [cycleSheet, mapGet, mapFind, CPos.lt, posC1, posD1], by decide⟩,
        ⟨posC1, by simp [cycleSheet, mapGet, mapFind, CPos.lt, posC1, posD1], by decide⟩⟩⟩
  ⟨hcyc, by simp, cycle_cells_evaluate_to_empty cycleSheet [posC1, posD1] hcyc posC1 (by simp)⟩

/-- Witness of C3: `X1` is empty and `Y1 = X1 + 1`. -/
theorem reference_to_empty_fails_witness :
    References emptyReferenceSheet posY1 posX1 ∧
    (∃ s1, emptyReferenceSheet.getValue posX1 = some (CValue.monostate, s1)) ∧
    (∃ s2, emptyReferenceSheet.getValue posY1 = some (CValue.monostate, s2)) :=
  have href : References emptyReferenceSheet posY1 posX1 :=
    ⟨posX1, by simp [emptyReferenceSheet, mapGet, mapFind, CPos.lt, posY1], by decide⟩
  have hq : ∃ s1, emptyReferenceSheet.getValue posX1 = some (CValue.monostate, s1) :=
    ⟨_, rfl⟩
  ⟨href, hq, (reference_to_empty_fails emptyReferenceSheet posY1 posX1 href hq).1⟩

/-- Witness of C4: the cell `"a" "b" - "c"`; the subtraction at index 2 fails after two
texts were pushed, and the text `"c"` is not executed. -/
theorem failing_expression_halts_program_witness :
    setContains failingSheet.calledPositions posA1 = false ∧
    mapGet failingSheet.m_Excel posA1
      = [CExpr.CString ['a'], CExpr.CString ['b']] ++ CExpr.CSub :: [CExpr.CString ['c']] ∧
    CSpreadsheet.evalLoop (fun t p => t.getValue p)
      [CExpr.CString ['a'], CExpr.CString ['b']] (failingSheet.enter posA1) []
      = some (true, failingSheet.enter posA1, [CValue.string ['b'], CValue.string ['a']]) ∧
    CExpr.getValue (fun t p => t.getValue p) CExpr.CSub (failingSheet.enter posA1)
      [CValue.string ['b'], CValue.string ['a']]
      = some (false, failingSheet.enter posA1, []) ∧
    failingSheet.getValue posA1
      = some (CValue.monostate, { failingSheet.enter posA1 with calledPositions := [] }) ∧
    ∀ post' : Expressions ℚ,
      CSpreadsheet.evalLoop (fun t p => t.getValue p)
        ([CExpr.CString ['a'], CExpr.CString ['b']] ++ CExpr.CSub :: post')
        (failingSheet.enter posA1) []
        = some (false, failingSheet.enter posA1, []) :=
  have hc : setContains failingSheet.calledPositions posA1 = false := rfl
  have hprog : mapGet failingSheet.m_Excel posA1
      = [CExpr.CString ['a'], CExpr.CString ['b']] ++ CExpr.CSub :: [CExpr.CString ['c']] :=
    rfl
  have hpre : CSpreadsheet.evalLoop (fun t p => t.getValue p)
      [CExpr.CString ['a'], CExpr.CString ['b']] (failingSheet.enter posA1) []
      = some (true, failingSheet.enter posA1, [CValue.string ['b'], CValue.string ['a']]) :=
    rfl
  have hfail : CExpr.getValue (fun t p => t.getValue p) CExpr.CSub
      (failingSheet.enter posA1) [CValue.string ['b'], CValue.string ['a']]
      = some (false, failingSheet.enter posA1, []) := rfl
  ⟨hc, hprog, hpre, hfail,
    failing_expression_halts_program failingSheet posA1 _ _ _ _ _ _ _ hc hprog hpre hfail⟩

/-! ## copyRect -/

section CopyRect

variable {D : Type}

theorem setRow_eq_some (p q : CPos) (r : Int) :
    p.setRow r = some q ↔ 0 ≤ r ∧ q = { p with m_Row := r } := by
  unfold CPos.setRow
  by_cases h : r ≥ 0
  · simp [h, eq_comm]
  · simp [h]

theorem setCol_eq_some (p q : CPos) (c : Int) :
    p.setCol c = some q ↔ 0 ≤ c ∧ q = { p with m_Col := c } := by
  unfold CPos.setCol
  by_cases h : c ≥ 0
  · simp [h, eq_comm]
  · simp [h]

theorem orThrow_eq_ok {α : Type} (m : CellMap D) (o : Option α) (a : α) :
    orThrow m o = Except.ok a ↔ o = some a := by
  cases o <;> simp [orThrow]

/-- An `int` that is still non-negative after `+ 1` did not overflow. -/
theorem wrap32_succ {x : Int} (h1 : -2147483648 ≤ x) (h2 : x ≤ 2147483647)
    (h : 0 ≤ wrap32 (x + 1)) : wrap32 (x + 1) = x + 1 ∧ x + 1 ≤ 2147483647 := by
  unfold wrap32 at *; omega

theorem copyExpressions_eq (l : Expressions D) : copyExpressions l = l := by
  unfold copyExpressions
  induction l with
  | nil => rfl
  | cons e l ih =>
    simp only [List.map_cons, ih]
    cases e <;> rfl

theorem copyColumn_succ (n : Nat) (st st' : CopyState D) :
    copyColumn (n + 1) st = Except.ok st' ↔
      0 ≤ wrap32 (st.srcCopy.m_Row + 1) ∧ 0 ≤ wrap32 (st.dstCopy.m_Row + 1) ∧
      copyColumn n
        { srcCopy := { st.srcCopy with m_Row := wrap32 (st.srcCopy.m_Row + 1) }
          dstCopy := { st.dstCopy with m_Row := wrap32 (st.dstCopy.m_Row + 1) }
          m_Excel := mapTouch st.m_Excel st.srcCopy
          newExcel := mapAssign st.newExcel st.dstCopy
            (copyExpressions (mapGet (mapTouch st.m_Excel st.srcCopy) st.srcCopy)) }
        = Except.ok st' := by
  simp only [copyColumn, CPos.getRow, CPos.setRow, ge_iff_le]
  by_cases h1 : 0 ≤ wrap32 (st.srcCopy.m_Row + 1)
  · by_cases h2 : 0 ≤ wrap32 (st.dstCopy.m_Row + 1)
    · simp [h1, h2, orThrow, bind, Except.bind]
    · simp [h1, h2, orThrow, bind, Except.bind]
  · simp [h1, orThrow, bind, Except.bind]

/-- First phase, inner loop: the positions advance by `n` rows without overflow, the
sheet keeps its cells, and `newExcel` receives the `n` source cells of the column. -/
theorem copyColumn_spec (n : Nat) :
    ∀ (st st' : CopyState D), copyColumn n st = Except.ok st' →
      -2147483648 ≤ st.srcCopy.m_Row → st.srcCopy.m_Row ≤ 2147483647 →
      -2147483648 ≤ st.dstCopy.m_Row → st.dstCopy.m_Row ≤ 2147483647 →
      st'.srcCopy = { st.srcCopy with m_Row := st.srcCopy.m_Row + n } ∧
      st'.dstCopy = { st.dstCopy with m_Row := st.dstCopy.m_Row + n } ∧
      st.srcCopy.m_Row + n ≤ 2147483647 ∧ st.dstCopy.m_Row + n ≤ 2147483647 ∧
      (∀ k, mapGet st'.m_Excel k = mapGet st.m_Excel k) ∧
      (∀ k, mapGet st'.newExcel k =
        if k.m_Col = st.dstCopy.m_Col ∧ st.dstCopy.m_Row ≤ k.m_Row ∧
            k.m_Row < st.dstCopy.m_Row + n then
          mapGet st.m_Excel
            ⟨st.srcCopy.m_Col, st.srcCopy.m_Row + (k.m_Row - st.dstCopy.m_Row), false, false⟩
        else mapGet st.newExcel k) := by
  induction n with
  | zero =>
    intro st st' h hs1 hs2 hd1 hd2
    simp only [copyColumn, Except.ok.injEq] at h
    subst h
    refine ⟨by simp, by simp, by simpa using hs2, by simpa using hd2, fun _ => rfl, ?_⟩
    intro k
    rw [if_neg]
    simp only [Nat.cast_zero, add_zero]
    omega
  | succ n ih =>
    intro st st' h hs1 hs2 hd1 hd2
    rw [copyColumn_succ] at h
    obtain ⟨h1, h2, h3⟩ := h
    obtain ⟨e1, b1⟩ := wrap32_succ hs1 hs2 h1
    obtain ⟨e2, b2⟩ := wrap32_succ hd1 hd2 h2
    rw [e1, e2] at h3
    obtain ⟨r1, r2, r3, r4, r5, r6⟩ := ih _ st' h3 (by simp; omega) (by simpa using b1)
      (by simp; omega) (by simpa using b2)
    simp only at r1 r2 r3 r4 r5 r6
    refine ⟨?_, ?_, ?_, ?_, ?_, ?_⟩
    · rw [r1]; simp only [Nat.cast_add, Nat.cast_one]; congr 1; omega
    · rw [r2]; simp only [Nat.cast_add, Nat.cast_one]; congr 1; omega
    · simp only [Nat.cast_add, Nat.cast_one]; omega
    · simp only [Nat.cast_add, Nat.cast_one]; omega
    · intro k; rw [r5 k, mapFind_mapTouch]
    · intro k
      rw [r6 k]
      simp only [Nat.cast_add, Nat.cast_one]
      by_cases hk1 : k.m_Col = st.dstCopy.m_Col ∧ st.dstCopy.m_Row + 1 ≤ k.m_Row ∧
          k.m_Row < st.dstCopy.m_Row + 1 + n
      · have hk3 : k.m_Col = st.dstCopy.m_Col ∧ st.dstCopy.m_Row ≤ k.m_Row ∧
            k.m_Row < st.dstCopy.m_Row + (n + 1) := by omega
        rw [if_pos hk1, if_pos hk3, mapFind_mapTouch]
        apply mapGet_congr
        rw [same_iff]
        dsimp only
        omega
      · rw [if_neg hk1, mapGet_mapAssign, copyExpressions_eq, mapFind_mapTouch]
        by_cases hk2 : CPos.same st.dstCopy k = true
        · have hk2' := (same_iff _ _).1 hk2
          have hk3 : k.m_Col = st.dstCopy.m_Col ∧ st.dstCopy.m_Row ≤ k.m_Row ∧
              k.m_Row < st.dstCopy.m_Row + (n + 1) := by omega
          rw [if_pos hk2, if_pos hk3]
          apply mapGet_congr
          rw [same_iff]
          dsimp only
          omega
        · rw [if_neg hk2, if_neg]
          rw [same_iff] at hk2
          omega

theorem copyColumns_succ (dst src : CPos) (h : Int) (n : Nat) (st st' : CopyState D) :
    copyColumns dst src h (n + 1) st = Except.ok st' ↔
      0 ≤ src.m_Row ∧ 0 ≤ dst.m_Row ∧
      ∃ st1, copyColumn h.toNat
          { st with
            srcCopy := { st.srcCopy with m_Row := src.m_Row }
            dstCopy := { st.dstCopy with m_Row := dst.m_Row } } = Except.ok st1 ∧
        0 ≤ wrap32 (st1.srcCopy.m_Col + 1) ∧ 0 ≤ wrap32 (st1.dstCopy.m_Col + 1) ∧
        copyColumns dst src h n
          { st1 with
            srcCopy := { st1.srcCopy with m_Col := wrap32 (st1.srcCopy.m_Col + 1) }
            dstCopy := { st1.dstCopy with m_Col := wrap32 (st1.dstCopy.m_Col + 1) } }
          = Except.ok st' := by
  simp only [copyColumns, CPos.getRow, CPos.getCol, CPos.setRow, CPos.setCol, ge_iff_le]
  by_cases h1 : 0 ≤ src.m_Row
  · by_cases h2 : 0 ≤ dst.m_Row
    · simp only [h1, h2, if_true, orThrow, bind, Except.bind, true_and]
      cases hc : copyColumn h.toNat
          { st with
            srcCopy := { st.srcCopy with m_Row := src.m_Row }
            dstCopy := { st.dstCopy with m_Row := dst.m_Row } } with
      | error m => simp
      | ok st1 =>
        simp only [Except.ok.injEq, exists_eq_left']
        by_cases h3 : 0 ≤ wrap32 (st1.srcCopy.m_Col + 1)
        · by_cases h4 : 0 ≤ wrap32 (st1.dstCopy.m_Col + 1)
          · simp [h3, h4]
          · simp [h3, h4]
        · simp [h3]
    · simp [h1, h2, orThrow, bind, Except.bind]
  · simp [h1, orThrow, bind, Except.bind]

/-- First phase: after `n` columns the sheet keeps its cells and `newExcel` holds, at the
positions of the destination block, the source cells read from the sheet. -/
theorem copyColumns_spec (dst src : CPos) (h : Int) (hsr : src.m_Row ≤ 2147483647)
    (hdr : dst.m_Row ≤ 2147483647) (n : Nat) :
    ∀ (st st' : CopyState D), copyColumns dst src h n st = Except.ok st' →
      -2147483648 ≤ st.srcCopy.m_Col → st.srcCopy.m_Col ≤ 2147483647 →
      -2147483648 ≤ st.dstCopy.m_Col → st.dstCopy.m_Col ≤ 2147483647 →
      st'.dstCopy.m_Col = st.dstCopy.m_Col + n ∧
      st.srcCopy.m_Col + n ≤ 2147483647 ∧ st.dstCopy.m_Col + n ≤ 2147483647 ∧
      (0 < n → 0 ≤ src.m_Row ∧ 0 ≤ dst.m_Row ∧ 0 ≤ st.srcCopy.m_Col + 1 ∧
        0 ≤ st.dstCopy.m_Col + 1) ∧
      (∀ k, mapGet st'.m_Excel k = mapGet st.m_Excel k) ∧
      (∀ k, mapGet st'.newExcel k =
        if st.dstCopy.m_Col ≤ k.m_Col ∧ k.m_Col < st.dstCopy.m_Col + n ∧
            dst.m_Row ≤ k.m_Row ∧ k.m_Row < dst.m_Row + h.toNat then
          mapGet st.m_Excel
            ⟨st.srcCopy.m_Col + (k.m_Col - st.dstCopy.m_Col),
              src.m_Row + (k.m_Row - dst.m_Row), false, false⟩
        else mapGet st.newExcel k) := by
  induction n with
  | zero =>
    intro st st' h0 hs1 hs2 hd1 hd2
    simp only [copyColumns, Except.ok.injEq] at h0
    subst h0
    refine ⟨by simp, by simpa using hs2, by simpa using hd2, by simp, fun _ => rfl, ?_⟩
    intro k
    rw [if_neg]
    simp only [Nat.cast_zero, add_zero]
    omega
  | succ n ih =>
    intro st st' h0 hs1 hs2 hd1 hd2
    rw [copyColumns_succ] at h0
    obtain ⟨g1, g2, st1, hc, g3, g4, hrest⟩ := h0
    obtain ⟨c1, c2, -, -, c5, c6⟩ := copyColumn_spec _ _ st1 hc (by simp; omega)
      (by simpa using hsr) (by simp; omega) (by simpa using hdr)
    simp only at c1 c2 c5 c6
    have hsc : st1.srcCopy.m_Col = st.srcCopy.m_Col := by rw [c1]
    have hdc : st1.dstCopy.m_Col = st.dstCopy.m_Col := by rw [c2]
    rw [hsc] at g3 hrest
    rw [hdc] at g4 hrest
    obtain ⟨e1, b1⟩ := wrap32_succ hs1 hs2 g3
    obtain ⟨e2, b2⟩ := wrap32_succ hd1 hd2 g4
    simp only [e1, e2] at hrest g3 g4
    obtain ⟨r1, r2, r3, -, r5, r6⟩ := ih _ st' hrest (by simp; omega) (by simpa using b1)
      (by simp; omega) (by simpa using b2)
    simp only at r1 r2 r3 r5 r6
    refine ⟨?_, ?_, ?_, ?_, ?_, ?_⟩
    · rw [r1]; simp only [Nat.cast_add, Nat.cast_one]; omega
    · simp only [Nat.cast_add, Nat.cast_one]; omega
    · simp only [Nat.cast_add, Nat.cast_one]; omega
    · intro _; exact ⟨g1, g2, g3, g4⟩
    · intro k; rw [r5 k, c5 k]
    · intro k
      rw [r6 k]
      simp only [Nat.cast_add, Nat.cast_one]
      by_cases hk1 : st.dstCopy.m_Col + 1 ≤ k.m_Col ∧ k.m_Col < st.dstCopy.m_Col + 1 + n ∧
          dst.m_Row ≤ k.m_Row ∧ k.m_Row < dst.m_Row + h.toNat
      · have hk3 : st.dstCopy.m_Col ≤ k.m_Col ∧ k.m_Col < st.dstCopy.m_Col + (n + 1) ∧
            dst.m_Row ≤ k.m_Row ∧ k.m_Row < dst.m_Row + h.toNat := by omega
        rw [if_pos hk1, if_pos hk3, c5]
        apply mapGet_congr
        rw [same_iff]
        dsimp only
        omega
      · rw [if_neg hk1, c6 k]
        by_cases hk2 : k.m_Col = st.dstCopy.m_Col ∧ dst.m_Row ≤ k.m_Row ∧
            k.m_Row < dst.m_Row + h.toNat
        · have hk3 : st.dstCopy.m_Col ≤ k.m_Col ∧ k.m_Col < st.dstCopy.m_Col + (n + 1) ∧
              dst.m_Row ≤ k.m_Row ∧ k.m_Row < dst.m_Row + h.toNat := by omega
          rw [if_pos hk2, if_pos hk3]
          apply mapGet_congr
          rw [same_iff]
          dsimp only
          omega
        · rw [if_neg hk2, if_neg]
          omega

theorem writeColumn_succ (co ro : Int) (n : Nat) (st st' : WriteState D) :
    writeColumn co ro (n + 1) st = Except.ok st' ↔
      0 ≤ wrap32 (st.dstCopy.m_Row + 1) ∧
      writeColumn co ro n
        { dstCopy := { st.dstCopy with m_Row := wrap32 (st.dstCopy.m_Row + 1) }
          m_Excel := mapAssign st.m_Excel st.dstCopy
            (changePositions (mapGet (mapTouch st.newExcel st.dstCopy) st.dstCopy) co ro)
          newExcel := mapTouch st.newExcel st.dstCopy }
        = Except.ok st' := by
  simp only [writeColumn, CPos.getRow, CPos.setRow, ge_iff_le]
  by_cases h1 : 0 ≤ wrap32 (st.dstCopy.m_Row + 1)
  · simp [h1, orThrow, bind, Except.bind]
  · simp [h1, orThrow, bind, Except.bind]

/-- Second phase, inner loop: the `n` cells of the column receive the relocated content
of `newExcel`; no other cell changes. -/
theorem writeColumn_spec (co ro : Int) (n : Nat) :
    ∀ (st st' : WriteState D), writeColumn co ro n st = Except.ok st' →
      -2147483648 ≤ st.dstCopy.m_Row → st.dstCopy.m_Row ≤ 2147483647 →
      st'.dstCopy = { st.dstCopy with m_Row := st.dstCopy.m_Row + n } ∧
      (∀ k, mapGet st'.newExcel k = mapGet st.newExcel k) ∧
      (∀ k, mapGet st'.m_Excel k =
        if k.m_Col = st.dstCopy.m_Col ∧ st.dstCopy.m_Row ≤ k.m_Row ∧
            k.m_Row < st.dstCopy.m_Row + n then
          changePositions (mapGet st.newExcel k) co ro
        else mapGet st.m_Excel k) := by
  induction n with
  | zero =>
    intro st st' h hd1 hd2
    simp only [writeColumn, Except.ok.injEq] at h
    subst h
    refine ⟨by simp, fun _ => rfl, ?_⟩
    intro k
    rw [if_neg]
    simp only [Nat.cast_zero, add_zero]
    omega
  | succ n ih =>
    intro st st' h hd1 hd2
    rw [writeColumn_succ] at h
    obtain ⟨h2, h3⟩ := h
    obtain ⟨e2, b2⟩ := wrap32_succ hd1 hd2 h2
    rw [e2] at h3
    obtain ⟨r1, r2, r3⟩ := ih _ st' h3 (by simp; omega) (by simpa using b2)
    simp only at r1 r2 r3
    refine ⟨?_, ?_, ?_⟩
    · rw [r1]; simp only [Nat.cast_add, Nat.cast_one]; congr 1; omega
    · intro k; rw [r2 k, mapFind_mapTouch]
    · intro k
      rw [r3 k]
      simp only [Nat.cast_add, Nat.cast_one]
      by_cases hk1 : k.m_Col = st.dstCopy.m_Col ∧ st.dstCopy.m_Row + 1 ≤ k.m_Row ∧
          k.m_Row < st.dstCopy.m_Row + 1 + n
      · have hk3 : k.m_Col = st.dstCopy.m_Col ∧ st.dstCopy.m_Row ≤ k.m_Row ∧
            k.m_Row < st.dstCopy.m_Row + (n + 1) := by omega
        rw [if_pos hk1, if_pos hk3, mapFind_mapTouch]
      · rw [if_neg hk1, mapGet_mapAssign, mapFind_mapTouch]
        by_cases hk2 : CPos.same st.dstCopy k = true
        · have hk2' := (same_iff _ _).1 hk2
          have hk3 : k.m_Col = st.dstCopy.m_Col ∧ st.dstCopy.m_Row ≤ k.m_Row ∧
              k.m_Row < st.dstCopy.m_Row + (n + 1) := by omega
          rw [if_pos hk2, if_pos hk3, mapGet_congr hk2]
        · rw [if_neg hk2, if_neg]
          rw [same_iff] at hk2
          omega

theorem writeColumns_succ (dst : CPos) (h co ro : Int) (n : Nat) (st st' : WriteState D) :
    writeColumns dst h co ro (n + 1) st = Except.ok st' ↔
      0 ≤ dst.m_Row ∧
      ∃ st1, writeColumn co ro h.toNat
          { st with dstCopy := { st.dstCopy with m_Row := dst.m_Row } } = Except.ok st1 ∧
        0 ≤ wrap32 (st1.dstCopy.m_Col + 1) ∧
        writeColumns dst h co ro n
          { st1 with dstCopy := { st1.dstCopy with m_Col := wrap32 (st1.dstCopy.m_Col + 1) } }
          = Except.ok st' := by
  simp only [writeColumns, CPos.getRow, CPos.getCol, CPos.setRow, CPos.setCol, ge_iff_le]
  by_cases h2 : 0 ≤ dst.m_Row
  · simp only [h2, if_true, orThrow, bind, Except.bind, true_and]
    cases hc : writeColumn co ro h.toNat
        { st with dstCopy := { st.dstCopy with m_Row := dst.m_Row } } with
    | error m => simp
    | ok st1 =>
      simp only [Except.ok.injEq, exists_eq_left']
      by_cases h4 : 0 ≤ wrap32 (st1.dstCopy.m_Col + 1)
      · simp [h4]
      · simp [h4]
  · simp [h2, orThrow, bind, Except.bind]

/-- Second phase: the cells of the destination block receive the relocated content of
`newExcel`; no other cell changes. -/
theorem writeColumns_spec (dst : CPos) (h co ro : Int) (hdr : dst.m_Row ≤ 2147483647)
    (n : Nat) :
    ∀ (st st' : WriteState D), writeColumns dst h co ro n st = Except.ok st' →
      -2147483648 ≤ st.dstCopy.m_Col → st.dstCopy.m_Col ≤ 2147483647 →
      (∀ k, mapGet st'.newExcel k = mapGet st.newExcel k) ∧
      (∀ k, mapGet st'.m_Excel k =
        if st.dstCopy.m_Col ≤ k.m_Col ∧ k.m_Col < st.dstCopy.m_Col + n ∧
            dst.m_Row ≤ k.m_Row ∧ k.m_Row < dst.m_Row + h.toNat then
          changePositions (mapGet st.newExcel k) co ro
        else mapGet st.m_Excel k) := by
  induction n with
  | zero =>
    intro st st' h0 hd1 hd2
    simp only [writeColumns, Except.ok.injEq] at h0
    subst h0
    refine ⟨fun _ => rfl, ?_⟩
    intro k
    rw [if_neg]
    simp only [Nat.cast_zero, add_zero]
    omega
  | succ n ih =>
    intro st st' h0 hd1 hd2
    rw [writeColumns_succ] at h0
    obtain ⟨g2, st1, hc, g4, hrest⟩ := h0
    obtain ⟨c2, c5, c6⟩ := writeColumn_spec co ro _ _ st1 hc (by simp; omega)
      (by simpa using hdr)
    simp only at c2 c5 c6
    have hdc : st1.dstCopy.m_Col = st.dstCopy.m_Col := by rw [c2]
    rw [hdc] at g4 hrest
    obtain ⟨e2, b2⟩ := wrap32_succ hd1 hd2 g4
    simp only [e2] at hrest g4
    obtain ⟨r5, r6⟩ := ih _ st' hrest (by simp; omega) (by simpa using b2)
    simp only at r5 r6
    refine ⟨?_, ?_⟩
    · intro k; rw [r5 k, c5 k]
    · intro k
      rw [r6 k]
      simp only [Nat.cast_add, Nat.cast_one]
      by_cases hk1 : st.dstCopy.m_Col + 1 ≤ k.m_Col ∧ k.m_Col < st.dstCopy.m_Col + 1 + n ∧
          dst.m_Row ≤ k.m_Row ∧ k.m_Row < dst.m_Row + h.toNat
      · have hk3 : st.dstCopy.m_Col ≤ k.m_Col ∧ k.m_Col < st.dstCopy.m_Col + (n + 1) ∧
            dst.m_Row ≤ k.m_Row ∧ k.m_Row < dst.m_Row + h.toNat := by omega
        rw [if_pos hk1, if_pos hk3, c5]
      · rw [if_neg hk1, c6 k]
        by_cases hk2 : k.m_Col = st.dstCopy.m_Col ∧ dst.m_Row ≤ k.m_Row ∧
            k.m_Row < dst.m_Row + h.toNat
        · have hk3 : st.dstCopy.m_Col ≤ k.m_Col ∧ k.m_Col < st.dstCopy.m_Col + (n + 1) ∧
              dst.m_Row ≤ k.m_Row ∧ k.m_Row < dst.m_Row + h.toNat := by omega
          rw [if_pos hk2, if_pos hk3]
        · rw [if_neg hk2, if_neg]
          omega

end CopyRect

section CopyRectMain

variable {D : Type}

theorem copyColumn_ok (n : Nat) :
    ∀ (st : CopyState D), 0 ≤ st.srcCopy.m_Row → st.srcCopy.m_Row + n ≤ 2147483647 →
      0 ≤ st.dstCopy.m_Row → st.dstCopy.m_Row + n ≤ 2147483647 →
      ∃ st', copyColumn n st = Except.ok st' := by
  induction n with
  | zero => intro st _ _ _ _; exact ⟨st, rfl⟩
  | succ n ih =>
    intro st h1 h2 h3 h4
    simp only [Nat.cast_add, Nat.cast_one] at h2 h4
    have e1 : wrap32 (st.srcCopy.m_Row + 1) = st.srcCopy.m_Row + 1 :=
      wrap32_of_range (by omega) (by omega)
    have e2 : wrap32 (st.dstCopy.m_Row + 1) = st.dstCopy.m_Row + 1 :=
      wrap32_of_range (by omega) (by omega)
    obtain ⟨st', h⟩ := ih
      { srcCopy := { st.srcCopy with m_Row := st.srcCopy.m_Row + 1 }
        dstCopy := { st.dstCopy with m_Row := st.dstCopy.m_Row + 1 }
        m_Excel := mapTouch st.m_Excel st.srcCopy
        newExcel := mapAssign st.newExcel st.dstCopy
          (copyExpressions (mapGet (mapTouch st.m_Excel st.srcCopy) st.srcCopy)) }
      (by dsimp only; omega) (by dsimp only; omega) (by dsimp only; omega)
      (by dsimp only; omega)
    refine ⟨st', ?_⟩
    rw [copyColumn_succ, e1, e2]
    exact ⟨by omega, by omega, h⟩

theorem copyColumns_ok (dst src : CPos) (h : Int)
    (hs1 : 0 ≤ src.m_Row) (hs2 : src.m_Row + h.toNat ≤ 2147483647)
    (hd1 : 0 ≤ dst.m_Row) (hd2 : dst.m_Row + h.toNat ≤ 2147483647) (n : Nat) :
    ∀ (st : CopyState D), 0 ≤ st.srcCopy.m_Col → st.srcCopy.m_Col + n ≤ 2147483647 →
      0 ≤ st.dstCopy.m_Col → st.dstCopy.m_Col + n ≤ 2147483647 →
      ∃ st', copyColumns dst src h n st = Except.ok st' := by
  induction n with
  | zero => intro st _ _ _ _; exact ⟨st, rfl⟩
  | succ n ih =>
    intro st h1 h2 h3 h4
    simp only [Nat.cast_add, Nat.cast_one] at h2 h4
    obtain ⟨st1, hc⟩ := copyColumn_ok h.toNat
      { st with
        srcCopy := { st.srcCopy with m_Row := src.m_Row }
        dstCopy := { st.dstCopy with m_Row := dst.m_Row } }
      hs1 hs2 hd1 hd2
    obtain ⟨c1, c2, -⟩ := copyColumn_spec _ _ st1 hc (by dsimp only; omega)
      (by dsimp only; omega) (by dsimp only; omega) (by dsimp only; omega)
    have hsc : st1.srcCopy.m_Col = st.srcCopy.m_Col := by rw [c1]
    have hdc : st1.dstCopy.m_Col = st.dstCopy.m_Col := by rw [c2]
    have e1 : wrap32 (st1.srcCopy.m_Col + 1) = st.srcCopy.m_Col + 1 := by
      rw [hsc]; exact wrap32_of_range (by omega) (by omega)
    have e2 : wrap32 (st1.dstCopy.m_Col + 1) = st.dstCopy.m_Col + 1 := by
      rw [hdc]; exact wrap32_of_range (by omega) (by omega)
    obtain ⟨st', hrest⟩ := ih
      { st1 with
        srcCopy := { st1.srcCopy with m_Col := st.srcCopy.m_Col + 1 }
        dstCopy := { st1.dstCopy with m_Col := st.dstCopy.m_Col + 1 } }
      (by dsimp only; omega) (by dsimp only; omega) (by dsimp only; omega)
      (by dsimp only; omega)
    refine ⟨st', ?_⟩
    rw [copyColumns_succ]
    refine ⟨hs1, hd1, st1, hc, ?_, ?_, ?_⟩
    · rw [e1]; omega
    · rw [e2]; omega
    · rw [e1, e2]; exact hrest

theorem writeColumn_ok (co ro : Int) (n : Nat) :
    ∀ (st : WriteState D), 0 ≤ st.dstCopy.m_Row → st.dstCopy.m_Row + n ≤ 2147483647 →
      ∃ st', writeColumn co ro n st = Except.ok st' := by
  induction n with
  | zero => intro st _ _; exact ⟨st, rfl⟩
  | succ n ih =>
    intro st h3 h4
    simp only [Nat.cast_add, Nat.cast_one] at h4
    have e2 : wrap32 (st.dstCopy.m_Row + 1) = st.dstCopy.m_Row + 1 :=
      wrap32_of_range (by omega) (by omega)
    obtain ⟨st', h⟩ := ih
      { dstCopy := { st.dstCopy with m_Row := st.dstCopy.m_Row + 1 }
        m_Excel := mapAssign st.m_Excel st.dstCopy
          (changePositions (mapGet (mapTouch st.newExcel st.dstCopy) st.dstCopy) co ro)
        newExcel := mapTouch st.newExcel st.dstCopy }
      (by dsimp only; omega) (by dsimp only; omega)
    refine ⟨st', ?_⟩
    rw [writeColumn_succ, e2]
    exact ⟨by omega, h⟩

theorem writeColumns_ok (dst : CPos) (h co ro : Int)
    (hd1 : 0 ≤ dst.m_Row) (hd2 : dst.m_Row + h.toNat ≤ 2147483647) (n : Nat) :
    ∀ (st : WriteState D), 0 ≤ st.dstCopy.m_Col → st.dstCopy.m_Col + n ≤ 2147483647 →
      ∃ st', writeColumns dst h co ro n st = Except.ok st' := by
  induction n with
  | zero => intro st _ _; exact ⟨st, rfl⟩
  | succ n ih =>
    intro st h3 h4
    simp only [Nat.cast_add, Nat.cast_one] at h4
    obtain ⟨st1, hc⟩ := writeColumn_ok co ro h.toNat
      { st with dstCopy := { st.dstCopy with m_Row := dst.m_Row } } hd1 hd2
    obtain ⟨c2, -⟩ := writeColumn_spec co ro _ _ st1 hc (by dsimp only; omega)
      (by dsimp only; omega)
    have hdc : st1.dstCopy.m_Col = st.dstCopy.m_Col := by rw [c2]
    have e2 : wrap32 (st1.dstCopy.m_Col + 1) = st.dstCopy.m_Col + 1 := by
      rw [hdc]; exact wrap32_of_range (by omega) (by omega)
    obtain ⟨st', hrest⟩ := ih
      { st1 with dstCopy := { st1.dstCopy with m_Col := st.dstCopy.m_Col + 1 } }
      (by dsimp only; omega) (by dsimp only; omega)
    refine ⟨st', ?_⟩
    rw [writeColumns_succ]
    refine ⟨hd1, st1, hc, ?_, ?_⟩
    · rw [e2]; omega
    · rw [e2]; exact hrest

theorem copyRectMap_eq_ok (m m' : CellMap D) (dst src : CPos) (w h : Int) :
    copyRectMap m dst src w h = Except.ok m' ↔
      ∃ st1, copyColumns dst src h w.toNat
          { srcCopy := src, dstCopy := dst, m_Excel := m, newExcel := [] } = Except.ok st1 ∧
        0 ≤ dst.m_Col ∧
        ∃ st2, writeColumns dst h (wrap32 (dst.m_Col - src.m_Col))
            (wrap32 (dst.m_Row - src.m_Row)) w.toNat
            { dstCopy := { st1.dstCopy with m_Col := dst.m_Col }
              m_Excel := st1.m_Excel, newExcel := st1.newExcel } = Except.ok st2 ∧
          m' = st2.m_Excel := by
  simp only [copyRectMap, CPos.getRow, CPos.getCol, CPos.setCol, ge_iff_le, bind, Except.bind]
  cases h1 : copyColumns dst src h w.toNat
      { srcCopy := src, dstCopy := dst, m_Excel := m, newExcel := [] } with
  | error e => simp
  | ok st1 =>
    simp only [Except.ok.injEq, exists_eq_left']
    by_cases h2 : 0 ≤ dst.m_Col
    · simp only [h2, if_true, orThrow, true_and]
      cases h3 : writeColumns dst h (wrap32 (dst.m_Col - src.m_Col))
          (wrap32 (dst.m_Row - src.m_Row)) w.toNat
          { dstCopy := { st1.dstCopy with m_Col := dst.m_Col }
            m_Excel := st1.m_Excel, newExcel := st1.newExcel } with
      | error e => simp
      | ok st2 => simp [pure, Except.pure, eq_comm]
    · simp [h2, orThrow]

theorem changePositions_eq (l : Expressions D) (co ro : Int) :
    changePositions l co ro = l.map (fun e => CExpr.changePosition e co ro) := by
  unfold changePositions
  apply List.map_congr_left
  intro e _
  cases e <;> rfl

/-- The cells of the sheet after `copyRect` returned: a cell of the destination block
holds the relocated content that the sheet held, before the call, at the corresponding
source position; every other cell holds what it held. -/
theorem copyRectMap_spec (m m' : CellMap D) (dst src : CPos) (w h : Int)
    (hd : dst.IsInt) (hs : src.IsInt) (hok : copyRectMap m dst src w h = Except.ok m') :
    ∀ k, mapGet m' k =
      if dst.m_Col ≤ k.m_Col ∧ k.m_Col < dst.m_Col + w.toNat ∧
          dst.m_Row ≤ k.m_Row ∧ k.m_Row < dst.m_Row + h.toNat then
        (mapGet m ⟨src.m_Col + (k.m_Col - dst.m_Col), src.m_Row + (k.m_Row - dst.m_Row),
          false, false⟩).map
          (fun e => CExpr.changePosition e (dst.m_Col - src.m_Col) (dst.m_Row - src.m_Row))
      else mapGet m k := by
  obtain ⟨hd1, hd2, hd3, hd4⟩ := hd
  obtain ⟨hs1, hs2, hs3, hs4⟩ := hs
  unfold INT_MIN at hd1 hd3 hs1 hs3
  unfold INT_MAX at hd2 hd4 hs2 hs4
  rw [copyRectMap_eq_ok] at hok
  obtain ⟨st1, h1, hdc, st2, h2, rfl⟩ := hok
  obtain ⟨-, a2, a3, a4, a5, a6⟩ := copyColumns_spec dst src h hs4 hd4 _ _ st1 h1
    hs1 hs2 hd1 hd2
  dsimp only at a2 a3 a4 a5 a6
  obtain ⟨-, b2⟩ := writeColumns_spec dst h _ _ hd4 _ _ st2 h2 (by dsimp only; omega)
    (by dsimp only; omega)
  dsimp only at b2
  intro k
  rw [b2 k]
  by_cases hk : dst.m_Col ≤ k.m_Col ∧ k.m_Col < dst.m_Col + w.toNat ∧
      dst.m_Row ≤ k.m_Row ∧ k.m_Row < dst.m_Row + h.toNat
  · have hw : 0 < w.toNat := by omega
    obtain ⟨p1, p2, p3, p4⟩ := a4 hw
    rw [if_pos hk, if_pos hk, a6 k, if_pos hk, changePositions_eq,
      wrap32_of_range (by omega) (by omega), wrap32_of_range (by omega) (by omega)]
  · rw [if_neg hk, if_neg hk, a5 k]

end CopyRectMain

section

variable {D : Type}

/-- C1. `copyRect(dst, src, w, h)` is overlap-safe. For positions whose members are
values of `int`: the call returns whenever the two blocks and the positions next to them
have non-negative coordinates within `int`; and whenever it returns, for every
`0 <= i < w` and `0 <= j < h` the cell at `(dst.col+i, dst.row+j)` holds afterwards what
the cell at `(src.col+i, src.row+j)` held before the call (nothing for an absent cell),
with every reference relocated by `(dst.col-src.col, dst.row-src.row)` under the
absolute-flag rule and every other expression unchanged; the blocks may overlap. -/
theorem copyRect_overlap_safe (s : CSpreadsheet D) (dst src : CPos) (w h : Int)
    (hd : dst.IsInt) (hs : src.IsInt) :
    (0 ≤ src.m_Col ∧ 0 ≤ src.m_Row ∧ 0 ≤ dst.m_Col ∧ 0 ≤ dst.m_Row ∧
        src.m_Col + w.toNat ≤ INT_MAX ∧ src.m_Row + h.toNat ≤ INT_MAX ∧
        dst.m_Col + w.toNat ≤ INT_MAX ∧ dst.m_Row + h.toNat ≤ INT_MAX →
      ∃ s', s.copyRect dst src w h = Except.ok s') ∧
    (∀ s', s.copyRect dst src w h = Except.ok s' →
      ∀ i j : Int, 0 ≤ i → i < w → 0 ≤ j → j < h →
      ∀ kd ks : CPos, kd.m_Col = dst.m_Col + i → kd.m_Row = dst.m_Row + j →
        ks.m_Col = src.m_Col + i → ks.m_Row = src.m_Row + j →
        mapGet s'.m_Excel kd = (mapGet s.m_Excel ks).map
          (fun e => CExpr.changePosition e (dst.m_Col - src.m_Col)
            (dst.m_Row - src.m_Row))) := by
  constructor
  · rintro ⟨a1, a2, a3, a4, a5, a6, a7, a8⟩
    unfold INT_MAX at a5 a6 a7 a8
    obtain ⟨st1, h1⟩ := copyColumns_ok dst src h a2 a6 a4 a8 w.toNat
      { srcCopy := src, dstCopy := dst, m_Excel := s.m_Excel, newExcel := [] }
      a1 a5 a3 a7
    obtain ⟨-, -, -, -, -, -⟩ := copyColumns_spec dst src h (by omega) (by omega) _ _ st1 h1
      (by dsimp only; omega) (by dsimp only; omega) (by dsimp only; omega)
      (by dsimp only; omega)
    obtain ⟨st2, h2⟩ := writeColumns_ok dst h (wrap32 (dst.m_Col - src.m_Col))
      (wrap32 (dst.m_Row - src.m_Row)) a4 a8 w.toNat
      { dstCopy := { st1.dstCopy with m_Col := dst.m_Col }
        m_Excel := st1.m_Excel, newExcel := st1.newExcel }
      a3 a7
    have hm : copyRectMap s.m_Excel dst src w h = Except.ok st2.m_Excel :=
      (copyRectMap_eq_ok _ _ _ _ _ _).2 ⟨st1, h1, a3, st2, h2, rfl⟩
    exact ⟨{ s with m_Excel := st2.m_Excel }, by simp only [CSpreadsheet.copyRect, hm]⟩
  · intro s' hok i j hi1 hi2 hj1 hj2 kd ks e1 e2 e3 e4
    unfold CSpreadsheet.copyRect at hok
    cases hm : copyRectMap s.m_Excel dst src w h with
    | error m => simp [hm] at hok
    | ok m =>
      rw [hm] at hok
      simp only [Except.ok.injEq] at hok
      subst hok
      have := copyRectMap_spec _ _ dst src w h hd hs hm kd
      dsimp only
      rw [this, if_pos (by omega)]
      congr 1
      apply mapGet_congr
      rw [same_iff]
      dsimp only
      omega

end

/-- Witness of C1: on the sheet `A1 = "top"`, `A2 = A1` the block `A1:A2` is copied one
row down, onto the overlapping block `A2:A3`. -/
theorem copyRect_overlap_safe_witness :
    posA2.IsInt ∧ posA1.IsInt ∧
    (∃ s', overlapSheet.copyRect posA2 posA1 1 2 = Except.ok s') ∧
    (∀ s', overlapSheet.copyRect posA2 posA1 1 2 = Except.ok s' →
      mapGet s'.m_Excel ⟨0, 3, false, false⟩ = [CExpr.CReference posA2]) :=
  have hd : posA2.IsInt := by unfold CPos.IsInt INT_MIN INT_MAX posA2; decide
  have hs : posA1.IsInt := by unfold CPos.IsInt INT_MIN INT_MAX posA1; decide
  have main := copyRect_overlap_safe overlapSheet posA2 posA1 1 2 hd hs
  ⟨hd, hs,
    main.1 (by unfold INT_MAX posA1 posA2; decide),
    fun s' hok => by
      rw [main.2 s' hok 0 1 (by decide) (by decide) (by decide) (by decide)
        ⟨0, 3, false, false⟩ posA2 (by decide) (by decide) (by decide) (by decide)]
      decide⟩

/-! ## save and load -/

section SaveLoad

variable {D : Type} [DoubleOps D]

/-- The stream written by `save` for a sheet with a cell of non-zero size starts with the
marker ` CPos `. -/
theorem saveCells_starts_with_marker (m : CellMap D)
    (h : ∃ e ∈ m, 0 < e.2.length ∧ e.2.length < 2147483648) :
    ∃ tail, saveCells m = [' ', 'C', 'P', 'o', 's', ' '] ++ tail := by
  induction m with
  | nil => obtain ⟨e, he, _⟩ := h; exact absurd he (List.not_mem_nil e)
  | cons a m ih =>
    obtain ⟨pos, exprs⟩ := a
    have hp : pos.print = [' ', 'C', 'P', 'o', 's', ' '] ++ pos.text := rfl
    have hs : saveCells ((pos, exprs) :: m) =
        (if wrap32 (exprs.length : Int) ≠ 0 then
          pos.print ++ " VectorLen ".toList ++ CPos.printInt (wrap32 (exprs.length : Int))
            ++ " ".toList ++ printExpressions exprs
         else []) ++ saveCells m := rfl
    rw [hs]
    by_cases hz : wrap32 (exprs.length : Int) ≠ 0
    · rw [if_pos hz, hp]
      refine ⟨pos.text ++ (" VectorLen ".toList ++ (CPos.printInt (wrap32 (exprs.length : Int))
        ++ (" ".toList ++ (printExpressions exprs ++ saveCells m)))), ?_⟩
      rw [List.append_assoc, List.append_assoc, List.append_assoc, List.append_assoc,
        List.append_assoc]
    · rw [if_neg hz, List.nil_append]
      obtain ⟨e, he, h1, h2⟩ := h
      rcases List.mem_cons.1 he with rfl | he'
      · exfalso
        apply hz
        have h1' : 0 < exprs.length := h1
        have h2' : exprs.length < 2147483648 := h2
        rw [wrap32_of_range (by omega) (by omega)]
        omega
      · exact ih ⟨e, he', h1, h2⟩

/-- Extraction of a token of two characters that a whitespace follows. -/
theorem readString_two (a b c : Char) (rest tmp : List Char) (ha : isspace a = false)
    (hb : isspace b = false) (hc : isspace c = true) :
    IStream.readString { input := a :: b :: c :: rest, failbit := false, eofbit := false } tmp
      = ({ input := c :: rest, failbit := false, eofbit := false }, [a, b]) := by
  simp [IStream.readString, IStream.sentry, List.dropWhile, List.takeWhile, ha, hb, hc]

theorem loadRecord_bad_marker (bound : Nat) (u : Uninitialised D) (st : LoadState D)
    (hne : (st.tmp != "CPos".toList) = true) :
    loadRecord bound u st = Except.error (LoadResult.returned false st.m_Excel) := by
  unfold loadRecord
  rw [if_pos hne]

theorem loadRecords_succ (bound fuel : Nat) (u : Uninitialised D) (st : LoadState D)
    (success : Bool) :
    loadRecords bound u (fuel + 1) st success =
      if (st.is.readString st.tmp).1.fail = true then LoadResult.returned success st.m_Excel
      else
        match loadRecord bound u
            { st with is := (st.is.readString st.tmp).1, tmp := (st.is.readString st.tmp).2 }
          with
        | .error e => e
        | .ok st1 => loadRecords bound u fuel st1 (!st1.is.fail) := rfl

/-- A first token other than `CPos` makes `load` return `false`. -/
theorem loadRecords_bad_marker (bound fuel : Nat) (u : Uninitialised D) (st : LoadState D)
    (success : Bool) (a b c : Char) (rest : List Char)
    (hst : st.is = { input := a :: b :: c :: rest, failbit := false, eofbit := false })
    (ha : isspace a = false) (hb : isspace b = false) (hc : isspace c = true)
    (hne : ([a, b] != "CPos".toList) = true) :
    loadRecords bound u (fuel + 1) st success = LoadResult.returned false st.m_Excel := by
  have hr := readString_two a b c rest st.tmp ha hb hc
  rw [← hst] at hr
  rw [loadRecords_succ, hr, loadRecord_bad_marker _ _ _ hne]
  rfl

/-- C6 (amended). A corrupted header makes `load` return failure: for every sheet with
at least one cell holding between 1 and 2^31 - 1 expressions, the stream written by
`save` with its first `min(length, 10)` bytes XOR-ed with `0x5a` makes `load` return
`false`, whatever sheet loads it. -/
theorem load_corrupted_header_returns_false (s target : CSpreadsheet D)
    (u : Uninitialised D)
    (h : ∃ e ∈ s.m_Excel, 0 < e.2.length ∧ e.2.length < 2147483648) :
    target.load u (corruptHeader s.save.2) = LoadResult.returned false [] := by
  obtain ⟨tail, ht⟩ := saveCells_starts_with_marker s.m_Excel h
  have hx : corruptHeader s.save.2
      = 'z' :: Char.ofNat 25 :: '\n' :: '5' :: ')' :: 'z' ::
        ((tail.take 4).map (fun c => Char.ofNat (c.toNat ^^^ 0x5a)) ++ tail.drop 4) := by
    simp only [CSpreadsheet.save, ht, corruptHeader]
    simp only [List.cons_append, List.nil_append, List.take_succ_cons, List.drop_succ_cons,
      List.map_cons]
    rfl
  rw [hx]
  exact loadRecords_bad_marker _ _ u _ true 'z' (Char.ofNat 25) '\n' _ rfl (by decide)
    (by decide) (by decide) (by decide)

end SaveLoad

/-- Witness of C6 (amended): the sheet with the two text cells `A1 = "x"`, `A2 = "y"`. -/
theorem load_corrupted_header_returns_false_witness :
    (∃ e ∈ twoTextSheet.m_Excel, 0 < e.2.length ∧ e.2.length < 2147483648) ∧
    emptySheet.load zeroUninitialised (corruptHeader twoTextSheet.save.2)
      = LoadResult.returned false [] :=
  have h : ∃ e ∈ twoTextSheet.m_Excel, 0 < e.2.length ∧ e.2.length < 2147483648 :=
    ⟨(posA1, [CExpr.CString ['x']]), by simp [twoTextSheet], by decide⟩
  ⟨h, load_corrupted_header_returns_false twoTextSheet emptySheet zeroUninitialised h⟩

set_option maxRecDepth 100000 in
/-- C6, as stated, fails: the saved stream of the sheet `A1 = "x"`, `A2 = "y"` has 78
characters; cut after the 39 characters of its first record, or to nothing, it is a
shorter well-formed stream and `load` returns `true`. -/
theorem load_truncated_stream_returns_true :
    twoTextSheet.save.2.length = 78 ∧
    emptySheet.load zeroUninitialised (twoTextSheet.save.2.take 39)
      = LoadResult.returned true [(posA1, [CExpr.CString ['x']])] ∧
    emptySheet.load zeroUninitialised (twoTextSheet.save.2.take 0)
      = LoadResult.returned true [] := by
  refine ⟨by decide, by decide, by decide⟩

set_option maxRecDepth 100000 in
/-- C5 at the failing input: the sheet whose cell `A1` holds the text `a b` is saved as
` CPos A1 VectorLen 1  13 a b endOfString `; `load` of that stream returns `true` with the
text `ab` in `A1`, so `getValue(A1)` is `a b` on the original sheet and `ab` on the loaded
one. -/
theorem save_load_loses_whitespace :
    whitespaceSheet.save = (true, " CPos A1 VectorLen 1  13 a b endOfString ".toList) ∧
    emptySheet.load zeroUninitialised whitespaceSheet.save.2
      = LoadResult.returned true [(posA1, [CExpr.CString ['a', 'b']])] ∧
    (whitespaceSheet.getValue posA1).map Prod.fst = some (CValue.string ['a', ' ', 'b']) ∧
    (({ emptySheet with m_Excel := [(posA1, [CExpr.CString ['a', 'b']])] } :
      CSpreadsheet ℚ).getValue posA1).map Prod.fst = some (CValue.string ['a', 'b']) := by
  refine ⟨by decide, by decide, by decide, by decide⟩

set_option maxRecDepth 100000 in
/-- C7 at the failing inputs: on the streams `CPos 1A VectorLen 0` and `CPos` the
constructor of `CPos` throws `invalid_argument` inside `load`, which does not catch it:
`load` raises instead of returning `false`. -/
theorem load_malformed_position_throws :
    emptySheet.load zeroUninitialised "CPos 1A VectorLen 0".toList
      = LoadResult.invalid_argument [] ∧
    emptySheet.load zeroUninitialised "CPos".toList = LoadResult.invalid_argument [] := by
  refine ⟨by decide, by decide⟩

/-! ## The bounds of the model are never exhausted -/

/-- The letters loop of `operator <<` ends within `col` iterations: a larger bound gives
the same letters. -/
theorem colLetters_fuel (fuel1 : Nat) :
    ∀ (fuel2 : Nat) (col : Int) (result : List Char), col.toNat ≤ fuel1 → col.toNat ≤ fuel2 →
      CPos.colLetters fuel1 col result = CPos.colLetters fuel2 col result := by
  induction fuel1 with
  | zero =>
    intro fuel2 col result h1 _
    have hc : ¬ col > 0 := by omega
    cases fuel2 <;> simp [CPos.colLetters, hc]
  | succ f1 ih =>
    intro fuel2 col result h1 h2
    by_cases hc : col > 0
    · obtain ⟨f2, rfl⟩ : ∃ f, fuel2 = f + 1 := ⟨fuel2 - 1, by omega⟩
      simp only [CPos.colLetters, hc, if_true]
      apply ih <;> omega
    · cases fuel2 <;> simp [CPos.colLetters, hc]

theorem length_dropWhile_le {α : Type} (p : α → Bool) (l : List α) :
    (l.dropWhile p).length ≤ l.length := by
  induction l with
  | nil => simp
  | cons a l ih =>
    simp only [List.dropWhile_cons]
    split
    · simp only [List.length_cons]; omega
    · simp

theorem sentry_eq (is : IStream) :
    is.sentry =
      if (is.failbit || is.eofbit) = true then (false, { is with failbit := true })
      else if (is.input.dropWhile isspace).isEmpty = true then
        (false, { input := [], failbit := true, eofbit := true })
      else (true, { is with input := is.input.dropWhile isspace }) := rfl

theorem sentry_length (is : IStream) : (is.sentry).2.input.length ≤ is.input.length := by
  rw [sentry_eq]
  by_cases h1 : (is.failbit || is.eofbit) = true
  · rw [if_pos h1]
  · rw [if_neg h1]
    by_cases h2 : (is.input.dropWhile isspace).isEmpty = true
    · rw [if_pos h2]; simp
    · rw [if_neg h2]; exact length_dropWhile_le _ _

/-- After a successful sentry the first character is not a whitespace. -/
theorem sentry_ok (is : IStream) (h : (is.sentry).1 = true) :
    ∃ c rest, (is.sentry).2.input = c :: rest ∧ isspace c = false ∧
      (is.sentry).2.failbit = false := by
  rw [sentry_eq] at h ⊢
  by_cases h1 : (is.failbit || is.eofbit) = true
  · rw [if_pos h1] at h; exact absurd h (by simp)
  · rw [if_neg h1] at h ⊢
    by_cases h2 : (is.input.dropWhile isspace).isEmpty = true
    · rw [if_pos h2] at h; exact absurd h (by simp)
    · rw [if_neg h2]
      cases hd : is.input.dropWhile isspace with
      | nil => simp [hd] at h2
      | cons c rest =>
        refine ⟨c, rest, rfl, ?_, ?_⟩
        · have := List.head_dropWhile_not isspace is.input (by rw [hd]; simp)
          simpa [hd] using this
        · simp only [Bool.or_eq_true, not_or, Bool.not_eq_true] at h1
          exact h1.1

theorem sentry_failed (is : IStream) (h : (is.sentry).1 = false) :
    (is.sentry).2.failbit = true := by
  rw [sentry_eq] at h ⊢
  by_cases h1 : (is.failbit || is.eofbit) = true
  · rw [if_pos h1]
  · rw [if_neg h1] at h ⊢
    by_cases h2 : (is.input.dropWhile isspace).isEmpty = true
    · rw [if_pos h2]
    · rw [if_neg h2] at h; exact absurd h (by simp)

theorem readString_length_le (is : IStream) (str : List Char) :
    (is.readString str).1.input.length ≤ is.input.length := by
  have hs := sentry_length is
  unfold IStream.readString
  cases h : is.sentry with
  | mk b is1 =>
    rw [h] at hs
    cases b with
    | false => exact hs
    | true => exact le_trans (length_dropWhile_le _ _) hs

/-- A successful extraction of a string takes at least one character. -/
theorem readString_length_lt (is : IStream) (str : List Char)
    (hok : (is.readString str).1.fail = false) :
    (is.readString str).1.input.length < is.input.length := by
  have hs := sentry_length is
  unfold IStream.readString at hok ⊢
  cases h : is.sentry with
  | mk b is1 =>
    rw [h] at hs hok
    cases b with
    | false =>
      have := sentry_failed is (by rw [h])
      rw [h] at this
      simp only [IStream.fail] at hok
      rw [this] at hok
      exact absurd hok (by simp)
    | true =>
      obtain ⟨c, rest, h1, h2, -⟩ := sentry_ok is (by rw [h])
      rw [h] at h1
      dsimp only at h1 hs ⊢
      rw [h1] at hs ⊢
      have : (List.dropWhile (fun c => !isspace c) (c :: rest)).length ≤ rest.length := by
        simp only [List.dropWhile_cons, h2, Bool.not_false, if_true]
        exact length_dropWhile_le _ _
      simp only [List.length_cons] at hs
      omega

theorem readInt_length_le (is : IStream) (n : Int) :
    (is.readInt n).1.input.length ≤ is.input.length := by
  have hs := sentry_length is
  unfold IStream.readInt
  cases h : is.sentry with
  | mk b is1 =>
    rw [h] at hs
    cases b with
    | false => exact hs
    | true =>
      dsimp only at hs ⊢
      have h1 : (is1.input.dropWhile Char.isDigit).length ≤ is.input.length :=
        le_trans (length_dropWhile_le _ _) hs
      have h2 : ((is1.input.drop 1).dropWhile Char.isDigit).length ≤ is.input.length :=
        le_trans (length_dropWhile_le _ _) (le_trans (by simp) hs)
      split_ifs <;> first | exact h1 | exact h2

section

variable {D : Type} [DoubleOps D]

theorem readDouble_length_le (is : IStream) (x : D) :
    (is.readDouble x).1.input.length ≤ is.input.length := by
  have hs := sentry_length is
  unfold IStream.readDouble
  cases h : is.sentry with
  | mk b is1 =>
    rw [h] at hs
    cases b with
    | false => exact hs
    | true =>
      dsimp only at hs ⊢
      cases hr : (DoubleOps.read is1.input : Option (D × Nat)) with
      | none => exact hs
      | some r =>
        obtain ⟨v, taken⟩ := r
        dsimp only
        simp only [List.length_drop]
        omega

theorem readUntilEndOfString_some (fuel : Nat) :
    ∀ (is : IStream) (tmp result : List Char), is.input.length < fuel →
      ∃ r, readUntilEndOfString fuel is tmp result = some r ∧
        r.1.input.length ≤ is.input.length := by
  induction fuel with
  | zero => intro is tmp result h; omega
  | succ fuel ih =>
    intro is tmp result h
    simp only [readUntilEndOfString]
    by_cases hc : (!(is.readString tmp).1.fail && (is.readString tmp).2 != "endOfString".toList)
        = true
    · rw [if_pos hc]
      have hok : (is.readString tmp).1.fail = false := by
        simp only [Bool.and_eq_true, Bool.not_eq_true'] at hc
        exact hc.1
      have hlt := readString_length_lt is tmp hok
      obtain ⟨r, hr, hle⟩ := ih (is.readString tmp).1 (is.readString tmp).2
        (result ++ (is.readString tmp).2) (by omega)
      exact ⟨r, hr, by omega⟩
    · rw [if_neg hc]
      exact ⟨_, rfl, readString_length_le is tmp⟩

theorem ite_ind {α : Type} (P : α → Prop) (c : Prop) [Decidable c] (a b : α)
    (ha : P a) (hb : P b) : P (if c then a else b) := by
  split
  · exact ha
  · exact hb

/-- One expression is read without exhausting the bound, and the input does not grow. -/
theorem loadExpression_ok (bound : Nat) (u : Uninitialised D) (pos : CPos) (st : LoadState D)
    (hb : st.is.input.length < bound) :
    loadExpression bound u pos st ≠ Except.error LoadResult.outOfFuel ∧
    ∀ st1, loadExpression bound u pos st = Except.ok st1 →
      st1.is.input.length ≤ st.is.input.length := by
  have hi := readInt_length_le st.is st.token
  obtain ⟨r, hr, hle⟩ := readUntilEndOfString_some bound (st.is.readInt st.token).1 [] []
    (by omega)
  obtain ⟨P, hP⟩ : ∃ P : Except (LoadResult D) (LoadState D) → Prop,
      P = fun res => res ≠ Except.error LoadResult.outOfFuel ∧
        ∀ st1, res = Except.ok st1 → st1.is.input.length ≤ st.is.input.length := ⟨_, rfl⟩
  suffices h : P (loadExpression bound u pos st) by
    rw [hP] at h
    exact h
  have hok : ∀ s : LoadState D, s.is.input.length ≤ st.is.input.length →
      P (Except.ok s) := by
    intro s hs
    rw [hP]
    refine ⟨by simp, fun st1 h1 => ?_⟩
    simp only [Except.ok.injEq] at h1
    subst h1
    exact hs
  have herr : ∀ e : LoadResult D, e ≠ LoadResult.outOfFuel → P (Except.error e) := by
    intro e he
    rw [hP]
    exact ⟨by simpa using he, fun st1 h1 => by simp at h1⟩
  clear hP
  unfold loadExpression
  dsimp only
  rw [hr]
  dsimp only
  iterate 12 (refine ite_ind P _ _ _ (hok _ hi) ?_)
  refine ite_ind P _ _ _ (hok _ (le_trans (readDouble_length_le _ _) hi)) ?_
  refine ite_ind P _ _ _ (hok _ (le_trans hle hi)) ?_
  refine ite_ind P _ _ _ ?_ (herr _ (by simp))
  split
  · exact herr _ (by simp)
  · exact hok _ (le_trans (readString_length_le _ _) (le_trans (readString_length_le _ _) hi))

theorem loadExpressions_ok (bound : Nat) (u : Uninitialised D) (pos : CPos) (n : Nat) :
    ∀ st : LoadState D, st.is.input.length < bound →
      loadExpressions bound u pos n st ≠ Except.error LoadResult.outOfFuel ∧
      ∀ st1, loadExpressions bound u pos n st = Except.ok st1 →
        st1.is.input.length ≤ st.is.input.length := by
  induction n with
  | zero =>
    intro st _
    refine ⟨by simp [loadExpressions], ?_⟩
    intro st1 h1
    simp only [loadExpressions, Except.ok.injEq] at h1
    subst h1
    exact le_refl _
  | succ n ih =>
    intro st hb
    obtain ⟨h1, h2⟩ := loadExpression_ok bound u pos st hb
    simp only [loadExpressions]
    cases he : loadExpression bound u pos st with
    | error e =>
      rw [he] at h1
      refine ⟨by simpa using h1, ?_⟩
      intro st1 hst1
      simp at hst1
    | ok st1 =>
      have hle := h2 st1 he
      obtain ⟨h3, h4⟩ := ih st1 (by omega)
      exact ⟨h3, fun st2 hst2 => le_trans (h4 st2 hst2) hle⟩

theorem loadRecord_ok (bound : Nat) (u : Uninitialised D) (st : LoadState D)
    (hb : st.is.input.length < bound) :
    loadRecord bound u st ≠ Except.error LoadResult.outOfFuel ∧
    ∀ st1, loadRecord bound u st = Except.ok st1 →
      st1.is.input.length ≤ st.is.input.length := by
  unfold loadRecord
  dsimp only
  split
  · exact ⟨by simp, fun st1 h1 => by simp at h1⟩
  · split
    · exact ⟨by simp, fun st1 h1 => by simp at h1⟩
    · split
      · exact ⟨by simp, fun st1 h1 => by simp at h1⟩
      · rename_i pos _ _
        have h1 := readString_length_le st.is st.position
        have h2 := readString_length_le (st.is.readString st.position).1 st.tmp
        have h3 := readInt_length_le
          ((st.is.readString st.position).1.readString st.tmp).1 st.vectorLen
        obtain ⟨g1, g2⟩ := loadExpressions_ok bound u pos
          (((st.is.readString st.position).1.readString st.tmp).1.readInt st.vectorLen).2.toNat
          { st with
            is := (((st.is.readString st.position).1.readString st.tmp).1.readInt
              st.vectorLen).1
            position := (st.is.readString st.position).2
            tmp := ((st.is.readString st.position).1.readString st.tmp).2
            vectorLen := (((st.is.readString st.position).1.readString st.tmp).1.readInt
              st.vectorLen).2 }
          (by dsimp only; omega)
        exact ⟨g1, fun st1 hst1 => le_trans (g2 st1 hst1) (by dsimp only; omega)⟩

theorem loadRecords_ne_outOfFuel (bound : Nat) (u : Uninitialised D) (fuel : Nat) :
    ∀ (st : LoadState D) (success : Bool), st.is.input.length < fuel →
      st.is.input.length < bound →
      loadRecords bound u fuel st success ≠ LoadResult.outOfFuel := by
  induction fuel with
  | zero => intro st success h; omega
  | succ fuel ih =>
    intro st success hf hb
    rw [loadRecords_succ]
    by_cases hfail : (st.is.readString st.tmp).1.fail = true
    · rw [if_pos hfail]; simp
    · rw [if_neg hfail]
      have hlt := readString_length_lt st.is st.tmp (by simpa using hfail)
      obtain ⟨g1, g2⟩ := loadRecord_ok bound u
        { st with is := (st.is.readString st.tmp).1, tmp := (st.is.readString st.tmp).2 }
        (by dsimp only; omega)
      cases hr : loadRecord bound u
          { st with is := (st.is.readString st.tmp).1, tmp := (st.is.readString st.tmp).2 } with
      | error e =>
        rw [hr] at g1
        simpa using g1
      | ok st1 =>
        have hle := g2 st1 hr
        dsimp only at hle
        exact ih st1 _ (by omega) (by omega)

/-- Method `load` ends on every stream, by a `return` or by the exception: the bound of
the model is never exhausted. -/
theorem load_ne_outOfFuel (sheet : CSpreadsheet D) (u : Uninitialised D) (input : List Char) :
    sheet.load u input ≠ LoadResult.outOfFuel :=
  loadRecords_ne_outOfFuel _ u _ _ true (by dsimp only; omega) (by dsimp only; omega)

end

/-! ## The result of getValue -/

section Result

variable {D : Type} [DoubleOps D]

/-- A call of `getValue` whose loop ran every expression with success returns the top of
the stack and removes the position from the set under evaluation. -/
theorem getValue_of_success (s : CSpreadsheet D) (pos : CPos) (s1 : CSpreadsheet D)
    (vals : ValueStack D) (hc : setContains s.calledPositions pos = false)
    (hloop : CSpreadsheet.evalLoop (fun t p => t.getValue p) (mapGet s.m_Excel pos)
      (s.enter pos) [] = some (true, s1, vals)) :
    s.getValue pos = some (topOrEmpty vals,
      { s1 with calledPositions := setErase s1.calledPositions pos }) := by
  rw [getValue_eq, if_neg (by simp [hc]), (preserved_enter s pos).1 pos, hloop]
  cases vals <;> rfl

/-- A call of `getValue` whose loop met a failing expression returns the empty value and
clears the set under evaluation. -/
theorem getValue_of_failure (s : CSpreadsheet D) (pos : CPos) (s1 : CSpreadsheet D)
    (vals : ValueStack D) (hc : setContains s.calledPositions pos = false)
    (hloop : CSpreadsheet.evalLoop (fun t p => t.getValue p) (mapGet s.m_Excel pos)
      (s.enter pos) [] = some (false, s1, vals)) :
    s.getValue pos = some (CValue.monostate, { s1 with calledPositions := [] }) := by
  rw [getValue_eq, if_neg (by simp [hc]), (preserved_enter s pos).1 pos, hloop]
  rfl

/-- A cell without expressions evaluates to the empty value. -/
theorem getValue_of_empty (s : CSpreadsheet D) (pos : CPos) (h : mapGet s.m_Excel pos = []) :
    ∃ s', s.getValue pos = some (CValue.monostate, s') := by
  rw [getValue_eq]
  by_cases hc : setContains s.calledPositions pos = true
  · rw [if_pos hc]; exact ⟨_, rfl⟩
  · rw [if_neg hc, (preserved_enter s pos).1 pos, h]; exact ⟨_, rfl⟩

/-- A cell whose expression at some index fails, after the expressions before it
succeeded, evaluates to the empty value. -/
theorem getValue_of_failing_expression (s : CSpreadsheet D) (pos : CPos)
    (pre post : Expressions D) (e : CExpr D) (s1 s2 : CSpreadsheet D)
    (vals1 vals2 : ValueStack D)
    (hc : setContains s.calledPositions pos = false)
    (hprog : mapGet s.m_Excel pos = pre ++ e :: post)
    (hpre : CSpreadsheet.evalLoop (fun t p => t.getValue p) pre (s.enter pos) []
      = some (true, s1, vals1))
    (hfail : CExpr.getValue (fun t p => t.getValue p) e s1 vals1 = some (false, s2, vals2)) :
    s.getValue pos = some (CValue.monostate, { s2 with calledPositions := [] }) := by
  apply getValue_of_failure s pos s2 vals2 hc
  rw [hprog]
  exact evalLoop_append_fail _ pre e post _ _ s1 vals1 _ hpre hfail rfl

/-- C15. A position absent from the map and a position mapped to an empty vector both
evaluate to the empty value; and when the loop of `getValue` ran every expression of the
cell with success, `getValue` returns the value on top of the final stack, the empty
value if that stack is empty. -/
theorem getValue_returns_top_of_stack (s : CSpreadsheet D) (pos : CPos) :
    (mapFind s.m_Excel pos = none → ∃ s', s.getValue pos = some (CValue.monostate, s')) ∧
    (mapFind s.m_Excel pos = some [] → ∃ s', s.getValue pos = some (CValue.monostate, s')) ∧
    (∀ (s1 : CSpreadsheet D) (vals : ValueStack D),
      setContains s.calledPositions pos = false →
      CSpreadsheet.evalLoop (fun t p => t.getValue p) (mapGet s.m_Excel pos)
        (s.enter pos) [] = some (true, s1, vals) →
      s.getValue pos = some (topOrEmpty vals,
        { s1 with calledPositions := setErase s1.calledPositions pos })) := by
  refine ⟨?_, ?_, ?_⟩
  · intro h
    exact getValue_of_empty s pos (by simp [mapGet, h])
  · intro h
    exact getValue_of_empty s pos (by simp [mapGet, h])
  · intro s1 vals hc hloop
    exact getValue_of_success s pos s1 vals hc hloop

end Result

/-- Witness of C15: `X1` is absent from the sheet `Y1 = X1 + 1`, and the cell `A1 = "x"`
returns the text on top of its stack. -/
theorem getValue_returns_top_of_stack_witness :
    mapFind emptyReferenceSheet.m_Excel posX1 = none ∧
    (∃ s', emptyReferenceSheet.getValue posX1 = some (CValue.monostate, s')) ∧
    CSpreadsheet.evalLoop (fun t p => t.getValue p) (mapGet twoTextSheet.m_Excel posA1)
      (twoTextSheet.enter posA1) [] = some (true, twoTextSheet.enter posA1,
        [CValue.string ['x']]) ∧
    twoTextSheet.getValue posA1 = some (CValue.string ['x'],
      { twoTextSheet.enter posA1 with
        calledPositions := setErase (twoTextSheet.enter posA1).calledPositions posA1 }) :=
  ⟨rfl, (getValue_returns_top_of_stack emptyReferenceSheet posX1).1 rfl, rfl,
    (getValue_returns_top_of_stack twoTextSheet posA1).2.2 _ _ rfl rfl⟩

/-! ## The numbers of the examples -/

theorem ratFloor_eq (q : ℚ) : Rat.floor q = ⌊q⌋ := rfl

theorem roundHalfEven_natCast (k : Nat) : roundHalfEven (k : ℚ) = k := by
  unfold roundHalfEven
  have h : Rat.floor (k : ℚ) = (k : Int) := by
    rw [ratFloor_eq]; exact Int.floor_natCast k
  simp only [h, Int.toNat_ofNat, sub_self]
  norm_num

/-- Function `to_string` writes an integer with six zeros after the point. -/
theorem ratToString_intCast (z : Int) :
    ratToString (z : ℚ) = (if z < 0 then ['-'] else []) ++ Nat.toDigits 10 z.natAbs
      ++ ['.', '0', '0', '0', '0', '0', '0'] := by
  unfold ratToString
  have h1 : |(z : ℚ)| * 1000000 = ((z.natAbs * 1000000 : Nat) : ℚ) := by
    rw [Nat.cast_mul, Nat.cast_natAbs, Int.cast_abs]; norm_num
  rw [h1, roundHalfEven_natCast]
  have h2 : z.natAbs * 1000000 % 1000000 = 0 := Nat.mul_mod_left _ _
  have h3 : z.natAbs * 1000000 / 1000000 = z.natAbs := Nat.mul_div_cancel _ (by norm_num)
  have h4 : ((z : ℚ) < 0) ↔ z < 0 := Int.cast_lt_zero
  simp only [h2, h3, h4]
  have h5 : Nat.toDigits 10 0 = ['0'] := by decide
  rw [h5]
  simp [List.replicate]

theorem strip_six_zeros (pre : List Char) :
    ((pre ++ ['.', '0', '0', '0', '0', '0', '0']).reverse.dropWhile
      (fun c => c == '0')).reverse = pre ++ ['.'] := by
  simp [List.dropWhile]

/-- Lambda `doubleToStr` turns an integer into its decimal numeral. -/
theorem doubleToStr_intCast (z : Int) :
    doubleToStr (z : ℚ) = (if z < 0 then ['-'] else []) ++ Nat.toDigits 10 z.natAbs := by
  have hts : DoubleOps.to_string (z : ℚ) = ratToString z := rfl
  unfold doubleToStr
  simp only [hts, ratToString_intCast, strip_six_zeros]
  simp

theorem doubleToStr_123 : doubleToStr (123 : ℚ) = ['1', '2', '3'] := by
  have h := doubleToStr_intCast 123
  simp only [Int.cast_ofNat] at h
  rw [h]
  decide

theorem doubleToStr_456 : doubleToStr (456 : ℚ) = ['4', '5', '6'] := by
  have h := doubleToStr_intCast 456
  simp only [Int.cast_ofNat] at h
  rw [h]
  decide

/-! ## Addition and concatenation -/

section Add

variable {D : Type} [DoubleOps D]

/-- C16. `CAdd::getValue` on a stack with `rhs` on top and `lhs` below succeeds if and only
if neither operand is empty. Two numbers are replaced by `lhs + rhs`; two operands that are
not empty and not both numbers are replaced by the text of `lhs` followed by the text of
`rhs`, where a text is itself and a number goes through `doubleToStr`; with an empty
operand it fails and pushes nothing. -/
theorem add_adds_or_concatenates (gv : Evaluator D) (sheet : CSpreadsheet D)
    (lhs rhs : CValue D) (rest : ValueStack D) :
    ((∃ vals, CExpr.getValue gv CExpr.CAdd sheet (rhs :: lhs :: rest)
        = some (true, sheet, vals)) ↔ lhs ≠ CValue.monostate ∧ rhs ≠ CValue.monostate) ∧
    (∀ l r, lhs = CValue.double l → rhs = CValue.double r →
      CExpr.getValue gv CExpr.CAdd sheet (rhs :: lhs :: rest)
        = some (true, sheet, CValue.double (DoubleOps.add l r) :: rest)) ∧
    (lhs ≠ CValue.monostate → rhs ≠ CValue.monostate →
      (∀ l r, ¬ (lhs = CValue.double l ∧ rhs = CValue.double r)) →
      CExpr.getValue gv CExpr.CAdd sheet (rhs :: lhs :: rest)
        = some (true, sheet, CValue.string (valueText lhs ++ valueText rhs) :: rest)) ∧
    (lhs = CValue.monostate ∨ rhs = CValue.monostate →
      CExpr.getValue gv CExpr.CAdd sheet (rhs :: lhs :: rest) = some (false, sheet, rest)) := by
  cases lhs <;> cases rhs <;> simp [CExpr.getValue, addGetValue, valueText]

end Add

/-- Witness of C16: `"Val" + 123` is `"Val123"`, `456 + "Test"` is `"456Test"`, and
`2 + 3` is `5`. -/
theorem add_adds_or_concatenates_witness :
    CExpr.getValue (fun _ _ => none) CExpr.CAdd emptySheet
      [CValue.double 123, CValue.string ['V', 'a', 'l']]
      = some (true, emptySheet, [CValue.string ['V', 'a', 'l', '1', '2', '3']]) ∧
    CExpr.getValue (fun _ _ => none) CExpr.CAdd emptySheet
      [CValue.string ['T', 'e', 's', 't'], CValue.double 456]
      = some (true, emptySheet, [CValue.string ['4', '5', '6', 'T', 'e', 's', 't']]) ∧
    CExpr.getValue (fun _ _ => none) CExpr.CAdd emptySheet
      [CValue.double 3, CValue.double 2] = some (true, emptySheet, [CValue.double 5]) :=
  ⟨by
    have h := (add_adds_or_concatenates (fun _ _ => none) emptySheet
      (CValue.string ['V', 'a', 'l']) (CValue.double (123 : ℚ)) []).2.2.1
      (by simp) (by simp) (by simp)
    rw [h]
    simp [valueText, doubleToStr_123],
   by
    have h := (add_adds_or_concatenates (fun _ _ => none) emptySheet
      (CValue.double (456 : ℚ)) (CValue.string ['T', 'e', 's', 't']) []).2.2.1
      (by simp) (by simp) (by simp)
    rw [h]
    simp [valueText, doubleToStr_456],
   by
    have h := (add_adds_or_concatenates (fun _ _ => none) emptySheet
      (CValue.double (2 : ℚ)) (CValue.double (3 : ℚ)) []).2.1 2 3 rfl rfl
    rw [h]
    simp only [DoubleOps.add]
    norm_num⟩

/-! ## The text of a number in a concatenation -/

theorem reverse_dropWhile_split (p : Char → Bool) (s : List Char) :
    s = (s.reverse.dropWhile p).reverse ++ (s.reverse.takeWhile p).reverse := by
  have h := List.takeWhile_append_dropWhile p s.reverse
  have h2 := congrArg List.reverse h
  rw [List.reverse_append, List.reverse_reverse] at h2
  exact h2.symm

theorem takeWhile_zero_eq_replicate (l : List Char) :
    l.takeWhile (fun c => c == '0') = List.replicate (l.takeWhile (fun c => c == '0')).length '0' := by
  rw [List.eq_replicate_iff]
  refine ⟨rfl, ?_⟩
  intro b hb
  have := List.mem_takeWhile_imp hb
  simpa using this

theorem getLast?_reverse_dropWhile (s : List Char) :
    ((s.reverse.dropWhile (fun c => c == '0')).reverse).getLast? ≠ some '0' := by
  rw [List.getLast?_reverse]
  cases h : s.reverse.dropWhile (fun c => c == '0') with
  | nil => simp
  | cons a t =>
    have hn := List.head_dropWhile_not (fun c => c == '0') s.reverse (by rw [h]; simp)
    simp only [h, List.head_cons] at hn
    simp only [List.head?_cons, ne_eq, Option.some.injEq]
    intro ha
    rw [ha] at hn
    simp at hn

section Text

variable {D : Type} [DoubleOps D]

/-- Lambda `doubleToStr` returns the text of `to_string` without its final run of `'0'`,
and without the `'.'` that this leaves at the end. -/
theorem doubleToStr_strips (val : D) :
    ∃ k : Nat,
      (DoubleOps.to_string val = doubleToStr val ++ List.replicate k '0' ∧
        (doubleToStr val).getLast? ≠ some '0' ∧ (doubleToStr val).getLast? ≠ some '.') ∨
      DoubleOps.to_string val = doubleToStr val ++ '.' :: List.replicate k '0' := by
  have hs := reverse_dropWhile_split (fun c => c == '0') (DoubleOps.to_string val)
  have hz := takeWhile_zero_eq_replicate (DoubleOps.to_string val).reverse
  have hl := getLast?_reverse_dropWhile (DoubleOps.to_string val)
  refine ⟨((DoubleOps.to_string val).reverse.takeWhile (fun c => c == '0')).length, ?_⟩
  rw [hz, List.reverse_replicate] at hs
  unfold doubleToStr
  dsimp only
  generalize ((DoubleOps.to_string val).reverse.dropWhile (fun c => c == '0')).reverse = s1
    at hs hl ⊢
  generalize ((DoubleOps.to_string val).reverse.takeWhile (fun c => c == '0')).length = k
    at hs ⊢
  by_cases hc : (!s1.isEmpty && s1.getLast? == some '.') = true
  · rw [if_pos hc]
    right
    simp only [Bool.and_eq_true, Bool.not_eq_true', beq_iff_eq] at hc
    have h1 : s1 = s1.dropLast ++ ['.'] := by
      have := List.dropLast_append_getLast? '.' (by simpa using hc.2)
      exact this.symm
    rw [hs]
    nth_rewrite 1 [h1]
    simp
  · rw [if_neg hc]
    left
    refine ⟨hs, hl, ?_⟩
    intro hdot
    apply hc
    simp only [Bool.and_eq_true, Bool.not_eq_true', beq_iff_eq]
    refine ⟨?_, hdot⟩
    cases s1 with
    | nil => simp at hdot
    | cons a t => rfl

/-- C17, amended. In the concatenation of `CAdd::getValue` a number is converted by
`to_string` and then stripped: the text is that of `to_string` without its final run of
`'0'` and without the `'.'` that this leaves at the end. A number that `to_string` writes
with six zero decimals, as it writes every integer-valued number, becomes the text in
front of the point. This holds for every type of numbers and every `to_string`. -/
theorem doubleToStr_strips_to_string (val : D) :
    (∃ k : Nat,
      (DoubleOps.to_string val = doubleToStr val ++ List.replicate k '0' ∧
        (doubleToStr val).getLast? ≠ some '0' ∧ (doubleToStr val).getLast? ≠ some '.') ∨
      DoubleOps.to_string val = doubleToStr val ++ '.' :: List.replicate k '0') ∧
    (∀ pre : List Char,
      DoubleOps.to_string val = pre ++ ['.', '0', '0', '0', '0', '0', '0'] →
      doubleToStr val = pre) := by
  refine ⟨doubleToStr_strips val, ?_⟩
  intro pre h
  unfold doubleToStr
  simp only [h, strip_six_zeros]
  simp

end Text

/-- Function `to_string` rounds to six decimals: `0.0000001` is written `0.000000`. -/
theorem ratToString_small : ratToString ((1 : ℚ) / 10000000) = ['0', '.', '0', '0', '0', '0', '0', '0'] := by
  unfold ratToString
  have h : roundHalfEven (|(1 : ℚ) / 10000000| * 1000000) = 0 := by
    unfold roundHalfEven
    have h : Rat.floor (|(1 : ℚ) / 10000000| * 1000000) = 0 := by
      rw [ratFloor_eq, Int.floor_eq_iff]
      norm_num [abs_of_pos]
    simp only [h]
    norm_num [abs_of_pos]
  rw [h]
  norm_num
  decide

/-- C17, counterexample. The number `0.0000001` is converted to the text `0`, which is the
text of the number `0` as well: the text does not denote the number. -/
theorem doubleToStr_not_shortest_text :
    doubleToStr ((1 : ℚ) / 10000000) = ['0'] ∧ doubleToStr (0 : ℚ) = ['0'] ∧
      (1 : ℚ) / 10000000 ≠ 0 := by
  refine ⟨?_, ?_, by norm_num⟩
  · have hts : DoubleOps.to_string ((1 : ℚ) / 10000000) = ratToString ((1 : ℚ) / 10000000) :=
      rfl
    unfold doubleToStr
    simp only [hts, ratToString_small]
    decide
  · have h := doubleToStr_intCast 0
    simp only [Int.cast_zero] at h
    rw [h]
    decide

/-- Witness of C17: `to_string` writes 123 as `123.000000` and -45 as `-45.000000`; the
texts in the concatenation are `123` and `-45`. -/
theorem doubleToStr_strips_to_string_witness :
    DoubleOps.to_string (123 : ℚ) = "123.000000".toList ∧
    doubleToStr (123 : ℚ) = "123".toList ∧
    DoubleOps.to_string (-45 : ℚ) = "-45.000000".toList ∧
    doubleToStr (-45 : ℚ) = "-45".toList := by
  have h1 : DoubleOps.to_string (123 : ℚ)
      = "123".toList ++ ['.', '0', '0', '0', '0', '0', '0'] := by
    have h := ratToString_intCast 123
    simp only [Int.cast_ofNat] at h
    show ratToString (123 : ℚ) = _
    rw [h]
    decide
  have h2 : DoubleOps.to_string (-45 : ℚ)
      = "-45".toList ++ ['.', '0', '0', '0', '0', '0', '0'] := by
    have h := ratToString_intCast (-45)
    simp only [Int.cast_neg, Int.cast_ofNat] at h
    show ratToString (-45 : ℚ) = _
    rw [h]
    decide
  exact ⟨h1, (doubleToStr_strips_to_string (123 : ℚ)).2 _ h1, h2,
    (doubleToStr_strips_to_string (-45 : ℚ)).2 _ h2⟩

/-! ## Arithmetic and comparisons -/

section Arithmetic

variable {D : Type} [DoubleOps D]

/-- The loop goes on after an expression that returned `true`. -/
theorem evalLoop_cons_true (gv : Evaluator D) (e : CExpr D) (es : Expressions D)
    (s s1 : CSpreadsheet D) (vals vals1 : ValueStack D)
    (h : CExpr.getValue gv e s vals = some (true, s1, vals1)) :
    CSpreadsheet.evalLoop gv (e :: es) s vals = CSpreadsheet.evalLoop gv es s1 vals1 := by
  simp only [CSpreadsheet.evalLoop, h]

/-- C18. `CSub`, `CMul` and `CPow` on a stack with `rhs` on top and `lhs` below succeed
exactly when both are numbers, and then replace the two by `lhs - rhs`, `lhs * rhs` and
`pow(lhs, rhs)`; `CNeg` succeeds exactly when the top is a number `v` and replaces it by
`-v`. In every other case, a stack that is too short included, the expression fails and
pushes nothing. -/
theorem arithmetic_operand_order (gv : Evaluator D) (sheet : CSpreadsheet D)
    (lhs rhs : CValue D) (rest : ValueStack D) :
    (∀ l r, lhs = CValue.double l → rhs = CValue.double r →
      CExpr.getValue gv CExpr.CSub sheet (rhs :: lhs :: rest)
        = some (true, sheet, CValue.double (DoubleOps.sub l r) :: rest) ∧
      CExpr.getValue gv CExpr.CMul sheet (rhs :: lhs :: rest)
        = some (true, sheet, CValue.double (DoubleOps.mul l r) :: rest) ∧
      CExpr.getValue gv CExpr.CPow sheet (rhs :: lhs :: rest)
        = some (true, sheet, CValue.double (DoubleOps.pow l r) :: rest)) ∧
    ((∀ l r, ¬ (lhs = CValue.double l ∧ rhs = CValue.double r)) →
      CExpr.getValue gv CExpr.CSub sheet (rhs :: lhs :: rest) = some (false, sheet, rest) ∧
      CExpr.getValue gv CExpr.CMul sheet (rhs :: lhs :: rest) = some (false, sheet, rest) ∧
      CExpr.getValue gv CExpr.CPow sheet (rhs :: lhs :: rest) = some (false, sheet, rest)) ∧
    (∀ v, rhs = CValue.double v →
      CExpr.getValue gv CExpr.CNeg sheet (rhs :: rest)
        = some (true, sheet, CValue.double (DoubleOps.neg v) :: rest)) ∧
    ((∀ v, rhs ≠ CValue.double v) →
      CExpr.getValue gv CExpr.CNeg sheet (rhs :: rest) = some (false, sheet, rest)) ∧
    (∀ e : CExpr D, e = CExpr.CSub ∨ e = CExpr.CMul ∨ e = CExpr.CPow →
      CExpr.getValue gv e sheet [] = some (false, sheet, []) ∧
      CExpr.getValue gv e sheet [rhs] = some (false, sheet, [rhs])) ∧
    CExpr.getValue gv CExpr.CNeg sheet [] = some (false, sheet, []) := by
  refine ⟨?_, ?_, ?_, ?_, ?_, rfl⟩
  · rintro l r rfl rfl
    exact ⟨rfl, rfl, rfl⟩
  · intro h
    cases lhs <;> cases rhs <;>
      first
        | exact ⟨rfl, rfl, rfl⟩
        | exact absurd ⟨rfl, rfl⟩ (h _ _)
  · rintro v rfl
    rfl
  · intro h
    cases rhs <;>
      first
        | rfl
        | exact absurd rfl (h _)
  · rintro e (rfl | rfl | rfl) <;> exact ⟨rfl, rfl⟩

/-- C19. `CDiv::getValue` on two numbers: when `rhs == 0` it fails and pushes nothing, and
a cell whose expressions reach such a division evaluates to the empty value; when `rhs` is
not `0` it succeeds and replaces the two numbers by `lhs / rhs`. The operators `==` and
`!=` of `double` are the negation of each other. -/
theorem div_by_zero_fails (hlaw : ∀ a b : D, DoubleOps.ne a b = !DoubleOps.eq a b)
    (gv : Evaluator D) (sheet : CSpreadsheet D) (l r : D) (rest : ValueStack D) :
    (DoubleOps.eq r DoubleOps.zero = true →
      CExpr.getValue gv CExpr.CDiv sheet (CValue.double r :: CValue.double l :: rest)
        = some (false, sheet, rest) ∧
      ∀ (s : CSpreadsheet D) (pos : CPos) (pre post : Expressions D) (s1 : CSpreadsheet D),
        setContains s.calledPositions pos = false →
        mapGet s.m_Excel pos = pre ++ CExpr.CDiv :: post →
        CSpreadsheet.evalLoop (fun t p => t.getValue p) pre (s.enter pos) []
          = some (true, s1, CValue.double r :: CValue.double l :: rest) →
        s.getValue pos = some (CValue.monostate, { s1 with calledPositions := [] })) ∧
    (DoubleOps.eq r DoubleOps.zero = false →
      CExpr.getValue gv CExpr.CDiv sheet (CValue.double r :: CValue.double l :: rest)
        = some (true, sheet, CValue.double (DoubleOps.div l r) :: rest)) := by
  constructor
  · intro h0
    have hfail : ∀ (gv' : Evaluator D) (t : CSpreadsheet D),
        CExpr.getValue gv' CExpr.CDiv t (CValue.double r :: CValue.double l :: rest)
          = some (false, t, rest) := by
      intro gv' t
      simp [CExpr.getValue, divGetValue, hlaw, h0]
    refine ⟨hfail gv sheet, ?_⟩
    intro s pos pre post s1 hc hprog hpre
    exact getValue_of_failing_expression s pos pre post CExpr.CDiv s1 s1 _ rest hc hprog hpre
      (hfail _ s1)
  · intro h0
    simp [CExpr.getValue, divGetValue, hlaw, h0]

end Arithmetic

/-- Witness of C18: `10` then `4` under `CSub` gives `6`, and the expressions
`1 2 3 * +` leave `7`. -/
theorem arithmetic_operand_order_witness :
    CExpr.getValue (fun _ _ => none) CExpr.CSub emptySheet
      [CValue.double 4, CValue.double 10] = some (true, emptySheet, [CValue.double 6]) ∧
    CSpreadsheet.evalLoop (fun _ _ => none)
      [CExpr.CNumber 1, CExpr.CNumber 2, CExpr.CNumber 3, CExpr.CMul, CExpr.CAdd]
      emptySheet [] = some (true, emptySheet, [CValue.double 7]) :=
  ⟨by
    have h := ((arithmetic_operand_order (fun _ _ => none) emptySheet
      (CValue.double (10 : ℚ)) (CValue.double (4 : ℚ)) []).1 10 4 rfl rfl).1
    rw [h]
    simp only [DoubleOps.sub]
    norm_num,
   by
    have h := ((arithmetic_operand_order (fun _ _ => none) emptySheet
      (CValue.double (2 : ℚ)) (CValue.double (3 : ℚ)) [CValue.double 1]).1 2 3 rfl rfl).2.1
    have e1 : CSpreadsheet.evalLoop (fun _ _ => none)
        [CExpr.CNumber 1, CExpr.CNumber 2, CExpr.CNumber 3, CExpr.CMul, CExpr.CAdd]
        emptySheet []
        = CSpreadsheet.evalLoop (fun _ _ => none) [CExpr.CMul, CExpr.CAdd] emptySheet
          [CValue.double 3, CValue.double 2, CValue.double 1] := rfl
    rw [e1, evalLoop_cons_true _ _ _ _ _ _ _ h]
    have e2 : CSpreadsheet.evalLoop (fun _ _ => none) [CExpr.CAdd] emptySheet
        [CValue.double (DoubleOps.mul (2 : ℚ) 3), CValue.double 1]
        = some (true, emptySheet,
          [CValue.double (DoubleOps.add (1 : ℚ) (DoubleOps.mul (2 : ℚ) 3))]) := rfl
    rw [e2]
    simp only [DoubleOps.add, DoubleOps.mul]
    norm_num⟩

/-- Witness of C19: `10 / 2` is `5`, and the cell `A1 = 1 / 0` evaluates to the empty
value. -/
theorem div_by_zero_fails_witness :
    CExpr.getValue (fun _ _ => none) CExpr.CDiv emptySheet
      [CValue.double 2, CValue.double 10] = some (true, emptySheet, [CValue.double 5]) ∧
    divZeroSheet.getValue posA1
      = some (CValue.monostate, { divZeroSheet.enter posA1 with calledPositions := [] }) :=
  have hlaw : ∀ a b : ℚ, DoubleOps.ne a b = !DoubleOps.eq a b := by
    intro a b
    simp [DoubleOps.ne, DoubleOps.eq]
  ⟨by
    have h := (div_by_zero_fails hlaw (fun _ _ => none) emptySheet 10 2 []).2
      (by simp [DoubleOps.eq, DoubleOps.zero])
    rw [h]
    simp only [DoubleOps.div]
    norm_num,
   ((div_by_zero_fails hlaw (fun _ _ => none) emptySheet 1 0 []).1
      (by simp [DoubleOps.eq, DoubleOps.zero])).2 divZeroSheet posA1
      [CExpr.CNumber 1, CExpr.CNumber 0] [] (divZeroSheet.enter posA1) rfl rfl rfl⟩

/-! ## Comparisons -/

theorem char_lt_iff (a b : Char) : a < b ↔ a.toNat < b.toNat := by
  show a.val < b.val ↔ _
  rw [UInt32.lt_def, BitVec.lt_def]
  rfl

/-- The order `<` of texts is the lexicographic order. -/
theorem lexLt_iff (l r : List Char) : lexLt l r = true ↔ l < r := by
  induction l generalizing r with
  | nil =>
    cases r with
    | nil => simp [lexLt]
    | cons b bs => simp only [lexLt, true_iff]; exact List.Lex.nil
  | cons a as ih =>
    cases r with
    | nil => simp [lexLt]
    | cons b bs =>
      simp only [lexLt]
      by_cases h1 : a.toNat < b.toNat
      · simp only [h1, if_true, true_iff]
        exact List.Lex.rel ((char_lt_iff a b).2 h1)
      · by_cases h2 : b.toNat < a.toNat
        · simp only [h1, h2, if_true, if_false, Bool.false_eq_true, false_iff]
          intro h
          cases h with
          | rel h => exact h1 ((char_lt_iff a b).1 h)
          | cons h => exact absurd h2 (lt_irrefl _)
        · simp only [h1, h2, if_false]
          rw [ih]
          have hab : a = b := by
            apply Char.ext
            apply UInt32.ext
            show a.toNat = b.toNat
            omega
          subst hab
          constructor
          · intro h
            exact List.Lex.cons h
          · intro h
            cases h with
            | rel h => exact absurd ((char_lt_iff a a).1 h) h1
            | cons h => exact h

theorem decide_lt_eq_lexLt (l r : List Char) : decide (l < r) = lexLt l r := by
  rw [Bool.eq_iff_iff, decide_eq_true_iff, lexLt_iff]

theorem decide_le_eq_lexLt (l r : List Char) : decide (l ≤ r) = !lexLt r l := by
  rw [Bool.eq_iff_iff, decide_eq_true_iff, Bool.not_eq_true', ← Bool.not_eq_true, lexLt_iff,
    not_lt]

section Compare

variable {D : Type} [DoubleOps D]

/-- The six comparison classes on two texts. -/
theorem compare_texts (R : Comparison) (gv : Evaluator D) (sheet : CSpreadsheet D)
    (l r : List Char) (rest : ValueStack D) :
    CExpr.getValue gv (Comparison.expr R) sheet (CValue.string r :: CValue.string l :: rest)
      = some (true, sheet, CValue.double (boolToDouble (R.onTexts l r)) :: rest) := by
  have he : decide (l = r) = (l == r) := by
    rw [Bool.eq_iff_iff]; simp
  cases R
  · simp only [Comparison.expr, Comparison.onTexts, CExpr.getValue, compareGetValue, he]
  · simp only [Comparison.expr, Comparison.onTexts, CExpr.getValue, compareGetValue, ne_eq,
      decide_not, he]
  · simp only [Comparison.expr, Comparison.onTexts, CExpr.getValue, compareGetValue,
      decide_lt_eq_lexLt]
  · simp only [Comparison.expr, Comparison.onTexts, CExpr.getValue, compareGetValue,
      decide_le_eq_lexLt]
  · simp only [Comparison.expr, Comparison.onTexts, CExpr.getValue, compareGetValue, gt_iff_lt,
      decide_lt_eq_lexLt]
  · simp only [Comparison.expr, Comparison.onTexts, CExpr.getValue, compareGetValue, ge_iff_le,
      decide_le_eq_lexLt]

/-- C20. Each of the six comparisons on a stack with `rhs` on top and `lhs` below: two
numbers are replaced by `1.0` when the operator of `double` holds of `lhs` and `rhs` and by
`0.0` otherwise; two texts likewise by the lexicographic order; on operands that are not
two numbers and not two texts (mixed types, an empty operand) the comparison fails and
pushes nothing, and a cell whose expressions reach it evaluates to the empty value. -/
theorem comparison_result (R : Comparison) (gv : Evaluator D) (sheet : CSpreadsheet D)
    (lhs rhs : CValue D) (rest : ValueStack D) :
    (∀ l r, lhs = CValue.double l → rhs = CValue.double r →
      CExpr.getValue gv (Comparison.expr R) sheet (rhs :: lhs :: rest)
        = some (true, sheet, CValue.double (boolToDouble (R.onNumbers l r)) :: rest)) ∧
    (∀ l r, lhs = CValue.string l → rhs = CValue.string r →
      CExpr.getValue gv (Comparison.expr R) sheet (rhs :: lhs :: rest)
        = some (true, sheet, CValue.double (boolToDouble (R.onTexts l r)) :: rest)) ∧
    ((∀ l r, ¬ (lhs = CValue.double l ∧ rhs = CValue.double r)) →
      (∀ l r, ¬ (lhs = CValue.string l ∧ rhs = CValue.string r)) →
      CExpr.getValue gv (Comparison.expr R) sheet (rhs :: lhs :: rest)
        = some (false, sheet, rest) ∧
      ∀ (s : CSpreadsheet D) (pos : CPos) (pre post : Expressions D) (s1 : CSpreadsheet D),
        setContains s.calledPositions pos = false →
        mapGet s.m_Excel pos = pre ++ Comparison.expr R :: post →
        CSpreadsheet.evalLoop (fun t p => t.getValue p) pre (s.enter pos) []
          = some (true, s1, rhs :: lhs :: rest) →
        s.getValue pos = some (CValue.monostate, { s1 with calledPositions := [] })) := by
  refine ⟨?_, ?_, ?_⟩
  · rintro l r rfl rfl
    cases R <;> rfl
  · rintro l r rfl rfl
    exact compare_texts R gv sheet l r rest
  · intro h1 h2
    have hfail : ∀ (gv' : Evaluator D) (t : CSpreadsheet D),
        CExpr.getValue gv' (Comparison.expr R) t (rhs :: lhs :: rest)
          = some (false, t, rest) := by
      intro gv' t
      cases lhs <;> cases rhs <;>
        first
          | exact absurd ⟨rfl, rfl⟩ (h1 _ _)
          | exact absurd ⟨rfl, rfl⟩ (h2 _ _)
          | (cases R <;> rfl)
    refine ⟨hfail gv sheet, ?_⟩
    intro s pos pre post s1 hc hprog hpre
    exact getValue_of_failing_expression s pos pre post _ s1 s1 _ rest hc hprog hpre
      (hfail _ s1)

end Compare

/-- Witness of C20: `2 < 3` gives `1`, `"b" < "a"` gives `0`, and the cell
`A1 = 1 < "a"` evaluates to the empty value. -/
theorem comparison_result_witness :
    CExpr.getValue (fun _ _ => none) CExpr.CLt emptySheet
      [CValue.double 3, CValue.double 2] = some (true, emptySheet, [CValue.double 1]) ∧
    CExpr.getValue (fun _ _ => none) CExpr.CLt emptySheet
      [CValue.string ['a'], CValue.string ['b']]
      = some (true, emptySheet, [CValue.double 0]) ∧
    mixedCompareSheet.getValue posA1
      = some (CValue.monostate, { mixedCompareSheet.enter posA1 with calledPositions := [] }) :=
  ⟨by
    have h := (comparison_result Comparison.Lt (fun _ _ => none) emptySheet
      (CValue.double (2 : ℚ)) (CValue.double (3 : ℚ)) []).1 2 3 rfl rfl
    simp only [Comparison.expr] at h
    rw [h]
    have e : Comparison.onNumbers Comparison.Lt (2 : ℚ) 3 = true := by
      simp only [Comparison.onNumbers, DoubleOps.lt]
      norm_num
    rw [e]
    rfl,
   by
    have h := (comparison_result Comparison.Lt (fun _ _ => none) emptySheet
      (CValue.string ['b']) (CValue.string ['a']) ([] : ValueStack ℚ)).2.1 ['b'] ['a'] rfl rfl
    simp only [Comparison.expr] at h
    rw [h]
    have e : Comparison.onTexts Comparison.Lt ['b'] ['a'] = false := by decide
    rw [e]
    rfl,
   ((comparison_result Comparison.Lt (fun _ _ => none) emptySheet
      (CValue.double (1 : ℚ)) (CValue.string ['a']) []).2.2 (by simp) (by simp)).2
      mixedCompareSheet posA1 [CExpr.CNumber 1, CExpr.CString ['a']] []
      (mixedCompareSheet.enter posA1) rfl rfl rfl⟩

/-! ## copyRect: the cells outside the destination block -/

section Frame

variable {D : Type}

/-- First phase, inner loop: a throw leaves the cells of the sheet as they were. -/
theorem copyColumn_error (n : Nat) :
    ∀ (st : CopyState D) (m : CellMap D), copyColumn n st = Except.error m →
      ∀ k, mapGet m k = mapGet st.m_Excel k := by
  induction n with
  | zero => intro st m h; simp [copyColumn] at h
  | succ n ih =>
    intro st m h k
    simp only [copyColumn, CPos.getRow, CPos.setRow, ge_iff_le] at h
    by_cases h1 : 0 ≤ wrap32 (st.srcCopy.m_Row + 1)
    · by_cases h2 : 0 ≤ wrap32 (st.dstCopy.m_Row + 1)
      · simp only [h1, h2, if_true, orThrow, bind, Except.bind] at h
        rw [ih _ m h k]
        exact mapFind_mapTouch _ _ _
      · simp only [h1, h2, if_true, if_false, orThrow, bind, Except.bind,
          Except.error.injEq] at h
        rw [← h]
        exact mapFind_mapTouch _ _ _
    · simp only [h1, if_false, orThrow, bind, Except.bind, Except.error.injEq] at h
      rw [← h]
      exact mapFind_mapTouch _ _ _

/-- First phase, inner loop: the cells of the sheet stay as they were. -/
theorem copyColumn_keeps (n : Nat) :
    ∀ (st st' : CopyState D), copyColumn n st = Except.ok st' →
      ∀ k, mapGet st'.m_Excel k = mapGet st.m_Excel k := by
  induction n with
  | zero =>
    intro st st' h k
    simp only [copyColumn, Except.ok.injEq] at h
    rw [h]
  | succ n ih =>
    intro st st' h k
    rw [copyColumn_succ] at h
    rw [ih _ st' h.2.2 k]
    exact mapFind_mapTouch _ _ _

/-- First phase: a throw leaves the cells of the sheet as they were. -/
theorem copyColumns_error (dst src : CPos) (h : Int) (n : Nat) :
    ∀ (st : CopyState D) (m : CellMap D), copyColumns dst src h n st = Except.error m →
      ∀ k, mapGet m k = mapGet st.m_Excel k := by
  induction n with
  | zero => intro st m h0; simp [copyColumns] at h0
  | succ n ih =>
    intro st m h0 k
    simp only [copyColumns, CPos.getRow, CPos.getCol, CPos.setRow, CPos.setCol, ge_iff_le]
      at h0
    by_cases h1 : 0 ≤ src.m_Row
    · by_cases h2 : 0 ≤ dst.m_Row
      · simp only [h1, h2, if_true, orThrow, bind, Except.bind] at h0
        cases hc : copyColumn h.toNat
            { st with
              srcCopy := { st.srcCopy with m_Row := src.m_Row }
              dstCopy := { st.dstCopy with m_Row := dst.m_Row } } with
        | error m1 =>
          rw [hc] at h0
          simp only [Except.error.injEq] at h0
          rw [← h0]
          exact copyColumn_error _ _ m1 hc k
        | ok st1 =>
          rw [hc] at h0
          have hk := copyColumn_keeps _ _ st1 hc k
          dsimp only at h0 hk
          by_cases h3 : 0 ≤ wrap32 (st1.srcCopy.m_Col + 1)
          · by_cases h4 : 0 ≤ wrap32 (st1.dstCopy.m_Col + 1)
            · simp only [h3, h4, if_true] at h0
              rw [ih _ m h0 k]
              exact hk
            · simp only [h3, h4, if_true, if_false, Except.error.injEq] at h0
              rw [← h0]
              exact hk
          · simp only [h3, if_false, Except.error.injEq] at h0
            rw [← h0]
            exact hk
      · simp only [h1, h2, if_true, if_false, orThrow, bind, Except.bind,
          Except.error.injEq] at h0
        rw [← h0]
    · simp only [h1, if_false, orThrow, bind, Except.bind, Except.error.injEq] at h0
      rw [← h0]

/-- Second phase, inner loop: a throw leaves the cells outside the column segment as they
were. -/
theorem writeColumn_error (co ro : Int) (n : Nat) :
    ∀ (st : WriteState D) (m : CellMap D), writeColumn co ro n st = Except.error m →
      -2147483648 ≤ st.dstCopy.m_Row → st.dstCopy.m_Row ≤ 2147483647 →
      ∀ k, ¬ (k.m_Col = st.dstCopy.m_Col ∧ st.dstCopy.m_Row ≤ k.m_Row ∧
          k.m_Row < st.dstCopy.m_Row + n) →
        mapGet m k = mapGet st.m_Excel k := by
  induction n with
  | zero => intro st m h; simp [writeColumn] at h
  | succ n ih =>
    intro st m h hr1 hr2 k hk
    simp only [Nat.cast_add, Nat.cast_one] at hk
    have hns : ¬ CPos.same st.dstCopy k = true := by
      rw [same_iff]; omega
    simp only [writeColumn, CPos.getRow, CPos.setRow, ge_iff_le] at h
    by_cases h1 : 0 ≤ wrap32 (st.dstCopy.m_Row + 1)
    · simp only [h1, if_true, orThrow, bind, Except.bind] at h
      obtain ⟨e1, b1⟩ := wrap32_succ hr1 hr2 h1
      rw [ih _ m h (by dsimp only; omega) (by dsimp only; omega) k
        (by dsimp only; rw [e1]; omega)]
      dsimp only
      rw [mapGet_mapAssign, if_neg hns]
    · simp only [h1, if_false, orThrow, bind, Except.bind, Except.error.injEq] at h
      rw [← h, mapGet_mapAssign, if_neg hns]

/-- Second phase: a throw leaves the cells outside the destination block as they were. -/
theorem writeColumns_error (dst : CPos) (h co ro : Int) (hdr1 : -2147483648 ≤ dst.m_Row)
    (hdr : dst.m_Row ≤ 2147483647) (n : Nat) :
    ∀ (st : WriteState D) (m : CellMap D), writeColumns dst h co ro n st = Except.error m →
      -2147483648 ≤ st.dstCopy.m_Col → st.dstCopy.m_Col ≤ 2147483647 →
      ∀ k, ¬ (st.dstCopy.m_Col ≤ k.m_Col ∧ k.m_Col < st.dstCopy.m_Col + n ∧
          dst.m_Row ≤ k.m_Row ∧ k.m_Row < dst.m_Row + h.toNat) →
        mapGet m k = mapGet st.m_Excel k := by
  induction n with
  | zero => intro st m h0; simp [writeColumns] at h0
  | succ n ih =>
    intro st m h0 hc1 hc2 k hk
    simp only [Nat.cast_add, Nat.cast_one] at hk
    simp only [writeColumns, CPos.getRow, CPos.getCol, CPos.setRow, CPos.setCol, ge_iff_le]
      at h0
    by_cases h2 : 0 ≤ dst.m_Row
    · simp only [h2, if_true, orThrow, bind, Except.bind] at h0
      cases hc : writeColumn co ro h.toNat
          { st with dstCopy := { st.dstCopy with m_Row := dst.m_Row } } with
      | error m1 =>
        rw [hc] at h0
        simp only [Except.error.injEq] at h0
        rw [← h0]
        exact writeColumn_error co ro _ _ m1 hc (by dsimp only; omega) (by dsimp only; omega)
          k (by dsimp only; omega)
      | ok st1 =>
        rw [hc] at h0
        obtain ⟨c1, -, c3⟩ := writeColumn_spec co ro _ _ st1 hc (by dsimp only; omega)
          (by dsimp only; omega)
        have hk1 := c3 k
        dsimp only at hk1 c1
        rw [if_neg (by omega)] at hk1
        have hdc : st1.dstCopy.m_Col = st.dstCopy.m_Col := by rw [c1]
        dsimp only at h0
        by_cases h4 : 0 ≤ wrap32 (st1.dstCopy.m_Col + 1)
        · simp only [h4, if_true] at h0
          obtain ⟨e1, b1⟩ := wrap32_succ (x := st1.dstCopy.m_Col) (by omega) (by omega) h4
          rw [ih _ m h0 (by dsimp only; omega) (by dsimp only; omega) k
            (by dsimp only; rw [e1]; omega)]
          exact hk1
        · simp only [h4, if_false, Except.error.injEq] at h0
          rw [← h0]
          exact hk1
    · simp only [h2, if_false, orThrow, bind, Except.bind, Except.error.injEq] at h0
      rw [← h0]

/-- A throw of `copyRect` leaves the cells outside the destination block as they were. -/
theorem copyRectMap_error (m m' : CellMap D) (dst src : CPos) (w h : Int)
    (hd : dst.IsInt) (hs : src.IsInt) (herr : copyRectMap m dst src w h = Except.error m') :
    ∀ k, ¬ (dst.m_Col ≤ k.m_Col ∧ k.m_Col < dst.m_Col + w.toNat ∧
        dst.m_Row ≤ k.m_Row ∧ k.m_Row < dst.m_Row + h.toNat) →
      mapGet m' k = mapGet m k := by
  obtain ⟨hd1, hd2, hd3, hd4⟩ := hd
  obtain ⟨hs1, hs2, hs3, hs4⟩ := hs
  unfold INT_MIN at hd1 hd3 hs1 hs3
  unfold INT_MAX at hd2 hd4 hs2 hs4
  intro k hk
  simp only [copyRectMap, CPos.getRow, CPos.getCol, CPos.setCol, ge_iff_le, bind, Except.bind]
    at herr
  cases h1 : copyColumns dst src h w.toNat
      { srcCopy := src, dstCopy := dst, m_Excel := m, newExcel := [] } with
  | error e =>
    rw [h1] at herr
    simp only [Except.error.injEq] at herr
    rw [← herr]
    exact copyColumns_error dst src h _ _ e h1 k
  | ok st1 =>
    rw [h1] at herr
    obtain ⟨-, -, -, -, a5, -⟩ := copyColumns_spec dst src h hs4 hd4 _ _ st1 h1
      hs1 hs2 hd1 hd2
    dsimp only at a5 herr
    by_cases h2 : 0 ≤ dst.m_Col
    · simp only [h2, if_true, orThrow] at herr
      cases h3 : writeColumns dst h (wrap32 (dst.m_Col - src.m_Col))
          (wrap32 (dst.m_Row - src.m_Row)) w.toNat
          { dstCopy := { st1.dstCopy with m_Col := dst.m_Col }
            m_Excel := st1.m_Excel, newExcel := st1.newExcel } with
      | error e =>
        rw [h3] at herr
        simp only [Except.error.injEq] at herr
        rw [← herr, writeColumns_error dst h _ _ hd3 hd4 _ _ e h3 (by dsimp only; omega)
          (by dsimp only; omega) k (by dsimp only; exact hk)]
        exact a5 k
      | ok st2 =>
        rw [h3] at herr
        simp [pure, Except.pure] at herr
    · simp only [h2, if_false, orThrow, Except.error.injEq] at herr
      rw [← herr]
      exact a5 k

/-- Method `copyRect` returns when the two blocks, and the positions next to them that the
loops step on, have non-negative coordinates within `int`. -/
theorem copyRectMap_returns (m : CellMap D) (dst src : CPos) (w h : Int)
    (a1 : 0 ≤ src.m_Col) (a2 : 0 ≤ src.m_Row) (a3 : 0 ≤ dst.m_Col) (a4 : 0 ≤ dst.m_Row)
    (a5 : src.m_Col + w.toNat ≤ 2147483647) (a6 : src.m_Row + h.toNat ≤ 2147483647)
    (a7 : dst.m_Col + w.toNat ≤ 2147483647) (a8 : dst.m_Row + h.toNat ≤ 2147483647) :
    ∃ m', copyRectMap m dst src w h = Except.ok m' := by
  obtain ⟨st1, h1⟩ := copyColumns_ok dst src h a2 a6 a4 a8 w.toNat
    { srcCopy := src, dstCopy := dst, m_Excel := m, newExcel := [] }
    a1 a5 a3 a7
  obtain ⟨st2, h2⟩ := writeColumns_ok dst h (wrap32 (dst.m_Col - src.m_Col))
    (wrap32 (dst.m_Row - src.m_Row)) a4 a8 w.toNat
    { dstCopy := { st1.dstCopy with m_Col := dst.m_Col }
      m_Excel := st1.m_Excel, newExcel := st1.newExcel }
    a3 a7
  exact ⟨st2.m_Excel, (copyRectMap_eq_ok _ _ _ _ _ _).2 ⟨st1, h1, a3, st2, h2, rfl⟩⟩

/-- C12. For positions `dst` and `src` whose members are values of `int`, whether
`copyRect(dst, src, w, h)` returns or throws: every position outside the destination block
`[dst.col, dst.col+w) x [dst.row, dst.row+h)` holds afterwards the expressions it held
before (none, for an absent position), the source cells outside the block included; with
`w <= 0` or `h <= 0` this is so for every position. -/
theorem copyRect_frame (s : CSpreadsheet D) (dst src : CPos) (w h : Int)
    (hd : dst.IsInt) (hs : src.IsInt) :
    (∀ k, ¬ InBlock dst w h k →
      mapGet (sheetAfter (s.copyRect dst src w h)).m_Excel k = mapGet s.m_Excel k) ∧
    (w ≤ 0 ∨ h ≤ 0 →
      ∀ k, mapGet (sheetAfter (s.copyRect dst src w h)).m_Excel k = mapGet s.m_Excel k) := by
  have main : ∀ k, ¬ InBlock dst w h k →
      mapGet (sheetAfter (s.copyRect dst src w h)).m_Excel k = mapGet s.m_Excel k := by
    intro k hk
    have hk' : ¬ (dst.m_Col ≤ k.m_Col ∧ k.m_Col < dst.m_Col + w.toNat ∧
        dst.m_Row ≤ k.m_Row ∧ k.m_Row < dst.m_Row + h.toNat) := by
      unfold InBlock at hk
      omega
    unfold CSpreadsheet.copyRect
    cases hm : copyRectMap s.m_Excel dst src w h with
    | error m =>
      exact copyRectMap_error _ _ dst src w h hd hs hm k hk'
    | ok m =>
      have := copyRectMap_spec _ _ dst src w h hd hs hm k
      rw [if_neg hk'] at this
      exact this
  refine ⟨main, ?_⟩
  intro hwh k
  apply main
  unfold InBlock
  omega

/-- C13. In `copyRect(dst, src, w, h)`, for positions whose members are values of `int`: the
call returns when the blocks fit the non-negative range of `int`; and when it returns, a
source position that holds no expressions leaves the corresponding destination position
without expressions, whatever it held before, and that cell evaluates to the empty value. -/
theorem copyRect_clears_destination (s : CSpreadsheet D) [DoubleOps D] (dst src : CPos)
    (w h : Int) (hd : dst.IsInt) (hs : src.IsInt) :
    (0 ≤ src.m_Col ∧ 0 ≤ src.m_Row ∧ 0 ≤ dst.m_Col ∧ 0 ≤ dst.m_Row ∧
        src.m_Col + w.toNat ≤ INT_MAX ∧ src.m_Row + h.toNat ≤ INT_MAX ∧
        dst.m_Col + w.toNat ≤ INT_MAX ∧ dst.m_Row + h.toNat ≤ INT_MAX →
      ∃ s', s.copyRect dst src w h = Except.ok s') ∧
    (∀ s', s.copyRect dst src w h = Except.ok s' →
      ∀ i j : Int, 0 ≤ i → i < w → 0 ≤ j → j < h →
      ∀ kd ks : CPos, kd.m_Col = dst.m_Col + i → kd.m_Row = dst.m_Row + j →
        ks.m_Col = src.m_Col + i → ks.m_Row = src.m_Row + j →
        mapGet s.m_Excel ks = [] →
        mapGet s'.m_Excel kd = [] ∧
        ∃ s'', s'.getValue kd = some (CValue.monostate, s'')) := by
  constructor
  · rintro ⟨a1, a2, a3, a4, a5, a6, a7, a8⟩
    unfold INT_MAX at a5 a6 a7 a8
    obtain ⟨m', hm⟩ := copyRectMap_returns s.m_Excel dst src w h a1 a2 a3 a4 a5 a6 a7 a8
    exact ⟨{ s with m_Excel := m' }, by simp only [CSpreadsheet.copyRect, hm]⟩
  · intro s' hok i j hi1 hi2 hj1 hj2 kd ks e1 e2 e3 e4 hempty
    unfold CSpreadsheet.copyRect at hok
    cases hm : copyRectMap s.m_Excel dst src w h with
    | error m => simp [hm] at hok
    | ok m =>
      rw [hm] at hok
      simp only [Except.ok.injEq] at hok
      subst hok
      have hcell : mapGet m kd = [] := by
        rw [copyRectMap_spec _ _ dst src w h hd hs hm kd, if_pos (by omega)]
        have : mapGet s.m_Excel
            ⟨src.m_Col + (kd.m_Col - dst.m_Col), src.m_Row + (kd.m_Row - dst.m_Row),
              false, false⟩ = mapGet s.m_Excel ks := by
          apply mapGet_congr
          rw [same_iff]
          dsimp only
          omega
        rw [this, hempty]
        rfl
      exact ⟨hcell, getValue_of_empty _ kd hcell⟩

end Frame

/-- Witness of C12: on the sheet `A1 = "top"`, `A2 = A1` the block `A1:A2` is copied onto
`A2:A3`; the source cell `A1` lies outside the destination block and keeps its text. -/
theorem copyRect_frame_witness :
    posA2.IsInt ∧ posA1.IsInt ∧ ¬ InBlock posA2 1 2 posA1 ∧
    mapGet (sheetAfter (overlapSheet.copyRect posA2 posA1 1 2)).m_Excel posA1
      = [CExpr.CString ['t', 'o', 'p']] :=
  have hd : posA2.IsInt := by unfold CPos.IsInt INT_MIN INT_MAX posA2; decide
  have hs : posA1.IsInt := by unfold CPos.IsInt INT_MIN INT_MAX posA1; decide
  have hk : ¬ InBlock posA2 1 2 posA1 := by decide
  ⟨hd, hs, hk, by
    rw [(copyRect_frame overlapSheet posA2 posA1 1 2 hd hs).1 posA1 hk]
    rfl⟩

/-- Witness of C13: on the sheet `A1 = "top"`, `A2 = A1` the empty cell `B1` is copied onto
`A2`, which loses its reference. -/
theorem copyRect_clears_destination_witness :
    posA2.IsInt ∧ posB1.IsInt ∧
    (∃ s', overlapSheet.copyRect posA2 posB1 1 1 = Except.ok s') ∧
    mapGet overlapSheet.m_Excel posA2 = [CExpr.CReference posA1] ∧
    mapGet overlapSheet.m_Excel posB1 = [] ∧
    (∀ s', overlapSheet.copyRect posA2 posB1 1 1 = Except.ok s' →
      mapGet s'.m_Excel posA2 = [] ∧
      ∃ s'', s'.getValue posA2 = some (CValue.monostate, s'')) :=
  have hd : posA2.IsInt := by unfold CPos.IsInt INT_MIN INT_MAX posA2; decide
  have hs : posB1.IsInt := by unfold CPos.IsInt INT_MIN INT_MAX posB1; decide
  have main := copyRect_clears_destination overlapSheet posA2 posB1 1 1 hd hs
  ⟨hd, hs, main.1 (by unfold INT_MAX posA2 posB1; decide), rfl, rfl,
    fun s' hok => main.2 s' hok 0 0 (by decide) (by decide) (by decide) (by decide)
      posA2 posB1 (by decide) (by decide) (by decide) (by decide) rfl⟩

/-! ## Evaluation looks only at the cells it reaches -/

section Agree

variable {D : Type}

theorem references_congr_right {s : CSpreadsheet D} {a x y : CPos}
    (h : CPos.same x y = true) (hr : References s a x) : References s a y := by
  obtain ⟨r, h1, h2⟩ := hr
  exact ⟨r, h1, same_trans h2 h⟩

theorem reaches_congr_right {s : CSpreadsheet D} {a x y : CPos}
    (h : CPos.same x y = true) (hr : Reaches s a x) : Reaches s a y := by
  unfold Reaches at hr ⊢
  cases hr with
  | single h1 => exact Relation.TransGen.single (references_congr_right h h1)
  | tail h1 h2 => exact Relation.TransGen.tail h1 (references_congr_right h h2)

/-- The first step of a path of references. -/
theorem reaches_head {s : CSpreadsheet D} {p q : CPos} (h : Reaches s p q) :
    ∃ r, CExpr.CReference r ∈ mapGet s.m_Excel p ∧
      (CPos.same r q = true ∨ Reaches s r q) := by
  unfold Reaches at h ⊢
  obtain ⟨c, ⟨r, hr1, hr2⟩, hcq⟩ := Relation.TransGen.head'_iff.1 h
  refine ⟨r, hr1, ?_⟩
  rcases Relation.ReflTransGen.cases_head hcq with rfl | ⟨d, hcd, hdq⟩
  · exact Or.inl hr2
  · exact Or.inr (transGen_congr_left hr2 (Relation.TransGen.head' hcd hdq))

/-- The positions equivalent to `p` or reached from `p` form a closed set. -/
theorem closedUnder_reach (s : CSpreadsheet D) (p : CPos) :
    ClosedUnder (fun k => CPos.same p k = true ∨ Reaches s p k) s := by
  constructor
  · rintro k k' (hk | hk) hsame
    · exact Or.inl (same_trans hk hsame)
    · exact Or.inr (reaches_congr_right hsame hk)
  · rintro k r (hk | hk) hmem
    · right
      exact Relation.TransGen.single
        (references_congr_left hk ⟨r, hmem, same_refl r⟩)
    · right
      exact Relation.TransGen.tail hk ⟨r, hmem, same_refl r⟩

theorem closedUnder_preserved {dom : CPos → Prop} {a b : CSpreadsheet D}
    (h : ClosedUnder dom a) (hp : Preserved a b) : ClosedUnder dom b :=
  ⟨h.1, fun k r hk hmem => h.2 k r hk (by rw [← hp.1 k]; exact hmem)⟩

theorem agreeOn_preserved {dom : CPos → Prop} {a b a' b' : CSpreadsheet D}
    (h : AgreeOn dom a b) (ha : Preserved a a') (hb : Preserved b b')
    (hca : a'.calledPositions = a.calledPositions)
    (hcb : b'.calledPositions = b.calledPositions) : AgreeOn dom a' b' := by
  intro k hk
  obtain ⟨h1, h2⟩ := h k hk
  exact ⟨by rw [ha.1 k, hb.1 k, h1], by rw [hca, hcb, h2]⟩

theorem agreeOn_enter {dom : CPos → Prop} {a b : CSpreadsheet D} (h : AgreeOn dom a b)
    (p : CPos) : AgreeOn dom (a.enter p) (b.enter p) := by
  intro k hk
  obtain ⟨h1, h2⟩ := h k hk
  refine ⟨by rw [(preserved_enter a p).1 k, (preserved_enter b p).1 k, h1], ?_⟩
  show setContains (setInsert a.calledPositions p) k
    = setContains (setInsert b.calledPositions p) k
  rw [setContains_setInsert, setContains_setInsert, h2]

variable [DoubleOps D]

/-- One expression gives the same result on two sheets that agree on a closed set holding
the target of the expression. -/
theorem getValue_agree (gv : Evaluator D) (hg : GoodEvaluator gv) (dom : CPos → Prop)
    (hag : ∀ (t1 t2 : CSpreadsheet D) (r : CPos) (v : CValue D) (t1' : CSpreadsheet D),
      dom r → ClosedUnder dom t1 → AgreeOn dom t1 t2 → gv t1 r = some (v, t1') →
      ∃ t2', gv t2 r = some (v, t2'))
    (e : CExpr D) (he : ∀ r, e = CExpr.CReference r → dom r)
    (t1 t2 : CSpreadsheet D) (vals : ValueStack D) (b : Bool) (t1' : CSpreadsheet D)
    (vals' : ValueStack D) (hcl : ClosedUnder dom t1) (hA : AgreeOn dom t1 t2)
    (h : CExpr.getValue gv e t1 vals = some (b, t1', vals')) :
    ∃ t2', CExpr.getValue gv e t2 vals = some (b, t2', vals') ∧
      (b = true → AgreeOn dom t1' t2') := by
  by_cases hne : ∀ p, e ≠ CExpr.CReference p
  · obtain ⟨b1, v1, h1⟩ := getValue_not_reference gv e vals hne
    rw [h1 t1] at h
    simp only [Option.some.injEq, Prod.mk.injEq] at h
    obtain ⟨rfl, rfl, rfl⟩ := h
    exact ⟨t2, h1 t2, fun _ => hA⟩
  · push_neg at hne
    obtain ⟨r, rfl⟩ := hne
    rcases referenceGetValue_cases gv r t1 vals b t1' vals' h with
      ⟨rfl, rfl, hgv⟩ | ⟨rfl, w, hw, rfl, hgv⟩
    · obtain ⟨t2', h2⟩ := hag t1 t2 r _ t1' (he r rfl) hcl hA hgv
      refine ⟨t2', ?_, fun hb => by simp at hb⟩
      simp only [CExpr.getValue, referenceGetValue, h2]
    · obtain ⟨t2', h2⟩ := hag t1 t2 r _ t1' (he r rfl) hcl hA hgv
      refine ⟨t2', ?_, fun _ => ?_⟩
      · cases w with
        | monostate => exact absurd rfl hw
        | double d => simp only [CExpr.getValue, referenceGetValue, h2]
        | string x => simp only [CExpr.getValue, referenceGetValue, h2]
      · have g1 := hg t1 r w t1' hgv
        have g2 := hg t2 r w t2' h2
        exact agreeOn_preserved hA g1.1 g2.1 (g1.2 hw).1 (g2.2 hw).1

/-- The loop gives the same result on two sheets that agree on a closed set holding the
targets of the expressions. -/
theorem evalLoop_agree (gv : Evaluator D) (hg : GoodEvaluator gv) (dom : CPos → Prop)
    (hag : ∀ (t1 t2 : CSpreadsheet D) (r : CPos) (v : CValue D) (t1' : CSpreadsheet D),
      dom r → ClosedUnder dom t1 → AgreeOn dom t1 t2 → gv t1 r = some (v, t1') →
      ∃ t2', gv t2 r = some (v, t2'))
    (es : Expressions D) :
    (∀ r, CExpr.CReference r ∈ es → dom r) →
    ∀ (t1 t2 : CSpreadsheet D) (vals : ValueStack D) (b : Bool) (t1' : CSpreadsheet D)
      (vals' : ValueStack D), ClosedUnder dom t1 → AgreeOn dom t1 t2 →
      CSpreadsheet.evalLoop gv es t1 vals = some (b, t1', vals') →
      ∃ t2', CSpreadsheet.evalLoop gv es t2 vals = some (b, t2', vals') := by
  induction es with
  | nil =>
    intro _ t1 t2 vals b t1' vals' _ _ h
    simp only [CSpreadsheet.evalLoop, Option.some.injEq, Prod.mk.injEq] at h ⊢
    exact ⟨t2, h.1, rfl, h.2.2⟩
  | cons e es ih =>
    intro hes t1 t2 vals b t1' vals' hcl hA h
    simp only [CSpreadsheet.evalLoop] at h ⊢
    cases h1 : CExpr.getValue gv e t1 vals with
    | none => simp [h1] at h
    | some r1 =>
      obtain ⟨b1, u1, w1⟩ := r1
      rw [h1] at h
      obtain ⟨u2, h2, hA2⟩ := getValue_agree gv hg dom hag e
        (fun r hr => hes r (by rw [hr]; exact List.mem_cons_self _ _))
        t1 t2 vals b1 u1 w1 hcl hA h1
      rw [h2]
      cases b1 with
      | false =>
        simp only [Option.some.injEq, Prod.mk.injEq] at h ⊢
        exact ⟨u2, h.1, rfl, h.2.2⟩
      | true =>
        simp only at h ⊢
        have hp1 := getValue_preserved gv hg e t1 vals true u1 w1 h1
        exact ih (fun r hr => hes r (List.mem_cons_of_mem _ hr)) u1 u2 w1 b t1' vals'
          (closedUnder_preserved hcl hp1.1) (hA2 rfl) h

/-- Method `getValue` gives the same value on two sheets that agree on a closed set of
positions holding the position asked for. -/
theorem getValueFuel_agree (fuel : Nat) :
    ∀ (dom : CPos → Prop) (t1 t2 : CSpreadsheet D) (p : CPos) (v : CValue D)
      (t1' : CSpreadsheet D), dom p → ClosedUnder dom t1 → AgreeOn dom t1 t2 →
      CSpreadsheet.getValueFuel fuel t1 p = some (v, t1') →
      ∃ t2', CSpreadsheet.getValueFuel fuel t2 p = some (v, t2') := by
  induction fuel with
  | zero => intro dom t1 t2 p v t1' _ _ _ h; simp [CSpreadsheet.getValueFuel] at h
  | succ fuel ih =>
    intro dom t1 t2 p v t1' hp hcl hA h
    rw [getValueFuel_succ] at h ⊢
    obtain ⟨hm, hc⟩ := hA p hp
    by_cases hc1 : setContains t1.calledPositions p = true
    · rw [if_pos hc1] at h
      rw [if_pos (by rw [← hc]; exact hc1)]
      simp only [Option.some.injEq, Prod.mk.injEq] at h ⊢
      exact ⟨t2, h.1, rfl⟩
    · rw [if_neg hc1] at h
      rw [if_neg (by rw [← hc]; exact hc1)]
      cases hl : CSpreadsheet.evalLoop (fun s k => CSpreadsheet.getValueFuel fuel s k)
          (mapGet (t1.enter p).m_Excel p) (t1.enter p) [] with
      | none => simp [hl] at h
      | some res =>
        obtain ⟨b, u1, vals⟩ := res
        rw [hl] at h
        have hprog : mapGet (t2.enter p).m_Excel p = mapGet (t1.enter p).m_Excel p := by
          rw [(preserved_enter t2 p).1 p, (preserved_enter t1 p).1 p, hm]
        rw [hprog]
        obtain ⟨u2, h2⟩ := evalLoop_agree _ (getValueFuel_good fuel) dom
          (fun a b r w a' hr hcl' hA' hgv => ih dom a b r w a' hr hcl' hA' hgv)
          _ (fun r hr => hcl.2 p r hp (by rw [← (preserved_enter t1 p).1 p]; exact hr))
          (t1.enter p) (t2.enter p) [] b u1 vals
          (closedUnder_preserved hcl (preserved_enter t1 p)) (agreeOn_enter hA p) hl
        rw [h2]
        cases b with
        | false =>
          simp only [Option.map_some', CSpreadsheet.leave, Option.some.injEq,
            Prod.mk.injEq] at h ⊢
          exact ⟨_, h.1, rfl⟩
        | true =>
          simp only [Option.map_some', CSpreadsheet.leave, Option.some.injEq,
            Prod.mk.injEq] at h ⊢
          exact ⟨_, h.1, rfl⟩

/-- Method `getValue` gives the same value on two sheets that agree on a closed set of
positions holding the position asked for. -/
theorem getValue_agree_value (dom : CPos → Prop) (t1 t2 : CSpreadsheet D) (p : CPos)
    (hp : dom p) (hcl : ClosedUnder dom t1) (hA : AgreeOn dom t1 t2) :
    ∃ v t1' t2', t1.getValue p = some (v, t1') ∧ t2.getValue p = some (v, t2') := by
  obtain ⟨v, t1', h1⟩ := getValue_terminates t1 p
  have hf1 := getValueFuel_eq_getValue t1 p
    (max (t1.m_Excel.length + 1) (t2.m_Excel.length + 1)) (Nat.le_max_left _ _)
  have hf2 := getValueFuel_eq_getValue t2 p
    (max (t1.m_Excel.length + 1) (t2.m_Excel.length + 1)) (Nat.le_max_right _ _)
  rw [h1] at hf1
  obtain ⟨t2', h2⟩ := getValueFuel_agree _ dom t1 t2 p v t1' hp hcl hA hf1
  rw [hf2] at h2
  exact ⟨v, t1', t2', h1, h2⟩

/-- C14. For every sheet and positions `p` and `q` such that `q` is not `p` and is not
reached from `p` by following references: giving the cell at `q` any expressions, by
`setCell`, leaves the value that `getValue(p)` returns as it was. -/
theorem independent_cell_unaffected (s : CSpreadsheet D) (p q : CPos) (prog : Expressions D)
    (hq : CPos.same q p = false) (hreach : ¬ Reaches s p q) :
    ∃ v s1 s2, s.getValue p = some (v, s1) ∧ (s.setCell q prog).getValue p = some (v, s2) := by
  have hcl := closedUnder_reach s p
  apply getValue_agree_value (fun k => CPos.same p k = true ∨ Reaches s p k) s
    (s.setCell q prog) p (Or.inl (same_refl p)) hcl
  intro k hk
  refine ⟨?_, rfl⟩
  have hns : ¬ CPos.same q k = true := by
    intro hqk
    rcases hcl.1 k q hk (same_symm hqk) with h1 | h1
    · rw [same_symm h1] at hq
      exact absurd hq (by simp)
    · exact hreach h1
  show mapGet s.m_Excel k = mapGet (mapAssign s.m_Excel q (copyExpressions prog)) k
  rw [mapGet_mapAssign, if_neg hns]

end Agree

/-- Witness of C14: on the sheet `A1 = 100`, `B1 = A1 + 50`, `C1 = D1 + 1`, `D1 = 2` the
cell `D1` receives `C1 + 1`, which closes a cycle; `D1` is not reached from `B1`, whose
value stays. -/
theorem independent_cell_unaffected_witness :
    CPos.same posD1 posB1 = false ∧ ¬ Reaches independentSheet posB1 posD1 ∧
    ∃ v s1 s2, independentSheet.getValue posB1 = some (v, s1) ∧
      (independentSheet.setCell posD1
        [CExpr.CReference posC1, CExpr.CNumber 1, CExpr.CAdd]).getValue posB1
        = some (v, s2) :=
  have hq : CPos.same posD1 posB1 = false := by decide
  have hreach : ¬ Reaches independentSheet posB1 posD1 := by
    intro h
    obtain ⟨r, hr, hrest⟩ := reaches_head h
    have e1 : mapGet independentSheet.m_Excel posB1
        = [CExpr.CReference posA1, CExpr.CNumber 50, CExpr.CAdd] := rfl
    rw [e1] at hr
    simp only [List.mem_cons, CExpr.CReference.injEq, List.mem_singleton, reduceCtorEq,
      or_false, List.not_mem_nil] at hr
    subst hr
    rcases hrest with h1 | h1
    · exact absurd h1 (by decide)
    · obtain ⟨r2, hr2, -⟩ := reaches_head h1
      have e2 : mapGet independentSheet.m_Excel posA1 = [CExpr.CNumber 100] := rfl
      rw [e2] at hr2
      simp at hr2
  ⟨hq, hreach, independent_cell_unaffected independentSheet posB1 posD1 _ hq hreach⟩

/-! ## A copied formula keeps its relative reference -/

section CopyOffset

variable {D : Type} [DoubleOps D]

/-- A reference inside the evaluation of the cell at `pos` reads the value that the
referenced cell has on its own. -/
theorem getValue_enter_reference (t : CSpreadsheet D) (pos r : CPos)
    (href : References t pos r) :
    ∃ c u1 u2, t.getValue r = some (c, u1) ∧ (t.enter pos).getValue r = some (c, u2) := by
  by_cases hback : CPos.same r pos = true ∨ Reaches t r pos
  · -- the referenced cell leads back to `pos`: both values are empty
    have hloop : Relation.TransGen (References t) r r := by
      rcases hback with h | h
      · exact Relation.TransGen.single (references_congr_left h href)
      · exact Relation.TransGen.tail h href
    obtain ⟨c, u1, h1⟩ := getValue_terminates t r
    obtain ⟨c', u2, h2⟩ := getValue_terminates (t.enter pos) r
    have e1 : c = CValue.monostate :=
      getValueFuel_cycle _ t r c u1 (Or.inr ⟨r, hloop, Or.inr (same_refl r)⟩) h1
    have hin : setContains (t.enter pos).calledPositions pos = true := by
      show setContains (setInsert t.calledPositions pos) pos = true
      rw [setContains_setInsert, same_refl]
      rfl
    have e2 : c' = CValue.monostate := by
      refine getValueFuel_cycle _ (t.enter pos) r c' u2 ?_ h2
      rcases hback with h | h
      · left
        rw [setContains_congr h]
        exact hin
      · right
        exact ⟨pos, transGen_preserved (preserved_enter t pos) h, Or.inl hin⟩
    subst e1 e2
    exact ⟨_, u1, u2, h1, h2⟩
  · push_neg at hback
    have hcl := closedUnder_reach t r
    apply getValue_agree_value (fun k => CPos.same r k = true ∨ Reaches t r k) t
      (t.enter pos) r (Or.inl (same_refl r)) hcl
    intro k hk
    refine ⟨((preserved_enter t pos).1 k).symm, ?_⟩
    show setContains t.calledPositions k = setContains (setInsert t.calledPositions pos) k
    rw [setContains_setInsert]
    have hns : CPos.same pos k = false := by
      by_contra hsame
      have hsame' : CPos.same pos k = true := by simpa using hsame
      rcases hcl.1 k pos hk (same_symm hsame') with h1 | h1
      · exact absurd h1 (by simpa using hback.1)
      · exact hback.2 h1
    rw [hns]
    rfl

/-- A cell that holds a reference, a number and an addition evaluates to the value of the
referenced cell plus the number, and to the empty value when the referenced cell is
empty. -/
theorem getValue_reference_plus_number (t : CSpreadsheet D) (pos r : CPos) (n : D)
    (hc : setContains t.calledPositions pos = false)
    (hprog : mapGet t.m_Excel pos = [CExpr.CReference r, CExpr.CNumber n, CExpr.CAdd]) :
    ∃ c u1 u2, t.getValue r = some (c, u1) ∧
      t.getValue pos = some (topOrEmpty (addGetValue [CValue.double n, c]).2, u2) := by
  obtain ⟨c, u1, u2, h1, h2⟩ := getValue_enter_reference t pos r
    ⟨r, by rw [hprog]; exact List.mem_cons_self _ _, same_refl r⟩
  refine ⟨c, u1, ?_, h1, ?_⟩
  · exact (match c with
      | CValue.monostate => { u2 with calledPositions := [] }
      | _ => { u2 with calledPositions := setErase u2.calledPositions pos })
  · cases c with
    | monostate =>
      have hl : CSpreadsheet.evalLoop (fun s p => s.getValue p) (mapGet t.m_Excel pos)
          (t.enter pos) [] = some (false, u2, []) := by
        rw [hprog]
        simp only [CSpreadsheet.evalLoop, CExpr.getValue, referenceGetValue, h2]
      rw [getValue_of_failure t pos u2 [] hc hl]
      rfl
    | double d =>
      have hl : CSpreadsheet.evalLoop (fun s p => s.getValue p) (mapGet t.m_Excel pos)
          (t.enter pos) []
          = some (true, u2, [CValue.double (DoubleOps.add d n)]) := by
        rw [hprog]
        simp only [CSpreadsheet.evalLoop, CExpr.getValue, referenceGetValue, h2, addGetValue]
      rw [getValue_of_success t pos u2 _ hc hl]
      rfl
    | string x =>
      have hl : CSpreadsheet.evalLoop (fun s p => s.getValue p) (mapGet t.m_Excel pos)
          (t.enter pos) []
          = some (true, u2, [CValue.string (x ++ doubleToStr n)]) := by
        rw [hprog]
        simp only [CSpreadsheet.evalLoop, CExpr.getValue, referenceGetValue, h2, addGetValue]
      rw [getValue_of_success t pos u2 _ hc hl]
      rfl

/-- C11, amended. On every sheet, between two evaluations, whose cell `B1` holds
`A1 + n` (a relative reference to `A1`, the number `n`, an addition): `copyRect(D1, B1)`
returns, the cell `D1` holds `C1 + n` afterwards, a reference to the cell one column left
of `D1` as `A1` is of `B1`, and `getValue(D1)` is the value of `C1` plus `n`, the empty
value when `C1` is empty. -/
theorem copyRect_keeps_relative_reference (s : CSpreadsheet D) (n : D)
    (hcalled : s.calledPositions = [])
    (hB : mapGet s.m_Excel posB1
      = [CExpr.CReference posA1, CExpr.CNumber n, CExpr.CAdd]) :
    ∃ s', s.copyRect posD1 posB1 1 1 = Except.ok s' ∧
      mapGet s'.m_Excel posD1 = [CExpr.CReference posC1, CExpr.CNumber n, CExpr.CAdd] ∧
      ∃ c u1 u2, s'.getValue posC1 = some (c, u1) ∧
        s'.getValue posD1 = some (topOrEmpty (addGetValue [CValue.double n, c]).2, u2) := by
  have hd : posD1.IsInt := by unfold CPos.IsInt INT_MIN INT_MAX posD1; decide
  have hs : posB1.IsInt := by unfold CPos.IsInt INT_MIN INT_MAX posB1; decide
  obtain ⟨m', hm⟩ := copyRectMap_returns s.m_Excel posD1 posB1 1 1
    (by decide) (by decide) (by decide) (by decide) (by decide) (by decide) (by decide)
    (by decide)
  have hprog : mapGet m' posD1 = [CExpr.CReference posC1, CExpr.CNumber n, CExpr.CAdd] := by
    rw [copyRectMap_spec _ _ posD1 posB1 1 1 hd hs hm posD1, if_pos (by decide)]
    have : mapGet s.m_Excel
        ⟨posB1.m_Col + (posD1.m_Col - posD1.m_Col), posB1.m_Row + (posD1.m_Row - posD1.m_Row),
          false, false⟩ = mapGet s.m_Excel posB1 := by
      apply mapGet_congr
      decide
    rw [this, hB]
    rfl
  refine ⟨{ s with m_Excel := m' }, by simp only [CSpreadsheet.copyRect, hm], hprog, ?_⟩
  exact getValue_reference_plus_number { s with m_Excel := m' } posD1 posC1 n
    (by show setContains s.calledPositions posD1 = false; rw [hcalled]; rfl) hprog

end CopyOffset

/-- C11, counterexample. In the sheet that holds only `A1 = 5` and `B1 = A1 + 1`, after
`copyRect(D1, B1)` the reference in `D1` targets `C1`, not `A1`, and `getValue(D1)` is the
empty value, not `6`. -/
theorem copyRect_offset_reference_not_A1 :
    ∃ s' t, copyOffsetSheet.copyRect posD1 posB1 1 1 = Except.ok s' ∧
      mapGet s'.m_Excel posD1 = [CExpr.CReference posC1, CExpr.CNumber 1, CExpr.CAdd] ∧
      s'.getValue posD1 = some (CValue.monostate, t) :=
  ⟨_, _, rfl, rfl, rfl⟩

/-- Witness of C11: in the test `testCopyRect` the cell `C1` holds the copy `5` of `A1` when
`B1` is copied to `D1`, and `getValue(D1)` is `6`. -/
theorem copyRect_keeps_relative_reference_witness :
    copyTestSheet.calledPositions = [] ∧
    mapGet copyTestSheet.m_Excel posB1
      = [CExpr.CReference posA1, CExpr.CNumber 1, CExpr.CAdd] ∧
    ∃ s' t, copyTestSheet.copyRect posD1 posB1 1 1 = Except.ok s' ∧
      mapGet s'.m_Excel posD1 = [CExpr.CReference posC1, CExpr.CNumber 1, CExpr.CAdd] ∧
      s'.getValue posD1 = some (CValue.double 6, t) := by
  refine ⟨rfl, rfl, ?_⟩
  obtain ⟨s', hok, hprog, c, u1, u2, h1, h2⟩ :=
    copyRect_keeps_relative_reference copyTestSheet 1 rfl rfl
  refine ⟨s', u2, hok, hprog, ?_⟩
  have hs' : copyTestSheet.copyRect posD1 posB1 1 1
      = Except.ok { copyTestSheet with
          m_Excel := [(posA1, [.CNumber 5]),
            (posB1, [.CReference posA1, .CNumber 1, .CAdd]), (posC1, [.CNumber 5]),
            (posD1, [.CReference posC1, .CNumber 1, .CAdd])] } := rfl
  rw [hs'] at hok
  simp only [Except.ok.injEq] at hok
  subst hok
  have hc : c = CValue.double 5 := by
    have e : CSpreadsheet.getValue { copyTestSheet with
          m_Excel := [(posA1, [.CNumber 5]),
            (posB1, [.CReference posA1, .CNumber 1, .CAdd]), (posC1, [.CNumber 5]),
            (posD1, [.CReference posC1, .CNumber 1, .CAdd])] } posC1
        = some (CValue.double 5, _) := rfl
    rw [e] at h1
    simp only [Option.some.injEq, Prod.mk.injEq] at h1
    exact h1.1.symm
  subst hc
  rw [h2]
  simp only [addGetValue, topOrEmpty, DoubleOps.add]
  norm_num

/-! ## Positions: order, offset and the parsed members -/

/-- C28. Operator `<` of `CPos` is the lexicographic comparison of (column, row): it is
irreflexive, asymmetric and transitive; two positions are incomparable exactly when they
have the same column and the same row, which is a transitive relation; the flags take no
part; and `A1 < A2 < B1`. -/
theorem operator_lt_strict_weak_order (a b c : CPos) :
    (CPos.lt a b = true ↔
      a.m_Col < b.m_Col ∨ (a.m_Col = b.m_Col ∧ a.m_Row < b.m_Row)) ∧
    CPos.lt a a = false ∧
    (CPos.lt a b = true → CPos.lt b a = false) ∧
    (CPos.lt a b = true → CPos.lt b c = true → CPos.lt a c = true) ∧
    ((CPos.lt a b = false ∧ CPos.lt b a = false) ↔
      (a.m_Col = b.m_Col ∧ a.m_Row = b.m_Row)) ∧
    (CPos.lt a b = false ∧ CPos.lt b a = false → CPos.lt b c = false ∧ CPos.lt c b = false →
      CPos.lt a c = false ∧ CPos.lt c a = false) ∧
    (∀ f1 f2 g1 g2 : Bool,
      CPos.lt { a with m_AbsCol := f1, m_AbsRow := f2 } { b with m_AbsCol := g1, m_AbsRow := g2 }
        = CPos.lt a b) ∧
    (∃ pa pb pc, CPos.parse ['A', '1'] = some pa ∧ CPos.parse ['A', '2'] = some pb ∧
      CPos.parse ['B', '1'] = some pc ∧ CPos.lt pa pb = true ∧ CPos.lt pb pc = true ∧
      CPos.lt pa pc = true) := by
  have hf : ∀ x y : CPos, CPos.lt x y = false ↔
      ¬ (x.m_Col < y.m_Col ∨ (x.m_Col = y.m_Col ∧ x.m_Row < y.m_Row)) := by
    intro x y
    rw [← lt_iff, Bool.not_eq_true]
  refine ⟨lt_iff a b, ?_, ?_, ?_, ?_, ?_, ?_, ?_⟩
  · rw [hf]; omega
  · rw [lt_iff, hf]; omega
  · rw [lt_iff, lt_iff, lt_iff]; omega
  · rw [hf, hf]; omega
  · rw [hf, hf, hf, hf, hf, hf]; omega
  · intro f1 f2 g1 g2
    rfl
  · exact ⟨⟨0, 1, false, false⟩, ⟨0, 2, false, false⟩, ⟨1, 1, false, false⟩,
      by decide, by decide, by decide, by decide, by decide, by decide⟩

/-- C29. Method `changePosition(dc, dr)` never changes the flags; it leaves the column as
it is when the column is absolute and otherwise adds `dc` to it, in `int` arithmetic, which
is the sum itself when the sum is a value of `int`; and the same for the row with `dr`,
independently of the column. -/
theorem changePosition_respects_flags (p : CPos) (dc dr : Int) :
    (p.changePosition dc dr).m_AbsCol = p.m_AbsCol ∧
    (p.changePosition dc dr).m_AbsRow = p.m_AbsRow ∧
    (p.m_AbsCol = true → (p.changePosition dc dr).m_Col = p.m_Col) ∧
    (p.m_AbsCol = false → (p.changePosition dc dr).m_Col = wrap32 (p.m_Col + dc) ∧
      (INT_MIN ≤ p.m_Col + dc → p.m_Col + dc ≤ INT_MAX →
        (p.changePosition dc dr).m_Col = p.m_Col + dc)) ∧
    (p.m_AbsRow = true → (p.changePosition dc dr).m_Row = p.m_Row) ∧
    (p.m_AbsRow = false → (p.changePosition dc dr).m_Row = wrap32 (p.m_Row + dr) ∧
      (INT_MIN ≤ p.m_Row + dr → p.m_Row + dr ≤ INT_MAX →
        (p.changePosition dc dr).m_Row = p.m_Row + dr)) := by
  obtain ⟨col, row, ac, ar⟩ := p
  unfold INT_MIN INT_MAX
  refine ⟨?_, ?_, ?_, ?_, ?_, ?_⟩
  · cases ac <;> cases ar <;> rfl
  · cases ac <;> cases ar <;> rfl
  · intro h
    dsimp only at h
    subst h
    cases ar <;> rfl
  · intro h
    dsimp only at h
    subst h
    have e : (CPos.changePosition ⟨col, row, false, ar⟩ dc dr).m_Col = wrap32 (col + dc) := by
      cases ar <;> rfl
    exact ⟨e, fun h1 h2 => e.trans (wrap32_of_range h1 h2)⟩
  · intro h
    dsimp only at h
    subst h
    cases ac <;> rfl
  · intro h
    dsimp only at h
    subst h
    have e : (CPos.changePosition ⟨col, row, ac, false⟩ dc dr).m_Row = wrap32 (row + dr) := by
      cases ac <;> rfl
    exact ⟨e, fun h1 h2 => e.trans (wrap32_of_range h1 h2)⟩

/-- Witness of C29: `$B$2` offset by `(10, 10)` stays at column 1, row 2, and `A1` offset
by `(2, 3)` becomes column 2, row 4. -/
theorem changePosition_respects_flags_witness :
    CPos.parse ['$', 'B', '$', '2'] = some ⟨1, 2, true, true⟩ ∧
    (CPos.changePosition ⟨1, 2, true, true⟩ 10 10).m_Col = 1 ∧
    (CPos.changePosition ⟨1, 2, true, true⟩ 10 10).m_Row = 2 ∧
    CPos.parse ['A', '1'] = some ⟨0, 1, false, false⟩ ∧
    (CPos.changePosition ⟨0, 1, false, false⟩ 2 3).m_Col = 2 ∧
    (CPos.changePosition ⟨0, 1, false, false⟩ 2 3).m_Row = 4 :=
  have h1 := changePosition_respects_flags ⟨1, 2, true, true⟩ 10 10
  have h2 := changePosition_respects_flags ⟨0, 1, false, false⟩ 2 3
  ⟨by decide, h1.2.2.1 rfl, h1.2.2.2.2.1 rfl, by decide,
    ((h2.2.2.2.1 rfl).2 (by decide) (by decide)).trans (by decide),
    ((h2.2.2.2.2.2 rfl).2 (by decide) (by decide)).trans (by decide)⟩

/-- The flags read off a text of the address grammar. -/
theorem flag_readings (absCol absRow : Bool) (letters digits : List Char)
    (hl : letters ≠ []) (hla : ∀ c ∈ letters, c.isAlpha = true)
    (hd : digits ≠ []) (hda : ∀ c ∈ digits, c.isDigit = true) :
    let T := (if absCol then ['$'] else []) ++ letters ++ (if absRow then ['$'] else [])
      ++ digits
    (T.head? = some '$' ↔ absCol = true) ∧
    ((T.takeWhile (fun c => !c.isDigit)).getLast? = some '$' ↔ absRow = true) := by
  intro T
  obtain ⟨d, ds, rfl⟩ := List.exists_cons_of_ne_nil hd
  obtain ⟨l, ls, rfl⟩ := List.exists_cons_of_ne_nil hl
  have hdd : d.isDigit = true := hda d (List.mem_cons_self _ _)
  have hll : l ≠ '$' := isAlpha_ne_dollar (hla l (List.mem_cons_self _ _))
  set H := (if absCol then ['$'] else []) ++ (l :: ls) ++ (if absRow then ['$'] else [])
    with hH
  have hHnd : ∀ c ∈ H, (fun c : Char => !c.isDigit) c = true := by
    intro c hc
    simp only [hH, List.mem_append] at hc
    rcases hc with (hc | hc) | hc
    · cases absCol <;> simp at hc; subst hc; decide
    · simp [isAlpha_not_isDigit (hla c hc)]
    · cases absRow <;> simp at hc; subst hc; decide
  obtain ⟨ht, -⟩ := takeWhile_head (p := fun c : Char => !c.isDigit) H d ds hHnd
    (by simp [hdd])
  constructor
  · show (H ++ d :: ds).head? = some '$' ↔ _
    cases absCol
    · simp [hH, hll]
    · simp [hH]
  · show ((H ++ d :: ds).takeWhile _).getLast? = some '$' ↔ _
    rw [ht]
    cases absRow
    · have hlast : (l :: ls).getLast? ≠ some '$' := by
        intro h
        exact isAlpha_ne_dollar (hla _ (List.mem_of_getLast?_eq_some h)) rfl
      have e : H = (if absCol then ['$'] else []) ++ (l :: ls) := by simp [hH]
      rw [e, List.getLast?_append_of_ne_nil _ (by simp)]
      simpa using hlast
    · have e : ∀ pre : List Char, (pre ++ ['$']).getLast? = some '$' := by
        intro pre
        simp
      have e2 : H = ((if absCol then ['$'] else []) ++ (l :: ls)) ++ ['$'] := by simp [hH]
      rw [e2, e]
      simp

/-- C27, amended. For every address text that the constructor accepts: the column flag is
set exactly when the text starts with `$`, the row flag exactly when a `$` stands right
before the digits; the column is the bijective base-26 value of the letters, read
case-insensitively, minus 1, when that value fits `int`; and the row is the decimal value
of the digits when that value fits `int`. -/
theorem parse_yields_column_and_row (T : List Char) (p : CPos) (h : CPos.parse T = some p) :
    (p.m_AbsCol = true ↔ T.head? = some '$') ∧
    (p.m_AbsRow = true ↔ (T.takeWhile (fun c => !c.isDigit)).getLast? = some '$') ∧
    (columnNumber T ≤ 2147483647 → p.m_Col = (columnNumber T : Int) - 1) ∧
    (rowNumber T ≤ 2147483647 → p.m_Row = (rowNumber T : Int)) := by
  obtain ⟨absCol, letters, absRow, digits, hl, hla, hd, hda, rfl⟩ := validAddress_of_parse T p h
  obtain ⟨hc, hr, -⟩ := spec_readings absCol absRow letters digits hla hd hda
  obtain ⟨hf1, hf2⟩ := flag_readings absCol absRow letters digits hl hla hd hda
  rw [parse_of_parts absCol absRow letters digits hl hla hd hda] at h
  obtain ⟨col, hcol⟩ := Option.isSome_iff_exists.1 ((parseColumn_isSome letters 0).2 hla)
  obtain ⟨row, hrow⟩ := Option.isSome_iff_exists.1 ((parseRow_isSome digits 0).2 hda)
  rw [hcol, hrow] at h
  simp only [Option.some_bind, Option.some.injEq] at h
  subst h
  have hpos : 1 ≤ letters.foldl colStep 0 := by
    obtain ⟨l, ls, rfl⟩ := List.exists_cons_of_ne_nil hl
    have := foldl_colStep_ge ls (colStep 0 l)
    have h1 := (letter_value (hla l (List.mem_cons_self _ _))).1
    simp only [List.foldl_cons]
    unfold colStep at this ⊢
    omega
  refine ⟨hf1.symm, hf2.symm, ?_, ?_⟩
  · intro hb
    rw [hc] at hb ⊢
    have hpc := parseColumn_eq letters 0 hla hb
    simp only [Nat.cast_zero] at hpc
    rw [hpc] at hcol
    simp only [Option.some.injEq] at hcol
    show wrap32 (col - 1) = _
    rw [← hcol]
    exact wrap32_of_range (by omega) (by omega)
  · intro hb
    rw [hr] at hb ⊢
    have hpr := parseRow_eq digits 0 hda hb
    simp only [Nat.cast_zero] at hpr
    rw [hpr] at hrow
    simp only [Option.some.injEq] at hrow
    exact hrow.symm

set_option maxRecDepth 100000 in
/-- C27, counterexample. The accepted text `A2147483648` gives the row `-2147483648`, not
the decimal value `2147483648` of its digits, which does not fit `int`. -/
theorem parse_row_wraps_around :
    CPos.parse "A2147483648".toList = some ⟨0, -2147483648, false, false⟩ ∧
    rowNumber "A2147483648".toList = 2147483648 := by
  constructor <;> decide

set_option maxRecDepth 100000 in
/-- Witness of C27: the texts `A1`, `a1`, `AA10`, `$B$2` and `ZZZ1` of the tests. -/
theorem parse_yields_column_and_row_witness :
    CPos.parse "A1".toList = some ⟨0, 1, false, false⟩ ∧
    CPos.parse "a1".toList = some ⟨0, 1, false, false⟩ ∧
    CPos.parse "AA10".toList = some ⟨26, 10, false, false⟩ ∧
    CPos.parse "$B$2".toList = some ⟨1, 2, true, true⟩ ∧
    CPos.parse "ZZZ1".toList = some ⟨26 * 26 * 26 + 26 * 26 + 25, 1, false, false⟩ ∧
    (⟨26, 10, false, false⟩ : CPos).m_Col = (columnNumber "AA10".toList : Int) - 1 ∧
    (⟨26, 10, false, false⟩ : CPos).m_Row = (rowNumber "AA10".toList : Int) :=
  have h : CPos.parse "AA10".toList = some ⟨26, 10, false, false⟩ := by decide
  have main := parse_yields_column_and_row "AA10".toList _ h
  ⟨by decide, by decide, h, by decide, by decide, main.2.2.1 (by decide),
    main.2.2.2 (by decide)⟩

/-! ## setCell -/

section SetCell

variable {D : Type}

/-- A callback pushes the expression that the call stands for, and throws when there is
none. -/
theorem call_eq (b : Expressions D) (c : BuilderCall D) :
    ExpressionBuilder.call b c = (BuilderCall.instruction c).map (fun e => b ++ [e]) := by
  cases c <;> first
    | rfl
    | (simp only [ExpressionBuilder.call, BuilderCall.instruction]
       cases CPos.parse _ <;> rfl)

/-- The calls of the parser that end without an exception append to the builder, in
order, the expressions they stand for. -/
theorem runCalls_accepted (calls : List (BuilderCall D)) :
    ∀ b : Expressions D, (runCalls calls b).2 = false →
      ((runCalls calls b).1.map some = b.map some ++ calls.map BuilderCall.instruction) := by
  induction calls with
  | nil => intro b _; simp [runCalls]
  | cons c cs ih =>
    intro b h
    simp only [runCalls, call_eq] at h ⊢
    cases hc : BuilderCall.instruction c with
    | none => simp [hc] at h
    | some e =>
      simp only [hc, Option.map_some'] at h ⊢
      rw [ih _ h]
      simp [hc]

/-- The calls of the parser end with an exception exactly when one of them stands for no
expression: a reference whose text is malformed. -/
theorem runCalls_throws_iff (calls : List (BuilderCall D)) :
    ∀ b : Expressions D, (runCalls calls b).2 = true ↔
      ∃ c ∈ calls, BuilderCall.instruction c = none := by
  induction calls with
  | nil => intro b; simp [runCalls]
  | cons c cs ih =>
    intro b
    simp only [runCalls, call_eq]
    cases hc : BuilderCall.instruction c with
    | none => simp [hc]
    | some e =>
      simp only [Option.map_some', List.mem_cons, exists_eq_or_imp, hc, reduceCtorEq,
        false_or]
      exact ih _

theorem parseExpression_throws_iff (run : ParserRun D) (b : Expressions D) :
    (parseExpression run b).2 = true ↔
      run.throws = true ∨ ∃ c ∈ run.calls, BuilderCall.instruction c = none := by
  unfold parseExpression
  by_cases h : (runCalls run.calls b).2 = true
  · simp only [h, if_true]
    exact ⟨fun _ => Or.inr ((runCalls_throws_iff _ _).1 h), fun _ => trivial⟩
  · simp only [h, Bool.false_eq_true, if_false]
    constructor
    · exact fun ht => Or.inl ht
    · rintro (ht | hc)
      · exact ht
      · exact absurd ((runCalls_throws_iff _ _).2 hc) h

/-- C21. When the external parser rejects the contents, by an exception of its own or by
the exception of a reference callback on a malformed address, `setCell` returns `false`
and the map of the cells is what it was before the call: every position, the target
included, holds the expressions it held. -/
theorem setCell_rejected_keeps_cells (sheet : CSpreadsheet D) (pos : CPos)
    (run : ParserRun D)
    (hrej : run.throws = true ∨ ∃ c ∈ run.calls, BuilderCall.instruction c = none) :
    (sheet.setCellRun pos run).1 = false ∧
    (sheet.setCellRun pos run).2.m_Excel = sheet.m_Excel ∧
    (sheet.setCellRun pos run).2.calledPositions = sheet.calledPositions ∧
    ∀ k, mapGet (sheet.setCellRun pos run).2.m_Excel k = mapGet sheet.m_Excel k := by
  have h := (parseExpression_throws_iff run []).2 hrej
  have e : sheet.setCellRun pos run
      = (false, { sheet with m_ExprBuilder := (parseExpression run []).1 }) := by
    unfold CSpreadsheet.setCellRun
    rw [if_pos h]
  rw [e]
  exact ⟨rfl, rfl, rfl, fun _ => rfl⟩

/-- C22. When the parser returns, `setCell` returns `true` and the target position holds
exactly the expressions that the parser's calls on the builder stand for, one for each
call, in the order of the calls: nothing that the builder held from an earlier `setCell`,
and nothing of what the position held before; every other position holds what it held. -/
theorem setCell_replaces_program (sheet : CSpreadsheet D) (pos : CPos) (run : ParserRun D)
    (hacc : run.throws = false ∧ ∀ c ∈ run.calls, BuilderCall.instruction c ≠ none) :
    (sheet.setCellRun pos run).1 = true ∧
    (mapGet (sheet.setCellRun pos run).2.m_Excel pos).map some
      = run.calls.map BuilderCall.instruction ∧
    (∀ k, CPos.same pos k = false →
      mapGet (sheet.setCellRun pos run).2.m_Excel k = mapGet sheet.m_Excel k) ∧
    (sheet.setCellRun pos run).2
      = { sheet.setCell pos (parseExpression run []).1 with
          calledPositions := sheet.calledPositions } := by
  have h : ¬ (parseExpression run []).2 = true := by
    rw [parseExpression_throws_iff]
    rintro (ht | ⟨c, hc, hn⟩)
    · rw [hacc.1] at ht
      exact absurd ht (by simp)
    · exact hacc.2 c hc hn
  have hr : (runCalls run.calls ([] : Expressions D)).2 = false := by
    by_contra hc
    apply h
    unfold parseExpression
    simp only [Bool.not_eq_false] at hc
    simp [hc]
  have h1 : (parseExpression run ([] : Expressions D)).1 = (runCalls run.calls []).1 := by
    unfold parseExpression
    simp [hr]
  have e : sheet.setCellRun pos run
      = (true, { sheet with
          m_ExprBuilder := (parseExpression run []).1
          m_Excel := mapAssign sheet.m_Excel pos
            (copyExpressions (parseExpression run []).1) }) := by
    unfold CSpreadsheet.setCellRun
    rw [if_neg h]
  rw [e]
  refine ⟨rfl, ?_, ?_, rfl⟩
  · dsimp only
    rw [mapGet_mapAssign, if_pos (same_refl pos), copyExpressions_eq, h1,
      runCalls_accepted _ _ hr]
    simp
  · intro k hk
    dsimp only
    rw [mapGet_mapAssign, if_neg (by simp [hk])]

end SetCell

/-- Witness of C21: on the sheet `A1 = "top"`, `A2 = A1` the contents of `setCell(A2, ...)`
are rejected by the reference callback on the text `1A`, after a number was pushed. -/
theorem setCell_rejected_keeps_cells_witness :
    (overlapSheet.setCellRun posA2
      { calls := [BuilderCall.valNumber 1, BuilderCall.valReference ['1', 'A']],
        throws := false }).1 = false ∧
    mapGet (overlapSheet.setCellRun posA2
      { calls := [BuilderCall.valNumber 1, BuilderCall.valReference ['1', 'A']],
        throws := false }).2.m_Excel posA2 = [CExpr.CReference posA1] :=
  have h := setCell_rejected_keeps_cells overlapSheet posA2
    { calls := [BuilderCall.valNumber 1, BuilderCall.valReference ['1', 'A']],
      throws := false }
    (Or.inr ⟨BuilderCall.valReference ['1', 'A'], by simp, by decide⟩)
  ⟨h.1, (h.2.2.2 posA2).trans rfl⟩

/-- Witness of C22: on the sheet `A1 = "top"`, `A2 = A1`, whose builder holds expressions
of an earlier call, `setCell(A2, "=A1+A1")` leaves `A1 A1 +` at `A2` and the text at
`A1`. -/
theorem setCell_replaces_program_witness :
    mapGet ({ overlapSheet with m_ExprBuilder := [CExpr.CReference posA1] }.setCellRun posA2
      { calls := [BuilderCall.valReference ['A', '1'], BuilderCall.valReference ['A', '1'],
          BuilderCall.opAdd],
        throws := false }).2.m_Excel posA2
      = [CExpr.CReference posA1, CExpr.CReference posA1, CExpr.CAdd] ∧
    mapGet ({ overlapSheet with m_ExprBuilder := [CExpr.CReference posA1] }.setCellRun posA2
      { calls := [BuilderCall.valReference ['A', '1'], BuilderCall.valReference ['A', '1'],
          BuilderCall.opAdd],
        throws := false }).2.m_Excel posA1 = [CExpr.CString ['t', 'o', 'p']] :=
  have h := setCell_replaces_program
    { overlapSheet with m_ExprBuilder := [CExpr.CReference posA1] } posA2
    { calls := [BuilderCall.valReference ['A', '1'], BuilderCall.valReference ['A', '1'],
        BuilderCall.opAdd],
      throws := false }
    ⟨rfl, by
      intro c hc
      simp only [List.mem_cons, List.mem_singleton, List.not_mem_nil, or_false] at hc
      rcases hc with rfl | rfl | rfl <;> decide⟩
  ⟨by
    have h2 := h.2.1
    have e : List.map BuilderCall.instruction
        [BuilderCall.valReference ['A', '1'], BuilderCall.valReference ['A', '1'],
          (BuilderCall.opAdd : BuilderCall ℚ)]
        = List.map some [CExpr.CReference posA1, CExpr.CReference posA1, CExpr.CAdd] := by
      decide
    rw [e] at h2
    exact List.map_injective_iff.2 (Option.some_injective _) h2,
   (h.2.2.1 posA1 (by decide)).trans rfl⟩

/-! ## The tags of the expressions and the structure checks of load -/

theorem dite_ind {α : Type} (P : α → Prop) (c : Prop) [Decidable c] (a b : α)
    (ha : c → P a) (hb : ¬ c → P b) : P (if c then a else b) := by
  split
  · rename_i h; exact ha h
  · rename_i h; exact hb h

section Tags

variable {D : Type} [DoubleOps D]

/-- Every expression is written with its tag in front, between two blanks. -/
theorem print_starts_with_opcode (e : CExpr D) :
    ∃ rest, e.print = ' ' :: Nat.toDigits 10 (opcode e) ++ ' ' :: rest := by
  cases e with
  | CAdd =>
    have hd : Nat.toDigits 10 0 = ['0'] := by decide
    exact ⟨[], by show _ = ' ' :: Nat.toDigits 10 0 ++ _; rw [hd]; rfl⟩
  | CSub =>
    have hd : Nat.toDigits 10 1 = ['1'] := by decide
    exact ⟨[], by show _ = ' ' :: Nat.toDigits 10 1 ++ _; rw [hd]; rfl⟩
  | CMul =>
    have hd : Nat.toDigits 10 2 = ['2'] := by decide
    exact ⟨[], by show _ = ' ' :: Nat.toDigits 10 2 ++ _; rw [hd]; rfl⟩
  | CDiv =>
    have hd : Nat.toDigits 10 3 = ['3'] := by decide
    exact ⟨[], by show _ = ' ' :: Nat.toDigits 10 3 ++ _; rw [hd]; rfl⟩
  | CPow =>
    have hd : Nat.toDigits 10 4 = ['4'] := by decide
    exact ⟨[], by show _ = ' ' :: Nat.toDigits 10 4 ++ _; rw [hd]; rfl⟩
  | CNeg =>
    have hd : Nat.toDigits 10 5 = ['5'] := by decide
    exact ⟨[], by show _ = ' ' :: Nat.toDigits 10 5 ++ _; rw [hd]; rfl⟩
  | CEq =>
    have hd : Nat.toDigits 10 6 = ['6'] := by decide
    exact ⟨[], by show _ = ' ' :: Nat.toDigits 10 6 ++ _; rw [hd]; rfl⟩
  | CNe =>
    have hd : Nat.toDigits 10 7 = ['7'] := by decide
    exact ⟨[], by show _ = ' ' :: Nat.toDigits 10 7 ++ _; rw [hd]; rfl⟩
  | CLt =>
    have hd : Nat.toDigits 10 8 = ['8'] := by decide
    exact ⟨[], by show _ = ' ' :: Nat.toDigits 10 8 ++ _; rw [hd]; rfl⟩
  | CLe =>
    have hd : Nat.toDigits 10 9 = ['9'] := by decide
    exact ⟨[], by show _ = ' ' :: Nat.toDigits 10 9 ++ _; rw [hd]; rfl⟩
  | CGt =>
    have hd : Nat.toDigits 10 10 = ['1', '0'] := by decide
    exact ⟨[], by show _ = ' ' :: Nat.toDigits 10 10 ++ _; rw [hd]; rfl⟩
  | CGe =>
    have hd : Nat.toDigits 10 11 = ['1', '1'] := by decide
    exact ⟨[], by show _ = ' ' :: Nat.toDigits 10 11 ++ _; rw [hd]; rfl⟩
  | CNumber n =>
    have hd : Nat.toDigits 10 12 = ['1', '2'] := by decide
    exact ⟨DoubleOps.print n ++ [' '], by
      show _ = ' ' :: Nat.toDigits 10 12 ++ _; rw [hd]; rfl⟩
  | CString s =>
    have hd : Nat.toDigits 10 13 = ['1', '3'] := by decide
    refine ⟨s ++ " endOfString ".toList, ?_⟩
    show " 13 ".toList ++ s ++ " endOfString ".toList = ' ' :: Nat.toDigits 10 13 ++ _
    rw [hd]
    simp
  | CReference q =>
    have hd : Nat.toDigits 10 14 = ['1', '4'] := by decide
    exact ⟨q.print, by show _ = ' ' :: Nat.toDigits 10 14 ++ _; rw [hd]; rfl⟩

/-- Extraction `is >> token` reads the tag back from what `print` wrote. -/
theorem readInt_print (e : CExpr D) (tail : List Char) (n : Int) :
    (IStream.readInt { input := e.print ++ tail, failbit := false, eofbit := false } n).2
      = (opcode e : Int) := by
  cases e <;>
    simp [CExpr.print, opcode, IStream.readInt, IStream.sentry, isspace, List.dropWhile,
      List.takeWhile, digitsValue, rowStep, INT_MIN, INT_MAX]

/-- What one round of the loop over the expressions of a record does when it goes on: it
pushes an expression whose tag is the integer read, and keeps the position and the count
of the record. -/
theorem loadExpression_pushes (bound : Nat) (u : Uninitialised D) (pos : CPos)
    (st st' : LoadState D) (h : loadExpression bound u pos st = Except.ok st') :
    ∃ e : CExpr D, (opcode e : Int) = (st.is.readInt st.token).2 ∧
      st'.m_Excel = pushBack st.m_Excel pos e ∧
      st'.position = st.position ∧ st'.vectorLen = st.vectorLen := by
  obtain ⟨P, hP⟩ : ∃ P : Except (LoadResult D) (LoadState D) → Prop,
      P = fun res => ∀ st', res = Except.ok st' →
        ∃ e : CExpr D, (opcode e : Int) = (st.is.readInt st.token).2 ∧
          st'.m_Excel = pushBack st.m_Excel pos e ∧
          st'.position = st.position ∧ st'.vectorLen = st.vectorLen := ⟨_, rfl⟩
  suffices hs : P (loadExpression bound u pos st) by
    rw [hP] at hs
    exact hs st' h
  have hok : ∀ (s : LoadState D) (e : CExpr D),
      (opcode e : Int) = (st.is.readInt st.token).2 →
      s.m_Excel = pushBack st.m_Excel pos e → s.position = st.position →
      s.vectorLen = st.vectorLen → P (Except.ok s) := by
    intro s e h1 h2 h3 h4
    rw [hP]
    intro s' hs'
    simp only [Except.ok.injEq] at hs'
    subst hs'
    exact ⟨e, h1, h2, h3, h4⟩
  have herr : ∀ e : LoadResult D, P (Except.error e) := by
    intro e
    rw [hP]
    intro s' hs'
    simp at hs'
  clear hP
  unfold loadExpression
  dsimp only
  refine dite_ind P _ _ _ (fun hc => hok _ CExpr.CAdd (by rw [hc]; rfl) rfl rfl rfl) ?_
  intro _
  refine dite_ind P _ _ _ (fun hc => hok _ CExpr.CSub (by rw [hc]; rfl) rfl rfl rfl) ?_
  intro _
  refine dite_ind P _ _ _ (fun hc => hok _ CExpr.CMul (by rw [hc]; rfl) rfl rfl rfl) ?_
  intro _
  refine dite_ind P _ _ _ (fun hc => hok _ CExpr.CDiv (by rw [hc]; rfl) rfl rfl rfl) ?_
  intro _
  refine dite_ind P _ _ _ (fun hc => hok _ CExpr.CPow (by rw [hc]; rfl) rfl rfl rfl) ?_
  intro _
  refine dite_ind P _ _ _ (fun hc => hok _ CExpr.CNeg (by rw [hc]; rfl) rfl rfl rfl) ?_
  intro _
  refine dite_ind P _ _ _ (fun hc => hok _ CExpr.CEq (by rw [hc]; rfl) rfl rfl rfl) ?_
  intro _
  refine dite_ind P _ _ _ (fun hc => hok _ CExpr.CNe (by rw [hc]; rfl) rfl rfl rfl) ?_
  intro _
  refine dite_ind P _ _ _ (fun hc => hok _ CExpr.CLt (by rw [hc]; rfl) rfl rfl rfl) ?_
  intro _
  refine dite_ind P _ _ _ (fun hc => hok _ CExpr.CLe (by rw [hc]; rfl) rfl rfl rfl) ?_
  intro _
  refine dite_ind P _ _ _ (fun hc => hok _ CExpr.CGt (by rw [hc]; rfl) rfl rfl rfl) ?_
  intro _
  refine dite_ind P _ _ _ (fun hc => hok _ CExpr.CGe (by rw [hc]; rfl) rfl rfl rfl) ?_
  intro _
  refine dite_ind P _ _ _ (fun hc => hok _ (CExpr.CNumber _) (by rw [hc]; rfl) rfl rfl rfl) ?_
  intro _
  refine dite_ind P _ _ _ (fun hc => ?_) ?_
  · split
    · exact herr _
    · exact hok _ (CExpr.CString _) (by rw [hc]; rfl) rfl rfl rfl
  intro _
  refine dite_ind P _ _ _ (fun hc => ?_) (fun _ => herr _)
  split
  · exact herr _
  · exact hok _ (CExpr.CReference _) (by rw [hc]; rfl) rfl rfl rfl

/-- An integer outside `0..14` as a tag makes the loop over the expressions leave `load`
with `false`. -/
theorem loadExpression_bad_opcode (bound : Nat) (u : Uninitialised D) (pos : CPos)
    (st : LoadState D)
    (h : (st.is.readInt st.token).2 < 0 ∨ 14 < (st.is.readInt st.token).2) :
    loadExpression bound u pos st = Except.error (LoadResult.returned false st.m_Excel) := by
  unfold loadExpression
  dsimp only
  iterate 15 (rw [if_neg (by omega)])

/-- The loop over the expressions, after `k` rounds that went on. -/
theorem loadExpressions_add (bound : Nat) (u : Uninitialised D) (pos : CPos) (k : Nat) :
    ∀ (n : Nat) (st stk : LoadState D), loadExpressions bound u pos k st = Except.ok stk →
      loadExpressions bound u pos (k + n) st = loadExpressions bound u pos n stk := by
  induction k with
  | zero =>
    intro n st stk h
    simp only [loadExpressions, Except.ok.injEq] at h
    subst h
    simp
  | succ k ih =>
    intro n st stk h
    have e : k + 1 + n = (k + n) + 1 := by omega
    rw [e]
    simp only [loadExpressions] at h ⊢
    cases he : loadExpression bound u pos st with
    | error x => simp [he] at h
    | ok st1 =>
      rw [he] at h
      exact ih n st1 stk h

/-- C24. At every round of the loop `while (is >> tmp)` of `load` that reads a token:
`load` returns `false` when the token is not the marker `CPos`; when, after the marker and
an address that the constructor accepts, the next token is not the marker `VectorLen`; and
when, after some expressions of the record were read, the integer read as a tag is outside
`0..14`. -/
theorem load_rejects_bad_structure (bound fuel : Nat) (u : Uninitialised D)
    (st : LoadState D) (success : Bool)
    (hread : (st.is.readString st.tmp).1.fail = false) :
    ((st.is.readString st.tmp).2 ≠ "CPos".toList →
      loadRecords bound u (fuel + 1) st success = LoadResult.returned false st.m_Excel) ∧
    (∀ pos : CPos, (st.is.readString st.tmp).2 = "CPos".toList →
      CPos.parse ((st.is.readString st.tmp).1.readString st.position).2 = some pos →
      ((((st.is.readString st.tmp).1.readString st.position).1.readString
        (st.is.readString st.tmp).2).2 ≠ "VectorLen".toList →
        loadRecords bound u (fuel + 1) st success = LoadResult.returned false st.m_Excel) ∧
      ((((st.is.readString st.tmp).1.readString st.position).1.readString
        (st.is.readString st.tmp).2).2 = "VectorLen".toList →
        ∀ (k : Nat) (stk : LoadState D),
          k < ((((st.is.readString st.tmp).1.readString st.position).1.readString
            (st.is.readString st.tmp).2).1.readInt st.vectorLen).2.toNat →
          loadExpressions bound u pos k
            { st with
              is := ((((st.is.readString st.tmp).1.readString st.position).1.readString
                (st.is.readString st.tmp).2).1.readInt st.vectorLen).1
              position := ((st.is.readString st.tmp).1.readString st.position).2
              tmp := (((st.is.readString st.tmp).1.readString st.position).1.readString
                (st.is.readString st.tmp).2).2
              vectorLen := ((((st.is.readString st.tmp).1.readString st.position).1.readString
                (st.is.readString st.tmp).2).1.readInt st.vectorLen).2 } = Except.ok stk →
          ((stk.is.readInt stk.token).2 < 0 ∨ 14 < (stk.is.readInt stk.token).2) →
          loadRecords bound u (fuel + 1) st success
            = LoadResult.returned false stk.m_Excel)) := by
  have hf : ¬ (st.is.readString st.tmp).1.fail = true := by simp [hread]
  refine ⟨?_, ?_⟩
  · intro hne
    rw [loadRecords_succ, if_neg hf, loadRecord_bad_marker _ _ _ (by simpa using hne)]
  · intro pos hm hp
    have hm' : ¬ ((st.is.readString st.tmp).2 != "CPos".toList) = true := by simp [hm]
    refine ⟨?_, ?_⟩
    · intro hv
      rw [loadRecords_succ, if_neg hf]
      unfold loadRecord
      dsimp only
      rw [if_neg hm', hp]
      dsimp only
      rw [if_pos (by simpa using hv)]
    · intro hv k stk hk hloop hbad
      rw [loadRecords_succ, if_neg hf]
      unfold loadRecord
      dsimp only
      rw [if_neg hm', hp]
      dsimp only
      rw [if_neg (by simp [hv])]
      obtain ⟨j, hj⟩ : ∃ j, ((((st.is.readString st.tmp).1.readString st.position).1.readString
          (st.is.readString st.tmp).2).1.readInt st.vectorLen).2.toNat = k + (j + 1) :=
        ⟨((((st.is.readString st.tmp).1.readString st.position).1.readString
          (st.is.readString st.tmp).2).1.readInt st.vectorLen).2.toNat - (k + 1), by omega⟩
      rw [hj, loadExpressions_add bound u pos k (j + 1) _ stk hloop]
      simp only [loadExpressions, loadExpression_bad_opcode bound u pos stk hbad]

end Tags

set_option maxRecDepth 100000 in
/-- Witness of C24: the streams `CPoz A1 VectorLen 1 0`, `CPos A1 Len 1 0` and
`CPos A1 VectorLen 2 0 99`. -/
theorem load_rejects_bad_structure_witness :
    emptySheet.load zeroUninitialised "CPoz A1 VectorLen 1 0 ".toList
      = LoadResult.returned false [] ∧
    emptySheet.load zeroUninitialised "CPos A1 Len 1 0 ".toList
      = LoadResult.returned false [] ∧
    emptySheet.load zeroUninitialised "CPos A1 VectorLen 2 0 99 ".toList
      = LoadResult.returned false [(posA1, [CExpr.CAdd])] :=
  ⟨(load_rejects_bad_structure _ _ zeroUninitialised
      { is := { input := "CPoz A1 VectorLen 1 0 ".toList, failbit := false, eofbit := false }
        position := [], tmp := [], vectorLen := 0, token := 0, m_Excel := ([] : CellMap ℚ) }
      true (by decide)).1 (by decide),
    by decide, by decide⟩

/-! ## save: one record for each cell that holds expressions -/

section SaveRecords

variable {D : Type}

/-- In a map, the entry found for a key is the entry stored under an equivalent key. -/
theorem mapFind_of_mem (m : CellMap D) (hm : IsMap m) (k0 k : CPos) (v : Expressions D)
    (hmem : (k0, v) ∈ m) (hs : CPos.same k0 k = true) : mapFind m k = some v := by
  induction m with
  | nil => simp at hmem
  | cons e m ih =>
    obtain ⟨k1, v1⟩ := e
    unfold IsMap at hm
    rw [List.pairwise_cons] at hm
    simp only [List.mem_cons, Prod.mk.injEq] at hmem
    simp only [mapFind]
    rcases hmem with ⟨rfl, rfl⟩ | hmem
    · have h1 := not_lt_of_same hs
      have h2 := not_lt_of_same (same_symm hs)
      simp [h1, h2]
    · have hlt : CPos.lt k1 k0 = true := hm.1 (k0, v) hmem
      have hlt' : CPos.lt k1 k = true := by
        rw [lt_iff] at hlt ⊢
        rw [same_iff] at hs
        omega
      rw [if_pos hlt']
      exact ih hm.2 hmem

/-- The cells that hold expressions are the entries of the map with a non-empty vector. -/
theorem mapGet_ne_nil_iff (m : CellMap D) (k : CPos) :
    mapGet m k ≠ [] ↔
      ∃ e ∈ nonEmptyEntries m, CPos.same e.1 k = true ∧ e.2 = mapGet m k := by
  constructor
  · intro h
    cases hf : mapFind m k with
    | none => simp [mapGet, hf] at h
    | some v =>
      obtain ⟨k0, hmem, hs⟩ := mem_of_mapFind m k v hf
      have hv : mapGet m k = v := by simp [mapGet, hf]
      refine ⟨(k0, v), ?_, hs, hv.symm⟩
      unfold nonEmptyEntries
      rw [List.mem_filter]
      refine ⟨hmem, ?_⟩
      rw [hv] at h
      cases v with
      | nil => exact absurd rfl h
      | cons a t => rfl
  · rintro ⟨⟨k0, v⟩, hmem, hs, hv⟩
    unfold nonEmptyEntries at hmem
    rw [List.mem_filter] at hmem
    dsimp only at hv hs
    rw [← hv]
    intro hnil
    rw [hnil] at hmem
    simp at hmem

/-- In a map, an entry with a non-empty vector is what its position holds. -/
theorem mapGet_of_nonEmptyEntry (m : CellMap D) (hm : IsMap m) (e : CPos × Expressions D)
    (he : e ∈ nonEmptyEntries m) : mapGet m e.1 = e.2 ∧ e.2 ≠ [] := by
  unfold nonEmptyEntries at he
  rw [List.mem_filter] at he
  refine ⟨?_, ?_⟩
  · rw [mapGet, mapFind_of_mem m hm e.1 e.1 e.2 he.1 (same_refl _)]
    rfl
  · intro hnil
    rw [hnil] at he
    simp at he

theorem nonEmptyEntries_pairwise (m : CellMap D) (hm : IsMap m) :
    List.Pairwise (fun a b => CPos.lt a.1 b.1 = true) (nonEmptyEntries m) :=
  List.Pairwise.sublist (List.filter_sublist _) hm

variable [DoubleOps D]

theorem printExpressions_eq (l : Expressions D) :
    printExpressions l = (l.map CExpr.print).flatten := by
  induction l with
  | nil => rfl
  | cons e l ih => simp [printExpressions, ih]

/-- What `save` writes, for vectors whose size is a value of `int`: the records of the
entries with a non-empty vector, in the order of the map. -/
theorem saveCells_eq_records (m : CellMap D)
    (hsize : ∀ e ∈ m, e.2.length < 2147483648) :
    saveCells m = ((nonEmptyEntries m).map saveRecord).flatten := by
  induction m with
  | nil => rfl
  | cons e m ih =>
    obtain ⟨pos, exprs⟩ := e
    have hlen := hsize (pos, exprs) (List.mem_cons_self _ _)
    dsimp only at hlen
    have ih' := ih (fun e he => hsize e (List.mem_cons_of_mem _ he))
    have hw : wrap32 (exprs.length : Int) = (exprs.length : Int) :=
      wrap32_of_range (by omega) (by omega)
    simp only [saveCells, hw]
    rw [ih']
    cases exprs with
    | nil => simp [nonEmptyEntries]
    | cons a t =>
      have hne : ((((a :: t).length : Nat) : Int) ≠ 0) := by
        simp only [List.length_cons]
        omega
      rw [if_pos hne]
      have hp : CPos.printInt (((a :: t).length : Nat) : Int)
          = Nat.toDigits 10 (a :: t).length := by
        unfold CPos.printInt
        rw [if_neg (by omega), Int.toNat_ofNat]
      simp only [nonEmptyEntries, List.filter_cons, List.isEmpty_cons, Bool.not_false,
        if_true, List.map_cons, List.flatten_cons, saveRecord, CPos.print, hp,
        printExpressions_eq]

/-- C23, amended. For a sheet whose vectors have fewer than 2^31 expressions, `save`
returns `true` and writes exactly the records of the positions that hold expressions, one
for each, in the strictly increasing order of the positions (column, then row): a record is
the marker `CPos`, the position text, the marker `VectorLen`, the number of expressions and
the encodings of the expressions in their order. Positions without expressions write
nothing, and a sheet without expressions gives an empty output. -/
theorem save_writes_records (sheet : CSpreadsheet D) (hmap : IsMap sheet.m_Excel)
    (hsize : ∀ e ∈ sheet.m_Excel, e.2.length < 2147483648) :
    sheet.save.1 = true ∧
    sheet.save.2 = ((nonEmptyEntries sheet.m_Excel).map saveRecord).flatten ∧
    List.Pairwise (fun a b => CPos.lt a.1 b.1 = true) (nonEmptyEntries sheet.m_Excel) ∧
    (∀ e ∈ nonEmptyEntries sheet.m_Excel,
      mapGet sheet.m_Excel e.1 = e.2 ∧ e.2 ≠ []) ∧
    (∀ k, mapGet sheet.m_Excel k ≠ [] ↔
      ∃ e ∈ nonEmptyEntries sheet.m_Excel, CPos.same e.1 k = true ∧
        e.2 = mapGet sheet.m_Excel k) ∧
    ((∀ k, mapGet sheet.m_Excel k = []) → sheet.save.2 = []) := by
  have h2 := saveCells_eq_records sheet.m_Excel hsize
  refine ⟨rfl, h2, nonEmptyEntries_pairwise _ hmap, mapGet_of_nonEmptyEntry _ hmap,
    mapGet_ne_nil_iff _, ?_⟩
  intro hall
  show saveCells sheet.m_Excel = []
  rw [h2]
  have : nonEmptyEntries sheet.m_Excel = [] := by
    rw [List.eq_nil_iff_forall_not_mem]
    intro e he
    obtain ⟨h3, h4⟩ := mapGet_of_nonEmptyEntry _ hmap e he
    rw [hall e.1] at h3
    exact h4 h3.symm
  rw [this]
  rfl

end SaveRecords

/-- C23, counterexample. The cell `A1` of the sheet holds 4294967296 expressions; its size
converted to `int` is 0, so `save` writes nothing for it. -/
theorem save_skips_huge_cell :
    mapGet hugeCellSheet.m_Excel posA1 ≠ [] ∧ hugeCellSheet.save = (true, []) := by
  constructor
  · have e : mapGet hugeCellSheet.m_Excel posA1 = List.replicate 4294967296 CExpr.CAdd := by
      show (mapFind [(posA1, List.replicate 4294967296 CExpr.CAdd)] posA1).getD [] = _
      have h1 : CPos.lt posA1 posA1 = false := by decide
      simp only [mapFind, h1, Bool.false_eq_true, if_false, Option.getD_some]
    rw [e]
    intro h
    have := congrArg List.length h
    rw [List.length_replicate] at this
    exact absurd this (by decide)
  · show (true, saveCells [(posA1, List.replicate 4294967296 (CExpr.CAdd : CExpr ℚ))]) = _
    have hw : wrap32 (((List.replicate 4294967296 (CExpr.CAdd : CExpr ℚ)).length : Nat) : Int)
        = 0 := by
      rw [List.length_replicate]
      decide
    simp only [saveCells, hw, ne_eq, not_true_eq_false, if_false, List.append_nil]

set_option maxRecDepth 100000 in
/-- Witness of C23: the sheet `A1 = "top"`, `A2 = A1`. -/
theorem save_writes_records_witness :
    IsMap overlapSheet.m_Excel ∧
    (∀ e ∈ overlapSheet.m_Excel, e.2.length < 2147483648) ∧
    overlapSheet.save.2
      = " CPos A1 VectorLen 1  13 top endOfString  CPos A2 VectorLen 1  14  CPos A1".toList :=
  have hmap : IsMap overlapSheet.m_Excel := by
    unfold IsMap overlapSheet
    decide
  have hsize : ∀ e ∈ overlapSheet.m_Excel, e.2.length < 2147483648 := by
    intro e he
    simp only [overlapSheet, List.mem_cons, List.mem_singleton, List.not_mem_nil,
      or_false] at he
    rcases he with rfl | rfl <;> decide
  ⟨hmap, hsize, (save_writes_records overlapSheet hmap hsize).2.1.trans (by decide)⟩

/-! ## The operations on the map keep its keys increasing -/

section IsMapLemmas

variable {D : Type}

theorem isMap_nil : IsMap ([] : CellMap D) := List.Pairwise.nil

theorem lt_trans' {a b c : CPos} (h1 : CPos.lt a b = true) (h2 : CPos.lt b c = true) :
    CPos.lt a c = true := by
  rw [lt_iff] at *; omega

theorem mem_mapAssign (m : CellMap D) (key : CPos) (value : Expressions D)
    (e : CPos × Expressions D) (he : e ∈ mapAssign m key value) :
    e.1 = key ∨ ∃ e' ∈ m, e'.1 = e.1 := by
  induction m with
  | nil =>
    simp only [mapAssign, List.mem_singleton] at he
    exact Or.inl (by rw [he])
  | cons a m ih =>
    obtain ⟨k, v⟩ := a
    simp only [mapAssign] at he
    by_cases h1 : CPos.lt k key = true
    · rw [if_pos h1, List.mem_cons] at he
      rcases he with rfl | he
      · exact Or.inr ⟨(k, v), List.mem_cons_self _ _, rfl⟩
      · rcases ih he with h | ⟨e', he', h⟩
        · exact Or.inl h
        · exact Or.inr ⟨e', List.mem_cons_of_mem _ he', h⟩
    · rw [if_neg h1] at he
      by_cases h2 : CPos.lt key k = true
      · rw [if_pos h2, List.mem_cons] at he
        rcases he with rfl | he
        · exact Or.inl rfl
        · exact Or.inr ⟨e, he, rfl⟩
      · rw [if_neg h2, List.mem_cons] at he
        rcases he with rfl | he
        · exact Or.inr ⟨(k, v), List.mem_cons_self _ _, rfl⟩
        · exact Or.inr ⟨e, List.mem_cons_of_mem _ he, rfl⟩

/-- Assignment `m[key] = value` keeps the keys strictly increasing. -/
theorem isMap_mapAssign (m : CellMap D) (hm : IsMap m) (key : CPos) (value : Expressions D) :
    IsMap (mapAssign m key value) := by
  induction m with
  | nil => exact List.pairwise_singleton _ _
  | cons a m ih =>
    obtain ⟨k, v⟩ := a
    unfold IsMap at hm ⊢
    rw [List.pairwise_cons] at hm
    simp only [mapAssign]
    by_cases h1 : CPos.lt k key = true
    · rw [if_pos h1, List.pairwise_cons]
      refine ⟨?_, ih hm.2⟩
      intro e he
      rcases mem_mapAssign m key value e he with h | ⟨e', he', h⟩
      · rw [h]; exact h1
      · rw [← h]; exact hm.1 e' he'
    · rw [if_neg h1]
      by_cases h2 : CPos.lt key k = true
      · rw [if_pos h2, List.pairwise_cons]
        refine ⟨?_, List.pairwise_cons.2 hm⟩
        intro e he
        rw [List.mem_cons] at he
        rcases he with rfl | he
        · exact h2
        · exact lt_trans' h2 (hm.1 e he)
      · rw [if_neg h2, List.pairwise_cons]
        exact hm

/-- Evaluating `m[key]` keeps the keys strictly increasing. -/
theorem isMap_mapTouch (m : CellMap D) (hm : IsMap m) (key : CPos) :
    IsMap (mapTouch m key) := by
  have key_eq : mapTouch m key = mapAssign m key (mapGet m key) := by
    induction m with
    | nil => rfl
    | cons e m ih =>
      obtain ⟨k, w⟩ := e
      unfold IsMap at hm
      rw [List.pairwise_cons] at hm
      simp only [mapTouch, mapAssign]
      by_cases hk : CPos.lt k key = true
      · simp only [hk, if_true, ih hm.2]
        congr 2
        simp [mapGet, mapFind, hk]
      · by_cases hk2 : CPos.lt key k = true
        · simp [hk, hk2, mapGet, mapFind]
        · simp [hk, hk2, mapGet, mapFind]
  rw [key_eq]
  exact isMap_mapAssign m hm key _

theorem mapGet_pushBack (m : CellMap D) (pos : CPos) (e : CExpr D) (k : CPos) :
    mapGet (pushBack m pos e) k
      = if CPos.same pos k = true then mapGet m k ++ [e] else mapGet m k := by
  unfold pushBack
  rw [mapGet_mapAssign, mapFind_mapTouch, mapFind_mapTouch]
  by_cases h : CPos.same pos k = true
  · rw [if_pos h, if_pos h, mapGet_congr h]
  · rw [if_neg h, if_neg h]

end IsMapLemmas

/-! ## load: the cells come from the records of the stream -/

section LoadRecords

variable {D : Type} [DoubleOps D]

/-- The loop over the expressions of a record, when it ends: the cell of the record has
`n` expressions more, the other cells are as they were, and the position and the count of
the record are kept. -/
theorem loadExpressions_spec (bound : Nat) (u : Uninitialised D) (pos : CPos) (n : Nat) :
    ∀ (st st' : LoadState D), loadExpressions bound u pos n st = Except.ok st' →
      (∀ k, CPos.same pos k = false → mapGet st'.m_Excel k = mapGet st.m_Excel k) ∧
      (∀ k, CPos.same pos k = true →
        (mapGet st'.m_Excel k).length = (mapGet st.m_Excel k).length + n) ∧
      st'.position = st.position ∧ st'.vectorLen = st.vectorLen := by
  induction n with
  | zero =>
    intro st st' h
    simp only [loadExpressions, Except.ok.injEq] at h
    subst h
    exact ⟨fun _ _ => rfl, fun _ _ => rfl, rfl, rfl⟩
  | succ n ih =>
    intro st st' h
    simp only [loadExpressions] at h
    cases he : loadExpression bound u pos st with
    | error x => simp [he] at h
    | ok st1 =>
      rw [he] at h
      obtain ⟨e, -, hm, hp, hv⟩ := loadExpression_pushes bound u pos st st1 he
      obtain ⟨i1, i2, i3, i4⟩ := ih st1 st' h
      refine ⟨?_, ?_, by rw [i3, hp], by rw [i4, hv]⟩
      · intro k hk
        rw [i1 k hk, hm, mapGet_pushBack, if_neg (by simp [hk])]
      · intro k hk
        rw [i2 k hk, hm, mapGet_pushBack, if_pos hk, List.length_append]
        simp only [List.length_singleton]
        omega

/-- One expression that makes `load` leave does not make it return `true`. -/
theorem loadExpression_error (bound : Nat) (u : Uninitialised D) (pos : CPos)
    (st : LoadState D) (x : LoadResult D)
    (h : loadExpression bound u pos st = Except.error x) :
    ∀ m, x ≠ LoadResult.returned true m := by
  obtain ⟨P, hP⟩ : ∃ P : Except (LoadResult D) (LoadState D) → Prop,
      P = fun res => ∀ x, res = Except.error x → ∀ m, x ≠ LoadResult.returned true m :=
    ⟨_, rfl⟩
  suffices hs : P (loadExpression bound u pos st) by
    rw [hP] at hs
    exact hs x h
  have hok : ∀ s : LoadState D, P (Except.ok s) := by
    intro s
    rw [hP]
    intro x hx
    simp at hx
  have herr : ∀ e : LoadResult D, (∀ m, e ≠ LoadResult.returned true m) →
      P (Except.error e) := by
    intro e he
    rw [hP]
    intro x hx
    simp only [Except.error.injEq] at hx
    subst hx
    exact he
  clear hP
  unfold loadExpression
  dsimp only
  iterate 13 (refine ite_ind P _ _ _ (hok _) ?_)
  refine ite_ind P _ _ _ ?_ ?_
  · split
    · exact herr _ (by simp)
    · exact hok _
  refine ite_ind P _ _ _ ?_ (herr _ (by simp))
  split
  · exact herr _ (by simp)
  · exact hok _

theorem loadExpressions_error (bound : Nat) (u : Uninitialised D) (pos : CPos) (n : Nat) :
    ∀ (st : LoadState D) (x : LoadResult D),
      loadExpressions bound u pos n st = Except.error x →
      ∀ m, x ≠ LoadResult.returned true m := by
  induction n with
  | zero => intro st x h; simp [loadExpressions] at h
  | succ n ih =>
    intro st x h
    simp only [loadExpressions] at h
    cases he : loadExpression bound u pos st with
    | error y =>
      rw [he] at h
      simp only [Except.error.injEq] at h
      subst h
      exact loadExpression_error bound u pos st y he
    | ok st1 =>
      rw [he] at h
      exact ih st1 x h

/-- One record, read completely: its position text is an address that the constructor
accepts, the cell at that position has `vectorLen` expressions more (none for a count
below 1), and the other cells are as they were. A record that makes `load` leave does not
make it return `true`. -/
theorem loadRecord_spec (bound : Nat) (u : Uninitialised D) (st : LoadState D) :
    (∀ st', loadRecord bound u st = Except.ok st' →
      ∃ pos, CPos.parse st'.position = some pos ∧
        (∀ k, CPos.same pos k = false → mapGet st'.m_Excel k = mapGet st.m_Excel k) ∧
        (∀ k, CPos.same pos k = true →
          (mapGet st'.m_Excel k).length
            = (mapGet st.m_Excel k).length + st'.vectorLen.toNat)) ∧
    (∀ x, loadRecord bound u st = Except.error x → ∀ m, x ≠ LoadResult.returned true m) := by
  unfold loadRecord
  dsimp only
  split
  · exact ⟨fun st' h => by simp at h, fun x h => by
      simp only [Except.error.injEq] at h
      subst h
      simp⟩
  · split
    · exact ⟨fun st' h => by simp at h, fun x h => by
        simp only [Except.error.injEq] at h
        subst h
        simp⟩
    · rename_i pos hpos
      split
      · exact ⟨fun st' h => by simp at h, fun x h => by
          simp only [Except.error.injEq] at h
          subst h
          simp⟩
      · refine ⟨?_, fun x h => loadExpressions_error bound u pos _ _ x h⟩
        intro st' h
        obtain ⟨i1, i2, i3, i4⟩ := loadExpressions_spec bound u pos _ _ st' h
        dsimp only at i1 i2 i3 i4
        refine ⟨pos, by rw [i3]; exact hpos, i1, ?_⟩
        intro k hk
        rw [i2 k hk, i4]

/-- The cells that hold expressions when `load` returns `true` are those that held some
when the loop was entered and those of the records read with a count of 1 at least. -/
theorem loadRecords_spec (bound : Nat) (u : Uninitialised D) (fuel : Nat) :
    ∀ (st : LoadState D) (success : Bool) (m : CellMap D),
      loadRecords bound u fuel st success = LoadResult.returned true m →
      ∀ k, mapGet m k ≠ [] ↔
        (mapGet st.m_Excel k ≠ [] ∨
          ∃ r ∈ loadedRecords bound u fuel st, CPos.same r.1 k = true ∧ 1 ≤ r.2) := by
  induction fuel with
  | zero => intro st success m h; simp [loadRecords] at h
  | succ fuel ih =>
    intro st success m h k
    rw [loadRecords_succ] at h
    simp only [loadedRecords]
    by_cases hf : (st.is.readString st.tmp).1.fail = true
    · rw [if_pos hf] at h
      simp only [LoadResult.returned.injEq] at h
      rw [if_pos hf, ← h.2]
      simp
    · rw [if_neg hf] at h
      rw [if_neg hf]
      obtain ⟨g1, g2⟩ := loadRecord_spec bound u
        { st with is := (st.is.readString st.tmp).1, tmp := (st.is.readString st.tmp).2 }
      cases hr : loadRecord bound u
          { st with is := (st.is.readString st.tmp).1, tmp := (st.is.readString st.tmp).2 } with
      | error x =>
        rw [hr] at h
        dsimp only at h
        exact absurd h (g2 x hr m)
      | ok st1 =>
        rw [hr] at h
        dsimp only at h ⊢
        obtain ⟨pos, hp, j1, j2⟩ := g1 st1 hr
        dsimp only at j1 j2
        rw [hp]
        dsimp only
        rw [ih st1 _ m h k]
        have hcell : mapGet st1.m_Excel k ≠ [] ↔
            (mapGet st.m_Excel k ≠ [] ∨ (CPos.same pos k = true ∧ 1 ≤ st1.vectorLen)) := by
          by_cases hs : CPos.same pos k = true
          · have hl := j2 k hs
            rw [← List.length_pos, ← List.length_pos, hl]
            simp only [hs, true_and]
            omega
          · rw [j1 k (by simpa using hs)]
            simp [hs]
        rw [hcell]
        simp only [List.mem_cons, exists_eq_or_imp]
        tauto

/-- C25, amended. Method `load` resets the sheet before reading: what it returns and the
cells it leaves do not depend on the sheet it is called on. After a `load` that returned
`true` the positions that hold expressions are exactly those of the records of the stream
with a count of 1 at least. Loading an empty stream returns `true` and leaves no cell. -/
theorem load_resets_then_reads_records (sheet other : CSpreadsheet D) (u : Uninitialised D)
    (input : List Char) :
    sheet.load u input = other.load u input ∧
    (∀ m, sheet.load u input = LoadResult.returned true m →
      ∀ k, mapGet m k ≠ [] ↔
        ∃ r ∈ streamRecords u input, CPos.same r.1 k = true ∧ 1 ≤ r.2) ∧
    sheet.load u [] = LoadResult.returned true [] := by
  refine ⟨rfl, ?_, rfl⟩
  intro m h k
  have := loadRecords_spec _ u _ _ true m h k
  rw [this]
  constructor
  · rintro (h1 | h1)
    · exact absurd rfl h1
    · exact h1
  · exact fun h1 => Or.inr h1

end LoadRecords

set_option maxRecDepth 100000 in
/-- C25, counterexample. The stream `CPos A1 VectorLen 0` holds a record for `A1`, `load`
returns `true`, and no position holds expressions afterwards. -/
theorem load_zero_count_record_leaves_no_cell :
    streamRecords zeroUninitialised "CPos A1 VectorLen 0".toList = [(posA1, 0)] ∧
    emptySheet.load zeroUninitialised "CPos A1 VectorLen 0".toList
      = LoadResult.returned true [] := by
  constructor <;> decide

set_option maxRecDepth 100000 in
/-- Witness of C25: the saved stream of the sheet `A1 = "top"`, `A2 = A1` is loaded into
the sheet `A1 = "x"`, `A2 = "y"`. -/
theorem load_resets_then_reads_records_witness :
    twoTextSheet.load zeroUninitialised overlapSheet.save.2
      = LoadResult.returned true overlapSheet.m_Excel ∧
    streamRecords zeroUninitialised overlapSheet.save.2 = [(posA1, 1), (posA2, 1)] ∧
    (mapGet overlapSheet.m_Excel posA2 ≠ [] ↔
      ∃ r ∈ streamRecords zeroUninitialised overlapSheet.save.2,
        CPos.same r.1 posA2 = true ∧ 1 ≤ r.2) :=
  have h : twoTextSheet.load zeroUninitialised overlapSheet.save.2
      = LoadResult.returned true overlapSheet.m_Excel := by decide
  ⟨h, by decide,
    (load_resets_then_reads_records twoTextSheet emptySheet zeroUninitialised
      overlapSheet.save.2).2.1 _ h posA2⟩

/-! ## Ownership: the store -/

section Ownership

variable {D : Type}

theorem read_alloc_old (h : Heap.Store D) (e : CExpr D) (a : Nat) (ha : a < h.objs.length) :
    (h.alloc e).2.read a = h.read a := by
  simp only [Heap.Store.read, Heap.Store.alloc, List.getD_eq_getElem?_getD]
  rw [List.getElem?_append_left ha]

theorem read_alloc_new (h : Heap.Store D) (e : CExpr D) :
    (h.alloc e).2.read (h.alloc e).1 = e := by
  simp [Heap.Store.read, Heap.Store.alloc, List.getD_eq_getElem?_getD]

theorem read_write_other (h : Heap.Store D) (e : CExpr D) (a b : Nat) (hb : b ≠ a) :
    (h.write a e).read b = h.read b := by
  simp only [Heap.Store.read, Heap.Store.write, List.getD_eq_getElem?_getD]
  rw [List.getElem?_set_ne (Ne.symm hb)]

theorem read_write_same (h : Heap.Store D) (e : CExpr D) (a : Nat) (ha : a < h.objs.length) :
    (h.write a e).read a = e := by
  simp [Heap.Store.read, Heap.Store.write, List.getD_eq_getElem?_getD, ha]

theorem keeps_refl (others : List Nat) (h : Heap.Store D) : Heap.Keeps others h h :=
  ⟨Nat.le_refl _, fun _ _ => rfl, fun _ _ hb => hb⟩

theorem keeps_trans {others : List Nat} {h1 h2 h3 : Heap.Store D}
    (h12 : Heap.Keeps others h1 h2) (h23 : Heap.Keeps others h2 h3) :
    Heap.Keeps others h1 h3 :=
  ⟨Nat.le_trans h12.1 h23.1,
    fun a ha => (h23.2.1 a (Nat.lt_of_lt_of_le ha h12.1)).trans (h12.2.1 a ha),
    fun b hb hd => h23.2.2 b hb (h12.2.2 b hb hd)⟩

theorem keeps_alloc (others : List Nat) (h : Heap.Store D) (e : CExpr D) :
    Heap.Keeps others h (h.alloc e).2 :=
  ⟨by simp [Heap.Store.alloc], fun a ha => read_alloc_old h e a ha, fun _ _ hd => hd⟩

theorem store_write (h : Heap.Store D) (n a : Nat) (e : CExpr D) (hn : n ≤ a) :
    (h.write a e).objs.length = h.objs.length ∧
    (∀ b, b < n → (h.write a e).read b = h.read b) ∧
    (h.write a e).deleted = h.deleted :=
  ⟨by simp [Heap.Store.write], fun b hb => read_write_other h e a b (by omega), rfl⟩

theorem keeps_deleteAll (others : List Nat) (h : Heap.Store D) (ptrs : List Nat)
    (hp : ∀ a ∈ ptrs, a ∉ others) : Heap.Keeps others h (h.deleteAll ptrs) := by
  refine ⟨Nat.le_refl _, fun _ _ => rfl, fun b hb hd => ?_⟩
  simp only [Heap.Store.deleteAll, List.mem_append, not_or]
  exact ⟨fun hq => hp b hq hb, hd⟩

theorem owns_perm {others : List Nat} {h : Heap.Store D} {p q : List Nat}
    (hpq : p.Perm q) (ho : Heap.Owns others h p) : Heap.Owns others h q :=
  ⟨hpq.nodup_iff.mp ho.1, fun a ha => ho.2.1 a (hpq.mem_iff.mpr ha), ho.2.2⟩

theorem owns_alloc {others : List Nat} {h : Heap.Store D} {p : List Nat} (e : CExpr D)
    (ho : Heap.Owns others h p) : Heap.Owns others (h.alloc e).2 ((h.alloc e).1 :: p) := by
  obtain ⟨hnd, hl, hr, hs⟩ := ho
  have hlen : (h.alloc e).2.objs.length = h.objs.length + 1 := by simp [Heap.Store.alloc]
  have hdel : (h.alloc e).2.deleted = h.deleted := rfl
  have hnew : (h.alloc e).1 = h.objs.length := rfl
  refine ⟨?_, ?_, ?_, ?_⟩
  · rw [List.nodup_cons]
    refine ⟨fun hm => ?_, hnd⟩
    have := (hl _ hm).1.1
    omega
  · intro a ha
    rcases List.mem_cons.mp ha with rfl | ha
    · refine ⟨⟨by omega, ?_⟩, fun hb => ?_⟩
      · rw [hdel]; intro hd; have := hs _ hd; omega
      · have := hr _ hb; omega
    · exact ⟨⟨by have := (hl a ha).1.1; omega, by rw [hdel]; exact (hl a ha).1.2⟩, (hl a ha).2⟩
  · intro b hb; have := hr b hb; omega
  · intro a ha; rw [hdel] at ha; have := hs a ha; omega

theorem owns_write {others : List Nat} {h : Heap.Store D} {p : List Nat} (a : Nat)
    (e : CExpr D) (ho : Heap.Owns others h p) : Heap.Owns others (h.write a e) p := by
  have hlen : (h.write a e).objs.length = h.objs.length := by simp [Heap.Store.write]
  obtain ⟨hnd, hl, hr, hs⟩ := ho
  refine ⟨hnd, fun b hb => ⟨⟨by rw [hlen]; exact (hl b hb).1.1, (hl b hb).1.2⟩, (hl b hb).2⟩,
    fun b hb => by rw [hlen]; exact hr b hb, fun b hb => by rw [hlen]; exact hs b hb⟩

theorem owns_deleteAll {others : List Nat} {h : Heap.Store D} {q r : List Nat}
    (ho : Heap.Owns others h (q ++ r)) :
    Heap.Owns others (h.deleteAll q) r ∧ Heap.Keeps others h (h.deleteAll q) := by
  obtain ⟨hnd, hl, hr, hs⟩ := ho
  have hdis := List.nodup_append.mp hnd
  refine ⟨⟨hdis.2.1, fun a ha => ⟨⟨(hl a (List.mem_append_right _ ha)).1.1, ?_⟩,
      (hl a (List.mem_append_right _ ha)).2⟩, hr, ?_⟩,
    keeps_deleteAll others h q (fun a ha => (hl a (List.mem_append_left _ ha)).2)⟩
  · simp only [Heap.Store.deleteAll, List.mem_append, not_or]
    exact ⟨fun hq => hdis.2.2 hq ha, (hl a (List.mem_append_right _ ha)).1.2⟩
  · intro a ha
    simp only [Heap.Store.deleteAll, List.mem_append] at ha
    rcases ha with ha | ha
    · exact (hl a (List.mem_append_left _ ha)).1.1
    · exact hs a ha

/-! ## Ownership: creation of objects -/

theorem owns_clone {others : List Nat} {h : Heap.Store D} {p : List Nat} (expr : Nat)
    (ho : Heap.Owns others h p) :
    Heap.Owns others (Heap.clone h expr).2 ((Heap.clone h expr).1 :: p) ∧
    Heap.Keeps others h (Heap.clone h expr).2 :=
  ⟨owns_alloc _ ho, keeps_alloc _ _ _⟩

theorem owns_copyExpressions {others : List Nat} (v : List Nat) :
    ∀ (h : Heap.Store D) (p : List Nat), Heap.Owns others h p →
      Heap.Owns others (Heap.copyExpressions h v).2 ((Heap.copyExpressions h v).1 ++ p) ∧
      Heap.Keeps others h (Heap.copyExpressions h v).2 := by
  induction v with
  | nil => intro h p ho; exact ⟨ho, keeps_refl _ _⟩
  | cons a v ih =>
    intro h p ho
    obtain ⟨h1, k1⟩ := owns_clone a ho
    obtain ⟨h2, k2⟩ := ih _ _ h1
    refine ⟨owns_perm ?_ h2, keeps_trans k1 k2⟩
    simp only [Heap.copyExpressions]
    exact List.perm_middle

theorem owns_changePositions {others : List Nat} (co ro : Int) (v : List Nat) :
    ∀ (h : Heap.Store D) (p : List Nat), Heap.Owns others h p →
      Heap.Owns others (Heap.changePositions h co ro v).2
        ((Heap.changePositions h co ro v).1 ++ p) ∧
      Heap.Keeps others h (Heap.changePositions h co ro v).2 := by
  induction v with
  | nil => intro h p ho; exact ⟨ho, keeps_refl _ _⟩
  | cons a v ih =>
    intro h p ho
    obtain ⟨h1, k1⟩ := owns_clone a ho
    have hw := store_write (Heap.clone h a).2 h.objs.length (Heap.clone h a).1
      (CExpr.changePosition ((Heap.clone h a).2.read (Heap.clone h a).1) co ro) (Nat.le_refl _)
    have k1' : Heap.Keeps others h ((Heap.clone h a).2.write (Heap.clone h a).1
        (CExpr.changePosition ((Heap.clone h a).2.read (Heap.clone h a).1) co ro)) := by
      refine ⟨by rw [hw.1]; exact k1.1, fun b hb => (hw.2.1 b hb).trans (k1.2.1 b hb), ?_⟩
      intro b hb hd
      rw [hw.2.2]
      exact k1.2.2 b hb hd
    obtain ⟨h2, k2⟩ := ih _ _ (owns_write (Heap.clone h a).1
      (CExpr.changePosition ((Heap.clone h a).2.read (Heap.clone h a).1) co ro) h1)
    refine ⟨owns_perm ?_ h2, keeps_trans k1' k2⟩
    simp only [Heap.changePositions]
    exact List.perm_middle

theorem owns_runCalls {others : List Nat} (cs : List (BuilderCall D)) :
    ∀ (b : List Nat) (h : Heap.Store D) (p : List Nat), Heap.Owns others h (b ++ p) →
      Heap.Owns others (Heap.runCalls cs b h).1.2 ((Heap.runCalls cs b h).1.1 ++ p) ∧
      Heap.Keeps others h (Heap.runCalls cs b h).1.2 := by
  induction cs with
  | nil => intro b h p ho; exact ⟨ho, keeps_refl _ _⟩
  | cons c cs ih =>
    intro b h p ho
    simp only [Heap.runCalls, Heap.ExpressionBuilder.call]
    cases hc : BuilderCall.instruction c with
    | none => exact ⟨ho, keeps_refl _ _⟩
    | some e =>
      have h1 := owns_alloc e ho
      have h2 : Heap.Owns others (h.alloc e).2 ((b ++ [(h.alloc e).1]) ++ p) :=
        owns_perm (by
          rw [List.append_assoc]
          exact List.perm_middle.symm) h1
      obtain ⟨h3, k3⟩ := ih _ _ _ h2
      exact ⟨h3, keeps_trans (keeps_alloc _ _ _) k3⟩

theorem owns_parseExpression {others : List Nat} (run : ParserRun D) (b : List Nat)
    (h : Heap.Store D) (p : List Nat) (ho : Heap.Owns others h (b ++ p)) :
    Heap.Owns others (Heap.parseExpression run b h).1.2
      ((Heap.parseExpression run b h).1.1 ++ p) ∧
    Heap.Keeps others h (Heap.parseExpression run b h).1.2 := by
  unfold Heap.parseExpression
  dsimp only
  split
  · exact owns_runCalls _ _ _ _ ho
  · exact owns_runCalls _ _ _ _ ho

/-! ## Ownership: the maps -/

theorem mapPointers_cons (k : CPos) (v : List Nat) (m : Heap.CellMap) :
    Heap.mapPointers ((k, v) :: m) = v ++ Heap.mapPointers m := by
  simp [Heap.mapPointers]

theorem mapPointers_mapTouch (m : Heap.CellMap) (key : CPos) :
    Heap.mapPointers (Heap.mapTouch m key) = Heap.mapPointers m := by
  induction m with
  | nil => rfl
  | cons e m ih =>
    obtain ⟨k, v⟩ := e
    unfold Heap.mapTouch
    split
    · rw [mapPointers_cons, mapPointers_cons, ih]
    · split
      · rw [mapPointers_cons]; rfl
      · rfl

theorem heap_mapAssign_perm (m : Heap.CellMap) (key : CPos) (value : List Nat) :
    ∃ rest, (Heap.mapPointers m).Perm (Heap.mapGet m key ++ rest) ∧
      (Heap.mapPointers (Heap.mapAssign m key value)).Perm (value ++ rest) := by
  induction m with
  | nil => exact ⟨[], by simp [Heap.mapPointers, Heap.mapGet, Heap.mapFind],
      by simp [Heap.mapPointers, Heap.mapAssign]⟩
  | cons e m ih =>
    obtain ⟨k, v⟩ := e
    obtain ⟨rest, h1, h2⟩ := ih
    by_cases hlt : CPos.lt k key = true
    · refine ⟨v ++ rest, ?_, ?_⟩
      · have e1 : Heap.mapGet ((k, v) :: m) key = Heap.mapGet m key := by
          unfold Heap.mapGet; rw [Heap.mapFind, if_pos hlt]
        rw [e1, mapPointers_cons, List.perm_iff_count]
        intro a
        have := h1.count_eq a
        simp only [List.count_append] at this ⊢
        omega
      · have e1 : Heap.mapAssign ((k, v) :: m) key value
            = (k, v) :: Heap.mapAssign m key value := by
          rw [Heap.mapAssign, if_pos hlt]
        rw [e1, mapPointers_cons, List.perm_iff_count]
        intro a
        have := h2.count_eq a
        simp only [List.count_append] at this ⊢
        omega
    · by_cases hgt : CPos.lt key k = true
      · refine ⟨v ++ Heap.mapPointers m, ?_, ?_⟩
        · have e1 : Heap.mapGet ((k, v) :: m) key = [] := by
            unfold Heap.mapGet; rw [Heap.mapFind, if_neg hlt, if_pos hgt]; rfl
          rw [e1, mapPointers_cons]; rfl
        · have e1 : Heap.mapAssign ((k, v) :: m) key value = (key, value) :: (k, v) :: m := by
            rw [Heap.mapAssign, if_neg hlt, if_pos hgt]
          rw [e1, mapPointers_cons, mapPointers_cons]
      · refine ⟨Heap.mapPointers m, ?_, ?_⟩
        · have e1 : Heap.mapGet ((k, v) :: m) key = v := by
            unfold Heap.mapGet; rw [Heap.mapFind, if_neg hlt, if_neg hgt]; rfl
          rw [e1, mapPointers_cons]
        · have e1 : Heap.mapAssign ((k, v) :: m) key value = (k, value) :: m := by
            rw [Heap.mapAssign, if_neg hlt, if_neg hgt]
          rw [e1, mapPointers_cons]

theorem owns_assign {others : List Nat} {h : Heap.Store D} (m : Heap.CellMap) (key : CPos)
    (value x : List Nat) (ho : Heap.Owns others h (value ++ (Heap.mapPointers m ++ x))) :
    Heap.Owns others (Heap.assign h m key value).2
      (Heap.mapPointers (Heap.assign h m key value).1 ++ x) ∧
    Heap.Keeps others h (Heap.assign h m key value).2 := by
  obtain ⟨rest, h1, h2⟩ := heap_mapAssign_perm m key value
  have hp : (value ++ (Heap.mapPointers m ++ x)).Perm
      (Heap.mapGet m key ++ (value ++ (rest ++ x))) := by
    rw [List.perm_iff_count]
    intro a
    have := h1.count_eq a
    simp only [List.count_append] at this ⊢
    omega
  obtain ⟨h3, k3⟩ := owns_deleteAll (owns_perm hp ho)
  refine ⟨owns_perm ?_ h3, k3⟩
  show (value ++ (rest ++ x)).Perm (Heap.mapPointers (Heap.mapAssign m key value) ++ x)
  rw [List.perm_iff_count]
  intro a
  have := h2.count_eq a
  simp only [List.count_append] at this ⊢
  omega

/-! ## Ownership: setCell -/

theorem owns_setCell {others : List Nat} (sheet : Heap.CSpreadsheet) (h : Heap.Store D)
    (pos : CPos) (run : ParserRun D) (ho : Heap.Owns others h sheet.pointers) :
    Heap.Owns others (sheet.setCell h pos run).2.2 (sheet.setCell h pos run).2.1.pointers ∧
    Heap.Keeps others h (sheet.setCell h pos run).2.2 := by
  have ho1 : Heap.Owns others h (sheet.m_ExprBuilder ++ Heap.mapPointers sheet.m_Excel) :=
    owns_perm List.perm_append_comm ho
  obtain ⟨h1, k1⟩ := owns_deleteAll ho1
  obtain ⟨h2, k2⟩ := owns_parseExpression run [] _ _ h1
  unfold Heap.CSpreadsheet.setCell
  dsimp only
  split
  · exact ⟨owns_perm List.perm_append_comm h2, keeps_trans k1 k2⟩
  · obtain ⟨h3, k3⟩ := owns_copyExpressions
      (Heap.parseExpression run [] (h.deleteAll sheet.m_ExprBuilder)).1.1 _ _ h2
    have hp : ∀ c b m : List Nat, (c ++ (b ++ m)).Perm (c ++ (m ++ b)) :=
      fun c b m => List.Perm.append_left c List.perm_append_comm
    obtain ⟨h4, k4⟩ := owns_assign sheet.m_Excel pos _ _ (owns_perm (hp _ _ _) h3)
    exact ⟨h4, keeps_trans k1 (keeps_trans k2 (keeps_trans k3 k4))⟩

/-! ## Ownership: copyRect -/

theorem perm_swap_front (a b c : List Nat) : (a ++ (b ++ c)).Perm (b ++ (a ++ c)) := by
  rw [List.perm_iff_count]
  intro x
  simp only [List.count_append]
  omega

theorem owns_copy_cell {others : List Nat} {h : Heap.Store D} (m new : Heap.CellMap)
    (src dst : CPos) (x : List Nat)
    (ho : Heap.Owns others h (Heap.mapPointers m ++ (Heap.mapPointers new ++ x))) :
    Heap.Owns others
      (Heap.assign (Heap.copyExpressions h (Heap.mapGet (Heap.mapTouch m src) src)).2 new dst
        (Heap.copyExpressions h (Heap.mapGet (Heap.mapTouch m src) src)).1).2
      (Heap.mapPointers (Heap.mapTouch m src) ++
        (Heap.mapPointers (Heap.assign
          (Heap.copyExpressions h (Heap.mapGet (Heap.mapTouch m src) src)).2 new dst
          (Heap.copyExpressions h (Heap.mapGet (Heap.mapTouch m src) src)).1).1 ++ x)) ∧
    Heap.Keeps others h
      (Heap.assign (Heap.copyExpressions h (Heap.mapGet (Heap.mapTouch m src) src)).2 new dst
        (Heap.copyExpressions h (Heap.mapGet (Heap.mapTouch m src) src)).1).2 := by
  obtain ⟨h1, k1⟩ := owns_copyExpressions (Heap.mapGet (Heap.mapTouch m src) src) _ _ ho
  have h1' := owns_perm (List.Perm.append_left _ (perm_swap_front _ _ _)) h1
  obtain ⟨h2, k2⟩ := owns_assign new dst _ _ h1'
  rw [mapPointers_mapTouch]
  exact ⟨owns_perm (perm_swap_front _ _ _) h2, keeps_trans k1 k2⟩

theorem owns_write_cell {others : List Nat} {h : Heap.Store D} (m new : Heap.CellMap)
    (dst : CPos) (co ro : Int) (x : List Nat)
    (ho : Heap.Owns others h (Heap.mapPointers m ++ (Heap.mapPointers new ++ x))) :
    Heap.Owns others
      (Heap.assign (Heap.changePositions h co ro (Heap.mapGet (Heap.mapTouch new dst) dst)).2
        m dst (Heap.changePositions h co ro (Heap.mapGet (Heap.mapTouch new dst) dst)).1).2
      (Heap.mapPointers (Heap.assign
          (Heap.changePositions h co ro (Heap.mapGet (Heap.mapTouch new dst) dst)).2 m dst
          (Heap.changePositions h co ro (Heap.mapGet (Heap.mapTouch new dst) dst)).1).1 ++
        (Heap.mapPointers (Heap.mapTouch new dst) ++ x)) ∧
    Heap.Keeps others h
      (Heap.assign (Heap.changePositions h co ro (Heap.mapGet (Heap.mapTouch new dst) dst)).2
        m dst (Heap.changePositions h co ro (Heap.mapGet (Heap.mapTouch new dst) dst)).1).2 := by
  obtain ⟨h1, k1⟩ :=
    owns_changePositions co ro (Heap.mapGet (Heap.mapTouch new dst) dst) _ _ ho
  obtain ⟨h2, k2⟩ := owns_assign m dst _ _ h1
  rw [mapPointers_mapTouch]
  exact ⟨h2, keeps_trans k1 k2⟩

theorem owns_copyColumn {others : List Nat} (x : List Nat) (n : Nat) :
    ∀ (st st' : Heap.CopyState D),
      Heap.Owns others st.store
        (Heap.mapPointers st.m_Excel ++ (Heap.mapPointers st.newExcel ++ x)) →
      (Heap.copyColumn n st = .ok st' ∨ Heap.copyColumn n st = .error st') →
      Heap.Owns others st'.store
        (Heap.mapPointers st'.m_Excel ++ (Heap.mapPointers st'.newExcel ++ x)) ∧
      Heap.Keeps others st.store st'.store := by
  induction n with
  | zero =>
    intro st st' ho hr
    simp only [Heap.copyColumn, Except.ok.injEq, reduceCtorEq, or_false] at hr
    subst hr
    exact ⟨ho, keeps_refl _ _⟩
  | succ n ih =>
    intro st st' ho hr
    obtain ⟨h1, k1⟩ := owns_copy_cell st.m_Excel st.newExcel st.srcCopy st.dstCopy x ho
    rw [Heap.copyColumn] at hr
    dsimp only at hr
    split at hr
    · simp only [Except.error.injEq, reduceCtorEq, false_or] at hr
      subst hr
      exact ⟨h1, k1⟩
    · split at hr
      · simp only [Except.error.injEq, reduceCtorEq, false_or] at hr
        subst hr
        exact ⟨h1, k1⟩
      · obtain ⟨h2, k2⟩ := ih _ st' (by exact h1) hr
        exact ⟨h2, keeps_trans k1 k2⟩

theorem owns_copyColumns {others : List Nat} (x : List Nat) (dst src : CPos) (h : Int)
    (n : Nat) :
    ∀ (st st' : Heap.CopyState D),
      Heap.Owns others st.store
        (Heap.mapPointers st.m_Excel ++ (Heap.mapPointers st.newExcel ++ x)) →
      (Heap.copyColumns dst src h n st = .ok st' ∨
        Heap.copyColumns dst src h n st = .error st') →
      Heap.Owns others st'.store
        (Heap.mapPointers st'.m_Excel ++ (Heap.mapPointers st'.newExcel ++ x)) ∧
      Heap.Keeps others st.store st'.store := by
  induction n with
  | zero =>
    intro st st' ho hr
    simp only [Heap.copyColumns, Except.ok.injEq, reduceCtorEq, or_false] at hr
    subst hr
    exact ⟨ho, keeps_refl _ _⟩
  | succ n ih =>
    intro st st' ho hr
    rw [Heap.copyColumns] at hr
    split at hr
    · simp only [Except.error.injEq, reduceCtorEq, false_or] at hr
      subst hr
      exact ⟨ho, keeps_refl _ _⟩
    · split at hr
      · simp only [Except.error.injEq, reduceCtorEq, false_or] at hr
        subst hr
        exact ⟨ho, keeps_refl _ _⟩
      · rename_i src0 _ dst0 _
        split at hr
        · rename_i st1 hc
          simp only [Except.error.injEq, reduceCtorEq, false_or] at hr
          subst hr
          obtain ⟨h1, k1⟩ := owns_copyColumn x h.toNat _ _ (by exact ho) (Or.inr hc)
          exact ⟨h1, k1⟩
        · rename_i st1 hc
          obtain ⟨h1, k1⟩ := owns_copyColumn x h.toNat _ _ (by exact ho) (Or.inl hc)
          split at hr
          · simp only [Except.error.injEq, reduceCtorEq, false_or] at hr
            subst hr
            exact ⟨h1, k1⟩
          · split at hr
            · simp only [Except.error.injEq, reduceCtorEq, false_or] at hr
              subst hr
              exact ⟨h1, k1⟩
            · obtain ⟨h2, k2⟩ := ih _ st' (by exact h1) hr
              exact ⟨h2, keeps_trans k1 k2⟩

theorem owns_writeColumn {others : List Nat} (x : List Nat) (co ro : Int) (n : Nat) :
    ∀ (st st' : Heap.CopyState D),
      Heap.Owns others st.store
        (Heap.mapPointers st.m_Excel ++ (Heap.mapPointers st.newExcel ++ x)) →
      (Heap.writeColumn co ro n st = .ok st' ∨ Heap.writeColumn co ro n st = .error st') →
      Heap.Owns others st'.store
        (Heap.mapPointers st'.m_Excel ++ (Heap.mapPointers st'.newExcel ++ x)) ∧
      Heap.Keeps others st.store st'.store := by
  induction n with
  | zero =>
    intro st st' ho hr
    simp only [Heap.writeColumn, Except.ok.injEq, reduceCtorEq, or_false] at hr
    subst hr
    exact ⟨ho, keeps_refl _ _⟩
  | succ n ih =>
    intro st st' ho hr
    obtain ⟨h1, k1⟩ := owns_write_cell st.m_Excel st.newExcel st.dstCopy co ro x ho
    rw [Heap.writeColumn] at hr
    dsimp only at hr
    split at hr
    · simp only [Except.error.injEq, reduceCtorEq, false_or] at hr
      subst hr
      exact ⟨h1, k1⟩
    · obtain ⟨h2, k2⟩ := ih _ st' (by exact h1) hr
      exact ⟨h2, keeps_trans k1 k2⟩

theorem owns_writeColumns {others : List Nat} (x : List Nat) (dst : CPos) (h co ro : Int)
    (n : Nat) :
    ∀ (st st' : Heap.CopyState D),
      Heap.Owns others st.store
        (Heap.mapPointers st.m_Excel ++ (Heap.mapPointers st.newExcel ++ x)) →
      (Heap.writeColumns dst h co ro n st = .ok st' ∨
        Heap.writeColumns dst h co ro n st = .error st') →
      Heap.Owns others st'.store
        (Heap.mapPointers st'.m_Excel ++ (Heap.mapPointers st'.newExcel ++ x)) ∧
      Heap.Keeps others st.store st'.store := by
  induction n with
  | zero =>
    intro st st' ho hr
    simp only [Heap.writeColumns, Except.ok.injEq, reduceCtorEq, or_false] at hr
    subst hr
    exact ⟨ho, keeps_refl _ _⟩
  | succ n ih =>
    intro st st' ho hr
    rw [Heap.writeColumns] at hr
    split at hr
    · simp only [Except.error.injEq, reduceCtorEq, false_or] at hr
      subst hr
      exact ⟨ho, keeps_refl _ _⟩
    · split at hr
      · rename_i st1 hc
        simp only [Except.error.injEq, reduceCtorEq, false_or] at hr
        subst hr
        obtain ⟨h1, k1⟩ := owns_writeColumn x co ro h.toNat _ _ (by exact ho) (Or.inr hc)
        exact ⟨h1, k1⟩
      · rename_i st1 hc
        obtain ⟨h1, k1⟩ := owns_writeColumn x co ro h.toNat _ _ (by exact ho) (Or.inl hc)
        split at hr
        · simp only [Except.error.injEq, reduceCtorEq, false_or] at hr
          subst hr
          exact ⟨h1, k1⟩
        · obtain ⟨h2, k2⟩ := ih _ st' (by exact h1) hr
          exact ⟨h2, keeps_trans k1 k2⟩

theorem owns_leave {others : List Nat} (st : Heap.CopyState D) (sheet : Heap.CSpreadsheet)
    (ho : Heap.Owns others st.store
      (Heap.mapPointers st.m_Excel ++ (Heap.mapPointers st.newExcel ++ sheet.m_ExprBuilder))) :
    Heap.Owns others (st.leave sheet).2 (st.leave sheet).1.pointers ∧
    Heap.Keeps others st.store (st.leave sheet).2 :=
  owns_deleteAll (owns_perm (perm_swap_front _ _ _) ho)

theorem owns_copyRect {others : List Nat} (sheet : Heap.CSpreadsheet) (store : Heap.Store D)
    (dst src : CPos) (w h : Int) (ho : Heap.Owns others store sheet.pointers)
    (r : Heap.CSpreadsheet × Heap.Store D)
    (hr : sheet.copyRect store dst src w h = .ok r ∨
      sheet.copyRect store dst src w h = .error r) :
    Heap.Owns others r.2 r.1.pointers ∧ Heap.Keeps others store r.2 := by
  have ho0 : Heap.Owns others store
      (Heap.mapPointers sheet.m_Excel ++ (Heap.mapPointers [] ++ sheet.m_ExprBuilder)) := ho
  unfold Heap.CSpreadsheet.copyRect at hr
  split at hr
  · rename_i st hc
    obtain ⟨h1, k1⟩ := owns_copyColumns sheet.m_ExprBuilder dst src h w.toNat _ _ ho0 (Or.inr hc)
    obtain ⟨h2, k2⟩ := owns_leave st sheet h1
    simp only [Except.error.injEq, reduceCtorEq, false_or] at hr
    subst hr
    exact ⟨h2, keeps_trans k1 k2⟩
  · rename_i st1 hc
    obtain ⟨h1, k1⟩ := owns_copyColumns sheet.m_ExprBuilder dst src h w.toNat _ _ ho0 (Or.inl hc)
    split at hr
    · obtain ⟨h2, k2⟩ := owns_leave st1 sheet h1
      simp only [Except.error.injEq, reduceCtorEq, false_or] at hr
      subst hr
      exact ⟨h2, keeps_trans k1 k2⟩
    · rename_i dstCopy _
      split at hr
      · rename_i st2 hc2
        obtain ⟨h2, k2⟩ := owns_writeColumns sheet.m_ExprBuilder dst h _ _ w.toNat
          { st1 with dstCopy := dstCopy } st2 h1 (Or.inr hc2)
        obtain ⟨h3, k3⟩ := owns_leave st2 sheet h2
        simp only [Except.error.injEq, reduceCtorEq, false_or] at hr
        subst hr
        exact ⟨h3, keeps_trans k1 (keeps_trans k2 k3)⟩
      · rename_i st2 hc2
        obtain ⟨h2, k2⟩ := owns_writeColumns sheet.m_ExprBuilder dst h _ _ w.toNat
          { st1 with dstCopy := dstCopy } st2 h1 (Or.inl hc2)
        obtain ⟨h3, k3⟩ := owns_leave st2 sheet h2
        simp only [Except.ok.injEq, reduceCtorEq, or_false] at hr
        subst hr
        exact ⟨h3, keeps_trans k1 (keeps_trans k2 k3)⟩

theorem owns_apply {others : List Nat} (sheet : Heap.CSpreadsheet) (h : Heap.Store D)
    (mu : Heap.Mutation D) (ho : Heap.Owns others h sheet.pointers) :
    Heap.Owns others (sheet.apply h mu).2 (sheet.apply h mu).1.pointers ∧
    Heap.Keeps others h (sheet.apply h mu).2 := by
  cases mu with
  | setCell pos run => exact owns_setCell sheet h pos run ho
  | copyRect dst src w h1 =>
    cases hc : sheet.copyRect h dst src w h1 with
    | ok r =>
      have e : sheet.apply h (Heap.Mutation.copyRect dst src w h1) = r := by
        simp only [Heap.CSpreadsheet.apply, hc]
      rw [e]
      exact owns_copyRect sheet h dst src w h1 ho r (Or.inl hc)
    | error r =>
      have e : sheet.apply h (Heap.Mutation.copyRect dst src w h1) = r := by
        simp only [Heap.CSpreadsheet.apply, hc]
      rw [e]
      exact owns_copyRect sheet h dst src w h1 ho r (Or.inr hc)

/-! ## Ownership: two sheets -/

theorem separate_symm {h : Heap.Store D} {a b : Heap.CSpreadsheet}
    (hs : Heap.Separate h a b) : Heap.Separate h b a :=
  ⟨hs.1, hs.2.2.1, hs.2.1, fun x hx hxa => hs.2.2.2 x hxa hx⟩

theorem owns_of_separate {h : Heap.Store D} {a b : Heap.CSpreadsheet}
    (hs : Heap.Separate h a b) : Heap.Owns b.pointers h a.pointers :=
  ⟨hs.2.1.1, fun x hx => ⟨hs.2.1.2 x hx, hs.2.2.2 x hx⟩, fun x hx => (hs.2.2.1.2 x hx).1, hs.1⟩

theorem mem_mapPointers {m : Heap.CellMap} {e : CPos × List Nat} {a : Nat} (he : e ∈ m)
    (ha : a ∈ e.2) : a ∈ Heap.mapPointers m := by
  unfold Heap.mapPointers
  rw [List.mem_flatten]
  exact ⟨e.2, List.mem_map_of_mem _ he, ha⟩

theorem view_congr (sheet : Heap.CSpreadsheet) (h h1 : Heap.Store D)
    (hr : ∀ a ∈ sheet.pointers, h1.read a = h.read a) : sheet.view h1 = sheet.view h := by
  unfold Heap.CSpreadsheet.view
  congr 1
  · apply List.map_congr_left
    intro e he
    congr 1
    apply List.map_congr_left
    intro a ha
    exact hr a (List.mem_append_left _ (mem_mapPointers he ha))
  · apply List.map_congr_left
    intro a ha
    exact hr a (List.mem_append_right _ ha)

theorem view_of_keeps {others : List Nat} {h h1 : Heap.Store D} (sheet : Heap.CSpreadsheet)
    (hk : Heap.Keeps others h h1) (hv : sheet.Valid h) : sheet.view h1 = sheet.view h :=
  view_congr sheet h h1 (fun a ha => hk.2.1 a (hv.2 a ha).1)

theorem valid_of_keeps {h h1 : Heap.Store D} (sheet : Heap.CSpreadsheet)
    (hk : Heap.Keeps sheet.pointers h h1) (hv : sheet.Valid h) : sheet.Valid h1 :=
  ⟨hv.1, fun a ha => ⟨Nat.lt_of_lt_of_le (hv.2 a ha).1 hk.1, hk.2.2 a ha (hv.2 a ha).2⟩⟩

theorem separate_of_owns {h h1 : Heap.Store D} {a1 b : Heap.CSpreadsheet}
    (hv : b.Valid h) (ho : Heap.Owns b.pointers h1 a1.pointers)
    (hk : Heap.Keeps b.pointers h h1) : Heap.Separate h1 a1 b :=
  ⟨ho.2.2.2, ⟨ho.1, fun x hx => (ho.2.1 x hx).1⟩, valid_of_keeps b hk hv,
    fun x hx => (ho.2.1 x hx).2⟩

theorem separate_apply {h : Heap.Store D} {a b : Heap.CSpreadsheet} (mu : Heap.Mutation D)
    (hs : Heap.Separate h a b) :
    Heap.Separate (a.apply h mu).2 (a.apply h mu).1 b ∧
    b.view (a.apply h mu).2 = b.view h := by
  obtain ⟨h1, k1⟩ := owns_apply a h mu (owns_of_separate hs)
  exact ⟨separate_of_owns hs.2.2.1 h1 k1, view_of_keeps b k1 hs.2.2.1⟩

theorem separate_call {t : Heap.TwoSheets D} (c : Bool × Heap.Mutation D)
    (hs : Heap.Separate t.store t.sheet1 t.sheet2) :
    Heap.Separate (t.call c).store (t.call c).sheet1 (t.call c).sheet2 := by
  unfold Heap.TwoSheets.call
  split
  · exact (separate_apply c.2 hs).1
  · exact separate_symm (separate_apply c.2 (separate_symm hs)).1

theorem separate_calls (cs : List (Bool × Heap.Mutation D)) :
    ∀ t : Heap.TwoSheets D, Heap.Separate t.store t.sheet1 t.sheet2 →
      Heap.Separate (t.calls cs).store (t.calls cs).sheet1 (t.calls cs).sheet2 := by
  induction cs with
  | nil => intro t hs; exact hs
  | cons c cs ih => intro t hs; exact ih (t.call c) (separate_call c hs)

/-! ## Ownership: the copy constructor and `operator=` -/

theorem owns_copyCells {others : List Nat} (x : List Nat) (src : Heap.CellMap) :
    ∀ (m : Heap.CellMap) (h : Heap.Store D),
      Heap.Owns others h (Heap.mapPointers m ++ x) →
      Heap.Owns others (Heap.copyCells src m h).2
        (Heap.mapPointers (Heap.copyCells src m h).1 ++ x) ∧
      Heap.Keeps others h (Heap.copyCells src m h).2 := by
  induction src with
  | nil => intro m h ho; exact ⟨ho, keeps_refl _ _⟩
  | cons e src ih =>
    intro m h ho
    obtain ⟨h1, k1⟩ := owns_copyExpressions e.2 _ _ ho
    obtain ⟨h2, k2⟩ := owns_assign m e.1 _ _ h1
    obtain ⟨h3, k3⟩ := ih _ _ h2
    exact ⟨h3, keeps_trans k1 (keeps_trans k2 k3)⟩

theorem separate_copy {h : Heap.Store D} {src : Heap.CSpreadsheet} (hs : h.Sound)
    (hv : src.Valid h) :
    Heap.Separate (src.copy h).2 src (src.copy h).1 ∧
    Heap.Keeps src.pointers h (src.copy h).2 := by
  have ho : Heap.Owns src.pointers h (Heap.mapPointers [] ++ []) :=
    ⟨List.nodup_nil, fun a ha => by simp [Heap.mapPointers] at ha,
      fun b hb => (hv.2 b hb).1, hs⟩
  obtain ⟨h1, k1⟩ := owns_copyCells [] src.m_Excel [] h ho
  exact ⟨separate_symm (separate_of_owns hv h1 k1), k1⟩

theorem separate_assign {h : Heap.Store D} {sheet src : Heap.CSpreadsheet}
    (hs : Heap.Separate h sheet src) :
    Heap.Separate (sheet.assign src h).2 src (sheet.assign src h).1 ∧
    Heap.Keeps src.pointers h (sheet.assign src h).2 := by
  obtain ⟨h1, k1⟩ := owns_deleteAll (owns_of_separate hs)
  have h1' : Heap.Owns src.pointers (h.deleteAll (Heap.mapPointers sheet.m_Excel))
      (Heap.mapPointers [] ++ sheet.m_ExprBuilder) := h1
  obtain ⟨h2, k2⟩ := owns_copyCells sheet.m_ExprBuilder src.m_Excel [] _ h1'
  exact ⟨separate_symm (separate_of_owns hs.2.2.1 h2 (keeps_trans k1 k2)),
    keeps_trans k1 k2⟩

/-! ## The copy read through its pointers -/

theorem copyExpressions_reads (v : List Nat) :
    ∀ h : Heap.Store D, h.objs.length ≤ (Heap.copyExpressions h v).2.objs.length ∧
      (∀ a, a < h.objs.length → (Heap.copyExpressions h v).2.read a = h.read a) ∧
      ∀ a ∈ (Heap.copyExpressions h v).1, a < (Heap.copyExpressions h v).2.objs.length := by
  induction v with
  | nil => intro h; exact ⟨Nat.le_refl _, fun _ _ => rfl, fun a ha => by simp [Heap.copyExpressions] at ha⟩
  | cons x v ih =>
    intro h
    have k := keeps_alloc [] h (CExpr.clone (h.read x))
    obtain ⟨l2, r2, n2⟩ := ih (Heap.clone h x).2
    have hnew : (Heap.clone h x).1 < (Heap.clone h x).2.objs.length := by
      simp [Heap.clone, Heap.Store.alloc]
    refine ⟨Nat.le_trans k.1 l2,
      fun a ha => (r2 a (Nat.lt_of_lt_of_le ha k.1)).trans (k.2.1 a ha), ?_⟩
    intro a ha
    simp only [Heap.copyExpressions, List.mem_cons] at ha ⊢
    rcases ha with rfl | ha
    · exact Nat.lt_of_lt_of_le hnew l2
    · exact n2 a ha

theorem copyExpressions_view (v : List Nat) :
    ∀ h : Heap.Store D, (∀ a ∈ v, a < h.objs.length) →
      (Heap.copyExpressions h v).1.map (Heap.copyExpressions h v).2.read
        = copyExpressions (v.map h.read) := by
  induction v with
  | nil => intro h _; rfl
  | cons x v ih =>
    intro h hv
    have k := keeps_alloc [] h (CExpr.clone (h.read x))
    have hx : x < h.objs.length := hv x (List.mem_cons_self _ _)
    have hnew : (Heap.clone h x).1 < (Heap.clone h x).2.objs.length := by
      simp [Heap.clone, Heap.Store.alloc]
    have e1 : (Heap.copyExpressions (Heap.clone h x).2 v).2.read (Heap.clone h x).1
        = CExpr.clone (h.read x) :=
      ((copyExpressions_reads v _).2.1 _ hnew).trans (read_alloc_new h _)
    have e2 := ih (Heap.clone h x).2
      (fun a ha => Nat.lt_of_lt_of_le (hv a (List.mem_cons_of_mem _ ha)) k.1)
    have e3 : v.map (Heap.clone h x).2.read = v.map h.read :=
      List.map_congr_left (fun a ha => k.2.1 a (hv a (List.mem_cons_of_mem _ ha)))
    simp only [Heap.copyExpressions, List.map_cons, copyExpressions]
    rw [e1]
    congr 1
    rw [e2, e3]
    rfl

theorem view_mapAssign (h : Heap.Store D) (m : Heap.CellMap) (key : CPos) (value : List Nat) :
    (Heap.mapAssign m key value).map (fun e => (e.1, e.2.map h.read))
      = mapAssign (m.map (fun e => (e.1, e.2.map h.read))) key (value.map h.read) := by
  induction m with
  | nil => rfl
  | cons e m ih =>
    obtain ⟨k, v⟩ := e
    simp only [Heap.mapAssign, List.map_cons, mapAssign]
    by_cases hlt : CPos.lt k key = true
    · rw [if_pos hlt, if_pos hlt, List.map_cons, ih]
    · rw [if_neg hlt, if_neg hlt]
      by_cases hgt : CPos.lt key k = true
      · rw [if_pos hgt, if_pos hgt]; rfl
      · rw [if_neg hgt, if_neg hgt]; rfl

theorem mapPointers_mapAssign_sub (m : Heap.CellMap) (key : CPos) (value : List Nat) (a : Nat)
    (ha : a ∈ Heap.mapPointers (Heap.mapAssign m key value)) :
    a ∈ value ∨ a ∈ Heap.mapPointers m := by
  obtain ⟨rest, h1, h2⟩ := heap_mapAssign_perm m key value
  rcases List.mem_append.mp (h2.mem_iff.mp ha) with hv | hr
  · exact Or.inl hv
  · exact Or.inr (h1.mem_iff.mpr (List.mem_append_right _ hr))

theorem viewMap_congr (m : Heap.CellMap) (h h1 : Heap.Store D)
    (hr : ∀ a ∈ Heap.mapPointers m, h1.read a = h.read a) :
    m.map (fun e => (e.1, e.2.map h1.read)) = m.map (fun e => (e.1, e.2.map h.read)) := by
  apply List.map_congr_left
  intro e he
  congr 1
  apply List.map_congr_left
  intro a ha
  exact hr a (mem_mapPointers he ha)

theorem copyCells_view (src : Heap.CellMap) :
    ∀ (m : Heap.CellMap) (h : Heap.Store D),
      (∀ a ∈ Heap.mapPointers src, a < h.objs.length) →
      (∀ a ∈ Heap.mapPointers m, a < h.objs.length) →
      (Heap.copyCells src m h).1.map (fun e => (e.1, e.2.map (Heap.copyCells src m h).2.read))
        = copyCells (src.map (fun e => (e.1, e.2.map h.read)))
            (m.map (fun e => (e.1, e.2.map h.read))) := by
  induction src with
  | nil => intro m h _ _; rfl
  | cons e src ih =>
    intro m h hsrc hm
    obtain ⟨k, v⟩ := e
    rw [mapPointers_cons] at hsrc
    have hv : ∀ a ∈ v, a < h.objs.length := fun a ha => hsrc a (List.mem_append_left _ ha)
    obtain ⟨l1, r1, n1⟩ := copyExpressions_reads v h
    have hstep : Heap.copyCells ((k, v) :: src) m h
        = Heap.copyCells src
            (Heap.assign (Heap.copyExpressions h v).2 m k (Heap.copyExpressions h v).1).1
            (Heap.assign (Heap.copyExpressions h v).2 m k (Heap.copyExpressions h v).1).2 := rfl
    have hread : ∀ a,
        (Heap.assign (Heap.copyExpressions h v).2 m k (Heap.copyExpressions h v).1).2.read a
          = (Heap.copyExpressions h v).2.read a := fun _ => rfl
    have hobjs : (Heap.assign (Heap.copyExpressions h v).2 m k
        (Heap.copyExpressions h v).1).2.objs.length
          = (Heap.copyExpressions h v).2.objs.length := rfl
    have e := ih (Heap.assign (Heap.copyExpressions h v).2 m k (Heap.copyExpressions h v).1).1
      (Heap.assign (Heap.copyExpressions h v).2 m k (Heap.copyExpressions h v).1).2
      (fun a ha => by
        rw [hobjs]
        exact Nat.lt_of_lt_of_le (hsrc a (List.mem_append_right _ ha)) l1)
      (fun a ha => by
        rw [hobjs]
        rcases mapPointers_mapAssign_sub m k _ a ha with h1 | h1
        · exact n1 a h1
        · exact Nat.lt_of_lt_of_le (hm a h1) l1)
    rw [hstep, e]
    have e1 : src.map (fun e => (e.1, e.2.map
        (Heap.assign (Heap.copyExpressions h v).2 m k (Heap.copyExpressions h v).1).2.read))
        = src.map (fun e => (e.1, e.2.map h.read)) :=
      viewMap_congr src h _ (fun a ha =>
        (hread a).trans (r1 a (hsrc a (List.mem_append_right _ ha))))
    have e2 : m.map (fun e => (e.1, e.2.map
        (Heap.assign (Heap.copyExpressions h v).2 m k (Heap.copyExpressions h v).1).2.read))
        = m.map (fun e => (e.1, e.2.map h.read)) :=
      viewMap_congr m h _ (fun a ha => (hread a).trans (r1 a (hm a ha)))
    have e3 : (Heap.copyExpressions h v).1.map
        (Heap.assign (Heap.copyExpressions h v).2 m k (Heap.copyExpressions h v).1).2.read
        = copyExpressions (v.map h.read) := copyExpressions_view v h hv
    rw [e1]
    show copyCells _ ((Heap.mapAssign m k (Heap.copyExpressions h v).1).map _) = _
    rw [view_mapAssign, e2, e3]
    rfl

/-! ## The copy of a sheet holds the cells of the sheet -/

theorem mapAssign_append (pre : CellMap D) (k : CPos) (v : Expressions D)
    (hpre : ∀ e ∈ pre, CPos.lt e.1 k = true) : mapAssign pre k v = pre ++ [(k, v)] := by
  induction pre with
  | nil => rfl
  | cons e pre ih =>
    obtain ⟨k0, v0⟩ := e
    rw [mapAssign, if_pos (hpre (k0, v0) (List.mem_cons_self _ _)),
      ih (fun e he => hpre e (List.mem_cons_of_mem _ he))]
    rfl

theorem copyCells_append (src : CellMap D) :
    ∀ pre : CellMap D, IsMap (pre ++ src) → copyCells src pre = pre ++ src := by
  induction src with
  | nil => intro pre _; simp [copyCells]
  | cons e src ih =>
    intro pre hm
    obtain ⟨k, v⟩ := e
    have hpre : ∀ e ∈ pre, CPos.lt e.1 k = true := by
      intro e he
      unfold IsMap at hm
      exact (List.pairwise_append.mp hm).2.2 e he (k, v) (List.mem_cons_self _ _)
    have hstep : copyCells ((k, v) :: src) pre
        = copyCells src (mapAssign pre k (copyExpressions v)) := rfl
    rw [hstep, copyExpressions_eq, mapAssign_append pre k v hpre, ih]
    · rw [List.append_assoc]; rfl
    · rw [List.append_assoc]; exact hm

theorem copyCells_of_isMap (src : CellMap D) (hm : IsMap src) : copyCells src [] = src :=
  copyCells_append src [] hm

theorem copy_view (src : Heap.CSpreadsheet) (h : Heap.Store D) (hv : src.Valid h) :
    (src.copy h).1.view (src.copy h).2 = (src.view h).copy := by
  have e := copyCells_view src.m_Excel [] h
    (fun a ha => (hv.2 a (List.mem_append_left _ ha)).1)
    (fun a ha => by simp [Heap.mapPointers] at ha)
  unfold Heap.CSpreadsheet.copy CSpreadsheet.copy Heap.CSpreadsheet.view
  dsimp only
  rw [e]
  rfl

theorem assign_view (sheet src : Heap.CSpreadsheet) (h : Heap.Store D) (hv : src.Valid h) :
    (sheet.assign src h).1.view (sheet.assign src h).2
      = (sheet.view (sheet.assign src h).2).assign (src.view h) := by
  have e := copyCells_view src.m_Excel [] (h.deleteAll (Heap.mapPointers sheet.m_Excel))
    (fun a ha => (hv.2 a (List.mem_append_left _ ha)).1)
    (fun a ha => by simp [Heap.mapPointers] at ha)
  unfold Heap.CSpreadsheet.assign CSpreadsheet.assign Heap.CSpreadsheet.view
  dsimp only
  rw [e]
  rfl

theorem later_calls_independent (t : Heap.TwoSheets D) (mu : Heap.Mutation D)
    (hs : Heap.Separate t.store t.sheet1 t.sheet2) :
    ((t.call (true, mu)).sheet2 = t.sheet2 ∧
      t.sheet2.view (t.call (true, mu)).store = t.sheet2.view t.store) ∧
    ((t.call (false, mu)).sheet1 = t.sheet1 ∧
      t.sheet1.view (t.call (false, mu)).store = t.sheet1.view t.store) :=
  ⟨⟨rfl, (separate_apply mu hs).2⟩, ⟨rfl, (separate_apply mu (separate_symm hs)).2⟩⟩

variable [DoubleOps D]

theorem getValue_same_cells (t1 t2 : CSpreadsheet D) (hm : t1.m_Excel = t2.m_Excel)
    (hc : t1.calledPositions = t2.calledPositions) (pos : CPos) :
    ∃ v ta tb, t1.getValue pos = some (v, ta) ∧ t2.getValue pos = some (v, tb) :=
  getValue_agree_value (fun _ => True) t1 t2 pos trivial
    ⟨fun _ _ _ _ => trivial, fun _ _ _ _ => trivial⟩
    (fun k _ => ⟨by rw [hm], by rw [hc]⟩)

end Ownership

/-! ## The methods on objects compute what the methods on values compute -/

section Refinement

variable {D : Type}

theorem mapView_mapAssign (h : Heap.Store D) (m : Heap.CellMap) (key : CPos)
    (value : List Nat) :
    Heap.mapView h (Heap.mapAssign m key value)
      = mapAssign (Heap.mapView h m) key (value.map h.read) :=
  view_mapAssign h m key value

theorem mapView_mapTouch (h : Heap.Store D) (m : Heap.CellMap) (key : CPos) :
    Heap.mapView h (Heap.mapTouch m key) = mapTouch (Heap.mapView h m) key := by
  unfold Heap.mapView
  induction m with
  | nil => rfl
  | cons e m ih =>
    obtain ⟨k, v⟩ := e
    simp only [Heap.mapTouch, List.map_cons, mapTouch]
    by_cases hlt : CPos.lt k key = true
    · rw [if_pos hlt, if_pos hlt, List.map_cons, ih]
    · rw [if_neg hlt, if_neg hlt]
      by_cases hgt : CPos.lt key k = true
      · rw [if_pos hgt, if_pos hgt]; rfl
      · rw [if_neg hgt, if_neg hgt]; rfl

theorem mapView_mapFind (h : Heap.Store D) (m : Heap.CellMap) (key : CPos) :
    (Heap.mapFind m key).map (fun v => v.map h.read) = mapFind (Heap.mapView h m) key := by
  unfold Heap.mapView
  induction m with
  | nil => rfl
  | cons e m ih =>
    obtain ⟨k, v⟩ := e
    simp only [Heap.mapFind, List.map_cons, mapFind]
    by_cases hlt : CPos.lt k key = true
    · rw [if_pos hlt, if_pos hlt, ih]
    · rw [if_neg hlt, if_neg hlt]
      by_cases hgt : CPos.lt key k = true
      · rw [if_pos hgt, if_pos hgt]; rfl
      · rw [if_neg hgt, if_neg hgt]; rfl

theorem mapView_mapGet (h : Heap.Store D) (m : Heap.CellMap) (key : CPos) :
    (Heap.mapGet m key).map h.read = mapGet (Heap.mapView h m) key := by
  unfold Heap.mapGet mapGet
  rw [← mapView_mapFind]
  cases Heap.mapFind m key <;> rfl

theorem mapGet_sub_mapPointers (m : Heap.CellMap) (key : CPos) (a : Nat)
    (ha : a ∈ Heap.mapGet m key) : a ∈ Heap.mapPointers m := by
  obtain ⟨rest, h1, _⟩ := heap_mapAssign_perm m key []
  exact h1.mem_iff.mpr (List.mem_append_left _ ha)

theorem mapView_congr (m : Heap.CellMap) (h h1 : Heap.Store D)
    (hr : ∀ a ∈ Heap.mapPointers m, h1.read a = h.read a) :
    Heap.mapView h1 m = Heap.mapView h m :=
  viewMap_congr m h h1 hr

theorem changePositions_reads (co ro : Int) (v : List Nat) :
    ∀ h : Heap.Store D, h.objs.length ≤ (Heap.changePositions h co ro v).2.objs.length ∧
      (∀ a, a < h.objs.length → (Heap.changePositions h co ro v).2.read a = h.read a) ∧
      ∀ a ∈ (Heap.changePositions h co ro v).1,
        a < (Heap.changePositions h co ro v).2.objs.length := by
  induction v with
  | nil =>
    intro h
    exact ⟨Nat.le_refl _, fun _ _ => rfl, fun a ha => by simp [Heap.changePositions] at ha⟩
  | cons x v ih =>
    intro h
    have k := keeps_alloc [] h (CExpr.clone (h.read x))
    have hw := store_write (Heap.clone h x).2 h.objs.length (Heap.clone h x).1
      (CExpr.changePosition ((Heap.clone h x).2.read (Heap.clone h x).1) co ro) (Nat.le_refl _)
    obtain ⟨l2, r2, n2⟩ := ih ((Heap.clone h x).2.write (Heap.clone h x).1
      (CExpr.changePosition ((Heap.clone h x).2.read (Heap.clone h x).1) co ro))
    have hnew : (Heap.clone h x).1 < (Heap.clone h x).2.objs.length := by
      simp [Heap.clone, Heap.Store.alloc]
    rw [hw.1] at l2
    refine ⟨Nat.le_trans k.1 l2, fun a ha => ?_, ?_⟩
    · have e1 := r2 a (by rw [hw.1]; exact Nat.lt_of_lt_of_le ha k.1)
      exact e1.trans ((hw.2.1 a ha).trans (k.2.1 a ha))
    · intro a ha
      simp only [Heap.changePositions, List.mem_cons] at ha ⊢
      rcases ha with rfl | ha
      · exact Nat.lt_of_lt_of_le hnew l2
      · exact n2 a ha

theorem changePositions_view (co ro : Int) (v : List Nat) :
    ∀ h : Heap.Store D, (∀ a ∈ v, a < h.objs.length) →
      (Heap.changePositions h co ro v).1.map (Heap.changePositions h co ro v).2.read
        = changePositions (v.map h.read) co ro := by
  induction v with
  | nil => intro h _; rfl
  | cons x v ih =>
    intro h hv
    have k := keeps_alloc [] h (CExpr.clone (h.read x))
    have hw := store_write (Heap.clone h x).2 h.objs.length (Heap.clone h x).1
      (CExpr.changePosition ((Heap.clone h x).2.read (Heap.clone h x).1) co ro) (Nat.le_refl _)
    have hnew : (Heap.clone h x).1 < (Heap.clone h x).2.objs.length := by
      simp [Heap.clone, Heap.Store.alloc]
    have hc : (Heap.clone h x).2.read (Heap.clone h x).1 = CExpr.clone (h.read x) :=
      read_alloc_new h _
    have e1 : (Heap.changePositions ((Heap.clone h x).2.write (Heap.clone h x).1
          (CExpr.changePosition ((Heap.clone h x).2.read (Heap.clone h x).1) co ro))
          co ro v).2.read (Heap.clone h x).1
        = CExpr.changePosition (CExpr.clone (h.read x)) co ro := by
      rw [(changePositions_reads co ro v _).2.1 _ (by rw [hw.1]; exact hnew),
        read_write_same _ _ _ hnew, hc]
    have e2 := ih ((Heap.clone h x).2.write (Heap.clone h x).1
        (CExpr.changePosition ((Heap.clone h x).2.read (Heap.clone h x).1) co ro))
      (fun a ha => by
        rw [hw.1]
        exact Nat.lt_of_lt_of_le (hv a (List.mem_cons_of_mem _ ha)) k.1)
    have e3 : v.map ((Heap.clone h x).2.write (Heap.clone h x).1
          (CExpr.changePosition ((Heap.clone h x).2.read (Heap.clone h x).1) co ro)).read
        = v.map h.read :=
      List.map_congr_left (fun a ha =>
        (hw.2.1 a (hv a (List.mem_cons_of_mem _ ha))).trans
          (k.2.1 a (hv a (List.mem_cons_of_mem _ ha))))
    simp only [Heap.changePositions, List.map_cons, changePositions]
    rw [e1]
    congr 1
    rw [e2, e3]
    rfl

theorem owns_lt {others : List Nat} {h : Heap.Store D} {p : List Nat}
    (ho : Heap.Owns others h p) (a : Nat) (ha : a ∈ p) : a < h.objs.length :=
  (ho.2.1 a ha).1.1

theorem copy_cell_view {h : Heap.Store D} (m new : Heap.CellMap) (src dst : CPos)
    (x : List Nat)
    (ho : Heap.Owns [] h (Heap.mapPointers m ++ (Heap.mapPointers new ++ x))) :
    Heap.mapView
        (Heap.assign (Heap.copyExpressions h (Heap.mapGet (Heap.mapTouch m src) src)).2 new dst
          (Heap.copyExpressions h (Heap.mapGet (Heap.mapTouch m src) src)).1).2
        (Heap.mapTouch m src)
      = mapTouch (Heap.mapView h m) src ∧
    Heap.mapView
        (Heap.assign (Heap.copyExpressions h (Heap.mapGet (Heap.mapTouch m src) src)).2 new dst
          (Heap.copyExpressions h (Heap.mapGet (Heap.mapTouch m src) src)).1).2
        (Heap.assign (Heap.copyExpressions h (Heap.mapGet (Heap.mapTouch m src) src)).2 new dst
          (Heap.copyExpressions h (Heap.mapGet (Heap.mapTouch m src) src)).1).1
      = mapAssign (Heap.mapView h new) dst
          (copyExpressions (mapGet (mapTouch (Heap.mapView h m) src) src)) := by
  have hm : ∀ a ∈ Heap.mapPointers m, a < h.objs.length :=
    fun a ha => owns_lt ho a (List.mem_append_left _ ha)
  have hn : ∀ a ∈ Heap.mapPointers new, a < h.objs.length :=
    fun a ha => owns_lt ho a (List.mem_append_right _ (List.mem_append_left _ ha))
  have hg : ∀ a ∈ Heap.mapGet (Heap.mapTouch m src) src, a < h.objs.length := by
    intro a ha
    have := mapGet_sub_mapPointers _ _ a ha
    rw [mapPointers_mapTouch] at this
    exact hm a this
  obtain ⟨_, r1, _⟩ := copyExpressions_reads (Heap.mapGet (Heap.mapTouch m src) src) h
  have hread : ∀ a, a < h.objs.length →
      (Heap.assign (Heap.copyExpressions h (Heap.mapGet (Heap.mapTouch m src) src)).2 new dst
        (Heap.copyExpressions h (Heap.mapGet (Heap.mapTouch m src) src)).1).2.read a
        = h.read a := fun a ha => r1 a ha
  refine ⟨?_, ?_⟩
  · rw [mapView_congr _ h _ (fun a ha => hread a (by
      rw [mapPointers_mapTouch] at ha; exact hm a ha)), mapView_mapTouch]
  · show Heap.mapView _ (Heap.mapAssign new dst _) = _
    rw [mapView_mapAssign, mapView_congr new h _ (fun a ha => hread a (hn a ha))]
    congr 1
    have e := copyExpressions_view (Heap.mapGet (Heap.mapTouch m src) src) h hg
    rw [mapView_mapGet, mapView_mapTouch] at e
    exact e

theorem write_cell_view {h : Heap.Store D} (m new : Heap.CellMap) (dst : CPos)
    (co ro : Int) (x : List Nat)
    (ho : Heap.Owns [] h (Heap.mapPointers m ++ (Heap.mapPointers new ++ x))) :
    Heap.mapView
        (Heap.assign (Heap.changePositions h co ro (Heap.mapGet (Heap.mapTouch new dst) dst)).2
          m dst (Heap.changePositions h co ro (Heap.mapGet (Heap.mapTouch new dst) dst)).1).2
        (Heap.mapTouch new dst)
      = mapTouch (Heap.mapView h new) dst ∧
    Heap.mapView
        (Heap.assign (Heap.changePositions h co ro (Heap.mapGet (Heap.mapTouch new dst) dst)).2
          m dst (Heap.changePositions h co ro (Heap.mapGet (Heap.mapTouch new dst) dst)).1).2
        (Heap.assign (Heap.changePositions h co ro (Heap.mapGet (Heap.mapTouch new dst) dst)).2
          m dst (Heap.changePositions h co ro (Heap.mapGet (Heap.mapTouch new dst) dst)).1).1
      = mapAssign (Heap.mapView h m) dst
          (changePositions (mapGet (mapTouch (Heap.mapView h new) dst) dst) co ro) := by
  have hm : ∀ a ∈ Heap.mapPointers m, a < h.objs.length :=
    fun a ha => owns_lt ho a (List.mem_append_left _ ha)
  have hn : ∀ a ∈ Heap.mapPointers new, a < h.objs.length :=
    fun a ha => owns_lt ho a (List.mem_append_right _ (List.mem_append_left _ ha))
  have hg : ∀ a ∈ Heap.mapGet (Heap.mapTouch new dst) dst, a < h.objs.length := by
    intro a ha
    have := mapGet_sub_mapPointers _ _ a ha
    rw [mapPointers_mapTouch] at this
    exact hn a this
  obtain ⟨_, r1, _⟩ := changePositions_reads co ro (Heap.mapGet (Heap.mapTouch new dst) dst) h
  have hread : ∀ a, a < h.objs.length →
      (Heap.assign (Heap.changePositions h co ro (Heap.mapGet (Heap.mapTouch new dst) dst)).2
        m dst (Heap.changePositions h co ro (Heap.mapGet (Heap.mapTouch new dst) dst)).1).2.read a
        = h.read a := fun a ha => r1 a ha
  refine ⟨?_, ?_⟩
  · rw [mapView_congr _ h _ (fun a ha => hread a (by
      rw [mapPointers_mapTouch] at ha; exact hn a ha)), mapView_mapTouch]
  · show Heap.mapView _ (Heap.mapAssign m dst _) = _
    rw [mapView_mapAssign, mapView_congr m h _ (fun a ha => hread a (hm a ha))]
    congr 1
    have e := changePositions_view co ro (Heap.mapGet (Heap.mapTouch new dst) dst) h hg
    rw [mapView_mapGet, mapView_mapTouch] at e
    exact e

theorem copyColumn_view (x : List Nat) (n : Nat) :
    ∀ st : Heap.CopyState D,
      Heap.Owns [] st.store
        (Heap.mapPointers st.m_Excel ++ (Heap.mapPointers st.newExcel ++ x)) →
      (match Heap.copyColumn n st with
        | .ok s => Except.ok s.view
        | .error s => Except.error (Heap.mapView s.store s.m_Excel))
        = copyColumn n st.view := by
  induction n with
  | zero => intro st _; rfl
  | succ n ih =>
    intro st ho
    obtain ⟨h1, _⟩ := owns_copy_cell st.m_Excel st.newExcel st.srcCopy st.dstCopy x ho
    obtain ⟨e1, e2⟩ := copy_cell_view st.m_Excel st.newExcel st.srcCopy st.dstCopy x ho
    rw [Heap.copyColumn, copyColumn]
    simp only [bind, Except.bind, orThrow, Heap.CopyState.view]
    cases hs : st.srcCopy.setRow (wrap32 (st.srcCopy.getRow + 1)) with
    | none =>
      simp only [orThrow]
      rw [e1]
    | some src1 =>
      cases hd : st.dstCopy.setRow (wrap32 (st.dstCopy.getRow + 1)) with
      | none =>
        simp only [orThrow]
        rw [e1]
      | some dst1 =>
        simp only [orThrow]
        have e := ih
          { srcCopy := src1, dstCopy := dst1
            m_Excel := Heap.mapTouch st.m_Excel st.srcCopy
            newExcel := (Heap.assign (Heap.copyExpressions st.store
              (Heap.mapGet (Heap.mapTouch st.m_Excel st.srcCopy) st.srcCopy)).2 st.newExcel
              st.dstCopy (Heap.copyExpressions st.store
              (Heap.mapGet (Heap.mapTouch st.m_Excel st.srcCopy) st.srcCopy)).1).1
            store := (Heap.assign (Heap.copyExpressions st.store
              (Heap.mapGet (Heap.mapTouch st.m_Excel st.srcCopy) st.srcCopy)).2 st.newExcel
              st.dstCopy (Heap.copyExpressions st.store
              (Heap.mapGet (Heap.mapTouch st.m_Excel st.srcCopy) st.srcCopy)).1).2 } h1
        simp only [Heap.CopyState.view] at e
        rw [e1, e2] at e
        exact e

theorem copyColumns_view (x : List Nat) (dst src : CPos) (h : Int) (n : Nat) :
    ∀ st : Heap.CopyState D,
      Heap.Owns [] st.store
        (Heap.mapPointers st.m_Excel ++ (Heap.mapPointers st.newExcel ++ x)) →
      (match Heap.copyColumns dst src h n st with
        | .ok s => Except.ok s.view
        | .error s => Except.error (Heap.mapView s.store s.m_Excel))
        = copyColumns dst src h n st.view := by
  induction n with
  | zero => intro st _; rfl
  | succ n ih =>
    intro st ho
    rw [Heap.copyColumns, copyColumns]
    simp only [bind, Except.bind, Heap.CopyState.view]
    cases hs : st.srcCopy.setRow src.getRow with
    | none => rfl
    | some src0 =>
      cases hd : st.dstCopy.setRow dst.getRow with
      | none => rfl
      | some dst0 =>
        simp only [orThrow]
        have ei := copyColumn_view x h.toNat
          { srcCopy := src0, dstCopy := dst0, m_Excel := st.m_Excel, newExcel := st.newExcel,
            store := st.store } ho
        simp only [Heap.CopyState.view] at ei
        rw [← ei]
        cases hc : Heap.copyColumn h.toNat
          { srcCopy := src0, dstCopy := dst0, m_Excel := st.m_Excel, newExcel := st.newExcel,
            store := st.store } with
        | error st1 => rfl
        | ok st1 =>
          obtain ⟨h1, _⟩ := owns_copyColumn x h.toNat _ st1 (by exact ho) (Or.inl hc)
          simp only []
          cases hs1 : st1.srcCopy.setCol (wrap32 (st1.srcCopy.getCol + 1)) with
          | none => rfl
          | some src1 =>
            cases hd1 : st1.dstCopy.setCol (wrap32 (st1.dstCopy.getCol + 1)) with
            | none => rfl
            | some dst1 =>
              simp only [orThrow]
              have e := ih
                { srcCopy := src1, dstCopy := dst1, m_Excel := st1.m_Excel,
                  newExcel := st1.newExcel, store := st1.store } h1
              simp only [Heap.CopyState.view] at e
              exact e

theorem writeColumn_view (x : List Nat) (co ro : Int) (n : Nat) :
    ∀ st : Heap.CopyState D,
      Heap.Owns [] st.store
        (Heap.mapPointers st.m_Excel ++ (Heap.mapPointers st.newExcel ++ x)) →
      (match Heap.writeColumn co ro n st with
        | .ok s => Except.ok s.writeView
        | .error s => Except.error (Heap.mapView s.store s.m_Excel))
        = writeColumn co ro n st.writeView := by
  induction n with
  | zero => intro st _; rfl
  | succ n ih =>
    intro st ho
    obtain ⟨h1, _⟩ := owns_write_cell st.m_Excel st.newExcel st.dstCopy co ro x ho
    obtain ⟨e1, e2⟩ := write_cell_view st.m_Excel st.newExcel st.dstCopy co ro x ho
    rw [Heap.writeColumn, writeColumn]
    simp only [bind, Except.bind, orThrow, Heap.CopyState.writeView]
    cases hd : st.dstCopy.setRow (wrap32 (st.dstCopy.getRow + 1)) with
    | none =>
      simp only [orThrow]
      rw [e2]
    | some dst1 =>
      simp only [orThrow]
      have e := ih
        { srcCopy := st.srcCopy, dstCopy := dst1
          m_Excel := (Heap.assign (Heap.changePositions st.store co ro
            (Heap.mapGet (Heap.mapTouch st.newExcel st.dstCopy) st.dstCopy)).2 st.m_Excel
            st.dstCopy (Heap.changePositions st.store co ro
            (Heap.mapGet (Heap.mapTouch st.newExcel st.dstCopy) st.dstCopy)).1).1
          newExcel := Heap.mapTouch st.newExcel st.dstCopy
          store := (Heap.assign (Heap.changePositions st.store co ro
            (Heap.mapGet (Heap.mapTouch st.newExcel st.dstCopy) st.dstCopy)).2 st.m_Excel
            st.dstCopy (Heap.changePositions st.store co ro
            (Heap.mapGet (Heap.mapTouch st.newExcel st.dstCopy) st.dstCopy)).1).2 } h1
      simp only [Heap.CopyState.writeView] at e
      rw [e1, e2] at e
      exact e

theorem writeColumns_view (x : List Nat) (dst : CPos) (h co ro : Int) (n : Nat) :
    ∀ st : Heap.CopyState D,
      Heap.Owns [] st.store
        (Heap.mapPointers st.m_Excel ++ (Heap.mapPointers st.newExcel ++ x)) →
      (match Heap.writeColumns dst h co ro n st with
        | .ok s => Except.ok s.writeView
        | .error s => Except.error (Heap.mapView s.store s.m_Excel))
        = writeColumns dst h co ro n st.writeView := by
  induction n with
  | zero => intro st _; rfl
  | succ n ih =>
    intro st ho
    rw [Heap.writeColumns, writeColumns]
    simp only [bind, Except.bind, Heap.CopyState.writeView]
    cases hd : st.dstCopy.setRow dst.getRow with
    | none => rfl
    | some dst0 =>
      simp only [orThrow]
      have ei := writeColumn_view x co ro h.toNat
        { srcCopy := st.srcCopy, dstCopy := dst0, m_Excel := st.m_Excel,
          newExcel := st.newExcel, store := st.store } ho
      simp only [Heap.CopyState.writeView] at ei
      rw [← ei]
      cases hc : Heap.writeColumn co ro h.toNat
        { srcCopy := st.srcCopy, dstCopy := dst0, m_Excel := st.m_Excel,
          newExcel := st.newExcel, store := st.store } with
      | error st1 => rfl
      | ok st1 =>
        obtain ⟨h1, _⟩ := owns_writeColumn x co ro h.toNat _ st1 (by exact ho) (Or.inl hc)
        simp only []
        cases hd1 : st1.dstCopy.setCol (wrap32 (st1.dstCopy.getCol + 1)) with
        | none => rfl
        | some dst1 =>
          simp only [orThrow]
          have e := ih
            { srcCopy := st1.srcCopy, dstCopy := dst1, m_Excel := st1.m_Excel,
              newExcel := st1.newExcel, store := st1.store } h1
          simp only [Heap.CopyState.writeView] at e
          exact e

theorem leave_view (st : Heap.CopyState D) (sheet : Heap.CSpreadsheet) (store : Heap.Store D)
    (hk : Heap.Keeps [] store st.store)
    (hb : ∀ a ∈ sheet.m_ExprBuilder, a < store.objs.length) :
    (st.leave sheet).1.view (st.leave sheet).2
      = { sheet.view store with m_Excel := Heap.mapView st.store st.m_Excel } := by
  unfold Heap.CopyState.leave Heap.CSpreadsheet.view
  simp only [CSpreadsheet.mk.injEq, and_true]
  exact ⟨rfl, List.map_congr_left (fun a ha => hk.2.1 a (hb a ha))⟩

theorem copyRect_view (sheet : Heap.CSpreadsheet) (store : Heap.Store D) (dst src : CPos)
    (w h : Int) (ho : Heap.Owns [] store sheet.pointers) :
    (match sheet.copyRect store dst src w h with
      | .ok r => Except.ok (r.1.view r.2)
      | .error r => Except.error (r.1.view r.2))
      = (sheet.view store).copyRect dst src w h := by
  have ho0 : Heap.Owns [] store
      (Heap.mapPointers sheet.m_Excel ++ (Heap.mapPointers [] ++ sheet.m_ExprBuilder)) := ho
  have hb : ∀ a ∈ sheet.m_ExprBuilder, a < store.objs.length :=
    fun a ha => owns_lt ho a (List.mem_append_right _ ha)
  have e1 := copyColumns_view sheet.m_ExprBuilder dst src h w.toNat
    { srcCopy := src, dstCopy := dst, m_Excel := sheet.m_Excel, newExcel := [],
      store := store } ho0
  unfold Heap.CSpreadsheet.copyRect CSpreadsheet.copyRect copyRectMap
  simp only [bind, Except.bind]
  have ev : (sheet.view store).m_Excel = Heap.mapView store sheet.m_Excel := rfl
  have ev0 : (Heap.CopyState.view
      { srcCopy := src, dstCopy := dst, m_Excel := sheet.m_Excel, newExcel := [],
        store := store } : CopyState D)
      = { srcCopy := src, dstCopy := dst, m_Excel := (sheet.view store).m_Excel,
          newExcel := [] } := rfl
  rw [ev0] at e1
  rw [← e1]
  cases hc : Heap.copyColumns dst src h w.toNat
    { srcCopy := src, dstCopy := dst, m_Excel := sheet.m_Excel, newExcel := [],
      store := store } with
  | error st =>
    obtain ⟨_, k1⟩ := owns_copyColumns sheet.m_ExprBuilder dst src h w.toNat _ st
      (by exact ho0) (Or.inr hc)
    simp only []
    rw [leave_view st sheet store k1 hb]
  | ok st1 =>
    obtain ⟨h1, k1⟩ := owns_copyColumns sheet.m_ExprBuilder dst src h w.toNat _ st1
      (by exact ho0) (Or.inl hc)
    simp only [Heap.CopyState.view]
    cases hs : st1.dstCopy.setCol dst.getCol with
    | none =>
      simp only [orThrow]
      rw [leave_view st1 sheet store k1 hb]
    | some dstCopy =>
      simp only [orThrow]
      have e2 := writeColumns_view sheet.m_ExprBuilder dst h
        (wrap32 (dst.getCol - src.getCol)) (wrap32 (dst.getRow - src.getRow)) w.toNat
        { srcCopy := st1.srcCopy, dstCopy := dstCopy, m_Excel := st1.m_Excel,
          newExcel := st1.newExcel, store := st1.store } h1
      simp only [Heap.CopyState.writeView] at e2
      rw [← e2]
      cases hc2 : Heap.writeColumns dst h (wrap32 (dst.getCol - src.getCol))
        (wrap32 (dst.getRow - src.getRow)) w.toNat
        { srcCopy := st1.srcCopy, dstCopy := dstCopy, m_Excel := st1.m_Excel,
          newExcel := st1.newExcel, store := st1.store } with
      | error st2 =>
        obtain ⟨_, k2⟩ := owns_writeColumns sheet.m_ExprBuilder dst h _ _ w.toNat _ st2
          (by exact h1) (Or.inr hc2)
        simp only []
        rw [leave_view st2 sheet store (keeps_trans k1 k2) hb]
      | ok st2 =>
        obtain ⟨_, k2⟩ := owns_writeColumns sheet.m_ExprBuilder dst h _ _ w.toNat _ st2
          (by exact h1) (Or.inl hc2)
        simp only [pure, Except.pure]
        rw [leave_view st2 sheet store (keeps_trans k1 k2) hb]

theorem runCalls_view (cs : List (BuilderCall D)) :
    ∀ (b : List Nat) (h : Heap.Store D), (∀ a ∈ b, a < h.objs.length) →
      (Heap.runCalls cs b h).2 = (runCalls cs (b.map h.read)).2 ∧
      (Heap.runCalls cs b h).1.1.map (Heap.runCalls cs b h).1.2.read
        = (runCalls cs (b.map h.read)).1 := by
  induction cs with
  | nil => intro b h _; exact ⟨rfl, rfl⟩
  | cons c cs ih =>
    intro b h hb
    simp only [Heap.runCalls, Heap.ExpressionBuilder.call, runCalls, call_eq]
    cases hc : BuilderCall.instruction c with
    | none => exact ⟨rfl, rfl⟩
    | some e =>
      have hlen : (h.alloc e).2.objs.length = h.objs.length + 1 := by
        simp [Heap.Store.alloc]
      have e1 : (b ++ [(h.alloc e).1]).map (h.alloc e).2.read = b.map h.read ++ [e] := by
        rw [List.map_append, List.map_singleton, read_alloc_new]
        congr 1
        exact List.map_congr_left (fun a ha => read_alloc_old h e a (hb a ha))
      have e2 := ih (b ++ [(h.alloc e).1]) (h.alloc e).2 (fun a ha => by
        rw [hlen]
        rcases List.mem_append.mp ha with ha | ha
        · exact Nat.lt_succ_of_lt (hb a ha)
        · rw [List.mem_singleton] at ha
          rw [ha]
          exact Nat.lt_succ_self _)
      rw [e1] at e2
      exact e2

theorem setCell_view (sheet : Heap.CSpreadsheet) (h : Heap.Store D) (pos : CPos)
    (run : ParserRun D) (ho : Heap.Owns [] h sheet.pointers) :
    (sheet.setCell h pos run).1 = ((sheet.view h).setCellRun pos run).1 ∧
    (sheet.setCell h pos run).2.1.view (sheet.setCell h pos run).2.2
      = ((sheet.view h).setCellRun pos run).2 := by
  have ho1 : Heap.Owns [] h (sheet.m_ExprBuilder ++ Heap.mapPointers sheet.m_Excel) :=
    owns_perm List.perm_append_comm ho
  obtain ⟨h1, k1⟩ := owns_deleteAll ho1
  obtain ⟨h2, k2⟩ := owns_parseExpression run [] _ _ h1
  have hm : ∀ a ∈ Heap.mapPointers sheet.m_Excel, a < h.objs.length :=
    fun a ha => owns_lt ho a (List.mem_append_left _ ha)
  obtain ⟨r1, r2⟩ := runCalls_view run.calls [] (h.deleteAll sheet.m_ExprBuilder)
    (fun a ha => by simp at ha)
  simp only [List.map_nil] at r1 r2
  have p1 : (Heap.parseExpression run [] (h.deleteAll sheet.m_ExprBuilder)).2
      = (parseExpression run ([] : Expressions D)).2 := by
    unfold Heap.parseExpression parseExpression
    dsimp only
    rw [r1]
    by_cases hf : (runCalls run.calls ([] : Expressions D)).2 = true
    · rw [if_pos hf, if_pos hf]; exact r1
    · rw [if_neg hf, if_neg hf]
  have p2 : (Heap.parseExpression run [] (h.deleteAll sheet.m_ExprBuilder)).1.1.map
      (Heap.parseExpression run [] (h.deleteAll sheet.m_ExprBuilder)).1.2.read
      = (parseExpression run ([] : Expressions D)).1 := by
    unfold Heap.parseExpression parseExpression
    dsimp only
    rw [r1]
    by_cases hf : (runCalls run.calls ([] : Expressions D)).2 = true
    · rw [if_pos hf, if_pos hf]; exact r2
    · rw [if_neg hf, if_neg hf]; exact r2
  have hk := keeps_trans k1 k2
  have em : Heap.mapView (Heap.parseExpression run [] (h.deleteAll sheet.m_ExprBuilder)).1.2
      sheet.m_Excel = Heap.mapView h sheet.m_Excel :=
    mapView_congr _ h _ (fun a ha => hk.2.1 a (hm a ha))
  unfold Heap.CSpreadsheet.setCell CSpreadsheet.setCellRun
  dsimp only
  rw [p1]
  by_cases hthrow : (parseExpression run ([] : Expressions D)).2 = true
  · rw [if_pos hthrow, if_pos hthrow]
    refine ⟨rfl, ?_⟩
    unfold Heap.CSpreadsheet.view
    simp only [CSpreadsheet.mk.injEq, and_true]
    exact ⟨em, p2⟩
  · rw [if_neg hthrow, if_neg hthrow]
    refine ⟨rfl, ?_⟩
    have hb : ∀ a ∈ (Heap.parseExpression run [] (h.deleteAll sheet.m_ExprBuilder)).1.1,
        a < (Heap.parseExpression run [] (h.deleteAll sheet.m_ExprBuilder)).1.2.objs.length :=
      fun a ha => owns_lt h2 a (List.mem_append_left _ ha)
    obtain ⟨_, c1, _⟩ := copyExpressions_reads
      (Heap.parseExpression run [] (h.deleteAll sheet.m_ExprBuilder)).1.1
      (Heap.parseExpression run [] (h.deleteAll sheet.m_ExprBuilder)).1.2
    have ec := copyExpressions_view
      (Heap.parseExpression run [] (h.deleteAll sheet.m_ExprBuilder)).1.1
      (Heap.parseExpression run [] (h.deleteAll sheet.m_ExprBuilder)).1.2 hb
    unfold Heap.CSpreadsheet.view
    simp only [CSpreadsheet.mk.injEq, and_true]
    refine ⟨?_, ?_⟩
    · show Heap.mapView _ (Heap.mapAssign sheet.m_Excel pos _) = _
      rw [mapView_mapAssign]
      congr 1
      · exact mapView_congr _ h _ (fun a ha =>
          (c1 a (Nat.lt_of_lt_of_le (hm a ha) hk.1)).trans (hk.2.1 a (hm a ha)))
      · exact ec.trans (by rw [p2])
    · exact (List.map_congr_left (fun a ha => c1 a (hb a ha))).trans p2

theorem apply_view (sheet : Heap.CSpreadsheet) (h : Heap.Store D) (mu : Heap.Mutation D)
    (ho : Heap.Owns [] h sheet.pointers) :
    (sheet.apply h mu).1.view (sheet.apply h mu).2 = mu.onValues (sheet.view h) := by
  cases mu with
  | setCell pos run => exact (setCell_view sheet h pos run ho).2
  | copyRect dst src w h1 =>
    have e := copyRect_view sheet h dst src w h1 ho
    unfold Heap.CSpreadsheet.apply Heap.Mutation.onValues
    dsimp only
    rw [← e]
    cases sheet.copyRect h dst src w h1 <;> rfl

theorem owns_nil_of_valid {h : Heap.Store D} {sheet : Heap.CSpreadsheet} (hs : h.Sound)
    (hv : sheet.Valid h) : Heap.Owns [] h sheet.pointers :=
  ⟨hv.1, fun a ha => ⟨hv.2 a ha, by simp⟩, fun b hb => by simp at hb, hs⟩

/-! ## Deep copy independence -/

variable [DoubleOps D]

/-- C30. Deep copy independence, with the expression objects on the free store. Sheet
`sheet1` is copied, by the copy constructor or by `operator=` on a sheet `sheet0` that owns
other objects (`made` is the copy with the store after it). Then `getValue` gives the same
value on both sheets at every position, and the cells of `sheet1` are what they were. After
any later calls of `setCell` and `copyRect`, each on one of the two sheets, the sheets still
own separate live objects, and one more call does on the sheet it is called on what the
method does on the values, and leaves the other sheet as it is: the same pointers to the
same objects, so `getValue` returns on it what it returned before the call, at every
position. -/
theorem deep_copy_independent (h : Heap.Store D) (sheet0 sheet1 : Heap.CSpreadsheet)
    (hsep : Heap.Separate h sheet0 sheet1) (hmap : IsMap (sheet1.view h).m_Excel)
    (hc1 : sheet1.calledPositions = []) (hc0 : sheet0.calledPositions = [])
    (made : Heap.CSpreadsheet × Heap.Store D)
    (hmade : made = sheet1.copy h ∨ made = sheet0.assign sheet1 h) :
    (∀ pos, ∃ v ta tb, (sheet1.view made.2).getValue pos = some (v, ta) ∧
      (made.1.view made.2).getValue pos = some (v, tb)) ∧
    sheet1.view made.2 = sheet1.view h ∧
    (∀ (cs : List (Bool × Heap.Mutation D)) (mu : Heap.Mutation D) (t : Heap.TwoSheets D),
      t = Heap.TwoSheets.calls ⟨sheet1, made.1, made.2⟩ cs →
      Heap.Separate t.store t.sheet1 t.sheet2 ∧
      ((t.call (true, mu)).sheet1.view (t.call (true, mu)).store
          = mu.onValues (t.sheet1.view t.store) ∧
        (t.call (true, mu)).sheet2 = t.sheet2 ∧
        ∀ pos, ((t.call (true, mu)).sheet2.view (t.call (true, mu)).store).getValue pos
          = (t.sheet2.view t.store).getValue pos) ∧
      ((t.call (false, mu)).sheet2.view (t.call (false, mu)).store
          = mu.onValues (t.sheet2.view t.store) ∧
        (t.call (false, mu)).sheet1 = t.sheet1 ∧
        ∀ pos, ((t.call (false, mu)).sheet1.view (t.call (false, mu)).store).getValue pos
          = (t.sheet1.view t.store).getValue pos)) := by
  have hv1 : sheet1.Valid h := hsep.2.2.1
  have key : Heap.Separate made.2 sheet1 made.1 ∧ Heap.Keeps sheet1.pointers h made.2 ∧
      (made.1.view made.2).m_Excel = (sheet1.view h).m_Excel ∧
      (made.1.view made.2).calledPositions = [] := by
    rcases hmade with rfl | rfl
    · obtain ⟨s1, k1⟩ := separate_copy hsep.1 hv1
      refine ⟨s1, k1, ?_, ?_⟩
      · rw [copy_view sheet1 h hv1]
        exact copyCells_of_isMap _ hmap
      · rfl
    · obtain ⟨s1, k1⟩ := separate_assign hsep
      refine ⟨s1, k1, ?_, ?_⟩
      · rw [assign_view sheet0 sheet1 h hv1]
        exact copyCells_of_isMap _ hmap
      · exact hc0
  obtain ⟨s1, k1, e1, e2⟩ := key
  have ev : sheet1.view made.2 = sheet1.view h := view_of_keeps sheet1 k1 hv1
  refine ⟨fun pos => ?_, ev, ?_⟩
  · rw [ev]
    exact getValue_same_cells _ _ e1.symm (by rw [e2]; exact hc1) pos
  · intro cs mu t ht
    have hs : Heap.Separate t.store t.sheet1 t.sheet2 := by
      rw [ht]
      exact separate_calls cs ⟨sheet1, made.1, made.2⟩ s1
    obtain ⟨⟨a1, a2⟩, ⟨b1, b2⟩⟩ := later_calls_independent t mu hs
    exact ⟨hs,
      ⟨apply_view t.sheet1 t.store mu (owns_nil_of_valid hs.1 hs.2.1), a1,
        fun pos => by rw [a1, a2]⟩,
      ⟨apply_view t.sheet2 t.store mu (owns_nil_of_valid hs.1 hs.2.2.1), b1,
        fun pos => by rw [b1, b2]⟩⟩

set_option maxRecDepth 100000 in
/-- Witness of C30: the sheet `A1 = 1`, `A2 = "x"`, `B1 = A1 + 1` is copied by the copy
constructor; a call on the original leaves the values of the copy: after
`setCell(A1, "2")` on the original, `A1` holds the number 2 in the original and the number
1 in the copy. -/
theorem deep_copy_independent_witness :
    Heap.formatSheet.view Heap.formatStore = formatSheet ∧
    Heap.Separate Heap.formatStore Heap.emptySheet Heap.formatSheet ∧
    IsMap (Heap.formatSheet.view Heap.formatStore).m_Excel ∧
    (∀ pos, ∃ v ta tb,
      (Heap.formatSheet.view (Heap.formatSheet.copy Heap.formatStore).2).getValue pos
        = some (v, ta) ∧
      ((Heap.formatSheet.copy Heap.formatStore).1.view
        (Heap.formatSheet.copy Heap.formatStore).2).getValue pos = some (v, tb)) ∧
    (∀ (mu : Heap.Mutation ℚ) (pos : CPos),
      ((Heap.TwoSheets.call ⟨Heap.formatSheet, (Heap.formatSheet.copy Heap.formatStore).1,
          (Heap.formatSheet.copy Heap.formatStore).2⟩ (true, mu)).sheet2.view
        (Heap.TwoSheets.call ⟨Heap.formatSheet, (Heap.formatSheet.copy Heap.formatStore).1,
          (Heap.formatSheet.copy Heap.formatStore).2⟩ (true, mu)).store).getValue pos
        = ((Heap.formatSheet.copy Heap.formatStore).1.view
            (Heap.formatSheet.copy Heap.formatStore).2).getValue pos) ∧
    mapGet ((Heap.TwoSheets.call ⟨Heap.formatSheet, (Heap.formatSheet.copy Heap.formatStore).1,
        (Heap.formatSheet.copy Heap.formatStore).2⟩
        (true, Heap.Mutation.setCell posA1 ⟨[BuilderCall.valNumber 2], false⟩)).sheet1.view
      (Heap.TwoSheets.call ⟨Heap.formatSheet, (Heap.formatSheet.copy Heap.formatStore).1,
        (Heap.formatSheet.copy Heap.formatStore).2⟩
        (true, Heap.Mutation.setCell posA1 ⟨[BuilderCall.valNumber 2], false⟩)).store).m_Excel
      posA1 = [CExpr.CNumber 2] ∧
    mapGet ((Heap.TwoSheets.call ⟨Heap.formatSheet, (Heap.formatSheet.copy Heap.formatStore).1,
        (Heap.formatSheet.copy Heap.formatStore).2⟩
        (true, Heap.Mutation.setCell posA1 ⟨[BuilderCall.valNumber 2], false⟩)).sheet2.view
      (Heap.TwoSheets.call ⟨Heap.formatSheet, (Heap.formatSheet.copy Heap.formatStore).1,
        (Heap.formatSheet.copy Heap.formatStore).2⟩
        (true, Heap.Mutation.setCell posA1 ⟨[BuilderCall.valNumber 2], false⟩)).store).m_Excel
      posA1 = [CExpr.CNumber 1] :=
  have hsep : Heap.Separate Heap.formatStore Heap.emptySheet Heap.formatSheet := by
    unfold Heap.Separate Heap.Store.Sound Heap.CSpreadsheet.Valid Heap.Store.Live
    decide
  have hmap : IsMap (Heap.formatSheet.view Heap.formatStore).m_Excel := by
    unfold IsMap
    decide
  have hall := deep_copy_independent Heap.formatStore Heap.emptySheet Heap.formatSheet hsep
    hmap rfl rfl (Heap.formatSheet.copy Heap.formatStore) (Or.inl rfl)
  ⟨rfl, hsep, hmap, hall.1, fun mu pos => (hall.2.2 [] mu _ rfl).2.1.2.2 pos, rfl, rfl⟩

end Refinement

/-! ## The evaluation stack -/

section Stack

variable {D : Type}

theorem checked_getTwoTopValues (rhs lhs : CValue D) (rest : ValueStack D) :
    Checked.getTwoTopValues (rhs :: lhs :: rest) = some ((lhs, rhs), rest) := rfl

theorem checked_binary_short (combine : CValue D → CValue D → Option (CValue D))
    (values : ValueStack D) (h : values.length < 2) :
    Checked.binary combine values = some (false, values) := by
  unfold Checked.binary
  rw [if_neg (by omega)]

theorem checked_binary_long (combine : CValue D → CValue D → Option (CValue D))
    (rhs lhs : CValue D) (rest : ValueStack D) :
    Checked.binary combine (rhs :: lhs :: rest)
      = match combine lhs rhs with
        | some v => some (true, v :: rest)
        | none => some (false, rest) := by
  unfold Checked.binary
  exact (if_pos (by simp)).trans rfl

theorem checked_arith (op : D → D → D) (values : ValueStack D) :
    Checked.binary (Checked.arithCombine op) values = some (arithGetValue op values) := by
  rcases values with _ | ⟨rhs, _ | ⟨lhs, rest⟩⟩
  · rfl
  · rfl
  · rw [checked_binary_long]
    cases lhs <;> cases rhs <;> rfl

variable [DoubleOps D]

theorem checked_add (values : ValueStack D) :
    Checked.binary Checked.addCombine values = some (addGetValue values) := by
  rcases values with _ | ⟨rhs, _ | ⟨lhs, rest⟩⟩
  · rfl
  · rfl
  · rw [checked_binary_long]
    cases lhs <;> cases rhs <;> rfl

theorem checked_div (values : ValueStack D) :
    Checked.binary Checked.divCombine values = some (divGetValue values) := by
  rcases values with _ | ⟨rhs, _ | ⟨lhs, rest⟩⟩
  · rfl
  · rfl
  · rw [checked_binary_long]
    cases lhs <;> cases rhs <;> try rfl
    rename_i left right
    simp only [Checked.divCombine, divGetValue]
    by_cases hz : DoubleOps.ne right (DoubleOps.zero : D) = true
    · rw [if_pos hz, if_pos hz]
    · rw [if_neg hz, if_neg hz]

theorem checked_compare (opD : D → D → Bool) (opS : List Char → List Char → Bool)
    (values : ValueStack D) :
    Checked.binary (Checked.compareCombine opD opS) values
      = some (compareGetValue opD opS values) := by
  rcases values with _ | ⟨rhs, _ | ⟨lhs, rest⟩⟩
  · rfl
  · rfl
  · rw [checked_binary_long]
    cases lhs <;> cases rhs <;> rfl

theorem checked_neg (values : ValueStack D) :
    Checked.negGetValue values = some (negGetValue values) := by
  rcases values with _ | ⟨operand, rest⟩
  · rfl
  · cases operand <;> rfl

theorem checked_getValue (gv : Evaluator D) (e : CExpr D) (sheet : CSpreadsheet D)
    (values : ValueStack D) :
    Checked.getValue gv e sheet values = some (CExpr.getValue gv e sheet values) := by
  cases e <;>
    simp only [Checked.getValue, CExpr.getValue, checked_add, checked_arith, checked_div,
      checked_compare, checked_neg, Option.map_some']

theorem binary_underflow (gv : Evaluator D) (e : CExpr D) (sheet : CSpreadsheet D)
    (values : ValueStack D) (he : e.isBinaryOperator = true) (h : values.length < 2) :
    CExpr.getValue gv e sheet values = some (false, sheet, values) := by
  rcases values with _ | ⟨rhs, _ | ⟨lhs, rest⟩⟩
  · cases e <;> first | rfl | simp [CExpr.isBinaryOperator] at he
  · cases e <;> first | rfl | simp [CExpr.isBinaryOperator] at he
  · simp only [List.length_cons] at h
    omega

/-- C36. Stack underflow fails cleanly. Every `top()` and `pop()` that the methods
`getValue` of the expression classes and the end of `CSpreadsheet::getValue` make finds a
value, on every stack: the methods with the accesses written out compute what the methods
of the model compute. A binary operator on fewer than two values and a negation on an empty
stack return `false` and leave the stack as it is, and a cell whose vector reaches such an
expression evaluates to the empty value. -/
theorem stack_underflow_fails_cleanly (gv : Evaluator D) (e : CExpr D)
    (sheet : CSpreadsheet D) (values : ValueStack D) :
    Checked.getValue gv e sheet values = some (CExpr.getValue gv e sheet values) ∧
    Checked.result values = some (topOrEmpty values) ∧
    (e.isBinaryOperator = true → values.length < 2 →
      CExpr.getValue gv e sheet values = some (false, sheet, values)) ∧
    CExpr.getValue gv CExpr.CNeg sheet [] = some (false, sheet, []) ∧
    (∀ (pos : CPos) (pre post : Expressions D) (s1 : CSpreadsheet D),
      setContains sheet.calledPositions pos = false →
      mapGet sheet.m_Excel pos = pre ++ e :: post →
      CSpreadsheet.evalLoop (fun t p => t.getValue p) pre (sheet.enter pos) []
        = some (true, s1, values) →
      ((e.isBinaryOperator = true ∧ values.length < 2) ∨ (e = CExpr.CNeg ∧ values = [])) →
      sheet.getValue pos = some (CValue.monostate, { s1 with calledPositions := [] })) := by
  refine ⟨checked_getValue gv e sheet values, ?_, binary_underflow gv e sheet values, rfl, ?_⟩
  · cases values <;> rfl
  · intro pos pre post s1 hc hprog hpre hcase
    have hfail : CExpr.getValue (fun t p => t.getValue p) e s1 values
        = some (false, s1, values) := by
      rcases hcase with ⟨he, hl⟩ | ⟨he, hv⟩
      · exact binary_underflow _ e s1 values he hl
      · rw [he, hv]; rfl
    exact getValue_of_failing_expression sheet pos pre post e s1 s1 values values hc hprog
      hpre hfail

/-- Witness of C36: the cell `A1` holds `1 +`; the addition finds one value, returns
`false`, and the cell evaluates to the empty value. -/
theorem stack_underflow_fails_cleanly_witness :
    CExpr.getValue (fun t p => t.getValue p) CExpr.CAdd (underflowSheet.enter posA1)
        [CValue.double 1]
      = some (false, underflowSheet.enter posA1, [CValue.double 1]) ∧
    underflowSheet.getValue posA1
      = some (CValue.monostate,
          { underflowSheet.enter posA1 with calledPositions := [] }) :=
  have h := stack_underflow_fails_cleanly (fun t p => t.getValue p) CExpr.CAdd underflowSheet
    [CValue.double (1 : ℚ)]
  ⟨(stack_underflow_fails_cleanly (fun t p => t.getValue p) CExpr.CAdd
      (underflowSheet.enter posA1) [CValue.double (1 : ℚ)]).2.2.1 rfl (by decide),
    h.2.2.2.2 posA1 [CExpr.CNumber 1] [] (underflowSheet.enter posA1) rfl rfl rfl
      (Or.inl ⟨rfl, by decide⟩)⟩

/-! ## The stack holds no empty value -/

theorem addGetValue_noEmpty (values : ValueStack D)
    (hne : ∀ v ∈ values, v ≠ CValue.monostate) :
    (∀ v ∈ (addGetValue values).2, v ≠ CValue.monostate) ∧
    ((addGetValue values).1 = true → (addGetValue values).2 ≠ []) ∧
    ((addGetValue values).1 = false → values.length < 2) := by
  rcases values with _ | ⟨rhs, _ | ⟨lhs, rest⟩⟩
  · simp [addGetValue]
  · simp only [addGetValue]
    exact ⟨hne, by simp, by simp⟩
  · have h1 := hne rhs (by simp)
    have h2 := hne lhs (by simp)
    have h3 : ∀ v ∈ rest, v ≠ CValue.monostate := fun v hv => hne v (by simp [hv])
    cases lhs <;> cases rhs <;> simp_all [addGetValue]

omit [DoubleOps D] in
theorem arithGetValue_noEmpty (op : D → D → D) (values : ValueStack D)
    (hne : ∀ v ∈ values, v ≠ CValue.monostate) :
    (∀ v ∈ (arithGetValue op values).2, v ≠ CValue.monostate) ∧
    ((arithGetValue op values).1 = true → (arithGetValue op values).2 ≠ []) := by
  rcases values with _ | ⟨rhs, _ | ⟨lhs, rest⟩⟩
  · simp [arithGetValue]
  · simp only [arithGetValue]
    exact ⟨hne, by simp⟩
  · have h3 : ∀ v ∈ rest, v ≠ CValue.monostate := fun v hv => hne v (by simp [hv])
    cases lhs <;> cases rhs <;> simp_all [arithGetValue]

theorem divGetValue_noEmpty (values : ValueStack D)
    (hne : ∀ v ∈ values, v ≠ CValue.monostate) :
    (∀ v ∈ (divGetValue values).2, v ≠ CValue.monostate) ∧
    ((divGetValue values).1 = true → (divGetValue values).2 ≠ []) := by
  rcases values with _ | ⟨rhs, _ | ⟨lhs, rest⟩⟩
  · simp [divGetValue]
  · simp only [divGetValue]
    exact ⟨hne, by simp⟩
  · have h3 : ∀ v ∈ rest, v ≠ CValue.monostate := fun v hv => hne v (by simp [hv])
    cases lhs <;> cases rhs <;> simp only [divGetValue]
    all_goals first
      | exact ⟨h3, by simp⟩
      | (split <;> simp_all)

theorem compareGetValue_noEmpty (opD : D → D → Bool) (opS : List Char → List Char → Bool)
    (values : ValueStack D) (hne : ∀ v ∈ values, v ≠ CValue.monostate) :
    (∀ v ∈ (compareGetValue opD opS values).2, v ≠ CValue.monostate) ∧
    ((compareGetValue opD opS values).1 = true → (compareGetValue opD opS values).2 ≠ []) := by
  rcases values with _ | ⟨rhs, _ | ⟨lhs, rest⟩⟩
  · simp [compareGetValue]
  · simp only [compareGetValue]
    exact ⟨hne, by simp⟩
  · have h3 : ∀ v ∈ rest, v ≠ CValue.monostate := fun v hv => hne v (by simp [hv])
    cases lhs <;> cases rhs <;> simp_all [compareGetValue]

theorem negGetValue_noEmpty (values : ValueStack D)
    (hne : ∀ v ∈ values, v ≠ CValue.monostate) :
    (∀ v ∈ (negGetValue values).2, v ≠ CValue.monostate) ∧
    ((negGetValue values).1 = true → (negGetValue values).2 ≠ []) := by
  rcases values with _ | ⟨operand, rest⟩
  · simp [negGetValue]
  · have h3 : ∀ v ∈ rest, v ≠ CValue.monostate := fun v hv => hne v (by simp [hv])
    cases operand <;> simp_all [negGetValue]

theorem getValue_noEmpty (gv : Evaluator D) (e : CExpr D) (s : CSpreadsheet D)
    (values : ValueStack D) (b : Bool) (s' : CSpreadsheet D) (values' : ValueStack D)
    (h : CExpr.getValue gv e s values = some (b, s', values'))
    (hne : ∀ v ∈ values, v ≠ CValue.monostate) :
    (∀ v ∈ values', v ≠ CValue.monostate) ∧ (b = true → values' ≠ []) := by
  have key : ∀ r : Bool × ValueStack D,
      ((∀ v ∈ r.2, v ≠ CValue.monostate) ∧ (r.1 = true → r.2 ≠ [])) →
      some (r.1, s, r.2) = some (b, s', values') →
      (∀ v ∈ values', v ≠ CValue.monostate) ∧ (b = true → values' ≠ []) := by
    intro r hr he
    simp only [Option.some.injEq, Prod.mk.injEq] at he
    obtain ⟨rfl, -, rfl⟩ := he
    exact hr
  cases e with
  | CAdd => exact key _ ⟨(addGetValue_noEmpty values hne).1, (addGetValue_noEmpty values hne).2.1⟩ h
  | CSub => exact key _ (arithGetValue_noEmpty _ values hne) h
  | CMul => exact key _ (arithGetValue_noEmpty _ values hne) h
  | CDiv => exact key _ (divGetValue_noEmpty values hne) h
  | CPow => exact key _ (arithGetValue_noEmpty _ values hne) h
  | CNeg => exact key _ (negGetValue_noEmpty values hne) h
  | CEq => exact key _ (compareGetValue_noEmpty _ _ values hne) h
  | CNe => exact key _ (compareGetValue_noEmpty _ _ values hne) h
  | CLt => exact key _ (compareGetValue_noEmpty _ _ values hne) h
  | CLe => exact key _ (compareGetValue_noEmpty _ _ values hne) h
  | CGt => exact key _ (compareGetValue_noEmpty _ _ values hne) h
  | CGe => exact key _ (compareGetValue_noEmpty _ _ values hne) h
  | CNumber n =>
    exact key (true, CValue.double n :: values) ⟨by simp; exact hne, by simp⟩ h
  | CString t =>
    exact key (true, CValue.string t :: values) ⟨by simp; exact hne, by simp⟩ h
  | CReference p =>
    rcases referenceGetValue_cases gv p s values b s' values' h with
      ⟨rfl, rfl, -⟩ | ⟨rfl, v, hv, rfl, -⟩
    · exact ⟨hne, by simp⟩
    · refine ⟨?_, by simp⟩
      intro w hw
      rcases List.mem_cons.mp hw with rfl | hw
      · exact hv
      · exact hne w hw

theorem evalLoop_noEmpty (gv : Evaluator D) (es : Expressions D) :
    ∀ (s : CSpreadsheet D) (values : ValueStack D) (b : Bool) (s' : CSpreadsheet D)
      (values' : ValueStack D),
      CSpreadsheet.evalLoop gv es s values = some (b, s', values') →
      (∀ v ∈ values, v ≠ CValue.monostate) →
      (∀ v ∈ values', v ≠ CValue.monostate) ∧
      (b = true → (es ≠ [] ∨ values ≠ []) → values' ≠ []) := by
  induction es with
  | nil =>
    intro s values b s' values' h hne
    simp only [CSpreadsheet.evalLoop, Option.some.injEq, Prod.mk.injEq] at h
    obtain ⟨rfl, -, rfl⟩ := h
    exact ⟨hne, fun _ h => h.elim (fun h => absurd rfl h) id⟩
  | cons e es ih =>
    intro s values b s' values' h hne
    rw [CSpreadsheet.evalLoop] at h
    cases hg : CExpr.getValue gv e s values with
    | none => rw [hg] at h; simp at h
    | some r =>
      obtain ⟨b1, s1, v1⟩ := r
      rw [hg] at h
      obtain ⟨n1, n2⟩ := getValue_noEmpty gv e s values b1 s1 v1 hg hne
      cases b1 with
      | false =>
        simp only [Option.some.injEq, Prod.mk.injEq] at h
        obtain ⟨rfl, -, rfl⟩ := h
        exact ⟨n1, fun hb => by simp at hb⟩
      | true =>
        simp only at h
        obtain ⟨m1, m2⟩ := ih s1 v1 b s' values' h n1
        exact ⟨m1, fun hb _ => m2 hb (Or.inr (n2 rfl))⟩

/-- C37. The evaluation stack never holds the empty value. After the loop of `getValue`
ran any expressions from the empty stack, on any sheet and however it ended, every value on
the stack is a number or a text. Hence an addition that finds two values on that stack
finds no empty operand and returns `true`: it returns `false` only on fewer than two
values. And when every expression of a vector that is not empty returned `true`, the stack
is not empty and its top is not the empty value, so the cell does not evaluate to the
empty value. -/
theorem stack_never_holds_empty (gv : Evaluator D) (es : Expressions D)
    (sheet : CSpreadsheet D) (b : Bool) (s' : CSpreadsheet D) (values' : ValueStack D)
    (h : CSpreadsheet.evalLoop gv es sheet [] = some (b, s', values')) :
    (∀ v ∈ values', v ≠ CValue.monostate) ∧
    (∀ rhs lhs rest, values' = rhs :: lhs :: rest →
      lhs ≠ CValue.monostate ∧ rhs ≠ CValue.monostate ∧ (addGetValue values').1 = true) ∧
    ((addGetValue values').1 = false → values'.length < 2) ∧
    (b = true → es ≠ [] → values' ≠ [] ∧ topOrEmpty values' ≠ CValue.monostate) ∧
    (∀ (t : CSpreadsheet D) (pos : CPos) (s1 : CSpreadsheet D) (vals : ValueStack D),
      setContains t.calledPositions pos = false → mapGet t.m_Excel pos ≠ [] →
      CSpreadsheet.evalLoop (fun u p => u.getValue p) (mapGet t.m_Excel pos)
        (t.enter pos) [] = some (true, s1, vals) →
      ∃ v s2, t.getValue pos = some (v, s2) ∧ v ≠ CValue.monostate) := by
  have top_ne : ∀ vals : ValueStack D, (∀ v ∈ vals, v ≠ CValue.monostate) → vals ≠ [] →
      topOrEmpty vals ≠ CValue.monostate := by
    intro vals hv hne
    cases vals with
    | nil => exact absurd rfl hne
    | cons v rest => exact hv v (List.mem_cons_self _ _)
  obtain ⟨n1, n2⟩ := evalLoop_noEmpty gv es sheet [] b s' values' h (by simp)
  obtain ⟨-, -, a3⟩ := addGetValue_noEmpty values' n1
  refine ⟨n1, ?_, a3, ?_, ?_⟩
  · intro rhs lhs rest hv
    refine ⟨n1 lhs (by simp [hv]), n1 rhs (by simp [hv]), ?_⟩
    cases hb : (addGetValue values').1 with
    | true => rfl
    | false =>
      have := a3 hb
      rw [hv] at this
      simp only [List.length_cons] at this
      omega
  · intro hb hes
    have hne := n2 hb (Or.inl hes)
    exact ⟨hne, top_ne values' n1 hne⟩
  · intro t pos s1 vals hc hprog hloop
    obtain ⟨m1, m2⟩ := evalLoop_noEmpty _ _ _ [] true s1 vals hloop (by simp)
    exact ⟨_, _, getValue_of_success t pos s1 vals hc hloop,
      top_ne vals m1 (m2 rfl (Or.inl hprog))⟩

/-- Witness of C37: after the numbers 1 and 2 were pushed the stack holds two numbers,
and an addition on it returns `true`. -/
theorem stack_never_holds_empty_witness :
    CSpreadsheet.evalLoop (fun u p => u.getValue p) [CExpr.CNumber 1, CExpr.CNumber 2]
        emptySheet []
      = some (true, emptySheet, [CValue.double 2, CValue.double 1]) ∧
    (∀ v ∈ [CValue.double (2 : ℚ), CValue.double 1], v ≠ CValue.monostate) ∧
    (addGetValue [CValue.double (2 : ℚ), CValue.double 1]).1 = true :=
  have h := stack_never_holds_empty (fun u p => u.getValue p)
    [CExpr.CNumber 1, CExpr.CNumber 2] emptySheet true emptySheet
    [CValue.double (2 : ℚ), CValue.double 1] rfl
  ⟨rfl, h.1, (h.2.1 _ _ _ rfl).2.2⟩

/-! ## Termination and the set of positions under evaluation -/

/-- C31. Method `getValue` terminates on every sheet, whatever its cells refer to and
whatever the set of positions under evaluation holds: it returns with a recursion depth of
at most the number of entries of the map plus one. A call on a position of the set returns
at once; any other call adds its position to the set, which lowers the number of cells
that are not empty and not in the set when the cell is not empty; and a nested call that
returns the empty value, as every call does that cleared the set, ends the loop of its
caller, so no call is made from a frame above a failure. -/
theorem getValue_terminates_with_cycles (sheet : CSpreadsheet D) (pos : CPos) :
    (∃ v s', sheet.getValue pos = some (v, s') ∧
      ∀ fuel, sheet.m_Excel.length + 1 ≤ fuel →
        CSpreadsheet.getValueFuel fuel sheet pos = some (v, s')) ∧
    (setContains sheet.calledPositions pos = true →
      sheet.getValue pos = some (CValue.monostate, sheet)) ∧
    (setContains sheet.calledPositions pos = false →
      setContains (sheet.enter pos).calledPositions pos = true ∧
      freeCells sheet ≤ sheet.m_Excel.length ∧
      (mapGet sheet.m_Excel pos ≠ [] → freeCells (sheet.enter pos) < freeCells sheet) ∧
      sheet.getValue pos
        = (CSpreadsheet.evalLoop (fun t p => t.getValue p) (mapGet sheet.m_Excel pos)
            (sheet.enter pos) []).map (CSpreadsheet.leave pos)) ∧
    (∀ (r : CPos) (rest : Expressions D) (s s1 : CSpreadsheet D) (values : ValueStack D),
      s.getValue r = some (CValue.monostate, s1) →
      CSpreadsheet.evalLoop (fun t p => t.getValue p) (CExpr.CReference r :: rest) s values
        = some (false, s1, values)) := by
  refine ⟨?_, ?_, ?_, ?_⟩
  · obtain ⟨v, s', h⟩ := getValue_terminates sheet pos
    exact ⟨v, s', h, fun fuel hf => by rw [getValueFuel_eq_getValue sheet pos fuel hf, h]⟩
  · intro hc
    rw [getValue_eq, if_pos hc]
  · intro hc
    refine ⟨?_, freeCells_le_length sheet, ?_, ?_⟩
    · show setContains (setInsert sheet.calledPositions pos) pos = true
      rw [setContains_setInsert, same_refl]
      rfl
    · intro hne
      exact freeCells_enter_lt sheet pos hc (by rw [(preserved_enter sheet pos).1 pos]; exact hne)
    · rw [getValue_eq, if_neg (by simp [hc]), (preserved_enter sheet pos).1 pos]
  · intro r rest s s1 values h
    simp only [CSpreadsheet.evalLoop, CExpr.getValue, referenceGetValue, h]

theorem getValue_restores_empty_set (sheet : CSpreadsheet D) (pos : CPos) (v : CValue D)
    (s1 : CSpreadsheet D) (hempty : sheet.calledPositions = [])
    (h : sheet.getValue pos = some (v, s1)) : s1.calledPositions = [] := by
  have hc : setContains sheet.calledPositions pos = false := by rw [hempty]; rfl
  rw [getValue_eq, if_neg (by simp [hc])] at h
  cases hl : CSpreadsheet.evalLoop (fun t p => t.getValue p)
      (mapGet (sheet.enter pos).m_Excel pos) (sheet.enter pos) [] with
  | none => rw [hl] at h; simp at h
  | some r =>
    obtain ⟨b, s', vals⟩ := r
    rw [hl] at h
    cases b with
    | false =>
      simp only [Option.map_some', CSpreadsheet.leave, Option.some.injEq, Prod.mk.injEq] at h
      rw [← h.2]
    | true =>
      have hp := (evalLoop_preserved _ getValue_good _ _ _ _ _ _ hl).2 rfl
      simp only [Option.map_some', CSpreadsheet.leave, Option.some.injEq, Prod.mk.injEq] at h
      rw [← h.2]
      show setErase s'.calledPositions pos = []
      rw [hp]
      show setErase (setInsert sheet.calledPositions pos) pos = []
      rw [setErase_setInsert _ _ hc, hempty]

/-- C32. Invariant of the set of positions under evaluation. When the set is empty at
the start of a call of `getValue` from outside, the call returns, the set is empty when
it returns, however the evaluation went, and every position holds the vector it held;
hence a second call of `getValue` on the same position returns the same value, and leaves
the set empty again. -/
theorem cycle_guard_empty_after_call (sheet : CSpreadsheet D) (pos : CPos)
    (hempty : sheet.calledPositions = []) :
    ∃ v s1, sheet.getValue pos = some (v, s1) ∧ s1.calledPositions = [] ∧
      (∀ k, mapGet s1.m_Excel k = mapGet sheet.m_Excel k) ∧
      ∃ s2, s1.getValue pos = some (v, s2) ∧ s2.calledPositions = [] := by
  obtain ⟨v, s1, h1⟩ := getValue_terminates sheet pos
  have e1 := getValue_restores_empty_set sheet pos v s1 hempty h1
  have hp := (getValue_good sheet pos v s1 h1).1
  refine ⟨v, s1, h1, e1, hp.1, ?_⟩
  obtain ⟨w, t1, t2, g1, g2⟩ := getValue_agree_value (fun _ => True) sheet s1 pos trivial
    ⟨fun _ _ _ _ => trivial, fun _ _ _ _ => trivial⟩
    (fun k _ => ⟨(hp.1 k).symm, by rw [hempty, e1]⟩)
  rw [h1] at g1
  simp only [Option.some.injEq, Prod.mk.injEq] at g1
  rw [← g1.1] at g2
  exact ⟨t2, g2, getValue_restores_empty_set s1 pos v t2 e1 g2⟩

/-- Witness of C32: the sheet of the reference cycle, whose cells take the failure path
and the cycle path. -/
theorem cycle_guard_empty_after_call_witness :
    cycleSheet.calledPositions = [] ∧
    ∃ v s1, cycleSheet.getValue posC1 = some (v, s1) ∧ s1.calledPositions = [] ∧
      (∀ k, mapGet s1.m_Excel k = mapGet cycleSheet.m_Excel k) ∧
      ∃ s2, s1.getValue posC1 = some (v, s2) ∧ s2.calledPositions = [] :=
  ⟨rfl, cycle_guard_empty_after_call cycleSheet posC1 rfl⟩

end Stack

/-! ## Parsing undoes rendering -/

theorem upperLetter (r : Nat) (hr : r < 26) :
    (Char.ofNat (65 + r)).isAlpha = true ∧ (Char.ofNat (65 + r)).toUpper = Char.ofNat (65 + r) ∧
    (Char.ofNat (65 + r)).toNat = 65 + r := by
  have hn : (Char.ofNat (65 + r)).toNat = 65 + r := toNat_ofNat_small _ (by omega)
  refine ⟨?_, ?_, hn⟩
  · rw [isAlpha_iff, hn]; omega
  · have h := toUpper_toNat (Char.ofNat (65 + r))
    rw [hn, if_neg (by omega)] at h
    rw [← Char.ofNat_toNat (Char.ofNat (65 + r)).toUpper, h]

theorem exists_letters (n : Nat) (hn : 1 ≤ n) :
    ∃ cs : List Char, cs ≠ [] ∧ (∀ c ∈ cs, c.isAlpha = true) ∧ cs.map Char.toUpper = cs ∧
      cs.foldl colStep 0 = n := by
  induction n using Nat.strong_induction_on with
  | _ n ih =>
    obtain ⟨ha, hu, ht⟩ := upperLetter ((n - 1) % 26) (Nat.mod_lt _ (by decide))
    have hstep : ∀ acc, colStep acc (Char.ofNat (65 + (n - 1) % 26))
        = acc * 26 + ((n - 1) % 26 + 1) := by
      intro acc
      unfold colStep
      rw [hu, ht]
      have : 'A'.toNat = 65 := rfl
      rw [this]
      omega
    by_cases hq : (n - 1) / 26 = 0
    · refine ⟨[Char.ofNat (65 + (n - 1) % 26)], by simp, ?_, ?_, ?_⟩
      · intro c hc
        rw [List.mem_singleton] at hc
        rw [hc]; exact ha
      · simp [hu]
      · simp only [List.foldl_cons, List.foldl_nil, hstep]
        omega
    · obtain ⟨cs, h1, h2, h3, h4⟩ := ih ((n - 1) / 26) (by omega) (by omega)
      refine ⟨cs ++ [Char.ofNat (65 + (n - 1) % 26)], by simp, ?_, ?_, ?_⟩
      · intro c hc
        rcases List.mem_append.mp hc with hc | hc
        · exact h2 c hc
        · rw [List.mem_singleton] at hc
          rw [hc]; exact ha
      · simp [h3, hu]
      · simp only [List.foldl_append, List.foldl_cons, List.foldl_nil, h4, hstep]
        omega

theorem digitChar_isDigit (d : Nat) (hd : d < 10) :
    (Nat.digitChar d).isDigit = true ∧ (Nat.digitChar d).toNat = 48 + d := by
  interval_cases d <;> exact ⟨by decide, by decide⟩

theorem exists_digits (n : Nat) :
    ∃ ds : List Char, ds ≠ [] ∧ (∀ c ∈ ds, c.isDigit = true) ∧
      (ds.head? ≠ some '0' ∨ ds = ['0']) ∧ ds.foldl rowStep 0 = n := by
  induction n using Nat.strong_induction_on with
  | _ n ih =>
    obtain ⟨hd, ht⟩ := digitChar_isDigit (n % 10) (Nat.mod_lt _ (by decide))
    have hstep : ∀ acc, rowStep acc (Nat.digitChar (n % 10)) = acc * 10 + n % 10 := by
      intro acc
      unfold rowStep
      rw [ht]
      have : '0'.toNat = 48 := rfl
      rw [this]
      omega
    by_cases hq : n / 10 = 0
    · refine ⟨[Nat.digitChar (n % 10)], by simp, ?_, ?_, ?_⟩
      · intro c hc
        rw [List.mem_singleton] at hc
        rw [hc]; exact hd
      · by_cases hz : Nat.digitChar (n % 10) = '0'
        · right; rw [hz]
        · left; simpa using hz
      · simp only [List.foldl_cons, List.foldl_nil, hstep]
        omega
    · obtain ⟨ds, h1, h2, h3, h4⟩ := ih (n / 10) (by omega)
      refine ⟨ds ++ [Nat.digitChar (n % 10)], by simp, ?_, ?_, ?_⟩
      · intro c hc
        rcases List.mem_append.mp hc with hc | hc
        · exact h2 c hc
        · rw [List.mem_singleton] at hc
          rw [hc]; exact hd
      · left
        rcases h3 with h3 | h3
        · obtain ⟨d, ds', rfl⟩ := List.exists_cons_of_ne_nil h1
          simpa using h3
        · rw [h3] at h4
          simp [rowStep] at h4
          omega
      · simp only [List.foldl_append, List.foldl_cons, List.foldl_nil, h4, hstep]
        omega

theorem printInt_digits (n : Nat) :
    ∃ ds : List Char, ds ≠ [] ∧ (∀ c ∈ ds, c.isDigit = true) ∧ ds.foldl rowStep 0 = n ∧
      CPos.printInt (n : Int) = ds := by
  obtain ⟨ds, h1, h2, h3, h4⟩ := exists_digits n
  refine ⟨ds, h1, h2, h4, ?_⟩
  have h := printInt_foldl ds h2
  rw [h4] at h
  rw [h]
  rcases h3 with h3 | h3
  · obtain ⟨d, ds', rfl⟩ := List.exists_cons_of_ne_nil h1
    have hd : (d == '0') = false := by
      simp only [List.head?_cons, ne_eq, Option.some.injEq] at h3
      simpa using h3
    simp [List.dropWhile, hd]
  · rw [h3]; rfl

theorem colLetters_parseColumn (n : Nat) (h1 : 1 ≤ n) (h2 : n ≤ 2147483647) :
    ∃ cs : List Char, cs ≠ [] ∧ (∀ c ∈ cs, c.isAlpha = true) ∧
      CPos.colLetters n (n : Int) [] = cs ∧ CPos.parseColumn cs 0 = some (n : Int) := by
  obtain ⟨cs, c1, c2, c3, c4⟩ := exists_letters n h1
  refine ⟨cs, c1, c2, ?_, ?_⟩
  · have h := colLetters_foldl cs c2 n [] (by rw [c4])
    rw [c4, c3, List.append_nil] at h
    exact h
  · have h := parseColumn_eq cs 0 c2 (by rw [c4]; exact h2)
    rw [c4] at h
    exact h

theorem parse_text (p : CPos) (hc0 : 0 ≤ p.m_Col) (hc1 : p.m_Col < 2147483647)
    (hr0 : 0 ≤ p.m_Row) (hr1 : p.m_Row ≤ 2147483647) : CPos.parse p.text = some p := by
  obtain ⟨col, row, absCol, absRow⟩ := p
  simp only at hc0 hc1 hr0 hr1
  obtain ⟨n, rfl⟩ : ∃ n : Nat, col = (n : Int) := ⟨col.toNat, by omega⟩
  obtain ⟨m, rfl⟩ : ∃ m : Nat, row = (m : Int) := ⟨row.toNat, by omega⟩
  obtain ⟨cs, c1, c2, c3, c4⟩ := colLetters_parseColumn (n + 1) (by omega) (by omega)
  obtain ⟨ds, d1, d2, d3, d4⟩ := printInt_digits m
  have hrow := parseRow_eq ds 0 d2 (by rw [d3]; omega)
  rw [d3] at hrow
  have hw : wrap32 ((n : Int) + 1) = ((n + 1 : Nat) : Int) := by
    rw [wrap32_of_range (by omega) (by omega)]
    push_cast
    rfl
  have ht : CPos.text ⟨(n : Int), (m : Int), absCol, absRow⟩
      = (if absCol then ['$'] else []) ++ cs ++ (if absRow then ['$'] else []) ++ ds := by
    simp only [CPos.text]
    rw [hw, Int.toNat_ofNat, c3, d4]
  rw [ht, parse_of_parts absCol absRow cs ds c1 c2 d1 d2]
  have hc : CPos.parseColumn cs 0 = some ((n + 1 : Nat) : Int) := c4
  have hr : CPos.parseRow ds 0 = some (m : Int) := hrow
  rw [hc, hr]
  simp only [Option.some_bind, Option.some.injEq, CPos.mk.injEq, and_true]
  rw [wrap32_of_range (by push_cast; omega) (by push_cast; omega)]
  push_cast
  omega

/-- C38, amended. Parsing undoes rendering: for every position with a column from 0 to
2147483646 and a row from 0 to 2147483647, with any flags, the constructor accepts the
address text that `operator <<` writes after the marker `CPos` and gives the same column,
row and flags. In particular the letters loop of the constructor reads the letters that
the letters loop of `operator <<` writes for a column number from 1 to 2147483647 as that
number. -/
theorem parse_inverts_text (p : CPos) (hc0 : 0 ≤ p.m_Col) (hc1 : p.m_Col < 2147483647)
    (hr0 : 0 ≤ p.m_Row) (hr1 : p.m_Row ≤ 2147483647) :
    CPos.parse p.text = some p ∧
    p.print = " CPos ".toList ++ p.text ∧
    (∀ n : Nat, 1 ≤ n → n ≤ 2147483647 →
      CPos.parseColumn (CPos.colLetters n (n : Int) []) 0 = some (n : Int)) := by
  refine ⟨parse_text p hc0 hc1 hr0 hr1, rfl, ?_⟩
  intro n h1 h2
  obtain ⟨cs, -, -, c3, c4⟩ := colLetters_parseColumn n h1 h2
  rw [c3, c4]

set_option maxRecDepth 100000 in
/-- Witness of C38: the positions `$B$2` and `AA10`. -/
theorem parse_inverts_text_witness :
    CPos.text ⟨1, 2, true, true⟩ = "$B$2".toList ∧
    CPos.parse (CPos.text ⟨1, 2, true, true⟩) = some ⟨1, 2, true, true⟩ ∧
    CPos.text ⟨26, 10, false, false⟩ = "AA10".toList ∧
    CPos.parse (CPos.text ⟨26, 10, false, false⟩) = some ⟨26, 10, false, false⟩ :=
  ⟨by decide,
    (parse_inverts_text ⟨1, 2, true, true⟩ (by decide) (by decide) (by decide)
      (by decide)).1,
    by decide,
    (parse_inverts_text ⟨26, 10, false, false⟩ (by decide) (by decide) (by decide)
      (by decide)).1⟩

set_option maxRecDepth 100000 in
/-- C38, counterexample. The position with column 2147483647 and row 1 has a column that
is not negative; the constructor gives it for the text `FXSHRXX1`. In `operator <<` the
column plus 1 is not positive in `int`, no letter is written, and the constructor rejects
the text `1`. -/
theorem parse_rejects_text_of_last_column :
    CPos.parse "FXSHRXX1".toList = some ⟨2147483647, 1, false, false⟩ ∧
    CPos.text ⟨2147483647, 1, false, false⟩ = ['1'] ∧
    CPos.parse (CPos.text ⟨2147483647, 1, false, false⟩) = none := by
  refine ⟨by decide, by decide, by decide⟩

/-! ## The plain recursive evaluator -/

section Plain

variable {D : Type} [DoubleOps D]

theorem plainValueFuel_succ (fuel : Nat) (t : CSpreadsheet D) (p : CPos) :
    plainValueFuel (fuel + 1) t p
      = (CSpreadsheet.evalLoop (fun s q => plainValueFuel fuel s q) (mapGet t.m_Excel p)
          t []).map plainLeave := rfl

theorem plainValueFuel_mono (fuel : Nat) :
    ∀ (fuel' : Nat), fuel ≤ fuel' → ∀ (t : CSpreadsheet D) (p : CPos)
      (r : CValue D × CSpreadsheet D),
      plainValueFuel fuel t p = some r → plainValueFuel fuel' t p = some r := by
  induction fuel with
  | zero => intro fuel' _ t p r h; simp [plainValueFuel] at h
  | succ fuel ih =>
    intro fuel' hle t p r h
    obtain ⟨f, rfl⟩ : ∃ f, fuel' = f + 1 := ⟨fuel' - 1, by omega⟩
    rw [plainValueFuel_succ] at h ⊢
    cases hl : CSpreadsheet.evalLoop (fun s q => plainValueFuel fuel s q)
        (mapGet t.m_Excel p) t [] with
    | none => rw [hl] at h; simp at h
    | some x =>
      rw [hl] at h
      rw [evalLoop_mono _ (fun s q => plainValueFuel f s q)
        (fun s q r hr => ih f (by omega) s q r hr) _ _ _ _ hl]
      exact h

theorem getValue_of_operator (e : CExpr D) (values : ValueStack D)
    (he : ∀ p, e ≠ CExpr.CReference p) :
    ∃ b values', ∀ (gv : Evaluator D) (s : CSpreadsheet D),
      CExpr.getValue gv e s values = some (b, s, values') := by
  cases e with
  | CReference p => exact absurd rfl (he p)
  | _ => exact ⟨_, _, fun _ _ => rfl⟩

theorem evalLoop_sim_plain (gv plain : Evaluator D) (hg : GoodEvaluator gv)
    (t : CSpreadsheet D) (C : List CPos) (es : Expressions D) :
    (∀ r, CExpr.CReference r ∈ es → ∀ s2 v s2', Preserved t s2 → s2.calledPositions = C →
      gv s2 r = some (v, s2') → plain t r = some (v, t)) →
    ∀ (s1 : CSpreadsheet D) (values : ValueStack D) (b : Bool) (s1' : CSpreadsheet D)
      (values' : ValueStack D),
      Preserved t s1 → s1.calledPositions = C →
      CSpreadsheet.evalLoop gv es s1 values = some (b, s1', values') →
      CSpreadsheet.evalLoop plain es t values = some (b, t, values') := by
  induction es with
  | nil =>
    intro _ s1 values b s1' values' _ _ h
    simp only [CSpreadsheet.evalLoop, Option.some.injEq, Prod.mk.injEq] at h
    obtain ⟨rfl, -, rfl⟩ := h
    rfl
  | cons e es ih =>
    intro href s1 values b s1' values' hp hc h
    have ih' := ih (fun r hr => href r (List.mem_cons_of_mem _ hr))
    rw [CSpreadsheet.evalLoop] at h ⊢
    by_cases he : ∀ p, e ≠ CExpr.CReference p
    · obtain ⟨b1, v1, hop⟩ := getValue_of_operator e values he
      rw [hop gv s1] at h
      rw [hop plain t]
      cases b1 with
      | false =>
        simp only [Option.some.injEq, Prod.mk.injEq] at h
        obtain ⟨rfl, -, rfl⟩ := h
        rfl
      | true => exact ih' s1 v1 b s1' values' hp hc h
    · push_neg at he
      obtain ⟨r, rfl⟩ := he
      cases hgv : CExpr.getValue gv (CExpr.CReference r) s1 values with
      | none => rw [hgv] at h; simp at h
      | some x =>
        obtain ⟨b1, s2, v1⟩ := x
        rw [hgv] at h
        rcases referenceGetValue_cases gv r s1 values b1 s2 v1 hgv with
          ⟨rfl, rfl, hcall⟩ | ⟨rfl, v, hv, rfl, hcall⟩
        · have hpl := href r (List.mem_cons_self _ _) s1 _ s2 hp hc hcall
          simp only [Option.some.injEq, Prod.mk.injEq] at h
          simp only [CExpr.getValue, referenceGetValue, hpl]
          rw [← h.1, ← h.2.2]
        · have hpl := href r (List.mem_cons_self _ _) s1 _ s2 hp hc hcall
          obtain ⟨hp2, hset⟩ := hg s1 r v s2 hcall
          have hc2 : s2.calledPositions = C := by rw [(hset hv).1, hc]
          simp only at h
          have e1 : CExpr.getValue plain (CExpr.CReference r) t values
              = some (true, t, v :: values) := by
            cases v with
            | monostate => exact absurd rfl hv
            | double d => simp only [CExpr.getValue, referenceGetValue, hpl]
            | string x => simp only [CExpr.getValue, referenceGetValue, hpl]
          rw [e1]
          exact ih' s2 (v :: values) b s1' values' (hp.trans hp2) hc2 h

theorem getValueFuel_sim_plain (fuel : Nat) :
    ∀ (t s : CSpreadsheet D) (p : CPos), Preserved t s →
      (∀ q, (CPos.same p q = true ∨ Reaches t p q) →
        ¬ Reaches t q q ∧ setContains s.calledPositions q = false) →
      ∀ v s', CSpreadsheet.getValueFuel fuel s p = some (v, s') →
        plainValueFuel fuel t p = some (v, t) := by
  induction fuel with
  | zero => intro t s p _ _ v s' h; simp [CSpreadsheet.getValueFuel] at h
  | succ fuel ih =>
    intro t s p hp H v s' h
    have hc : setContains s.calledPositions p = false := (H p (Or.inl (same_refl p))).2
    have hpp : ¬ Reaches t p p := (H p (Or.inl (same_refl p))).1
    rw [getValueFuel_succ, if_neg (by simp [hc]), (preserved_enter s p).1 p, hp.1 p] at h
    rw [plainValueFuel_succ]
    cases hl : CSpreadsheet.evalLoop (fun s q => CSpreadsheet.getValueFuel fuel s q)
        (mapGet t.m_Excel p) (s.enter p) [] with
    | none => rw [hl] at h; simp at h
    | some x =>
      obtain ⟨b, s1, vals⟩ := x
      rw [hl] at h
      have hsim := evalLoop_sim_plain (fun s q => CSpreadsheet.getValueFuel fuel s q)
        (fun s q => plainValueFuel fuel s q) (getValueFuel_good fuel) t
        (s.enter p).calledPositions (mapGet t.m_Excel p)
        (by
          intro r hr s2 w s2' hp2 hc2 hcall
          refine ih t s2 r hp2 ?_ w s2' hcall
          intro q hq
          have hpr : Reaches t p r := Relation.TransGen.single ⟨r, hr, same_refl r⟩
          have hpq : Reaches t p q := by
            rcases hq with hq | hq
            · exact reaches_congr_right hq hpr
            · exact Relation.TransGen.trans hpr hq
          refine ⟨(H q (Or.inr hpq)).1, ?_⟩
          rw [hc2]
          show setContains (setInsert s.calledPositions p) q = false
          rw [setContains_setInsert, (H q (Or.inr hpq)).2, Bool.or_false]
          cases hs : CPos.same p q with
          | false => rfl
          | true => exact absurd (reaches_congr_right (same_symm hs) hpq) hpp)
        (s.enter p) [] b s1 vals (hp.trans (preserved_enter s p)) rfl hl
      rw [hsim]
      cases b with
      | false =>
        simp only [Option.map_some', CSpreadsheet.leave, Option.some.injEq,
          Prod.mk.injEq] at h
        rw [← h.1]
        rfl
      | true =>
        simp only [Option.map_some', CSpreadsheet.leave, Option.some.injEq,
          Prod.mk.injEq] at h
        rw [← h.1]
        cases vals <;> rfl

omit [DoubleOps D] in
theorem no_cycle_of_rank (t : CSpreadsheet D) (rank : CPos → Nat)
    (h : ∀ a b, References t a b → rank b < rank a) (q : CPos) : ¬ Reaches t q q := by
  have key : ∀ a b, Reaches t a b → rank b < rank a := by
    intro a b hab
    induction hab with
    | single hr => exact h _ _ hr
    | tail _ hr ih => exact Nat.lt_trans (h _ _ hr) ih
  intro hq
  exact Nat.lt_irrefl _ (key q q hq)

/-- C33. The set of positions under evaluation gives no false positive. On a sheet
where no cell that is reached from `pos` through references, `pos` included, reaches
itself, and on which no evaluation is under way, `getValue(pos)` returns the value of the
plain recursive evaluator, which has no such set: the plain evaluator returns that value
with any bound on its depth from the number of entries of the map plus one, and no other
value with any bound. The cells may be referred to any number of times, from one vector
or along several paths. -/
theorem cycle_guard_no_false_positive (sheet : CSpreadsheet D) (pos : CPos)
    (hempty : sheet.calledPositions = [])
    (hacyclic : ∀ q, (CPos.same pos q = true ∨ Reaches sheet pos q) → ¬ Reaches sheet q q) :
    ∃ v s1, sheet.getValue pos = some (v, s1) ∧
      (∀ fuel, sheet.m_Excel.length + 1 ≤ fuel →
        plainValueFuel fuel sheet pos = some (v, sheet)) ∧
      (∀ fuel w, plainValueFuel fuel sheet pos = some w → w = (v, sheet)) := by
  obtain ⟨v, s1, h⟩ := getValue_terminates sheet pos
  have hpl : plainValueFuel (sheet.m_Excel.length + 1) sheet pos = some (v, sheet) :=
    getValueFuel_sim_plain _ sheet sheet pos (Preserved.refl sheet)
      (fun q hq => ⟨hacyclic q hq, by rw [hempty]; rfl⟩) v s1 h
  refine ⟨v, s1, h, fun fuel hf => plainValueFuel_mono _ fuel hf sheet pos _ hpl, ?_⟩
  intro fuel w hw
  have h1 := plainValueFuel_mono _ (max fuel (sheet.m_Excel.length + 1))
    (Nat.le_max_left _ _) sheet pos w hw
  have h2 := plainValueFuel_mono _ (max fuel (sheet.m_Excel.length + 1))
    (Nat.le_max_right _ _) sheet pos _ hpl
  rw [h1] at h2
  exact Option.some.inj h2

theorem diamondSheet_rank (a b : CPos) (h : References diamondSheet a b) :
    b.m_Col.toNat < a.m_Col.toNat := by
  obtain ⟨r, hr, hs⟩ := h
  unfold mapGet at hr
  cases hf : mapFind diamondSheet.m_Excel a with
  | none => rw [hf] at hr; simp at hr
  | some v =>
    rw [hf] at hr
    obtain ⟨k, hk, hka⟩ := mem_of_mapFind _ _ _ hf
    rw [same_iff] at hs hka
    simp only [diamondSheet, List.mem_cons, Prod.mk.injEq, List.mem_singleton,
      List.not_mem_nil, or_false] at hk
    rcases hk with ⟨rfl, rfl⟩ | ⟨rfl, rfl⟩ | ⟨rfl, rfl⟩ | ⟨rfl, rfl⟩ <;>
      simp only [Option.getD_some, List.mem_cons, List.mem_singleton, CExpr.CReference.injEq,
        reduceCtorEq, List.not_mem_nil, or_false, false_or, or_self] at hr
    · rcases hr with rfl
      simp only [posA1, posB1] at hs hka
      omega
    · rcases hr with rfl
      simp only [posA1, posB2] at hs hka
      omega
    · rcases hr with rfl | rfl | rfl
      · simp only [posB1, posC1] at hs hka
        omega
      · simp only [posB2, posC1] at hs hka
        omega
      · simp only [posB1, posC1] at hs hka
        omega

/-- Witness of C33: the diamond `C1 = B1 + B2 + B1`, `B1 = A1`, `B2 = A1 + A1`,
`A1 = 1`, where `A1` is read along three paths and twice from one vector. -/
theorem cycle_guard_no_false_positive_witness :
    diamondSheet.calledPositions = [] ∧
    (∀ q, (CPos.same posC1 q = true ∨ Reaches diamondSheet posC1 q) →
      ¬ Reaches diamondSheet q q) ∧
    ∃ v s1, diamondSheet.getValue posC1 = some (v, s1) ∧
      (∀ fuel, diamondSheet.m_Excel.length + 1 ≤ fuel →
        plainValueFuel fuel diamondSheet posC1 = some (v, diamondSheet)) ∧
      (∀ fuel w, plainValueFuel fuel diamondSheet posC1 = some w → w = (v, diamondSheet)) :=
  have hacyclic : ∀ q, (CPos.same posC1 q = true ∨ Reaches diamondSheet posC1 q) →
      ¬ Reaches diamondSheet q q :=
    fun q _ => no_cycle_of_rank diamondSheet (fun p => p.m_Col.toNat) diamondSheet_rank q
  ⟨rfl, hacyclic, cycle_guard_no_false_positive diamondSheet posC1 rfl hacyclic⟩

end Plain

/-! ## Tokens of a stream -/

theorem isspace_iff (c : Char) :
    isspace c = true ↔ c.toNat = 32 ∨ (9 ≤ c.toNat ∧ c.toNat ≤ 13) := by
  constructor
  · intro h
    simp only [isspace, Bool.or_eq_true, beq_iff_eq] at h
    rcases h with ((((rfl | rfl) | rfl) | rfl) | rfl) | rfl <;> decide
  · intro h
    have hc : c = Char.ofNat c.toNat := (Char.ofNat_toNat c).symm
    rcases h with h | ⟨h1, h2⟩
    · rw [hc, h]; rfl
    · obtain ⟨k, hk⟩ : ∃ k, c.toNat = 9 + k ∧ k ≤ 4 := ⟨c.toNat - 9, by omega⟩
      rw [hc, hk.1]
      have hk4 := hk.2
      interval_cases k <;> rfl

theorem isspace_of_isDigit {c : Char} (h : c.isDigit = true) : isspace c = false := by
  have hd := (isDigit_iff c).1 h
  cases hs : isspace c with
  | false => rfl
  | true =>
    have := (isspace_iff c).1 hs
    omega

theorem isspace_of_isAlpha {c : Char} (h : c.isAlpha = true) : isspace c = false := by
  have hd := (isAlpha_iff c).1 h
  cases hs : isspace c with
  | false => rfl
  | true =>
    have := (isspace_iff c).1 hs
    omega

theorem isDigit_of_isspace {c : Char} (h : isspace c = true) : c.isDigit = false := by
  cases hd : c.isDigit with
  | false => rfl
  | true => rw [isspace_of_isDigit hd] at h; exact absurd h (by simp)

theorem dropWhile_append_all {α : Type} (p : α → Bool) (ws l : List α)
    (h : ∀ c ∈ ws, p c = true) : (ws ++ l).dropWhile p = l.dropWhile p := by
  induction ws with
  | nil => rfl
  | cons a ws ih =>
    have ha := h a (List.mem_cons_self _ _)
    simp only [List.cons_append, List.dropWhile_cons, ha, if_true]
    exact ih (fun c hc => h c (List.mem_cons_of_mem _ hc))

theorem takeWhile_append_all {α : Type} (p : α → Bool) (ws l : List α)
    (h : ∀ c ∈ ws, p c = true) : (ws ++ l).takeWhile p = ws ++ l.takeWhile p := by
  induction ws with
  | nil => rfl
  | cons a ws ih =>
    have ha := h a (List.mem_cons_self _ _)
    simp only [List.cons_append, List.takeWhile_cons, ha, if_true]
    rw [ih (fun c hc => h c (List.mem_cons_of_mem _ hc))]

/-- A list that is empty or starts with an element that `p` rejects. -/
theorem takeWhile_of_head {α : Type} (p : α → Bool) (l : List α)
    (h : ∀ c ∈ l.head?, p c = false) : l.takeWhile p = [] ∧ l.dropWhile p = l := by
  cases l with
  | nil => exact ⟨rfl, rfl⟩
  | cons a l =>
    have ha := h a (by simp)
    simp [List.takeWhile_cons, List.dropWhile_cons, ha]

theorem ready_after (rest : List Char) : (IStream.after rest).Ready := by
  refine ⟨rfl, ?_⟩
  intro h
  simpa [IStream.after] using h

theorem ready_initial (input : List Char) :
    IStream.Ready { input := input, failbit := false, eofbit := false } :=
  ⟨rfl, fun h => by simp at h⟩

/-- What the sentry does on a stream that is ready: it skips the whitespace, and fails at
the end of the input. -/
theorem sentry_ready (is : IStream) (h : is.Ready) :
    is.sentry = if (is.input.dropWhile isspace).isEmpty
      then (false, { input := [], failbit := true, eofbit := true })
      else (true, { input := is.input.dropWhile isspace, failbit := false, eofbit := false }) := by
  obtain ⟨input, fb, eb⟩ := is
  obtain ⟨h1, h2⟩ := h
  simp only at h1 h2
  subst h1
  cases eb with
  | false =>
    simp only [IStream.sentry, Bool.or_self, Bool.false_eq_true, if_false]
  | true =>
    have := h2 rfl
    subst this
    simp [IStream.sentry]

/-- Extraction of a string from a stream that is ready. -/
theorem readString_ready (is : IStream) (str : List Char) (h : is.Ready) :
    is.readString str = if (is.input.dropWhile isspace).isEmpty
      then ({ input := [], failbit := true, eofbit := true }, str)
      else (IStream.after ((is.input.dropWhile isspace).dropWhile (fun c => !isspace c)),
        (is.input.dropWhile isspace).takeWhile (fun c => !isspace c)) := by
  unfold IStream.readString
  rw [sentry_ready is h]
  cases he : (is.input.dropWhile isspace).isEmpty with
  | true => rfl
  | false => rfl

/-- Extraction of a string: the whitespace is skipped and the token is taken, up to the
next whitespace or the end of the input. -/
theorem readString_token (is : IStream) (str ws tok rest : List Char) (h : is.Ready)
    (hin : is.input = ws ++ tok ++ rest) (hws : ∀ c ∈ ws, isspace c = true)
    (htok : ∀ c ∈ tok, isspace c = false) (hne : tok ≠ [])
    (hrest : ∀ c ∈ rest.head?, isspace c = true) :
    is.readString str = (IStream.after rest, tok) := by
  rw [readString_ready is str h, hin, List.append_assoc, dropWhile_append_all _ _ _ hws]
  have hd : (tok ++ rest).dropWhile isspace = tok ++ rest := by
    obtain ⟨a, t, rfl⟩ := List.exists_cons_of_ne_nil hne
    have ha := htok a (List.mem_cons_self _ _)
    simp [List.dropWhile_cons, ha]
  have hr := takeWhile_of_head (fun c => !isspace c) rest
    (fun c hc => by simp [hrest c hc])
  have htok' : ∀ c ∈ tok, (fun c => !isspace c) c = true := fun c hc => by
    simp [htok c hc]
  rw [hd, dropWhile_append_all _ _ _ htok', takeWhile_append_all _ _ _ htok', hr.1, hr.2,
    List.append_nil]
  obtain ⟨a, t, rfl⟩ := List.exists_cons_of_ne_nil hne
  simp

/-- Extraction of an `int` written in decimal digits. -/
theorem readInt_digits (is : IStream) (n : Int) (ws ds rest : List Char) (h : is.Ready)
    (hin : is.input = ws ++ ds ++ rest) (hws : ∀ c ∈ ws, isspace c = true)
    (hds : ∀ c ∈ ds, c.isDigit = true) (hne : ds ≠ [])
    (hrest : ∀ c ∈ rest.head?, c.isDigit = false)
    (hval : digitsValue ds ≤ 2147483647) :
    is.readInt n = (IStream.after rest, (digitsValue ds : Int)) := by
  unfold IStream.readInt
  rw [sentry_ready is h, hin, List.append_assoc, dropWhile_append_all _ _ _ hws]
  obtain ⟨a, t, rfl⟩ := List.exists_cons_of_ne_nil hne
  have ha := hds a (List.mem_cons_self _ _)
  have hsa : isspace a = false := isspace_of_isDigit ha
  have hd : ((a :: t) ++ rest).dropWhile isspace = (a :: t) ++ rest := by
    simp [List.dropWhile_cons, hsa]
  rw [hd]
  have hr := takeWhile_of_head Char.isDigit rest hrest
  have hminus : a ≠ '-' := by rintro rfl; exact absurd ha (by decide)
  have hplus : a ≠ '+' := by rintro rfl; exact absurd ha (by decide)
  have h1 : ((a :: t) ++ rest).isEmpty = false := rfl
  have h2 : (((a :: t) ++ rest).head? == some '-') = false := by simp [hminus]
  have h3 : (((a :: t) ++ rest).head? == some '+') = false := by simp [hplus]
  simp only [h1, Bool.false_eq_true, if_false, h2, h3, Bool.or_self]
  rw [takeWhile_append_all _ _ _ hds, dropWhile_append_all _ _ _ hds, hr.1, hr.2,
    List.append_nil]
  have h4 : (a :: t).isEmpty = false := rfl
  have h5 : ¬ ((digitsValue (a :: t) : Int) < INT_MIN) := by
    unfold INT_MIN; omega
  have h6 : ¬ ((digitsValue (a :: t) : Int) > INT_MAX) := by
    unfold INT_MAX; omega
  simp only [h4, Bool.false_eq_true, if_false, h5, h6]
  rfl

/-! ## The tokens of a string -/

theorem dropWhile_isspace_head (s : List Char) (a : Char) (t : List Char)
    (h : s.dropWhile isspace = a :: t) : isspace a = false := by
  induction s with
  | nil => simp at h
  | cons b s ih =>
    rw [List.dropWhile_cons] at h
    by_cases hb : isspace b = true
    · rw [if_pos hb] at h; exact ih h
    · rw [if_neg hb] at h
      simp only [List.cons.injEq] at h
      rw [← h.1]
      simpa using hb

theorem length_dropWhile_le' {α : Type} (p : α → Bool) (l : List α) :
    (l.dropWhile p).length ≤ l.length := by
  induction l with
  | nil => simp
  | cons a l ih =>
    rw [List.dropWhile_cons]
    split
    · simp only [List.length_cons]; omega
    · exact le_refl _

/-- The rest after a token is shorter than the string. -/
theorem length_after_token (s : List Char) (h : (s.dropWhile isspace).isEmpty = false) :
    ((s.dropWhile isspace).dropWhile (fun c => !isspace c)).length < s.length := by
  have h1 := length_dropWhile_le' isspace s
  cases hs : s.dropWhile isspace with
  | nil => rw [hs] at h; simp at h
  | cons a t =>
    have ha := dropWhile_isspace_head s a t hs
    rw [hs] at h1
    simp only [List.dropWhile_cons, ha, Bool.not_false, if_true]
    have h2 := length_dropWhile_le' (fun c => !isspace c) t
    simp only [List.length_cons] at h1
    omega

theorem tokensFuel_eq : ∀ (f1 f2 : Nat) (s : List Char), s.length < f1 → s.length < f2 →
    tokensFuel f1 s = tokensFuel f2 s := by
  intro f1
  induction f1 with
  | zero => intro f2 s h; omega
  | succ f1 ih =>
    intro f2 s h1 h2
    obtain ⟨f2, rfl⟩ : ∃ f, f2 = f + 1 := ⟨f2 - 1, by omega⟩
    simp only [tokensFuel]
    cases he : (s.dropWhile isspace).isEmpty with
    | true => simp
    | false =>
      have hl := length_after_token s he
      simp only [Bool.false_eq_true, if_false]
      rw [ih f2 _ (by omega) (by omega)]

/-- The tokens of a string: none when only whitespace is left, else the first token and
the tokens of what follows it. -/
theorem tokens_eq (s : List Char) :
    tokens s = if (s.dropWhile isspace).isEmpty then []
      else (s.dropWhile isspace).takeWhile (fun c => !isspace c)
        :: tokens ((s.dropWhile isspace).dropWhile (fun c => !isspace c)) := by
  have h0 : tokens s = tokensFuel (s.length + 1) s := rfl
  have h1 : tokensFuel (s.length + 1) s
      = if (s.dropWhile isspace).isEmpty then []
        else (s.dropWhile isspace).takeWhile (fun c => !isspace c)
          :: tokensFuel s.length ((s.dropWhile isspace).dropWhile (fun c => !isspace c)) := rfl
  rw [h0, h1]
  cases he : (s.dropWhile isspace).isEmpty with
  | true => simp
  | false =>
    have hl := length_after_token s he
    simp only [Bool.false_eq_true, if_false]
    congr 1
    exact tokensFuel_eq _ _ _ hl (Nat.lt_succ_self _)

/-! ## The loop of case 13 -/

/-- The loop `while (is >> tmp && tmp != "endOfString") result += tmp` appends to `result`
the tokens of the input that come before the first token `endOfString`. -/
theorem readUntilEndOfString_tokens : ∀ (fuel : Nat) (is : IStream) (tmp result : List Char),
    is.Ready → is.input.length < fuel →
    ∃ is1 tmp1, readUntilEndOfString fuel is tmp result
      = some (is1, tmp1, result
          ++ ((tokens is.input).takeWhile (fun t => t != "endOfString".toList)).flatten) := by
  intro fuel
  induction fuel with
  | zero => intro is tmp result _ h; omega
  | succ fuel ih =>
    intro is tmp result hr hf
    cases he : (is.input.dropWhile isspace).isEmpty with
    | true =>
      have hread : is.readString tmp
          = ({ input := [], failbit := true, eofbit := true }, tmp) := by
        rw [readString_ready is tmp hr, he]; rfl
      have htok : tokens is.input = [] := by rw [tokens_eq, he]; rfl
      refine ⟨{ input := [], failbit := true, eofbit := true }, tmp, ?_⟩
      rw [readUntilEndOfString, hread, htok]
      simp [IStream.fail]
    | false =>
      have hl := length_after_token is.input he
      have hread : is.readString tmp
          = (IStream.after ((is.input.dropWhile isspace).dropWhile (fun c => !isspace c)),
              (is.input.dropWhile isspace).takeWhile (fun c => !isspace c)) := by
        rw [readString_ready is tmp hr, he]; rfl
      have htok : tokens is.input
          = (is.input.dropWhile isspace).takeWhile (fun c => !isspace c)
            :: tokens ((is.input.dropWhile isspace).dropWhile (fun c => !isspace c)) := by
        rw [tokens_eq, he]; rfl
      have hfail : (IStream.after
          ((is.input.dropWhile isspace).dropWhile (fun c => !isspace c))).fail = false := rfl
      rw [readUntilEndOfString, hread, htok]
      generalize (is.input.dropWhile isspace).takeWhile (fun c => !isspace c) = tok at *
      generalize (is.input.dropWhile isspace).dropWhile (fun c => !isspace c) = rest at *
      by_cases ht : tok = "endOfString".toList
      · refine ⟨IStream.after rest, tok, ?_⟩
        have hb : (tok != "endOfString".toList) = false := by simpa using ht
        simp only [hfail, hb, Bool.not_false, Bool.and_false, Bool.false_eq_true, if_false,
          List.takeWhile_cons, List.flatten_nil, List.append_nil]
      · have hne : (tok != "endOfString".toList) = true := by simpa using ht
        obtain ⟨is1, tmp1, h1⟩ := ih (IStream.after rest) tok (result ++ tok)
          (ready_after _) (by show rest.length < fuel; omega)
        refine ⟨is1, tmp1, ?_⟩
        simp only [hfail, hne, Bool.not_false, Bool.and_self, if_true]
        rw [h1, List.takeWhile_cons, if_pos hne, List.flatten_cons, List.append_assoc]
        rfl

theorem withoutWhitespace_append (a b : List Char) :
    withoutWhitespace (a ++ b) = withoutWhitespace a ++ withoutWhitespace b := by
  simp [withoutWhitespace]

theorem withoutWhitespace_of_space (ws : List Char) (h : ∀ c ∈ ws, isspace c = true) :
    withoutWhitespace ws = [] := by
  unfold withoutWhitespace
  rw [List.filter_eq_nil_iff]
  intro c hc
  simp [h c hc]

theorem withoutWhitespace_of_token (tok : List Char) (h : ∀ c ∈ tok, isspace c = false) :
    withoutWhitespace tok = tok := by
  unfold withoutWhitespace
  rw [List.filter_eq_self]
  intro c hc
  simp [h c hc]

/-- A string is some whitespace, or some whitespace, a token and a rest that is empty or
starts with whitespace. -/
theorem split_first_token (s : List Char) :
    (∀ c ∈ s, isspace c = true) ∨
    ∃ ws tok rest, s = ws ++ tok ++ rest ∧ (∀ c ∈ ws, isspace c = true) ∧
      (∀ c ∈ tok, isspace c = false) ∧ tok ≠ [] ∧ (∀ c ∈ rest.head?, isspace c = true) ∧
      tokens s = tok :: tokens rest := by
  cases he : (s.dropWhile isspace).isEmpty with
  | true =>
    left
    have hnil : s.dropWhile isspace = [] := by simpa using he
    rw [List.dropWhile_eq_nil_iff] at hnil
    exact hnil
  | false =>
    right
    have h1 := List.takeWhile_append_dropWhile isspace s
    have h2 := List.takeWhile_append_dropWhile (fun c => !isspace c) (s.dropWhile isspace)
    refine ⟨s.takeWhile isspace, (s.dropWhile isspace).takeWhile (fun c => !isspace c),
      (s.dropWhile isspace).dropWhile (fun c => !isspace c), ?_, ?_, ?_, ?_, ?_, ?_⟩
    · rw [List.append_assoc, h2, h1]
    · intro c hc
      exact List.mem_takeWhile_imp hc
    · intro c hc
      have := List.mem_takeWhile_imp hc
      simpa using this
    · cases hs : s.dropWhile isspace with
      | nil => rw [hs] at he; simp at he
      | cons a t =>
        have ha := dropWhile_isspace_head s a t hs
        simp [List.takeWhile_cons, ha]
    · intro c hc
      cases hd : (s.dropWhile isspace).dropWhile (fun c => !isspace c) with
      | nil => rw [hd] at hc; simp at hc
      | cons a t =>
        rw [hd] at hc
        simp only [List.head?_cons, Option.mem_def, Option.some.injEq] at hc
        subst hc
        have := List.head_dropWhile_not (fun c => !isspace c) (s.dropWhile isspace)
          (by rw [hd]; simp)
        simp only [hd, List.head_cons] at this
        simpa using this
    · rw [tokens_eq s, he]
      simp

/-- The loop of case 13 on what `CString::print` wrote for a string without a token
`endOfString`: the string is read without its whitespace, and the stream is left after the
marker. -/
theorem readUntilEndOfString_print : ∀ (fuel : Nat) (is : IStream)
    (tmp result s tail : List Char), is.Ready →
    is.input = s ++ ' ' :: ("endOfString".toList ++ ' ' :: tail) →
    "endOfString".toList ∉ tokens s → is.input.length < fuel →
    readUntilEndOfString fuel is tmp result
      = some (IStream.after (' ' :: tail), "endOfString".toList,
          result ++ withoutWhitespace s) := by
  intro fuel
  induction fuel with
  | zero => intro is tmp result s tail _ _ _ h; omega
  | succ fuel ih =>
    intro is tmp result s tail hr hin hno hf
    have hmark : ∀ c ∈ "endOfString".toList, isspace c = false := by decide
    rcases split_first_token s with hall | ⟨ws, tok, rest, hs, hws, htok, hne, hrest, htoks⟩
    · have hread := readString_token is tmp (s ++ [' ']) "endOfString".toList (' ' :: tail) hr
        (by rw [hin]; simp) (by
          intro c hc
          rcases List.mem_append.mp hc with hc | hc
          · exact hall c hc
          · rw [List.mem_singleton] at hc; rw [hc]; rfl)
        hmark (by simp) (by simp [isspace])
      rw [readUntilEndOfString, hread, withoutWhitespace_of_space s hall]
      simp [IStream.fail, IStream.after]
    · have hread := readString_token is tmp ws tok
        (rest ++ ' ' :: ("endOfString".toList ++ ' ' :: tail)) hr
        (by rw [hin, hs]; simp) hws htok hne (by
          intro c hc
          cases rest with
          | nil =>
            simp only [List.nil_append, List.head?_cons, Option.mem_def,
              Option.some.injEq] at hc
            rw [← hc]; rfl
          | cons a t =>
            simp only [List.cons_append, List.head?_cons, Option.mem_def,
              Option.some.injEq] at hc
            exact hrest c (by simp [hc]))
      rw [htoks] at hno
      have hne1 : tok ≠ "endOfString".toList := fun h => hno (by rw [h]; simp)
      have hno1 : "endOfString".toList ∉ tokens rest :=
        fun h => hno (List.mem_cons_of_mem _ h)
      have hlen : (rest ++ ' ' :: ("endOfString".toList ++ ' ' :: tail)).length < fuel := by
        have : is.input.length
            = ws.length + tok.length
              + (rest ++ ' ' :: ("endOfString".toList ++ ' ' :: tail)).length := by
          rw [hin, hs]; simp only [List.length_append]; omega
        have : 0 < tok.length := List.length_pos.mpr hne
        omega
      have hrec := ih (IStream.after (rest ++ ' ' :: ("endOfString".toList ++ ' ' :: tail)))
        tok (result ++ tok) rest tail (ready_after _) rfl hno1 hlen
      have hbne : (tok != "endOfString".toList) = true := by simpa using hne1
      have hfail : (IStream.after
          (rest ++ ' ' :: ("endOfString".toList ++ ' ' :: tail))).fail = false := rfl
      rw [readUntilEndOfString, hread]
      simp only [hfail, hbne, Bool.not_false, Bool.and_self, if_true]
      rw [hrec, hs, withoutWhitespace_append, withoutWhitespace_append,
        withoutWhitespace_of_space ws hws, withoutWhitespace_of_token tok htok]
      simp

/-! ## Reading back what save wrote: one expression -/

/-- The text of a position that is rendered with its letters is a token. -/
theorem text_token (p : CPos) (hp : p.Renders) :
    p.text ≠ [] ∧ (∀ c ∈ p.text, isspace c = false) ∧ CPos.parse p.text = some p := by
  obtain ⟨hc0, hc1, hr0, hr1⟩ := hp
  refine ⟨?_, ?_, parse_text p hc0 hc1 hr0 hr1⟩
  all_goals
    obtain ⟨col, row, absCol, absRow⟩ := p
    simp only at hc0 hc1 hr0 hr1
    obtain ⟨n, rfl⟩ : ∃ n : Nat, col = (n : Int) := ⟨col.toNat, by omega⟩
    obtain ⟨m, rfl⟩ : ∃ m : Nat, row = (m : Int) := ⟨row.toNat, by omega⟩
    obtain ⟨cs, c1, c2, c3, c4⟩ := colLetters_parseColumn (n + 1) (by omega) (by omega)
    obtain ⟨ds, d1, d2, d3, d4⟩ := printInt_digits m
    have hw : wrap32 ((n : Int) + 1) = ((n + 1 : Nat) : Int) := by
      rw [wrap32_of_range (by omega) (by omega)]
      push_cast
      rfl
    have ht : CPos.text ⟨(n : Int), (m : Int), absCol, absRow⟩
        = (if absCol then ['$'] else []) ++ cs ++ (if absRow then ['$'] else []) ++ ds := by
      simp only [CPos.text]
      rw [hw, Int.toNat_ofNat, c3, d4]
    rw [ht]
  · obtain ⟨d, ds', rfl⟩ := List.exists_cons_of_ne_nil d1
    simp
  · intro c hc
    simp only [List.mem_append] at hc
    rcases hc with ((hc | hc) | hc) | hc
    · cases absCol with
      | false => simp at hc
      | true =>
        simp only [if_true, List.mem_singleton] at hc
        rw [hc]; rfl
    · exact isspace_of_isAlpha (c2 c hc)
    · cases absRow with
      | false => simp at hc
      | true =>
        simp only [if_true, List.mem_singleton] at hc
        rw [hc]; rfl
    · exact isspace_of_isDigit (d2 c hc)

/-- Extraction of the tag of an expression. -/
theorem readInt_tag (is : IStream) (n : Int) (ws ds body : List Char) (k : Int)
    (h : is.Ready) (hin : is.input = ws ++ ' ' :: (ds ++ ' ' :: body))
    (hws : ∀ c ∈ ws, isspace c = true) (hds : ∀ c ∈ ds, c.isDigit = true) (hne : ds ≠ [])
    (hval : (digitsValue ds : Int) = k) (hk : k ≤ 14) :
    is.readInt n = (IStream.after (' ' :: body), k) := by
  have h1 := readInt_digits is n (ws ++ [' ']) ds (' ' :: body) h (by rw [hin]; simp)
    (by
      intro c hc
      rcases List.mem_append.mp hc with hc | hc
      · exact hws c hc
      · rw [List.mem_singleton] at hc; rw [hc]; rfl)
    hds hne (by simp) (by omega)
  rw [h1, hval]

theorem tokens_cons_space (s : List Char) : tokens (' ' :: s) = tokens s := by
  rw [tokens_eq (' ' :: s), tokens_eq s]
  rfl

section ReadBack

variable {D : Type} [DoubleOps D]

/-- One round of the loop over the expressions of a record, on what `print` wrote for an
expression: the expression is read back, up to the whitespace of a text, and the stream is
left in front of what follows. -/
theorem loadExpression_print (fuel : Nat) (u : Uninitialised D) (pos : CPos)
    (st : LoadState D) (e : CExpr D) (ws tail : List Char) (hr : st.is.Ready)
    (hin : st.is.input = ws ++ e.print ++ tail) (hws : ∀ c ∈ ws, isspace c = true)
    (hs : e.Saveable) (htail : ∀ c ∈ tail.head?, isspace c = true)
    (hf : st.is.input.length < fuel) :
    ∃ st1, loadExpression fuel u pos st = Except.ok st1 ∧
      st1.m_Excel = pushBack st.m_Excel pos e.loaded ∧
      (∃ ws1, (∀ c ∈ ws1, isspace c = true) ∧ ws1.length ≤ 1 ∧
        st1.is = IStream.after (ws1 ++ tail)) ∧
      st1.position = st.position ∧ st1.vectorLen = st.vectorLen := by
  cases e with
  | CAdd =>
    have hread := readInt_tag st.is st.token ws ['0'] tail 0 hr
      (by rw [hin]; simp [CExpr.print]) hws (by decide) (by simp) (by decide) (by decide)
    have hl : loadExpression fuel u pos st = Except.ok
        { st with is := IStream.after (' ' :: tail), token := 0,
                  m_Excel := pushBack st.m_Excel pos CExpr.CAdd } := by
      unfold loadExpression
      dsimp only
      rw [hread]
      dsimp only
      rw [if_pos rfl]
    exact ⟨_, hl, rfl, ⟨[' '], by simp [isspace], by simp, rfl⟩, rfl, rfl⟩
  | CSub =>
    have hread := readInt_tag st.is st.token ws ['1'] tail 1 hr
      (by rw [hin]; simp [CExpr.print]) hws (by decide) (by simp) (by decide) (by decide)
    have hl : loadExpression fuel u pos st = Except.ok
        { st with is := IStream.after (' ' :: tail), token := 1,
                  m_Excel := pushBack st.m_Excel pos CExpr.CSub } := by
      unfold loadExpression
      dsimp only
      rw [hread]
      dsimp only
      rw [if_neg (show ¬ ((1 : Int) = 0) by decide)]
      rw [if_pos rfl]
    exact ⟨_, hl, rfl, ⟨[' '], by simp [isspace], by simp, rfl⟩, rfl, rfl⟩
  | CMul =>
    have hread := readInt_tag st.is st.token ws ['2'] tail 2 hr
      (by rw [hin]; simp [CExpr.print]) hws (by decide) (by simp) (by decide) (by decide)
    have hl : loadExpression fuel u pos st = Except.ok
        { st with is := IStream.after (' ' :: tail), token := 2,
                  m_Excel := pushBack st.m_Excel pos CExpr.CMul } := by
      unfold loadExpression
      dsimp only
      rw [hread]
      dsimp only
      rw [if_neg (show ¬ ((2 : Int) = 0) by decide)]
      rw [if_neg (show ¬ ((2 : Int) = 1) by decide)]
      rw [if_pos rfl]
    exact ⟨_, hl, rfl, ⟨[' '], by simp [isspace], by simp, rfl⟩, rfl, rfl⟩
  | CDiv =>
    have hread := readInt_tag st.is st.token ws ['3'] tail 3 hr
      (by rw [hin]; simp [CExpr.print]) hws (by decide) (by simp) (by decide) (by decide)
    have hl : loadExpression fuel u pos st = Except.ok
        { st with is := IStream.after (' ' :: tail), token := 3,
                  m_Excel := pushBack st.m_Excel pos CExpr.CDiv } := by
      unfold loadExpression
      dsimp only
      rw [hread]
      dsimp only
      rw [if_neg (show ¬ ((3 : Int) = 0) by decide)]
      rw [if_neg (show ¬ ((3 : Int) = 1) by decide)]
      rw [if_neg (show ¬ ((3 : Int) = 2) by decide)]
      rw [if_pos rfl]
    exact ⟨_, hl, rfl, ⟨[' '], by simp [isspace], by simp, rfl⟩, rfl, rfl⟩
  | CPow =>
    have hread := readInt_tag st.is st.token ws ['4'] tail 4 hr
      (by rw [hin]; simp [CExpr.print]) hws (by decide) (by simp) (by decide) (by decide)
    have hl : loadExpression fuel u pos st = Except.ok
        { st with is := IStream.after (' ' :: tail), token := 4,
                  m_Excel := pushBack st.m_Excel pos CExpr.CPow } := by
      unfold loadExpression
      dsimp only
      rw [hread]
      dsimp only
      rw [if_neg (show ¬ ((4 : Int) = 0) by decide)]
      rw [if_neg (show ¬ ((4 : Int) = 1) by decide)]
      rw [if_neg (show ¬ ((4 : Int) = 2) by decide)]
      rw [if_neg (show ¬ ((4 : Int) = 3) by decide)]
      rw [if_pos rfl]
    exact ⟨_, hl, rfl, ⟨[' '], by simp [isspace], by simp, rfl⟩, rfl, rfl⟩
  | CNeg =>
    have hread := readInt_tag st.is st.token ws ['5'] tail 5 hr
      (by rw [hin]; simp [CExpr.print]) hws (by decide) (by simp) (by decide) (by decide)
    have hl : loadExpression fuel u pos st = Except.ok
        { st with is := IStream.after (' ' :: tail), token := 5,
                  m_Excel := pushBack st.m_Excel pos CExpr.CNeg } := by
      unfold loadExpression
      dsimp only
      rw [hread]
      dsimp only
      rw [if_neg (show ¬ ((5 : Int) = 0) by decide)]
      rw [if_neg (show ¬ ((5 : Int) = 1) by decide)]
      rw [if_neg (show ¬ ((5 : Int) = 2) by decide)]
      rw [if_neg (show ¬ ((5 : Int) = 3) by decide)]
      rw [if_neg (show ¬ ((5 : Int) = 4) by decide)]
      rw [if_pos rfl]
    exact ⟨_, hl, rfl, ⟨[' '], by simp [isspace], by simp, rfl⟩, rfl, rfl⟩
  | CEq =>
    have hread := readInt_tag st.is st.token ws ['6'] tail 6 hr
      (by rw [hin]; simp [CExpr.print]) hws (by decide) (by simp) (by decide) (by decide)
    have hl : loadExpression fuel u pos st = Except.ok
        { st with is := IStream.after (' ' :: tail), token := 6,
                  m_Excel := pushBack st.m_Excel pos CExpr.CEq } := by
      unfold loadExpression
      dsimp only
      rw [hread]
      dsimp only
      rw [if_neg (show ¬ ((6 : Int) = 0) by decide)]
      rw [if_neg (show ¬ ((6 : Int) = 1) by decide)]
      rw [if_neg (show ¬ ((6 : Int) = 2) by decide)]
      rw [if_neg (show ¬ ((6 : Int) = 3) by decide)]
      rw [if_neg (show ¬ ((6 : Int) = 4) by decide)]
      rw [if_neg (show ¬ ((6 : Int) = 5) by decide)]
      rw [if_pos rfl]
    exact ⟨_, hl, rfl, ⟨[' '], by simp [isspace], by simp, rfl⟩, rfl, rfl⟩
  | CNe =>
    have hread := readInt_tag st.is st.token ws ['7'] tail 7 hr
      (by rw [hin]; simp [CExpr.print]) hws (by decide) (by simp) (by decide) (by decide)
    have hl : loadExpression fuel u pos st = Except.ok
        { st with is := IStream.after (' ' :: tail), token := 7,
                  m_Excel := pushBack st.m_Excel pos CExpr.CNe } := by
      unfold loadExpression
      dsimp only
      rw [hread]
      dsimp only
      rw [if_neg (show ¬ ((7 : Int) = 0) by decide)]
      rw [if_neg (show ¬ ((7 : Int) = 1) by decide)]
      rw [if_neg (show ¬ ((7 : Int) = 2) by decide)]
      rw [if_neg (show ¬ ((7 : Int) = 3) by decide)]
      rw [if_neg (show ¬ ((7 : Int) = 4) by decide)]
      rw [if_neg (show ¬ ((7 : Int) = 5) by decide)]
      rw [if_neg (show ¬ ((7 : Int) = 6) by decide)]
      rw [if_pos rfl]
    exact ⟨_, hl, rfl, ⟨[' '], by simp [isspace], by simp, rfl⟩, rfl, rfl⟩
  | CLt =>
    have hread := readInt_tag st.is st.token ws ['8'] tail 8 hr
      (by rw [hin]; simp [CExpr.print]) hws (by decide) (by simp) (by decide) (by decide)
    have hl : loadExpression fuel u pos st = Except.ok
        { st with is := IStream.after (' ' :: tail), token := 8,
                  m_Excel := pushBack st.m_Excel pos CExpr.CLt } := by
      unfold loadExpression
      dsimp only
      rw [hread]
      dsimp only
      rw [if_neg (show ¬ ((8 : Int) = 0) by decide)]
      rw [if_neg (show ¬ ((8 : Int) = 1) by decide)]
      rw [if_neg (show ¬ ((8 : Int) = 2) by decide)]
      rw [if_neg (show ¬ ((8 : Int) = 3) by decide)]
      rw [if_neg (show ¬ ((8 : Int) = 4) by decide)]
      rw [if_neg (show ¬ ((8 : Int) = 5) by decide)]
      rw [if_neg (show ¬ ((8 : Int) = 6) by decide)]
      rw [if_neg (show ¬ ((8 : Int) = 7) by decide)]
      rw [if_pos rfl]
    exact ⟨_, hl, rfl, ⟨[' '], by simp [isspace], by simp, rfl⟩, rfl, rfl⟩
  | CLe =>
    have hread := readInt_tag st.is st.token ws ['9'] tail 9 hr
      (by rw [hin]; simp [CExpr.print]) hws (by decide) (by simp) (by decide) (by decide)
    have hl : loadExpression fuel u pos st = Except.ok
        { st with is := IStream.after (' ' :: tail), token := 9,
                  m_Excel := pushBack st.m_Excel pos CExpr.CLe } := by
      unfold loadExpression
      dsimp only
      rw [hread]
      dsimp only
      rw [if_neg (show ¬ ((9 : Int) = 0) by decide)]
      rw [if_neg (show ¬ ((9 : Int) = 1) by decide)]
      rw [if_neg (show ¬ ((9 : Int) = 2) by decide)]
      rw [if_neg (show ¬ ((9 : Int) = 3) by decide)]
      rw [if_neg (show ¬ ((9 : Int) = 4) by decide)]
      rw [if_neg (show ¬ ((9 : Int) = 5) by decide)]
      rw [if_neg (show ¬ ((9 : Int) = 6) by decide)]
      rw [if_neg (show ¬ ((9 : Int) = 7) by decide)]
      rw [if_neg (show ¬ ((9 : Int) = 8) by decide)]
      rw [if_pos rfl]
    exact ⟨_, hl, rfl, ⟨[' '], by simp [isspace], by simp, rfl⟩, rfl, rfl⟩
  | CGt =>
    have hread := readInt_tag st.is st.token ws ['1', '0'] tail 10 hr
      (by rw [hin]; simp [CExpr.print]) hws (by decide) (by simp) (by decide) (by decide)
    have hl : loadExpression fuel u pos st = Except.ok
        { st with is := IStream.after (' ' :: tail), token := 10,
                  m_Excel := pushBack st.m_Excel pos CExpr.CGt } := by
      unfold loadExpression
      dsimp only
      rw [hread]
      dsimp only
      rw [if_neg (show ¬ ((10 : Int) = 0) by decide)]
      rw [if_neg (show ¬ ((10 : Int) = 1) by decide)]
      rw [if_neg (show ¬ ((10 : Int) = 2) by decide)]
      rw [if_neg (show ¬ ((10 : Int) = 3) by decide)]
      rw [if_neg (show ¬ ((10 : Int) = 4) by decide)]
      rw [if_neg (show ¬ ((10 : Int) = 5) by decide)]
      rw [if_neg (show ¬ ((10 : Int) = 6) by decide)]
      rw [if_neg (show ¬ ((10 : Int) = 7) by decide)]
      rw [if_neg (show ¬ ((10 : Int) = 8) by decide)]
      rw [if_neg (show ¬ ((10 : Int) = 9) by decide)]
      rw [if_pos rfl]
    exact ⟨_, hl, rfl, ⟨[' '], by simp [isspace], by simp, rfl⟩, rfl, rfl⟩
  | CGe =>
    have hread := readInt_tag st.is st.token ws ['1', '1'] tail 11 hr
      (by rw [hin]; simp [CExpr.print]) hws (by decide) (by simp) (by decide) (by decide)
    have hl : loadExpression fuel u pos st = Except.ok
        { st with is := IStream.after (' ' :: tail), token := 11,
                  m_Excel := pushBack st.m_Excel pos CExpr.CGe } := by
      unfold loadExpression
      dsimp only
      rw [hread]
      dsimp only
      rw [if_neg (show ¬ ((11 : Int) = 0) by decide)]
      rw [if_neg (show ¬ ((11 : Int) = 1) by decide)]
      rw [if_neg (show ¬ ((11 : Int) = 2) by decide)]
      rw [if_neg (show ¬ ((11 : Int) = 3) by decide)]
      rw [if_neg (show ¬ ((11 : Int) = 4) by decide)]
      rw [if_neg (show ¬ ((11 : Int) = 5) by decide)]
      rw [if_neg (show ¬ ((11 : Int) = 6) by decide)]
      rw [if_neg (show ¬ ((11 : Int) = 7) by decide)]
      rw [if_neg (show ¬ ((11 : Int) = 8) by decide)]
      rw [if_neg (show ¬ ((11 : Int) = 9) by decide)]
      rw [if_neg (show ¬ ((11 : Int) = 10) by decide)]
      rw [if_pos rfl]
    exact ⟨_, hl, rfl, ⟨[' '], by simp [isspace], by simp, rfl⟩, rfl, rfl⟩
  | CNumber x =>
    have hread := readInt_tag st.is st.token ws ['1', '2']
      (DoubleOps.print x ++ ' ' :: tail) 12 hr
      (by rw [hin]; simp [CExpr.print]) hws (by decide) (by simp) (by decide) (by decide)
    have hnum := hs tail u.number
    have hl : loadExpression fuel u pos st = Except.ok
        { st with is := IStream.after (' ' :: tail), token := 12,
                  m_Excel := pushBack st.m_Excel pos (CExpr.CNumber x) } := by
      unfold loadExpression
      dsimp only
      rw [hread]
      dsimp only
      rw [if_neg (show ¬ ((12 : Int) = 0) by decide)]
      rw [if_neg (show ¬ ((12 : Int) = 1) by decide)]
      rw [if_neg (show ¬ ((12 : Int) = 2) by decide)]
      rw [if_neg (show ¬ ((12 : Int) = 3) by decide)]
      rw [if_neg (show ¬ ((12 : Int) = 4) by decide)]
      rw [if_neg (show ¬ ((12 : Int) = 5) by decide)]
      rw [if_neg (show ¬ ((12 : Int) = 6) by decide)]
      rw [if_neg (show ¬ ((12 : Int) = 7) by decide)]
      rw [if_neg (show ¬ ((12 : Int) = 8) by decide)]
      rw [if_neg (show ¬ ((12 : Int) = 9) by decide)]
      rw [if_neg (show ¬ ((12 : Int) = 10) by decide)]
      rw [if_neg (show ¬ ((12 : Int) = 11) by decide)]
      rw [if_pos rfl]
      have hd : IStream.readDouble (IStream.after (' ' :: (DoubleOps.print x ++ ' ' :: tail)))
          u.number = (IStream.after (' ' :: tail), x) := hnum
      rw [hd]
    exact ⟨_, hl, rfl, ⟨[' '], by simp [isspace], by simp, rfl⟩, rfl, rfl⟩
  | CString s =>
    have hread := readInt_tag st.is st.token ws ['1', '3']
      (s ++ ' ' :: ("endOfString".toList ++ ' ' :: tail)) 13 hr
      (by rw [hin]; simp [CExpr.print]) hws (by decide) (by simp) (by decide) (by decide)
    have hlen : (' ' :: (s ++ ' ' :: ("endOfString".toList ++ ' ' :: tail))).length < fuel := by
      have : st.is.input.length
          = ws.length + 3
            + (' ' :: (s ++ ' ' :: ("endOfString".toList ++ ' ' :: tail))).length := by
        rw [hin]
        simp [CExpr.print]
        omega
      omega
    have hloop := readUntilEndOfString_print fuel
      (IStream.after (' ' :: (s ++ ' ' :: ("endOfString".toList ++ ' ' :: tail)))) [] []
      (' ' :: s) tail (ready_after _) rfl (by rw [tokens_cons_space]; exact hs) hlen
    have hww : withoutWhitespace (' ' :: s) = withoutWhitespace s := by
      simp [withoutWhitespace, isspace]
    rw [hww, List.nil_append] at hloop
    have hl : loadExpression fuel u pos st = Except.ok
        { st with is := IStream.after (' ' :: tail), token := 13,
                  tmp := "endOfString".toList,
                  m_Excel := pushBack st.m_Excel pos (CExpr.CString (withoutWhitespace s)) } := by
      unfold loadExpression
      dsimp only
      rw [hread]
      dsimp only
      rw [if_neg (show ¬ ((13 : Int) = 0) by decide)]
      rw [if_neg (show ¬ ((13 : Int) = 1) by decide)]
      rw [if_neg (show ¬ ((13 : Int) = 2) by decide)]
      rw [if_neg (show ¬ ((13 : Int) = 3) by decide)]
      rw [if_neg (show ¬ ((13 : Int) = 4) by decide)]
      rw [if_neg (show ¬ ((13 : Int) = 5) by decide)]
      rw [if_neg (show ¬ ((13 : Int) = 6) by decide)]
      rw [if_neg (show ¬ ((13 : Int) = 7) by decide)]
      rw [if_neg (show ¬ ((13 : Int) = 8) by decide)]
      rw [if_neg (show ¬ ((13 : Int) = 9) by decide)]
      rw [if_neg (show ¬ ((13 : Int) = 10) by decide)]
      rw [if_neg (show ¬ ((13 : Int) = 11) by decide)]
      rw [if_neg (show ¬ ((13 : Int) = 12) by decide)]
      rw [if_pos rfl, hloop]
    exact ⟨_, hl, rfl, ⟨[' '], by simp [isspace], by simp, rfl⟩, rfl, rfl⟩
  | CReference p =>
    obtain ⟨t1, t2, t3⟩ := text_token p hs
    have hread := readInt_tag st.is st.token ws ['1', '4']
      (' ' :: ("CPos".toList ++ ' ' :: (p.text ++ tail))) 14 hr
      (by rw [hin]; simp [CExpr.print, CPos.print]) hws (by decide) (by simp) (by decide)
      (by decide)
    have hr1 := readString_token
      (IStream.after (' ' :: ' ' :: ("CPos".toList ++ ' ' :: (p.text ++ tail)))) st.tmp
      [' ', ' '] "CPos".toList (' ' :: (p.text ++ tail)) (ready_after _) (by simp [IStream.after])
      (by simp [isspace]) (by decide) (by simp) (by simp [isspace])
    have hr2 := readString_token (IStream.after (' ' :: (p.text ++ tail))) "CPos".toList
      [' '] p.text tail (ready_after _) (by simp [IStream.after])
      (by simp [isspace]) t2 t1 htail
    have hl : loadExpression fuel u pos st = Except.ok
        { st with is := IStream.after tail, token := 14, tmp := p.text,
                  m_Excel := pushBack st.m_Excel pos (CExpr.CReference p) } := by
      unfold loadExpression
      dsimp only
      rw [hread]
      dsimp only
      rw [if_neg (show ¬ ((14 : Int) = 0) by decide)]
      rw [if_neg (show ¬ ((14 : Int) = 1) by decide)]
      rw [if_neg (show ¬ ((14 : Int) = 2) by decide)]
      rw [if_neg (show ¬ ((14 : Int) = 3) by decide)]
      rw [if_neg (show ¬ ((14 : Int) = 4) by decide)]
      rw [if_neg (show ¬ ((14 : Int) = 5) by decide)]
      rw [if_neg (show ¬ ((14 : Int) = 6) by decide)]
      rw [if_neg (show ¬ ((14 : Int) = 7) by decide)]
      rw [if_neg (show ¬ ((14 : Int) = 8) by decide)]
      rw [if_neg (show ¬ ((14 : Int) = 9) by decide)]
      rw [if_neg (show ¬ ((14 : Int) = 10) by decide)]
      rw [if_neg (show ¬ ((14 : Int) = 11) by decide)]
      rw [if_neg (show ¬ ((14 : Int) = 12) by decide)]
      rw [if_neg (show ¬ ((14 : Int) = 13) by decide)]
      rw [if_pos rfl, hr1]
      dsimp only
      rw [hr2]
      dsimp only
      rw [t3]
    exact ⟨_, hl, rfl, ⟨[], by simp, by simp, rfl⟩, rfl, rfl⟩

end ReadBack

/-! ## Reading back what save wrote: the records -/

section ReadBackRecords

variable {D : Type} [DoubleOps D]

theorem print_head (e : CExpr D) : ∃ b, e.print = ' ' :: b := by
  cases e <;> exact ⟨_, rfl⟩

theorem prints_head (es : Expressions D) (tail : List Char)
    (htail : ∀ c ∈ tail.head?, isspace c = true) :
    ∀ c ∈ ((es.map CExpr.print).flatten ++ tail).head?, isspace c = true := by
  cases es with
  | nil => simpa using htail
  | cons e es =>
    obtain ⟨b, hb⟩ := print_head e
    intro c hc
    simp only [List.map_cons, List.flatten_cons, hb, List.cons_append, List.head?_cons,
      Option.mem_def, Option.some.injEq] at hc
    rw [← hc]; rfl

/-- The loop over the expressions of a record, on what `save` wrote for them: the
expressions are read back in their order, up to the whitespace of the texts. -/
theorem loadExpressions_print (fuel : Nat) (u : Uninitialised D) (pos : CPos) :
    ∀ (es : Expressions D) (st : LoadState D) (ws tail : List Char), st.is.Ready →
      st.is.input = ws ++ (es.map CExpr.print).flatten ++ tail →
      (∀ c ∈ ws, isspace c = true) → (∀ e ∈ es, e.Saveable) →
      (∀ c ∈ tail.head?, isspace c = true) → st.is.input.length < fuel →
      ∃ st1, loadExpressions fuel u pos es.length st = Except.ok st1 ∧
        (∀ k, mapGet st1.m_Excel k
          = if CPos.same pos k = true then mapGet st.m_Excel k ++ es.map CExpr.loaded
            else mapGet st.m_Excel k) ∧
        st1.is.Ready ∧
        (∃ ws1, (∀ c ∈ ws1, isspace c = true) ∧ st1.is.input = ws1 ++ tail) ∧
        st1.is.input.length ≤ st.is.input.length := by
  intro es
  induction es with
  | nil =>
    intro st ws tail hr hin hws _ _ _
    refine ⟨st, rfl, ?_, hr, ⟨ws, hws, by simpa using hin⟩, le_refl _⟩
    intro k
    split <;> simp
  | cons e es ih =>
    intro st ws tail hr hin hws hes htail hf
    have hin1 : st.is.input = ws ++ e.print ++ ((es.map CExpr.print).flatten ++ tail) := by
      rw [hin]; simp
    obtain ⟨st1, h1, h2, ⟨ws1, hws1, hl1, h3⟩, -, -⟩ := loadExpression_print fuel u pos st e ws
      ((es.map CExpr.print).flatten ++ tail) hr hin1 hws (hes e (List.mem_cons_self _ _))
      (prints_head es tail htail) hf
    have hr1 : st1.is.Ready := by rw [h3]; exact ready_after _
    have hi1 : st1.is.input = ws1 ++ (es.map CExpr.print).flatten ++ tail := by
      rw [h3]; simp [IStream.after]
    have hle : st1.is.input.length ≤ st.is.input.length := by
      obtain ⟨b, hb⟩ := print_head e
      rw [hi1, hin1, hb]
      simp only [List.length_append, List.length_cons]
      omega
    obtain ⟨st2, g1, g2, g3, g4, g5⟩ := ih st1 ws1 tail hr1 hi1 hws1
      (fun e he => hes e (List.mem_cons_of_mem _ he)) htail (by omega)
    refine ⟨st2, ?_, ?_, g3, g4, by omega⟩
    · simp only [List.length_cons, loadExpressions, h1]
      exact g1
    · intro k
      rw [g2 k, h2, mapGet_pushBack]
      by_cases hk : CPos.same pos k = true
      · simp [hk]
      · simp [hk]

theorem saveRecord_head (r : CPos × Expressions D) (tail : List Char) :
    ∀ c ∈ (saveRecord r ++ tail).head?, isspace c = true := by
  intro c hc
  have : saveRecord r ++ tail = ' ' :: ("CPos ".toList ++ r.1.text ++ " VectorLen ".toList
      ++ Nat.toDigits 10 r.2.length ++ " ".toList ++ (r.2.map CExpr.print).flatten ++ tail) := by
    simp [saveRecord]
  rw [this] at hc
  simp only [List.head?_cons, Option.mem_def, Option.some.injEq] at hc
  rw [← hc]; rfl

theorem saveRecords_head (recs : List (CPos × Expressions D)) :
    ∀ c ∈ ((recs.map saveRecord).flatten).head?, isspace c = true := by
  cases recs with
  | nil => simp
  | cons r recs =>
    rw [List.map_cons, List.flatten_cons]
    exact saveRecord_head r _

theorem toDigits_digits (n : Nat) :
    Nat.toDigits 10 n ≠ [] ∧ (∀ c ∈ Nat.toDigits 10 n, c.isDigit = true) ∧
      digitsValue (Nat.toDigits 10 n) = n := by
  obtain ⟨ds, d1, d2, d3, d4⟩ := printInt_digits n
  have hp : CPos.printInt (n : Int) = Nat.toDigits 10 n := by
    unfold CPos.printInt
    rw [if_neg (by omega), Int.toNat_ofNat]
  rw [← hp, d4]
  exact ⟨d1, d2, d3⟩

/-- One round of the loop `while (is >> tmp)` of `load`, on a record that `save` wrote:
the expressions of the record are appended to the cell of its position. -/
theorem loadRecord_saved (bound : Nat) (u : Uninitialised D) (st : LoadState D)
    (r : CPos × Expressions D) (ws tail : List Char) (hr : st.is.Ready)
    (hin : st.is.input = ws ++ saveRecord r ++ tail) (hws : ∀ c ∈ ws, isspace c = true)
    (hkey : r.1.Renders) (hlen : r.2.length ≤ 2147483647) (hes : ∀ e ∈ r.2, e.Saveable)
    (htail : ∀ c ∈ tail.head?, isspace c = true) (hb : st.is.input.length < bound) :
    (st.is.readString st.tmp).1.fail = false ∧
    ∃ st1, loadRecord bound u
        { st with is := (st.is.readString st.tmp).1, tmp := (st.is.readString st.tmp).2 }
          = Except.ok st1 ∧
      (∀ k, mapGet st1.m_Excel k
        = if CPos.same r.1 k = true then mapGet st.m_Excel k ++ r.2.map CExpr.loaded
          else mapGet st.m_Excel k) ∧
      st1.is.Ready ∧
      (∃ ws1, (∀ c ∈ ws1, isspace c = true) ∧ st1.is.input = ws1 ++ tail) ∧
      st1.is.input.length < st.is.input.length := by
  obtain ⟨key, es⟩ := r
  dsimp only at hkey hlen hes
  obtain ⟨t1, t2, t3⟩ := text_token key hkey
  obtain ⟨n1, n2, n3⟩ := toDigits_digits es.length
  -- the marker `CPos`
  have hm : st.is.readString st.tmp
      = (IStream.after (' ' :: (key.text ++ (' ' :: ("VectorLen".toList
          ++ ' ' :: (Nat.toDigits 10 es.length
            ++ ' ' :: ((es.map CExpr.print).flatten ++ tail)))))), "CPos".toList) :=
    readString_token st.is st.tmp (ws ++ [' ']) "CPos".toList _ hr
      (by rw [hin]; simp [saveRecord])
      (by
        intro c hc
        rcases List.mem_append.mp hc with hc | hc
        · exact hws c hc
        · rw [List.mem_singleton] at hc; rw [hc]; rfl)
      (by decide) (by simp) (by simp [isspace])
  -- the position
  have hp := readString_token
    (IStream.after (' ' :: (key.text ++ (' ' :: ("VectorLen".toList
      ++ ' ' :: (Nat.toDigits 10 es.length
        ++ ' ' :: ((es.map CExpr.print).flatten ++ tail)))))))
    st.position [' '] key.text
    (' ' :: ("VectorLen".toList ++ ' ' :: (Nat.toDigits 10 es.length
        ++ ' ' :: ((es.map CExpr.print).flatten ++ tail))))
    (ready_after _) (by simp [IStream.after]) (by simp [isspace]) t2 t1 (by simp [isspace])
  -- the marker `VectorLen`
  have hv := readString_token
    (IStream.after (' ' :: ("VectorLen".toList ++ ' ' :: (Nat.toDigits 10 es.length
        ++ ' ' :: ((es.map CExpr.print).flatten ++ tail)))))
    "CPos".toList [' '] "VectorLen".toList
    (' ' :: (Nat.toDigits 10 es.length ++ ' ' :: ((es.map CExpr.print).flatten ++ tail)))
    (ready_after _) (by simp [IStream.after]) (by simp [isspace]) (by decide) (by simp)
    (by simp [isspace])
  -- the count
  have hc := readInt_digits
    (IStream.after (' ' :: (Nat.toDigits 10 es.length
      ++ ' ' :: ((es.map CExpr.print).flatten ++ tail))))
    st.vectorLen [' '] (Nat.toDigits 10 es.length)
    (' ' :: ((es.map CExpr.print).flatten ++ tail))
    (ready_after _) (by simp [IStream.after]) (by simp [isspace]) n2 n1 (by simp)
    (by rw [n3]; exact hlen)
  rw [n3] at hc
  have hlen0 : st.is.input.length
      = ws.length + 6 + key.text.length + 11 + (Nat.toDigits 10 es.length).length + 1
        + ((es.map CExpr.print).flatten ++ tail).length := by
    rw [hin]
    simp [saveRecord]
    omega
  -- the expressions
  obtain ⟨st1, g1, g2, g3, g4, g5⟩ := loadExpressions_print bound u key es
    { st with
      is := IStream.after (' ' :: ((es.map CExpr.print).flatten ++ tail))
      position := key.text, tmp := "VectorLen".toList, vectorLen := (es.length : Int) }
    [' '] tail (ready_after _) (by simp [IStream.after]) (by simp [isspace]) hes htail
    (by
      show (' ' :: ((es.map CExpr.print).flatten ++ tail)).length < bound
      simp only [List.length_cons]
      omega)
  refine ⟨by rw [hm]; rfl, st1, ?_, g2, g3, g4, ?_⟩
  · rw [hm]
    unfold loadRecord
    dsimp only
    rw [if_neg (by decide), hp]
    dsimp only
    rw [t3]
    dsimp only
    rw [hv]
    dsimp only
    rw [if_neg (by decide), hc]
    dsimp only
    rw [Int.toNat_ofNat]
    exact g1
  · have : st1.is.input.length ≤ (' ' :: ((es.map CExpr.print).flatten ++ tail)).length := g5
    simp only [List.length_cons] at this
    omega

/-- The loop `while (is >> tmp)` of `load` on records that `save` wrote: `load` returns
`true`, and each cell has the expressions of the records of its position appended. -/
theorem loadRecords_saved (bound : Nat) (u : Uninitialised D) :
    ∀ (recs : List (CPos × Expressions D)) (fuel : Nat) (st : LoadState D) (ws : List Char),
      st.is.Ready → st.is.input = ws ++ (recs.map saveRecord).flatten →
      (∀ c ∈ ws, isspace c = true) →
      (∀ r ∈ recs, r.1.Renders ∧ r.2.length ≤ 2147483647 ∧ ∀ e ∈ r.2, e.Saveable) →
      st.is.input.length < bound → recs.length < fuel →
      ∃ m, loadRecords bound u fuel st true = LoadResult.returned true m ∧
        ∀ k, mapGet m k = mapGet st.m_Excel k
          ++ ((recs.filter (fun r => CPos.same r.1 k)).map
                (fun r => r.2.map CExpr.loaded)).flatten := by
  intro recs
  induction recs with
  | nil =>
    intro fuel st ws hr hin hws _ _ hf
    obtain ⟨fuel, rfl⟩ : ∃ f, fuel = f + 1 := ⟨fuel - 1, by simp at hf; omega⟩
    refine ⟨st.m_Excel, ?_, by simp⟩
    have hread : st.is.readString st.tmp
        = ({ input := [], failbit := true, eofbit := true }, st.tmp) := by
      rw [readString_ready st.is st.tmp hr]
      have : st.is.input.dropWhile isspace = [] := by
        rw [List.dropWhile_eq_nil_iff, hin]
        simpa using hws
      rw [this]
      rfl
    rw [loadRecords_succ, hread]
    rfl
  | cons r recs ih =>
    intro fuel st ws hr hin hws hall hb hf
    obtain ⟨fuel, rfl⟩ : ∃ f, fuel = f + 1 := ⟨fuel - 1, by simp at hf; omega⟩
    obtain ⟨hk, hl, he⟩ := hall r (List.mem_cons_self _ _)
    obtain ⟨hfail, st1, h1, h2, h3, ⟨ws1, hws1, h4⟩, h5⟩ := loadRecord_saved bound u st r ws
      ((recs.map saveRecord).flatten) hr (by rw [hin]; simp) hws hk hl he
      (saveRecords_head recs) hb
    obtain ⟨m, g1, g2⟩ := ih fuel st1 ws1 h3 h4 hws1
      (fun r hr => hall r (List.mem_cons_of_mem _ hr)) (by omega)
      (by simp only [List.length_cons] at hf; omega)
    refine ⟨m, ?_, ?_⟩
    · rw [loadRecords_succ, if_neg (by rw [hfail]; simp), h1]
      dsimp only
      have : st1.is.fail = false := h3.1
      rw [this]
      exact g1
    · intro k
      rw [g2 k, h2 k]
      by_cases hs : CPos.same r.1 k = true
      · simp [List.filter_cons, hs]
      · simp [List.filter_cons, hs]

end ReadBackRecords

/-! ## The round trip through save and load -/

theorem ratPrint_one : ratPrint (1 : ℚ) = ['1'] := by
  have hd : Nat.toDigits 10 1 = ['1'] := by decide
  have he : ratExp10 |(1 : ℚ)| = 0 := by
    unfold ratExp10
    simp [hd]
  have hm : roundHalfEven (|(1 : ℚ)| / (10 : ℚ) ^ ((0 : Int) - 5)) = 100000 := by
    have : |(1 : ℚ)| / (10 : ℚ) ^ ((0 : Int) - 5) = ((100000 : Nat) : ℚ) := by
      norm_num
    rw [this, roundHalfEven_natCast]
  have hds : Nat.toDigits 10 100000 = ['1', '0', '0', '0', '0', '0'] := by decide
  have h0 : Nat.digitChar 0 = '0' := rfl
  unfold ratPrint
  simp only [he, hm]
  simp [hds, stripTrailingZeros, List.dropWhile, h0]

/-- The number 1 is written as `1` and read back as 1. -/
theorem numberReadsBack_one : NumberReadsBack (1 : ℚ) := by
  intro rest y
  show IStream.readDouble
    { input := ' ' :: (ratPrint 1 ++ ' ' :: rest), failbit := false, eofbit := false } y = _
  rw [ratPrint_one]
  have hr : ratRead ('1' :: ' ' :: rest) = some ((1 : ℚ), 1) := by
    simp [ratRead, ratReadRest, digitsValue, rowStep, List.takeWhile, List.dropWhile]
  simp [IStream.readDouble, IStream.sentry, isspace, List.dropWhile, DoubleOps.read, hr,
    DoubleOps.zero]

theorem tokens_nil : tokens [] = [] := by
  rw [tokens_eq]; rfl

/-- A string without whitespace is no token or one token. -/
theorem tokens_of_token (s : List Char) (h : ∀ c ∈ s, isspace c = false) :
    tokens s = if s.isEmpty then [] else [s] := by
  cases s with
  | nil => exact tokens_nil
  | cons a t =>
    have ha := h a (List.mem_cons_self _ _)
    have h1 : (a :: t).dropWhile isspace = a :: t := by
      simp [List.dropWhile_cons, ha]
    have h' : ∀ c ∈ a :: t, (fun c => !isspace c) c = true := fun c hc => by
      simp [h c hc]
    have h2 := takeWhile_append_all (fun c => !isspace c) (a :: t) [] h'
    have h3 := dropWhile_append_all (fun c => !isspace c) (a :: t) [] h'
    simp only [List.append_nil, List.takeWhile_nil, List.dropWhile_nil] at h2 h3
    rw [tokens_eq, h1, h2, h3, tokens_nil]

section RoundTrip

variable {D : Type} [DoubleOps D]

/-- An expression within the limits that the format states, whose reference is rendered
with its letters, is written so that it is read back as it is. -/
theorem saveable_of_limits (e : CExpr D) (h : e.WithinStatedLimits)
    (href : ∀ p, e = CExpr.CReference p → p.Renders) : e.Saveable ∧ e.loaded = e := by
  cases e with
  | CNumber x => exact ⟨h, rfl⟩
  | CString s =>
    obtain ⟨h1, h2⟩ := h
    refine ⟨?_, ?_⟩
    · show "endOfString".toList ∉ tokens s
      rw [tokens_of_token s h1]
      split
      · simp
      · intro hmem
        rw [List.mem_singleton] at hmem
        exact h2 hmem.symm
    · show CExpr.CString (withoutWhitespace s) = CExpr.CString s
      rw [withoutWhitespace_of_token s h1]
  | CReference p => exact ⟨href p rfl, rfl⟩
  | _ => exact ⟨trivial, rfl⟩

omit [DoubleOps D] in
/-- In a list with strictly increasing keys, one entry at most has a given position. -/
theorem filter_same_of_pairwise (l : List (CPos × Expressions D))
    (hl : List.Pairwise (fun a b => CPos.lt a.1 b.1 = true) l) (e : CPos × Expressions D)
    (he : e ∈ l) (k : CPos) (hs : CPos.same e.1 k = true) :
    l.filter (fun r => CPos.same r.1 k) = [e] := by
  induction l with
  | nil => simp at he
  | cons a t ih =>
    rw [List.pairwise_cons] at hl
    rw [List.mem_cons] at he
    rcases he with rfl | he
    · have hnil : t.filter (fun r => CPos.same r.1 k) = [] := by
        rw [List.filter_eq_nil_iff]
        intro b hb hbs
        have hlt := hl.1 b hb
        rw [lt_iff] at hlt
        rw [same_iff] at hs hbs
        omega
      rw [List.filter_cons, if_pos hs, hnil]
    · have hlt := hl.1 e he
      have hna : ¬ CPos.same a.1 k = true := by
        intro has
        rw [lt_iff] at hlt
        rw [same_iff] at hs has
        omega
      rw [List.filter_cons, if_neg hna]
      exact ih hl.2 he

omit [DoubleOps D] in
/-- The records of a position, taken together, are what the position holds. -/
theorem records_at (m : CellMap D) (hm : IsMap m) (f : Expressions D → Expressions D)
    (hf : f [] = []) (k : CPos) :
    (((nonEmptyEntries m).filter (fun r => CPos.same r.1 k)).map (fun r => f r.2)).flatten
      = f (mapGet m k) := by
  by_cases h : mapGet m k = []
  · have hnil : (nonEmptyEntries m).filter (fun r => CPos.same r.1 k) = [] := by
      rw [List.filter_eq_nil_iff]
      intro r hr hrs
      obtain ⟨g1, g2⟩ := mapGet_of_nonEmptyEntry m hm r hr
      rw [mapGet_congr hrs, h] at g1
      exact g2 g1.symm
    rw [hnil, h, hf]
    rfl
  · obtain ⟨e, he, hs, hv⟩ := (mapGet_ne_nil_iff m k).1 h
    rw [filter_same_of_pairwise _ (nonEmptyEntries_pairwise m hm) e he k hs, ← hv]
    simp

theorem records_length (recs : List (CPos × Expressions D)) :
    recs.length ≤ ((recs.map saveRecord).flatten).length := by
  induction recs with
  | nil => simp
  | cons r recs ih =>
    have : 1 ≤ (saveRecord r).length := by
      simp [saveRecord]
    simp only [List.map_cons, List.flatten_cons, List.length_append, List.length_cons]
    omega

/-- What `load` makes of what `save` wrote: it returns `true`, and every position holds
the expressions it held, the texts without their whitespace. -/
theorem load_save_loaded (sheet other : CSpreadsheet D) (u : Uninitialised D)
    (hmap : IsMap sheet.m_Excel)
    (hkeys : ∀ r ∈ sheet.m_Excel, r.2 ≠ [] → r.1.Renders)
    (hsize : ∀ r ∈ sheet.m_Excel, r.2.length < 2147483648)
    (hes : ∀ r ∈ sheet.m_Excel, ∀ e ∈ r.2, e.Saveable) :
    ∃ m, other.load u sheet.save.2 = LoadResult.returned true m ∧
      ∀ k, mapGet m k = (mapGet sheet.m_Excel k).map CExpr.loaded := by
  have hsave : sheet.save.2 = ((nonEmptyEntries sheet.m_Excel).map saveRecord).flatten :=
    saveCells_eq_records sheet.m_Excel hsize
  have hall : ∀ r ∈ nonEmptyEntries sheet.m_Excel,
      r.1.Renders ∧ r.2.length ≤ 2147483647 ∧ ∀ e ∈ r.2, e.Saveable := by
    intro r hr
    unfold nonEmptyEntries at hr
    rw [List.mem_filter] at hr
    obtain ⟨hr1, hr2⟩ := hr
    refine ⟨hkeys r hr1 ?_, ?_, hes r hr1⟩
    · intro h
      rw [h] at hr2
      simp at hr2
    · have := hsize r hr1
      omega
  have hlen := records_length (nonEmptyEntries sheet.m_Excel)
  rw [← hsave] at hlen
  obtain ⟨m, h1, h2⟩ := loadRecords_saved (sheet.save.2.length + 1) u
    (nonEmptyEntries sheet.m_Excel) (sheet.save.2.length + 1)
    { is := { input := sheet.save.2, failbit := false, eofbit := false }
      position := [], tmp := [], vectorLen := u.vectorLen, token := u.token, m_Excel := [] }
    [] (ready_initial _) (by rw [List.nil_append]; exact hsave) (by simp) hall
    (Nat.lt_succ_self _) (by omega)
  refine ⟨m, h1, ?_⟩
  intro k
  rw [h2 k]
  have h0 : mapGet ([] : CellMap D) k = [] := rfl
  show mapGet ([] : CellMap D) k ++ _ = _
  rw [h0, List.nil_append]
  exact records_at sheet.m_Excel hmap (fun es => es.map CExpr.loaded) rfl k

end RoundTrip

/-! ## What load reads for a text -/

/-- Extraction of the tag 13 from a stream that is ready leaves the stream ready, or at
its end with the tag of the round before. -/
theorem readInt_text_tag (is : IStream) (n : Int) (h : is.Ready)
    (h13 : (is.readInt n).2 = 13) :
    ((is.readInt n).1.Ready ∨
      (is.readInt n).1 = { input := [], failbit := true, eofbit := true }) ∧
    (is.readInt n).1.input.length ≤ is.input.length := by
  unfold IStream.readInt at h13 ⊢
  rw [sentry_ready is h] at h13 ⊢
  cases he : (is.input.dropWhile isspace).isEmpty with
  | true =>
    rw [he] at h13
    simp only [if_true]
    exact ⟨Or.inr trivial, Nat.zero_le _⟩
  | false =>
    rw [he] at h13
    simp only [Bool.false_eq_true, if_false] at h13 ⊢
    have hl := length_dropWhile_le' isspace is.input
    split_ifs at h13 ⊢ with c0 c1 c2 c3
    all_goals first
      | (exfalso; revert h13; simp [INT_MIN, INT_MAX]; done)
      | (refine ⟨Or.inl ⟨rfl, ?_⟩, ?_⟩
         · intro hh; simpa using hh
         · have h2 := length_dropWhile_le' Char.isDigit ((is.input.dropWhile isspace).drop 1)
           have h3 := length_dropWhile_le' Char.isDigit (is.input.dropWhile isspace)
           simp only [List.length_drop] at h2
           show (List.dropWhile _ _).length ≤ _
           omega)

theorem readUntilEndOfString_failed (fuel : Nat) (tmp result : List Char) :
    readUntilEndOfString (fuel + 1) { input := [], failbit := true, eofbit := true } tmp result
      = some ({ input := [], failbit := true, eofbit := true }, tmp, result) := rfl

section TextLiteral

variable {D : Type} [DoubleOps D]

/-- Case 13 of `load`: the text that is pushed is the concatenation of the tokens that
come before the first token `endOfString`. -/
theorem loadExpression_text (fuel : Nat) (u : Uninitialised D) (pos : CPos)
    (st : LoadState D) (hr : st.is.Ready) (h13 : (st.is.readInt st.token).2 = 13)
    (hf : st.is.input.length < fuel) :
    ∃ st1, loadExpression fuel u pos st = Except.ok st1 ∧
      st1.m_Excel = pushBack st.m_Excel pos (CExpr.CString
        ((tokens (st.is.readInt st.token).1.input).takeWhile
          (fun t => t != "endOfString".toList)).flatten) := by
  obtain ⟨hcase, hlen⟩ := readInt_text_tag st.is st.token hr h13
  have hloop : ∃ is1 tmp1, readUntilEndOfString fuel (st.is.readInt st.token).1 [] []
      = some (is1, tmp1, ((tokens (st.is.readInt st.token).1.input).takeWhile
          (fun t => t != "endOfString".toList)).flatten) := by
    rcases hcase with hready | hfailed
    · obtain ⟨is1, tmp1, h⟩ := readUntilEndOfString_tokens fuel (st.is.readInt st.token).1
        [] [] hready (by omega)
      exact ⟨is1, tmp1, by rw [h, List.nil_append]⟩
    · obtain ⟨fuel, rfl⟩ : ∃ f, fuel = f + 1 := ⟨fuel - 1, by omega⟩
      rw [hfailed, readUntilEndOfString_failed]
      exact ⟨_, _, by rw [tokens_nil]; rfl⟩
  obtain ⟨is1, tmp1, hloop⟩ := hloop
  have hread : st.is.readInt st.token = ((st.is.readInt st.token).1, 13) := by
    rw [← h13]
  generalize (st.is.readInt st.token).1 = isr at hloop hread
  refine ⟨{ st with is := is1, token := 13, tmp := tmp1,
                    m_Excel := pushBack st.m_Excel pos (CExpr.CString _) }, ?_, rfl⟩
  unfold loadExpression
  dsimp only
  rw [hread]
  dsimp only
  rw [if_neg (show ¬ ((13 : Int) = 0) by decide)]
  rw [if_neg (show ¬ ((13 : Int) = 1) by decide)]
  rw [if_neg (show ¬ ((13 : Int) = 2) by decide)]
  rw [if_neg (show ¬ ((13 : Int) = 3) by decide)]
  rw [if_neg (show ¬ ((13 : Int) = 4) by decide)]
  rw [if_neg (show ¬ ((13 : Int) = 5) by decide)]
  rw [if_neg (show ¬ ((13 : Int) = 6) by decide)]
  rw [if_neg (show ¬ ((13 : Int) = 7) by decide)]
  rw [if_neg (show ¬ ((13 : Int) = 8) by decide)]
  rw [if_neg (show ¬ ((13 : Int) = 9) by decide)]
  rw [if_neg (show ¬ ((13 : Int) = 10) by decide)]
  rw [if_neg (show ¬ ((13 : Int) = 11) by decide)]
  rw [if_neg (show ¬ ((13 : Int) = 12) by decide)]
  rw [if_pos rfl, hloop]

omit [DoubleOps D] in
theorem withoutWhitespace_ne (s : List Char) (h : ∃ c ∈ s, isspace c = true) :
    withoutWhitespace s ≠ s := by
  obtain ⟨c, hc, hs⟩ := h
  intro heq
  rw [← heq] at hc
  unfold withoutWhitespace at hc
  rw [List.mem_filter] at hc
  rw [hs] at hc
  simp at hc

end TextLiteral

/-! ## C35: text literals through save and load -/

section TextRoundTrip

variable {D : Type} [DoubleOps D]

/-- C35, amended. Case 13 of `load` reads a text as the concatenation, with no separator,
of the whitespace-delimited tokens that come before the first token `endOfString`. Hence,
for a sheet that `save` writes so that `load` reads it back (the map keeps its keys
increasing, the positions are rendered with their letters, the vectors have fewer than 2^31
expressions, the numbers are read back, and no text has a token `endOfString`), `load` of
what `save` wrote returns `true` and gives, where the sheet has a text, that text with all
its whitespace removed; for a text that contains whitespace this is not the original. -/
theorem load_reads_text_tokens (sheet other : CSpreadsheet D) (u : Uninitialised D)
    (hmap : IsMap sheet.m_Excel)
    (hkeys : ∀ r ∈ sheet.m_Excel, r.2 ≠ [] → r.1.Renders)
    (hsize : ∀ r ∈ sheet.m_Excel, r.2.length < 2147483648)
    (hes : ∀ r ∈ sheet.m_Excel, ∀ e ∈ r.2, e.Saveable) :
    (∀ (fuel : Nat) (pos : CPos) (st : LoadState D), st.is.Ready →
      (st.is.readInt st.token).2 = 13 → st.is.input.length < fuel →
      ∃ st1, loadExpression fuel u pos st = Except.ok st1 ∧
        st1.m_Excel = pushBack st.m_Excel pos (CExpr.CString
          ((tokens (st.is.readInt st.token).1.input).takeWhile
            (fun t => t != "endOfString".toList)).flatten)) ∧
    ∃ m, other.load u sheet.save.2 = LoadResult.returned true m ∧
      ∀ (k : CPos) (i : Nat) (s : List Char),
        (mapGet sheet.m_Excel k)[i]? = some (CExpr.CString s) →
        (mapGet m k)[i]? = some (CExpr.CString (withoutWhitespace s)) ∧
        ((∃ c ∈ s, isspace c = true) → withoutWhitespace s ≠ s) := by
  refine ⟨fun fuel pos st hr h13 hf => loadExpression_text fuel u pos st hr h13 hf, ?_⟩
  obtain ⟨m, h1, h2⟩ := load_save_loaded sheet other u hmap hkeys hsize hes
  refine ⟨m, h1, ?_⟩
  intro k i s hs
  refine ⟨?_, withoutWhitespace_ne s⟩
  rw [h2 k, List.getElem?_map, hs]
  rfl

end TextRoundTrip

set_option maxRecDepth 100000 in
/-- Witness of C35: the sheet whose cell `A1` holds the text `a b` is saved and loaded;
the cell then holds the text `ab`. -/
theorem load_reads_text_tokens_witness :
    IsMap whitespaceSheet.m_Excel ∧
    (mapGet whitespaceSheet.m_Excel posA1)[0]? = some (CExpr.CString "a b".toList) ∧
    ∃ m, emptySheet.load zeroUninitialised whitespaceSheet.save.2
        = LoadResult.returned true m ∧
      (mapGet m posA1)[0]? = some (CExpr.CString "ab".toList) := by
  have hmap : IsMap whitespaceSheet.m_Excel := by
    unfold IsMap whitespaceSheet
    simp
  obtain ⟨m, h1, h2⟩ := (load_reads_text_tokens whitespaceSheet emptySheet zeroUninitialised
    hmap
    (by
      intro r hr _
      simp only [whitespaceSheet, List.mem_singleton] at hr
      rw [hr]
      exact ⟨by decide, by decide, by decide, by decide⟩)
    (by
      intro r hr
      simp only [whitespaceSheet, List.mem_singleton] at hr
      rw [hr]
      decide)
    (by
      intro r hr e he
      simp only [whitespaceSheet, List.mem_singleton] at hr
      rw [hr] at he
      simp only [List.mem_singleton] at he
      rw [he]
      show "endOfString".toList ∉ tokens ['a', ' ', 'b']
      decide)).2
  exact ⟨hmap, rfl, m, h1, (h2 posA1 0 "a b".toList rfl).1⟩

set_option maxRecDepth 100000 in
/-- C35, counterexample. The text `x endOfString y` contains whitespace. What `save`
writes for it is read by `load` as the text `x`, which is not the original without its
whitespace, and `load` returns `false` at the token `y`. -/
theorem load_cuts_text_at_marker_token :
    markerTextSheet.m_Excel = [(posA1, [CExpr.CString "x endOfString y".toList])] ∧
    markerTextSheet.save
      = (true, " CPos A1 VectorLen 1  13 x endOfString y endOfString ".toList) ∧
    emptySheet.load zeroUninitialised markerTextSheet.save.2
      = LoadResult.returned false [(posA1, [CExpr.CString ['x']])] ∧
    withoutWhitespace "x endOfString y".toList = "xendOfStringy".toList := by
  refine ⟨rfl, by decide, by decide, by decide⟩

/-! ## C34: the round trip of the expressions -/

section ProgramRoundTrip

variable {D : Type} [DoubleOps D]

/-- C34, amended. Round trip of the expressions within the limits of the format and of
`int`: for a sheet whose map keeps its keys increasing, whose positions that hold
expressions have a column from 0 to 2147483646 and a row from 0 to 2147483647, whose
vectors have fewer than 2^31 expressions, and whose expressions are operators, references
with a column from 0 to 2147483646 and a row from 0 to 2147483647, texts without whitespace
other than `endOfString`, and numbers that are read back from what is written for them,
`save` returns `true`, and `load` of what `save` wrote returns `true` and gives at every
position the expressions that the sheet holds there, one by one. -/
theorem save_load_round_trip (sheet other : CSpreadsheet D) (u : Uninitialised D)
    (hmap : IsMap sheet.m_Excel)
    (hkeys : ∀ r ∈ sheet.m_Excel, r.2 ≠ [] → r.1.Renders)
    (hsize : ∀ r ∈ sheet.m_Excel, r.2.length < 2147483648)
    (hlim : ∀ r ∈ sheet.m_Excel, ∀ e ∈ r.2, e.WithinStatedLimits)
    (href : ∀ r ∈ sheet.m_Excel, ∀ p, CExpr.CReference p ∈ r.2 → p.Renders) :
    sheet.save.1 = true ∧
    ∃ m, other.load u sheet.save.2 = LoadResult.returned true m ∧
      ∀ k, mapGet m k = mapGet sheet.m_Excel k := by
  have hentry : ∀ r ∈ sheet.m_Excel, ∀ e ∈ r.2, e.Saveable ∧ e.loaded = e := by
    intro r hr e he
    exact saveable_of_limits e (hlim r hr e he) (fun p hp => href r hr p (by rw [← hp]; exact he))
  obtain ⟨m, h1, h2⟩ := load_save_loaded sheet other u hmap hkeys hsize
    (fun r hr e he => (hentry r hr e he).1)
  refine ⟨rfl, m, h1, ?_⟩
  intro k
  rw [h2 k]
  by_cases hk : mapGet sheet.m_Excel k = []
  · rw [hk]; rfl
  · obtain ⟨r, hr, -, hv⟩ := (mapGet_ne_nil_iff sheet.m_Excel k).1 hk
    have hr1 : r ∈ sheet.m_Excel := by
      unfold nonEmptyEntries at hr
      exact (List.mem_filter.mp hr).1
    rw [← hv]
    conv_rhs => rw [← List.map_id r.2]
    apply List.map_congr_left
    intro e he
    exact (hentry r hr1 e he).2

end ProgramRoundTrip

set_option maxRecDepth 100000 in
/-- Witness of C34: the sheet with the cells `A1 = 1`, `A2 = "x"` and `B1 = A1 + 1` is
saved and loaded. -/
theorem save_load_round_trip_witness :
    IsMap formatSheet.m_Excel ∧
    ∃ m, emptySheet.load zeroUninitialised formatSheet.save.2 = LoadResult.returned true m ∧
      mapGet m posA1 = [CExpr.CNumber 1] ∧
      mapGet m posA2 = [CExpr.CString ['x']] ∧
      mapGet m posB1 = [CExpr.CReference posA1, CExpr.CNumber 1, CExpr.CAdd] := by
  have hmap : IsMap formatSheet.m_Excel := by
    unfold IsMap formatSheet
    simp only [List.pairwise_cons]
    decide
  have hmem : ∀ r ∈ formatSheet.m_Excel,
      r = (posA1, [CExpr.CNumber 1]) ∨ r = (posA2, [CExpr.CString ['x']]) ∨
        r = (posB1, [CExpr.CReference posA1, CExpr.CNumber 1, CExpr.CAdd]) := by
    intro r hr
    simpa [formatSheet] using hr
  obtain ⟨-, m, h1, h2⟩ := save_load_round_trip formatSheet emptySheet zeroUninitialised hmap
    (by
      intro r hr _
      rcases hmem r hr with rfl | rfl | rfl <;>
        exact ⟨by decide, by decide, by decide, by decide⟩)
    (by
      intro r hr
      rcases hmem r hr with rfl | rfl | rfl <;> decide)
    (by
      intro r hr e he
      rcases hmem r hr with rfl | rfl | rfl
      · simp only [List.mem_singleton] at he
        rw [he]
        exact numberReadsBack_one
      · simp only [List.mem_singleton] at he
        rw [he]
        exact ⟨by decide, by decide⟩
      · simp only [List.mem_cons, List.mem_singleton, List.not_mem_nil, or_false] at he
        rcases he with rfl | rfl | rfl
        · exact ⟨by decide, by decide⟩
        · exact numberReadsBack_one
        · trivial)
    (by
      intro r hr p hp
      rcases hmem r hr with rfl | rfl | rfl
      · simp at hp
      · simp at hp
      · simp only [List.mem_cons, CExpr.CReference.injEq, List.mem_singleton,
          List.not_mem_nil, or_false] at hp
        rcases hp with rfl | hp | hp
        · exact ⟨by decide, by decide, by decide, by decide⟩
        · exact absurd hp (by simp)
        · exact absurd hp (by simp))
  exact ⟨hmap, m, h1, h2 posA1, h2 posA2, h2 posB1⟩

set_option maxRecDepth 100000 in
/-- C34, counterexample. The reference to the position with column 2147483647 and row 1
has a column and a row that are not negative. For the sheet whose cell `A1` holds it,
`save` writes the reference without letters, and `load` of what `save` wrote ends with the
exception `invalid_argument` of the constructor of `CPos`. -/
theorem load_rejects_saved_last_column_reference :
    (CExpr.CReference ⟨2147483647, 1, false, false⟩ : CExpr ℚ).WithinStatedLimits ∧
    lastColumnReferenceSheet.m_Excel
      = [(posA1, [CExpr.CReference ⟨2147483647, 1, false, false⟩])] ∧
    lastColumnReferenceSheet.save = (true, " CPos A1 VectorLen 1  14  CPos 1".toList) ∧
    emptySheet.load zeroUninitialised lastColumnReferenceSheet.save.2
      = LoadResult.invalid_argument [(posA1, [])] := by
  refine ⟨⟨by decide, by decide⟩, rfl, by decide, by decide⟩

/-! ## C26: the tags of the writer and of the reader -/

section Opcodes

variable {D : Type} [DoubleOps D]

/-- The `switch` of `load`: for every tag from 0 to 14 an expression of the class that is
written with that tag is pushed; for the tag 14 this is the reference that the constructor
builds from the second token, or the exception of that constructor. -/
theorem loadExpression_of_tag (fuel : Nat) (u : Uninitialised D) (pos : CPos)
    (st : LoadState D) (k : Int) (hk0 : 0 ≤ k) (hk1 : k ≤ 14)
    (hread : (st.is.readInt st.token).2 = k) (hf : st.is.input.length < fuel) :
    (∃ st1 e1, loadExpression fuel u pos st = Except.ok st1 ∧ (opcode e1 : Int) = k ∧
      st1.m_Excel = pushBack st.m_Excel pos e1) ∨
    (k = 14 ∧
      CPos.parse (((st.is.readInt st.token).1.readString st.tmp).1.readString
        ((st.is.readInt st.token).1.readString st.tmp).2).2 = none ∧
      loadExpression fuel u pos st
        = Except.error (LoadResult.invalid_argument (mapTouch st.m_Excel pos))) := by
  have hlen := readInt_length_le st.is st.token
  obtain ⟨r, hloop, -⟩ := readUntilEndOfString_some fuel (st.is.readInt st.token).1 [] []
    (by omega)
  have hpair : st.is.readInt st.token = ((st.is.readInt st.token).1, k) := by
    rw [← hread]
  generalize (st.is.readInt st.token).1 = isr at hloop hpair ⊢
  have hcases : k = 0 ∨ k = 1 ∨ k = 2 ∨ k = 3 ∨ k = 4 ∨ k = 5 ∨ k = 6 ∨ k = 7 ∨ k = 8 ∨
      k = 9 ∨ k = 10 ∨ k = 11 ∨ k = 12 ∨ k = 13 ∨ k = 14 := by omega
  unfold loadExpression
  dsimp only
  rw [hpair]
  dsimp only
  rcases hcases with rfl | rfl | rfl | rfl | rfl | rfl | rfl | rfl | rfl | rfl | rfl | rfl |
    rfl | rfl | rfl
  · left
    rw [if_pos rfl]
    exact ⟨_, CExpr.CAdd, rfl, rfl, rfl⟩
  · left
    rw [if_neg (show ¬ ((1 : Int) = 0) by decide)]
    rw [if_pos rfl]
    exact ⟨_, CExpr.CSub, rfl, rfl, rfl⟩
  · left
    rw [if_neg (show ¬ ((2 : Int) = 0) by decide)]
    rw [if_neg (show ¬ ((2 : Int) = 1) by decide)]
    rw [if_pos rfl]
    exact ⟨_, CExpr.CMul, rfl, rfl, rfl⟩
  · left
    rw [if_neg (show ¬ ((3 : Int) = 0) by decide)]
    rw [if_neg (show ¬ ((3 : Int) = 1) by decide)]
    rw [if_neg (show ¬ ((3 : Int) = 2) by decide)]
    rw [if_pos rfl]
    exact ⟨_, CExpr.CDiv, rfl, rfl, rfl⟩
  · left
    rw [if_neg (show ¬ ((4 : Int) = 0) by decide)]
    rw [if_neg (show ¬ ((4 : Int) = 1) by decide)]
    rw [if_neg (show ¬ ((4 : Int) = 2) by decide)]
    rw [if_neg (show ¬ ((4 : Int) = 3) by decide)]
    rw [if_pos rfl]
    exact ⟨_, CExpr.CPow, rfl, rfl, rfl⟩
  · left
    rw [if_neg (show ¬ ((5 : Int) = 0) by decide)]
    rw [if_neg (show ¬ ((5 : Int) = 1) by decide)]
    rw [if_neg (show ¬ ((5 : Int) = 2) by decide)]
    rw [if_neg (show ¬ ((5 : Int) = 3) by decide)]
    rw [if_neg (show ¬ ((5 : Int) = 4) by decide)]
    rw [if_pos rfl]
    exact ⟨_, CExpr.CNeg, rfl, rfl, rfl⟩
  · left
    rw [if_neg (show ¬ ((6 : Int) = 0) by decide)]
    rw [if_neg (show ¬ ((6 : Int) = 1) by decide)]
    rw [if_neg (show ¬ ((6 : Int) = 2) by decide)]
    rw [if_neg (show ¬ ((6 : Int) = 3) by decide)]
    rw [if_neg (show ¬ ((6 : Int) = 4) by decide)]
    rw [if_neg (show ¬ ((6 : Int) = 5) by decide)]
    rw [if_pos rfl]
    exact ⟨_, CExpr.CEq, rfl, rfl, rfl⟩
  · left
    rw [if_neg (show ¬ ((7 : Int) = 0) by decide)]
    rw [if_neg (show ¬ ((7 : Int) = 1) by decide)]
    rw [if_neg (show ¬ ((7 : Int) = 2) by decide)]
    rw [if_neg (show ¬ ((7 : Int) = 3) by decide)]
    rw [if_neg (show ¬ ((7 : Int) = 4) by decide)]
    rw [if_neg (show ¬ ((7 : Int) = 5) by decide)]
    rw [if_neg (show ¬ ((7 : Int) = 6) by decide)]
    rw [if_pos rfl]
    exact ⟨_, CExpr.CNe, rfl, rfl, rfl⟩
  · left
    rw [if_neg (show ¬ ((8 : Int) = 0) by decide)]
    rw [if_neg (show ¬ ((8 : Int) = 1) by decide)]
    rw [if_neg (show ¬ ((8 : Int) = 2) by decide)]
    rw [if_neg (show ¬ ((8 : Int) = 3) by decide)]
    rw [if_neg (show ¬ ((8 : Int) = 4) by decide)]
    rw [if_neg (show ¬ ((8 : Int) = 5) by decide)]
    rw [if_neg (show ¬ ((8 : Int) = 6) by decide)]
    rw [if_neg (show ¬ ((8 : Int) = 7) by decide)]
    rw [if_pos rfl]
    exact ⟨_, CExpr.CLt, rfl, rfl, rfl⟩
  · left
    rw [if_neg (show ¬ ((9 : Int) = 0) by decide)]
    rw [if_neg (show ¬ ((9 : Int) = 1) by decide)]
    rw [if_neg (show ¬ ((9 : Int) = 2) by decide)]
    rw [if_neg (show ¬ ((9 : Int) = 3) by decide)]
    rw [if_neg (show ¬ ((9 : Int) = 4) by decide)]
    rw [if_neg (show ¬ ((9 : Int) = 5) by decide)]
    rw [if_neg (show ¬ ((9 : Int) = 6) by decide)]
    rw [if_neg (show ¬ ((9 : Int) = 7) by decide)]
    rw [if_neg (show ¬ ((9 : Int) = 8) by decide)]
    rw [if_pos rfl]
    exact ⟨_, CExpr.CLe, rfl, rfl, rfl⟩
  · left
    rw [if_neg (show ¬ ((10 : Int) = 0) by decide)]
    rw [if_neg (show ¬ ((10 : Int) = 1) by decide)]
    rw [if_neg (show ¬ ((10 : Int) = 2) by decide)]
    rw [if_neg (show ¬ ((10 : Int) = 3) by decide)]
    rw [if_neg (show ¬ ((10 : Int) = 4) by decide)]
    rw [if_neg (show ¬ ((10 : Int) = 5) by decide)]
    rw [if_neg (show ¬ ((10 : Int) = 6) by decide)]
    rw [if_neg (show ¬ ((10 : Int) = 7) by decide)]
    rw [if_neg (show ¬ ((10 : Int) = 8) by decide)]
    rw [if_neg (show ¬ ((10 : Int) = 9) by decide)]
    rw [if_pos rfl]
    exact ⟨_, CExpr.CGt, rfl, rfl, rfl⟩
  · left
    rw [if_neg (show ¬ ((11 : Int) = 0) by decide)]
    rw [if_neg (show ¬ ((11 : Int) = 1) by decide)]
    rw [if_neg (show ¬ ((11 : Int) = 2) by decide)]
    rw [if_neg (show ¬ ((11 : Int) = 3) by decide)]
    rw [if_neg (show ¬ ((11 : Int) = 4) by decide)]
    rw [if_neg (show ¬ ((11 : Int) = 5) by decide)]
    rw [if_neg (show ¬ ((11 : Int) = 6) by decide)]
    rw [if_neg (show ¬ ((11 : Int) = 7) by decide)]
    rw [if_neg (show ¬ ((11 : Int) = 8) by decide)]
    rw [if_neg (show ¬ ((11 : Int) = 9) by decide)]
    rw [if_neg (show ¬ ((11 : Int) = 10) by decide)]
    rw [if_pos rfl]
    exact ⟨_, CExpr.CGe, rfl, rfl, rfl⟩
  · left
    rw [if_neg (show ¬ ((12 : Int) = 0) by decide)]
    rw [if_neg (show ¬ ((12 : Int) = 1) by decide)]
    rw [if_neg (show ¬ ((12 : Int) = 2) by decide)]
    rw [if_neg (show ¬ ((12 : Int) = 3) by decide)]
    rw [if_neg (show ¬ ((12 : Int) = 4) by decide)]
    rw [if_neg (show ¬ ((12 : Int) = 5) by decide)]
    rw [if_neg (show ¬ ((12 : Int) = 6) by decide)]
    rw [if_neg (show ¬ ((12 : Int) = 7) by decide)]
    rw [if_neg (show ¬ ((12 : Int) = 8) by decide)]
    rw [if_neg (show ¬ ((12 : Int) = 9) by decide)]
    rw [if_neg (show ¬ ((12 : Int) = 10) by decide)]
    rw [if_neg (show ¬ ((12 : Int) = 11) by decide)]
    rw [if_pos rfl]
    exact ⟨_, CExpr.CNumber _, rfl, rfl, rfl⟩
  · left
    rw [if_neg (show ¬ ((13 : Int) = 0) by decide)]
    rw [if_neg (show ¬ ((13 : Int) = 1) by decide)]
    rw [if_neg (show ¬ ((13 : Int) = 2) by decide)]
    rw [if_neg (show ¬ ((13 : Int) = 3) by decide)]
    rw [if_neg (show ¬ ((13 : Int) = 4) by decide)]
    rw [if_neg (show ¬ ((13 : Int) = 5) by decide)]
    rw [if_neg (show ¬ ((13 : Int) = 6) by decide)]
    rw [if_neg (show ¬ ((13 : Int) = 7) by decide)]
    rw [if_neg (show ¬ ((13 : Int) = 8) by decide)]
    rw [if_neg (show ¬ ((13 : Int) = 9) by decide)]
    rw [if_neg (show ¬ ((13 : Int) = 10) by decide)]
    rw [if_neg (show ¬ ((13 : Int) = 11) by decide)]
    rw [if_neg (show ¬ ((13 : Int) = 12) by decide)]
    rw [if_pos rfl, hloop]
    exact ⟨_, CExpr.CString _, rfl, rfl, rfl⟩
  · rw [if_neg (show ¬ ((14 : Int) = 0) by decide)]
    rw [if_neg (show ¬ ((14 : Int) = 1) by decide)]
    rw [if_neg (show ¬ ((14 : Int) = 2) by decide)]
    rw [if_neg (show ¬ ((14 : Int) = 3) by decide)]
    rw [if_neg (show ¬ ((14 : Int) = 4) by decide)]
    rw [if_neg (show ¬ ((14 : Int) = 5) by decide)]
    rw [if_neg (show ¬ ((14 : Int) = 6) by decide)]
    rw [if_neg (show ¬ ((14 : Int) = 7) by decide)]
    rw [if_neg (show ¬ ((14 : Int) = 8) by decide)]
    rw [if_neg (show ¬ ((14 : Int) = 9) by decide)]
    rw [if_neg (show ¬ ((14 : Int) = 10) by decide)]
    rw [if_neg (show ¬ ((14 : Int) = 11) by decide)]
    rw [if_neg (show ¬ ((14 : Int) = 12) by decide)]
    rw [if_neg (show ¬ ((14 : Int) = 13) by decide)]
    rw [if_pos rfl]
    cases hp : CPos.parse ((isr.readString st.tmp).1.readString (isr.readString st.tmp).2).2 with
    | none => exact Or.inr ⟨rfl, rfl, rfl⟩
    | some p => exact Or.inl ⟨_, CExpr.CReference p, rfl, rfl, rfl⟩

omit [DoubleOps D] in
theorem opcode_loaded (e : CExpr D) : opcode e.loaded = opcode e := by
  cases e <;> rfl

/-- C26. The tags are fixed and agree between writer and reader. Every expression is
written with the tag of its class in front, from 0 for the addition to 14 for the
reference, and `is >> token` reads that tag back from what was written. For every tag
from 0 to 14 that `load` reads, the `switch` pushes an expression of the class that is
written with that tag; for the tag 14 this is the reference that the constructor builds
from the token read, and an exception of that constructor leaves `load`. On what `print`
wrote for an expression, `load` pushes an expression of its class; and whenever `load`
pushes an expression, its class is the one written with the tag read. -/
theorem opcodes_agree (e : CExpr D) :
    (∃ rest, e.print = ' ' :: Nat.toDigits 10 (opcode e) ++ ' ' :: rest) ∧
    (∀ (tail : List Char) (n : Int),
      (IStream.readInt { input := e.print ++ tail, failbit := false, eofbit := false } n).2
        = (opcode e : Int)) ∧
    (∀ (fuel : Nat) (u : Uninitialised D) (pos : CPos) (st : LoadState D) (k : Int),
      0 ≤ k → k ≤ 14 → (st.is.readInt st.token).2 = k → st.is.input.length < fuel →
      (∃ st1 e1, loadExpression fuel u pos st = Except.ok st1 ∧ (opcode e1 : Int) = k ∧
        st1.m_Excel = pushBack st.m_Excel pos e1) ∨
      (k = 14 ∧
        CPos.parse (((st.is.readInt st.token).1.readString st.tmp).1.readString
          ((st.is.readInt st.token).1.readString st.tmp).2).2 = none ∧
        loadExpression fuel u pos st
          = Except.error (LoadResult.invalid_argument (mapTouch st.m_Excel pos)))) ∧
    (∀ (fuel : Nat) (u : Uninitialised D) (pos : CPos) (st : LoadState D)
        (ws tail : List Char),
      st.is.Ready → st.is.input = ws ++ e.print ++ tail → (∀ c ∈ ws, isspace c = true) →
      e.Saveable → (∀ c ∈ tail.head?, isspace c = true) → st.is.input.length < fuel →
      ∃ st1, loadExpression fuel u pos st = Except.ok st1 ∧
        st1.m_Excel = pushBack st.m_Excel pos e.loaded ∧ opcode e.loaded = opcode e) ∧
    (∀ (bound : Nat) (u : Uninitialised D) (pos : CPos) (st st' : LoadState D),
      loadExpression bound u pos st = Except.ok st' →
      ∃ e' : CExpr D, (opcode e' : Int) = (st.is.readInt st.token).2 ∧
        st'.m_Excel = pushBack st.m_Excel pos e') ∧
    (opcode (CExpr.CAdd : CExpr D) = 0 ∧ opcode (CExpr.CSub : CExpr D) = 1 ∧
      opcode (CExpr.CMul : CExpr D) = 2 ∧ opcode (CExpr.CDiv : CExpr D) = 3 ∧
      opcode (CExpr.CPow : CExpr D) = 4 ∧ opcode (CExpr.CNeg : CExpr D) = 5 ∧
      opcode (CExpr.CEq : CExpr D) = 6 ∧ opcode (CExpr.CNe : CExpr D) = 7 ∧
      opcode (CExpr.CLt : CExpr D) = 8 ∧ opcode (CExpr.CLe : CExpr D) = 9 ∧
      opcode (CExpr.CGt : CExpr D) = 10 ∧ opcode (CExpr.CGe : CExpr D) = 11 ∧
      (∀ x : D, opcode (CExpr.CNumber x) = 12) ∧
      (∀ x : List Char, opcode (CExpr.CString x : CExpr D) = 13) ∧
      (∀ x : CPos, opcode (CExpr.CReference x : CExpr D) = 14)) := by
  refine ⟨print_starts_with_opcode e, readInt_print e, ?_, ?_, ?_, ?_⟩
  · intro fuel u pos st k hk0 hk1 hread hf
    exact loadExpression_of_tag fuel u pos st k hk0 hk1 hread hf
  · intro fuel u pos st ws tail hr hin hws hs htail hf
    obtain ⟨st1, h1, h2, -, -, -⟩ :=
      loadExpression_print fuel u pos st e ws tail hr hin hws hs htail hf
    exact ⟨st1, h1, h2, opcode_loaded e⟩
  · intro bound u pos st st' h
    obtain ⟨e', h1, h2, -, -⟩ := loadExpression_pushes bound u pos st st' h
    exact ⟨e', h1, h2⟩
  · exact ⟨rfl, rfl, rfl, rfl, rfl, rfl, rfl, rfl, rfl, rfl, rfl, rfl, fun _ => rfl,
      fun _ => rfl, fun _ => rfl⟩

end Opcodes

set_option maxRecDepth 100000 in
/-- Witness of C26: the comparison `!=` is written with the tag 7, and from the stream
` 7 ` the `switch` pushes an expression written with the tag 7; the reference to `B2` is
written as ` 14  CPos B2` and read back as that reference. -/
theorem opcodes_agree_witness :
    (CExpr.CNe : CExpr ℚ).print = " 7 ".toList ∧
    (∃ st1 e1,
      loadExpression 4 zeroUninitialised posA1
          { is := { input := " 7 ".toList, failbit := false, eofbit := false }
            position := [], tmp := [], vectorLen := 1, token := 0, m_Excel := [] }
        = Except.ok st1 ∧
      (opcode e1 : Int) = 7 ∧ st1.m_Excel = pushBack [] posA1 e1) ∧
    (CExpr.CReference posB2 : CExpr ℚ).print = " 14  CPos B2".toList ∧
    (∃ st1,
      loadExpression 13 zeroUninitialised posA1
          { is := { input := " 14  CPos B2".toList, failbit := false, eofbit := false }
            position := [], tmp := [], vectorLen := 1, token := 0, m_Excel := [] }
        = Except.ok st1 ∧
      st1.m_Excel = pushBack [] posA1 (CExpr.CReference posB2)) := by
  refine ⟨by decide, ?_, by decide, ?_⟩
  · have h := (opcodes_agree (CExpr.CNe : CExpr ℚ)).2.2.1 4 zeroUninitialised posA1
      { is := { input := " 7 ".toList, failbit := false, eofbit := false }
        position := [], tmp := [], vectorLen := 1, token := 0, m_Excel := [] }
      7 (by decide) (by decide) (by decide) (by decide)
    rcases h with h | ⟨h, -⟩
    · exact h
    · exact absurd h (by decide)
  · obtain ⟨st1, h1, h2, -⟩ := (opcodes_agree (CExpr.CReference posB2 : CExpr ℚ)).2.2.2.1 13
      zeroUninitialised posA1
      { is := { input := " 14  CPos B2".toList, failbit := false, eofbit := false }
        position := [], tmp := [], vectorLen := 1, token := 0, m_Excel := [] }
      [] [] (ready_initial _) (by decide) (by simp)
      (show CPos.Renders posB2 from ⟨by decide, by decide, by decide, by decide⟩)
      (by simp) (by decide)
    exact ⟨st1, h1, h2⟩

end CppSpreadsheet
